import Mathlib

/-!
# CoxeterAutomaton: root enumeration and short-lex automaton

A shallow embedding of `root_table.c`, `cox_action.c`, `automaton_graph.c` and
`automaton_binary_tree.c`.

Conventions of the embedding.

* A C `double` is an exact rational (`ℚ`); every comparison against
  `EPSILON_COMP_VAL` is kept exactly as the source writes it.  The library call
  `cos(M_PI / (float) m)` is a parameter `cos_pi_over : Int → ℚ`.
* Objects with identity (roots, automaton states) live in a heap, a list whose
  indices are the pointers.  A `NULL` pointer is `none`.
* A singly linked list of `ROOT_TABLE_ELEMENT`s is the list of the root pointers
  held by its elements, in link order.
* `malloc`/`calloc` succeed.  A root that the source allocates and frees again
  before returning is not entered in the heap.
* Recursion that the source does not bound takes a fuel argument; running out of
  fuel, dereferencing `NULL`, reading past an array and reading a variable that
  was never written are reported as a `Fault`.
-/

namespace CoxeterAutomaton

/-! ## Constants and return codes -/

/-- The constant EPSILON_COMP_VAL of root_table.h. -/
def EPSILON_COMP_VAL : ℚ := 1 / 100000

def COMPARE_ROOTS_GREATER : Int := 1
def COMPARE_ROOTS_EQUAL : Int := 0
def COMPARE_ROOTS_SMALLER : Int := -1

def COMPARE_STATES_GREATER : Int := 1
def COMPARE_STATES_EQUAL : Int := 0
def COMPARE_STATES_SMALLER : Int := -1

def INIT_ELEMENT_OK : Int := 0

def INSERT_IN_TABLE_OK : Int := 0
def INSERT_IN_TABLE_MEM_ERR : Int := 1
def INSERT_IN_TABLE_ROOT_EXISTS : Int := 2

def ADD_STATE_TO_BINARY_TREE_OK : Int := 0
def ADD_STATE_TO_BINARY_TREE_MEM_ERR : Int := 1
def ADD_STATE_TO_BINARY_TREE_COMPARE_ERR : Int := 2
def ADD_STATE_TO_BINARY_TREE_EXISTS : Int := 3

/-- The ways in which a run of the embedded code can fail to return. -/
inductive Fault where
  | out_of_fuel
  | null_dereference
  | out_of_bounds
  | uninitialised_read
  | assertion_failed
  deriving DecidableEq, Repr

/-! ## Data model -/

/-- The struct root: coefficients, memo slots next_roots, and the flag. -/
structure ROOT where
  coefficients : List ℚ
  next_roots : List (Option Nat)
  positive_minimal : Bool
  deriving DecidableEq

/-- The struct root_table: the linked list of elements and the length field. -/
structure ROOT_TABLE where
  first : List Nat
  length : Nat
  deriving DecidableEq, Repr

/-- The struct automaton_state. -/
structure AUTOMATON_STATE where
  next_states : List (Option Nat)
  root_table : Option ROOT_TABLE
  deriving DecidableEq, Repr

/-- The struct binary_tree_element; NULL is the absent child. -/
inductive BINARY_TREE_ELEMENT where
  | NULL : BINARY_TREE_ELEMENT
  | node (state : Nat) (left right : BINARY_TREE_ELEMENT) : BINARY_TREE_ELEMENT
  deriving DecidableEq, Repr

/-- Modelled from the spec: the struct MATRIX_DATA of coxeter_inc.h, which is
not among the sources; its fields are the ones the functions below read and
write.  A table that is still a NULL pointer is none. -/
structure MATRIX_DATA where
  coxeter_matrix : Nat → Nat → Int
  scalar_products : Option (Nat → Nat → ℚ)
  simple_action_results : Option (Nat → Nat → ℚ)
  simple_roots : List (Option Nat)

/-- Dereference of a root pointer. -/
def root_at (heap : List ROOT) (p : Nat) : ROOT :=
  heap.getD p { coefficients := [], next_roots := [], positive_minimal := false }

/-- Dereference of a state pointer. -/
def state_at (states : List AUTOMATON_STATE) (p : Nat) : AUTOMATON_STATE :=
  states.getD p { next_states := [], root_table := none }

/-- A write of one cell of a two-dimensional table. -/
def table_set (t : Nat → Nat → ℚ) (i j : Nat) (v : ℚ) : Nat → Nat → ℚ :=
  fun x y => if x = i ∧ y = j then v else t x y

/-! ## root_table.c: roots and ordered root lists -/

/-- The function init_root: all coefficients 0, all memo slots NULL, flag true. -/
def init_root (num_generators : Nat) : ROOT :=
  { coefficients := List.replicate num_generators 0
    next_roots := List.replicate num_generators none
    positive_minimal := true }

/-- The scanning loop of compare_roots: the index at which it stops. -/
def compare_roots_scan (a b : ROOT) (num_generators : Nat) : Nat → Nat → Nat
  | 0, ii => ii
  | fuel + 1, ii =>
    if ii < num_generators ∧
        |a.coefficients.getD ii 0 - b.coefficients.getD ii 0| < EPSILON_COMP_VAL then
      compare_roots_scan a b num_generators fuel (ii + 1)
    else ii

/-- The function compare_roots. -/
def compare_roots (a b : ROOT) (num_generators : Nat) : Int :=
  let ii := compare_roots_scan a b num_generators num_generators 0
  if ii = num_generators then COMPARE_ROOTS_EQUAL
  else if a.coefficients.getD ii 0 > b.coefficients.getD ii 0 then COMPARE_ROOTS_GREATER
  else COMPARE_ROOTS_SMALLER

/-- The non-empty branch of insert_in_table, run from the element curr: the
return code and the list from curr on. -/
def insert_in_table_walk (heap : List ROOT) (element : Nat) (num_generators : Nat) :
    Nat → List Nat → Int × List Nat
  | curr, rest =>
    let compare_val :=
      compare_roots (root_at heap curr) (root_at heap element) num_generators
    match rest with
    | next :: rest1 =>
      if compare_val < 0 then
        let r := insert_in_table_walk heap element num_generators next rest1
        (r.1, curr :: r.2)
      else if compare_val = 0 then (INSERT_IN_TABLE_ROOT_EXISTS, curr :: next :: rest1)
      else (INSERT_IN_TABLE_OK, element :: curr :: next :: rest1)
    | [] =>
      if compare_val = 0 then (INSERT_IN_TABLE_ROOT_EXISTS, [curr])
      else if compare_val < 0 then (INSERT_IN_TABLE_OK, [curr, element])
      else (INSERT_IN_TABLE_OK, [element, curr])

/-- The function insert_in_table: the return code and the table afterwards.  A
NULL table is created first. -/
def insert_in_table (heap : List ROOT) (element : Nat) (table : Option ROOT_TABLE)
    (num_generators : Nat) : Int × ROOT_TABLE :=
  let t : ROOT_TABLE := match table with
    | some t => t
    | none => { first := [], length := 0 }
  match t.first with
  | [] => (INSERT_IN_TABLE_OK, { first := [element], length := t.length + 1 })
  | curr :: rest =>
    let r := insert_in_table_walk heap element num_generators curr rest
    if r.1 = INSERT_IN_TABLE_ROOT_EXISTS then (r.1, t)
    else (r.1, { first := r.2, length := t.length + 1 })

/-- The loop of root_in_list over the linked list: the root found, if any. -/
def root_in_list_walk (heap : List ROOT) (root : ROOT) (num_generators : Nat) :
    List Nat → Option Nat
  | [] => none
  | current :: rest =>
    if compare_roots (root_at heap current) root num_generators = 0 then some current
    else root_in_list_walk heap root num_generators rest

/-- The function root_in_list; the result is the out-parameter existing_root, and
the function returns true exactly when it is some. -/
def root_in_list (heap : List ROOT) (table : ROOT_TABLE) (root : ROOT)
    (num_generators : Nat) : Option Nat :=
  root_in_list_walk heap root num_generators table.first

/-- The scanning loop of root_positive. -/
def root_positive_scan (root : ROOT) (num_generators : Nat) : Nat → Nat → Nat
  | 0, ii => ii
  | fuel + 1, ii =>
    if ii < num_generators ∧ |root.coefficients.getD ii 0| < EPSILON_COMP_VAL then
      root_positive_scan root num_generators fuel (ii + 1)
    else ii

/-- The function root_positive.  When every coefficient is below the threshold
the source reads coefficients[num_generators]. -/
def root_positive (root : ROOT) (num_generators : Nat) : Except Fault Bool :=
  let ii := root_positive_scan root num_generators num_generators 0
  if ii < num_generators then
    if root.coefficients.getD ii 0 < EPSILON_COMP_VAL then pure false else pure true
  else throw Fault.out_of_bounds

/-! ## cox_action.c: scalar products and the reflection action -/

/-- The function cox_scalar_product. -/
def cox_scalar_product (cos_pi_over : Int → ℚ) (coxeter_matrix : Nat → Nat → Int)
    (a b : Nat) : ℚ :=
  if a = b then 1
  else if coxeter_matrix a b = 0 then -1
  else -1 * cos_pi_over (coxeter_matrix a b)

/-- The function cox_scalar_product_root, on the table it reads. -/
def cox_scalar_product_root (scalar_products : Nat → Nat → ℚ) (a : Nat) (root : ROOT)
    (num_generators : Nat) : ℚ :=
  (List.range num_generators).foldl
    (fun answer ii => answer + root.coefficients.getD ii 0 * scalar_products ii a) 0

/-- The filling loops of fill_scalar_product_matrix; malloced is the content of
the freshly allocated table. -/
def fill_scalar_product_matrix (cos_pi_over : Int → ℚ) (coxeter_matrix : Nat → Nat → Int)
    (malloced : Nat → Nat → ℚ) (num_generators : Nat) : Nat → Nat → ℚ :=
  (List.range num_generators).foldl
    (fun t row =>
      (List.range (num_generators - (row + 1))).foldl
        (fun t1 k =>
          let column := row + 1 + k
          let t2 := table_set t1 row column (cox_scalar_product cos_pi_over coxeter_matrix row column)
          table_set t2 column row (t2 row column))
        (table_set t row row 1))
    malloced

/-- The function cox_action. -/
def cox_action (scalar_products : Nat → Nat → ℚ) (a v : Nat) : ℚ :=
  (-2) * scalar_products v a

/-- The filling loops of fill_cox_action_matrix; the diagonal keeps the content
of the freshly allocated table. -/
def fill_cox_action_matrix (scalar_products : Nat → Nat → ℚ) (malloced : Nat → Nat → ℚ)
    (num_generators : Nat) : Nat → Nat → ℚ :=
  (List.range num_generators).foldl
    (fun t ii =>
      (List.range (num_generators - (ii + 1))).foldl
        (fun t1 k =>
          let jj := ii + 1 + k
          let curr_action_val := cox_action scalar_products ii jj
          table_set (table_set t1 ii jj curr_action_val) jj ii curr_action_val)
        t)
    malloced

/-- One pass of the coefficient loop of cox_action_on_root. -/
def cox_action_on_root_step (simple_action_results : Nat → Nat → ℚ) (a : Nat)
    (root : ROOT) (returned : List ℚ) (ii : Nat) : List ℚ :=
  let curr_coefficient := root.coefficients.getD ii 0
  if |curr_coefficient| > EPSILON_COMP_VAL then
    if ii = a then returned.set ii (returned.getD ii 0 - curr_coefficient)
    else
      let curr_action_val := simple_action_results ii a
      let returned1 := returned.set a (returned.getD a 0 + curr_action_val * curr_coefficient)
      returned1.set ii (returned1.getD ii 0 + curr_coefficient)
  else returned

/-- The coefficients computed by cox_action_on_root when the memo slot is empty. -/
def cox_action_on_root_coefficients (simple_action_results : Nat → Nat → ℚ)
    (num_generators a : Nat) (root : ROOT) : List ℚ :=
  (List.range num_generators).foldl (cox_action_on_root_step simple_action_results a root)
    (init_root num_generators).coefficients

/-- The result of cox_action_on_root: the heap, the returned root and the
variable new_root_exists after the call. -/
structure ActionResult where
  heap : List ROOT
  returned_root : Nat
  new_root_exists : Option Bool

/-- The function cox_action_on_root.  new_root_exists is the caller's variable,
which the memo path leaves untouched; root_table may be NULL. -/
def cox_action_on_root (matrix_data : MATRIX_DATA) (num_generators a : Nat)
    (heap : List ROOT) (root : Nat) (root_table : Option ROOT_TABLE)
    (new_root_exists : Option Bool) : Except Fault ActionResult :=
  match (root_at heap root).next_roots.getD a none with
  | some memo => pure { heap := heap, returned_root := memo, new_root_exists := new_root_exists }
  | none =>
    match matrix_data.simple_action_results with
    | none => throw Fault.null_dereference
    | some simple_action_results =>
      let computed : ROOT :=
        { init_root num_generators with
          coefficients :=
            cox_action_on_root_coefficients simple_action_results num_generators a
              (root_at heap root) }
      match root_table with
      | none => throw Fault.null_dereference
      | some table =>
        match root_in_list heap table computed num_generators with
        | some existing_root =>
          let r := root_at heap root
          pure { heap := heap.set root { r with next_roots := r.next_roots.set a (some existing_root) }
                 returned_root := existing_root
                 new_root_exists := some true }
        | none =>
          let fresh := heap.length
          let heap1 := heap ++ [computed]
          let r := root_at heap1 root
          pure { heap := heap1.set root { r with next_roots := r.next_roots.set a (some fresh) }
                 returned_root := fresh
                 new_root_exists := some false }

/-- The result of cox_action_on_root_list is the new list, NULL when nothing was
inserted. -/
def cox_action_on_root_list_walk (matrix_data : MATRIX_DATA) (generator num_generators : Nat) :
    List ROOT → List Nat → Option ROOT_TABLE → Option Bool →
      Except Fault (List ROOT × Option ROOT_TABLE)
  | heap, [], new, _ => pure (heap, new)
  | heap, current :: rest, new, root_exists => do
    let r ← cox_action_on_root matrix_data num_generators generator heap current none root_exists
    if (root_at r.heap r.returned_root).positive_minimal then
      let ins := insert_in_table r.heap r.returned_root new num_generators
      cox_action_on_root_list_walk matrix_data generator num_generators r.heap rest
        (some ins.2) r.new_root_exists
    else
      cox_action_on_root_list_walk matrix_data generator num_generators r.heap rest
        new r.new_root_exists

/-- The function cox_action_on_root_list: it passes a NULL root table to
cox_action_on_root. -/
def cox_action_on_root_list (matrix_data : MATRIX_DATA) (heap : List ROOT)
    (root_table : ROOT_TABLE) (new : Option ROOT_TABLE) (generator num_generators : Nat) :
    Except Fault (List ROOT × Option ROOT_TABLE) :=
  cox_action_on_root_list_walk matrix_data generator num_generators heap root_table.first new none

/-! ## root_table.c: the enumeration of the roots -/

/-- The memory the enumeration works on: the roots, the table of all roots and
the table of the positive minimal roots. -/
structure RootStore where
  heap : List ROOT
  root_table : ROOT_TABLE
  minimal_root_table : ROOT_TABLE
  deriving DecidableEq

/-- The body of the loop of generate_next_root for the generator ii; recurse is
the recursive call. -/
def generate_next_root_body (matrix_data : MATRIX_DATA) (num_generators : Nat) (root : Nat)
    (recurse : RootStore → Nat → Except Fault RootStore)
    (acc : RootStore × Option Bool) (ii : Nat) : Except Fault (RootStore × Option Bool) := do
  let st := acc.1
  let r ← cox_action_on_root matrix_data num_generators ii st.heap root (some st.root_table) acc.2
  match r.new_root_exists with
  | none => throw Fault.uninitialised_read
  | some true => pure ({ st with heap := r.heap }, r.new_root_exists)
  | some false =>
    let new_root := r.returned_root
    let ins := insert_in_table r.heap new_root (some st.root_table) num_generators
    match matrix_data.scalar_products with
    | none => throw Fault.null_dereference
    | some scalar_products =>
      let dominance_value :=
        cox_scalar_product_root scalar_products ii (root_at r.heap new_root) num_generators
      let positive ← root_positive (root_at r.heap new_root) num_generators
      let flag : Bool := positive && decide (dominance_value < 1 - EPSILON_COMP_VAL)
      let heap1 := r.heap.set new_root { root_at r.heap new_root with positive_minimal := flag }
      if flag then
        let ins_minimal := insert_in_table heap1 new_root (some st.minimal_root_table) num_generators
        let st1 ← recurse
          { heap := heap1, root_table := ins.2, minimal_root_table := ins_minimal.2 } new_root
        pure (st1, r.new_root_exists)
      else
        pure ({ heap := heap1, root_table := ins.2, minimal_root_table := st.minimal_root_table },
          r.new_root_exists)

/-- The function generate_next_root; the fuel bounds the depth of the recursion. -/
def generate_next_root (matrix_data : MATRIX_DATA) (num_generators : Nat) :
    Nat → RootStore → Nat → Except Fault RootStore
  | 0, _, _ => throw Fault.out_of_fuel
  | fuel + 1, st, root => do
    let r ← (List.range num_generators).foldlM
      (generate_next_root_body matrix_data num_generators root
        (generate_next_root matrix_data num_generators fuel))
      (st, none)
    pure r.1

/-- The state of generate_root_table between two passes of its loop. -/
structure RootTableRun where
  matrix_data : MATRIX_DATA
  store : RootStore

/-- The body of the loop of generate_root_table for the generator ii. -/
def generate_root_table_body (num_generators fuel : Nat) (run : RootTableRun) (ii : Nat) :
    Except Fault RootTableRun := do
  let md := run.matrix_data
  let st := run.store
  let simple_root : ROOT :=
    { init_root num_generators with
      coefficients := (init_root num_generators).coefficients.set ii 1 }
  match root_in_list st.heap st.minimal_root_table simple_root num_generators with
  | none =>
    let p := st.heap.length
    let heap1 := st.heap ++ [simple_root]
    let md1 := { md with simple_roots := md.simple_roots.set ii (some p) }
    let ins := insert_in_table heap1 p (some st.root_table) num_generators
    -- ret_val, set by insert_in_table, is overwritten by init_root_table_element
    -- before the source tests it against INSERT_IN_TABLE_OK
    let ret_val := INIT_ELEMENT_OK
    if ret_val = INSERT_IN_TABLE_OK then
      let ins_minimal := insert_in_table heap1 p (some st.minimal_root_table) num_generators
      let st1 ← generate_next_root md1 num_generators fuel
        { heap := heap1, root_table := ins.2, minimal_root_table := ins_minimal.2 } p
      pure { matrix_data := md1, store := st1 }
    else
      pure { matrix_data := md1,
             store := { heap := heap1, root_table := ins.2,
                        minimal_root_table := st.minimal_root_table } }
  | some existing_simple_root =>
    pure { matrix_data := { md with simple_roots := md.simple_roots.set ii (some existing_simple_root) },
           store := st }

/-- The function generate_root_table.  The two tables of matrix_data are filled
when they are NULL; malloced_sp and malloced_act are the contents of the freshly
allocated tables. -/
def generate_root_table (cos_pi_over : Int → ℚ) (malloced_sp malloced_act : Nat → Nat → ℚ)
    (matrix_data : MATRIX_DATA) (num_generators fuel : Nat) : Except Fault RootTableRun :=
  let sp := match matrix_data.scalar_products with
    | some t => t
    | none => fill_scalar_product_matrix cos_pi_over matrix_data.coxeter_matrix malloced_sp
        num_generators
  let act := match matrix_data.simple_action_results with
    | some t => t
    | none => fill_cox_action_matrix sp malloced_act num_generators
  let md : MATRIX_DATA :=
    { matrix_data with scalar_products := some sp, simple_action_results := some act }
  (List.range num_generators).foldlM (generate_root_table_body num_generators fuel)
    { matrix_data := md,
      store := { heap := [], root_table := { first := [], length := 0 },
                 minimal_root_table := { first := [], length := 0 } } }

/-! ## automaton_graph.c and automaton_binary_tree.c: the state graph -/

/-- The function create_state: every next_states slot NULL, no root table. -/
def create_state (num_generators : Nat) : AUTOMATON_STATE :=
  { next_states := List.replicate num_generators none, root_table := none }

/-- The comparing loop of compare_states over the two linked lists; the first
argument is the variable compare_roots_ret. -/
def compare_states_walk (heap : List ROOT) (num_generators : Nat) :
    Int → List Nat → List Nat → Int
  | compare_roots_ret, a :: rest_a, b :: rest_b =>
    if compare_roots_ret = COMPARE_ROOTS_EQUAL then
      compare_states_walk heap num_generators
        (compare_roots (root_at heap a) (root_at heap b) num_generators) rest_a rest_b
    else compare_roots_ret
  | compare_roots_ret, _, _ => compare_roots_ret

/-- The function compare_states.  Both states must have a root table. -/
def compare_states (heap : List ROOT) (state_a state_b : AUTOMATON_STATE)
    (num_generators : Nat) : Except Fault Int :=
  match state_a.root_table, state_b.root_table with
  | some table_a, some table_b =>
    if table_a.length > table_b.length then pure COMPARE_STATES_GREATER
    else if table_a.length < table_b.length then pure COMPARE_STATES_SMALLER
    else
      let compare_roots_ret :=
        compare_states_walk heap num_generators COMPARE_ROOTS_EQUAL table_a.first table_b.first
      if compare_roots_ret = COMPARE_ROOTS_GREATER then pure COMPARE_STATES_GREATER
      else if compare_roots_ret = COMPARE_ROOTS_SMALLER then pure COMPARE_STATES_SMALLER
      else pure COMPARE_STATES_EQUAL
  | _, _ => throw Fault.null_dereference

/-- The result of add_state_to_binary_tree: the return code, the tree and the
out-parameter existing. -/
structure AddResult where
  ret_code : Int
  tree : BINARY_TREE_ELEMENT
  existing : Option Nat

/-- The function add_state_to_binary_tree.  new is the pointer of the new state
and new_state the state it points to; the descent of the source's loop is the
recursion, and the new element is linked where the descent meets NULL. -/
def add_state_to_binary_tree (heap : List ROOT) (states : List AUTOMATON_STATE)
    (new : Nat) (new_state : AUTOMATON_STATE) (num_generators : Nat) :
    BINARY_TREE_ELEMENT → Except Fault AddResult
  | BINARY_TREE_ELEMENT.NULL =>
    pure { ret_code := ADD_STATE_TO_BINARY_TREE_OK
           tree := BINARY_TREE_ELEMENT.node new BINARY_TREE_ELEMENT.NULL BINARY_TREE_ELEMENT.NULL
           existing := none }
  | BINARY_TREE_ELEMENT.node state left right => do
    let compare_val ← compare_states heap new_state (state_at states state) num_generators
    if compare_val = COMPARE_STATES_SMALLER then
      let r ← add_state_to_binary_tree heap states new new_state num_generators left
      pure { r with tree := BINARY_TREE_ELEMENT.node state r.tree right }
    else if compare_val = COMPARE_STATES_GREATER then
      let r ← add_state_to_binary_tree heap states new new_state num_generators right
      pure { r with tree := BINARY_TREE_ELEMENT.node state left r.tree }
    else if compare_val = COMPARE_STATES_EQUAL then
      pure { ret_code := ADD_STATE_TO_BINARY_TREE_EXISTS
             tree := BINARY_TREE_ELEMENT.node state left right
             existing := some state }
    else
      pure { ret_code := ADD_STATE_TO_BINARY_TREE_COMPARE_ERR
             tree := BINARY_TREE_ELEMENT.node state left right
             existing := none }

/-- The memory the construction of the automaton works on: the roots, the
automaton states, and the binary tree that catalogues the states. -/
structure Automaton where
  heap : List ROOT
  states : List AUTOMATON_STATE
  binary_tree : BINARY_TREE_ELEMENT
  deriving DecidableEq

/-- The write tree_state->next_states[generator] = target. -/
def set_next_state (states : List AUTOMATON_STATE) (tree_state generator : Nat)
    (target : Option Nat) : List AUTOMATON_STATE :=
  let s := state_at states tree_state
  states.set tree_state { s with next_states := s.next_states.set generator target }

/-- The new state of generate_next_automaton_state once its root list is set:
created by create_state, with new_root_list as its root table. -/
def successor_state (num_generators : Nat) (new_root_list : ROOT_TABLE) : AUTOMATON_STATE :=
  { create_state num_generators with root_table := some new_root_list }

/-- The function generate_next_automaton_state; the fuel bounds the depth of the
recursion.  The new state enters the list of states when the binary tree takes
it, and in the other branches the source frees it. -/
def generate_next_automaton_state (matrix_data : MATRIX_DATA) (num_generators : Nat) :
    Nat → Automaton → Nat → Nat → Except Fault Automaton
  | 0, _, _, _ => throw Fault.out_of_fuel
  | fuel + 1, am, tree_state, generator =>
    match matrix_data.simple_roots.getD generator none with
    | none => throw Fault.null_dereference
    | some simple_root =>
      match (state_at am.states tree_state).root_table with
      | none => throw Fault.null_dereference
      | some table =>
        match root_in_list am.heap table (root_at am.heap simple_root) num_generators with
        | some _ =>
          pure { am with states := set_next_state am.states tree_state generator none }
        | none => do
          let acted ← cox_action_on_root_list matrix_data am.heap table none generator
            num_generators
          let heap1 := acted.1
          let ins := insert_in_table heap1 simple_root acted.2 num_generators
          let new_state := successor_state num_generators ins.2
          let new := am.states.length
          let added ← add_state_to_binary_tree heap1 am.states new new_state num_generators
            am.binary_tree
          if added.ret_code = ADD_STATE_TO_BINARY_TREE_OK then
            let am1 : Automaton :=
              { heap := heap1
                states := set_next_state (am.states ++ [new_state]) tree_state generator (some new)
                binary_tree := added.tree }
            (List.range num_generators).foldlM
              (fun am2 ii =>
                generate_next_automaton_state matrix_data num_generators fuel am2 new ii)
              am1
          else if added.ret_code = ADD_STATE_TO_BINARY_TREE_EXISTS then
            pure { heap := heap1
                   states := set_next_state am.states tree_state generator added.existing
                   binary_tree := added.tree }
          else
            pure { heap := heap1, states := am.states, binary_tree := added.tree }

/-- The function generate_state_tree.  The initial state, with the empty root
table, is state 0; binary_tree is the tree passed in. -/
def generate_state_tree (matrix_data : MATRIX_DATA) (num_generators : Nat) (heap : List ROOT)
    (binary_tree : BINARY_TREE_ELEMENT) (fuel : Nat) : Except Fault Automaton :=
  let tree_start : AUTOMATON_STATE :=
    { create_state num_generators with root_table := some { first := [], length := 0 } }
  (List.range num_generators).foldlM
    (fun am ii => generate_next_automaton_state matrix_data num_generators fuel am 0 ii)
    { heap := heap, states := [tree_start], binary_tree := binary_tree }

/-- The number of elements of a binary tree of states. -/
def binary_tree_size : BINARY_TREE_ELEMENT → Nat
  | BINARY_TREE_ELEMENT.NULL => 0
  | BINARY_TREE_ELEMENT.node _ left right => binary_tree_size left + 1 + binary_tree_size right

/-- The states held by a binary tree, left to right. -/
def binary_tree_states : BINARY_TREE_ELEMENT → List Nat
  | BINARY_TREE_ELEMENT.NULL => []
  | BINARY_TREE_ELEMENT.node state left right =>
    binary_tree_states left ++ state :: binary_tree_states right

/-- The walk along next_states from the state current over a word of generators,
as the reducer of section 4.6 of the spec walks it: the result is the 1-based
position of the first symbol whose transition is the reject sentinel NULL, or
none when the word is consumed without meeting one. -/
def first_reject (states : List AUTOMATON_STATE) : Nat → List Nat → Nat → Option Nat
  | _, [], _ => none
  | current, g :: word, position =>
    match (state_at states current).next_states.getD g none with
    | none => some (position + 1)
    | some next => first_reject states next word (position + 1)

/-- Modelled from the spec: the matrix data before the enumeration
(init_matrix_data of main.c is not among the sources): both tables are NULL and
the array simple_roots has one empty cell per generator. -/
def initial_matrix_data (coxeter_matrix : Nat → Nat → Int) (num_generators : Nat) :
    MATRIX_DATA :=
  { coxeter_matrix := coxeter_matrix, scalar_products := none,
    simple_action_results := none, simple_roots := List.replicate num_generators none }

/-- The whole construction: generate_root_table from the initial matrix data,
then generate_state_tree over the resulting roots, starting from an empty binary
tree.  The initial state is state 0.  The cells of the freshly allocated tables
hold 0 before they are written. -/
def build_automaton (cos_pi_over : Int → ℚ) (coxeter_matrix : Nat → Nat → Int)
    (num_generators fuel : Nat) : Except Fault (RootTableRun × Automaton) := do
  let run ← generate_root_table cos_pi_over (fun _ _ => 0) (fun _ _ => 0)
    (initial_matrix_data coxeter_matrix num_generators) num_generators fuel
  let am ← generate_state_tree run.matrix_data num_generators run.store.heap
    BINARY_TREE_ELEMENT.NULL fuel
  pure (run, am)

/-! ## The scenarios: matrices and the outcomes of the construction -/

/-- A Coxeter matrix given by its rows. -/
def matrix_of_rows (rows : List (List Int)) : Nat → Nat → Int :=
  fun i j => (rows.getD i []).getD j 0

/-- The Coxeter matrix of S_3. -/
def S3_matrix : Nat → Nat → Int := matrix_of_rows [[1, 3], [3, 1]]

/-- The Coxeter matrix of the infinite dihedral group; 0 stands for infinity. -/
def infinite_dihedral_matrix : Nat → Nat → Int := matrix_of_rows [[1, 0], [0, 1]]

/-- The Coxeter matrix of S_4. -/
def S4_matrix : Nat → Nat → Int := matrix_of_rows [[1, 3, 2], [3, 1, 3], [2, 3, 1]]

/-- The cosine of pi / m at the arguments where it is rational: -1 at 1, 0 at 2
and 1/2 at 3.  The value elsewhere is not used. -/
def exact_cos_pi_over (m : Int) : ℚ :=
  if m = 1 then -1 else if m = 2 then 0 else if m = 3 then 1 / 2 else 0

/-- The alternating word of the given length that starts with the generator
first and continues with second. -/
def alternating_word (first second : Nat) : Nat → List Nat
  | 0 => []
  | k + 1 => first :: alternating_word second first k

/-- The coefficient vectors of the roots of a root table, in list order. -/
def table_coefficients (heap : List ROOT) (table : ROOT_TABLE) : List (List ℚ) :=
  table.first.map (fun p => (root_at heap p).coefficients)

/-- The data of a finished construction that can be compared by evaluation. -/
structure RunSummary where
  store : RootStore
  simple_roots : List (Option Nat)
  automaton_heap : List ROOT
  states : List AUTOMATON_STATE
  binary_tree : BINARY_TREE_ELEMENT
  deriving DecidableEq

/-- The summary of the outcome of build_automaton, none on a fault. -/
def run_summary (r : Except Fault (RootTableRun × Automaton)) : Option RunSummary :=
  match r with
  | Except.ok x =>
    some { store := x.1.store
           simple_roots := x.1.matrix_data.simple_roots
           automaton_heap := x.2.heap
           states := x.2.states
           binary_tree := x.2.binary_tree }
  | Except.error _ => none

/-- The roots that generate_root_table leaves for the S3 matrix. -/
def S3_heap : List ROOT :=
  [ { coefficients := [1, 0], next_roots := [some 1, some 2], positive_minimal := true },
    { coefficients := [-1, 0], next_roots := [none, none], positive_minimal := false },
    { coefficients := [1, 1], next_roots := [some 3, some 0], positive_minimal := true },
    { coefficients := [0, 1], next_roots := [some 2, some 4], positive_minimal := true },
    { coefficients := [0, -1], next_roots := [none, none], positive_minimal := false } ]

/-- The root tables that generate_root_table leaves for the S3 matrix. -/
def S3_store : RootStore :=
  { heap := S3_heap
    root_table := { first := [1, 4, 3, 0, 2], length := 5 }
    minimal_root_table := { first := [3, 0, 2], length := 3 } }

/-- The automaton states that generate_state_tree leaves for the S3 matrix. -/
def S3_states : List AUTOMATON_STATE :=
  [ { next_states := [some 1, some 4], root_table := some { first := [], length := 0 } },
    { next_states := [none, some 2], root_table := some { first := [0], length := 1 } },
    { next_states := [some 3, none], root_table := some { first := [3, 2], length := 2 } },
    { next_states := [none, none], root_table := some { first := [3, 0, 2], length := 3 } },
    { next_states := [some 5, none], root_table := some { first := [3], length := 1 } },
    { next_states := [none, some 3], root_table := some { first := [0, 2], length := 2 } } ]

/-- The binary tree that generate_state_tree leaves for the S3 matrix. -/
def S3_tree : BINARY_TREE_ELEMENT :=
  BINARY_TREE_ELEMENT.node 1 (BINARY_TREE_ELEMENT.node 4 BINARY_TREE_ELEMENT.NULL BINARY_TREE_ELEMENT.NULL) (BINARY_TREE_ELEMENT.node 2 BINARY_TREE_ELEMENT.NULL (BINARY_TREE_ELEMENT.node 3 (BINARY_TREE_ELEMENT.node 5 BINARY_TREE_ELEMENT.NULL BINARY_TREE_ELEMENT.NULL) BINARY_TREE_ELEMENT.NULL))

/-- The expected outcome of the whole construction for the S3 matrix. -/
def S3_summary : RunSummary :=
  { store := S3_store
    simple_roots := [some 0, some 3]
    automaton_heap := S3_heap
    states := S3_states
    binary_tree := S3_tree }

/-- The roots that generate_root_table leaves for the infinite_dihedral matrix. -/
def infinite_dihedral_heap : List ROOT :=
  [ { coefficients := [1, 0], next_roots := [some 1, some 2], positive_minimal := true },
    { coefficients := [-1, 0], next_roots := [none, none], positive_minimal := false },
    { coefficients := [1, 2], next_roots := [none, none], positive_minimal := false },
    { coefficients := [0, 1], next_roots := [some 4, some 5], positive_minimal := true },
    { coefficients := [2, 1], next_roots := [none, none], positive_minimal := false },
    { coefficients := [0, -1], next_roots := [none, none], positive_minimal := false } ]

/-- The root tables that generate_root_table leaves for the infinite_dihedral matrix. -/
def infinite_dihedral_store : RootStore :=
  { heap := infinite_dihedral_heap
    root_table := { first := [1, 5, 3, 0, 2, 4], length := 6 }
    minimal_root_table := { first := [3, 0], length := 2 } }

/-- The automaton states that generate_state_tree leaves for the infinite_dihedral matrix. -/
def infinite_dihedral_states : List AUTOMATON_STATE :=
  [ { next_states := [some 1, some 2], root_table := some { first := [], length := 0 } },
    { next_states := [none, some 2], root_table := some { first := [0], length := 1 } },
    { next_states := [some 1, none], root_table := some { first := [3], length := 1 } } ]

/-- The binary tree that generate_state_tree leaves for the infinite_dihedral matrix. -/
def infinite_dihedral_tree : BINARY_TREE_ELEMENT :=
  BINARY_TREE_ELEMENT.node 1 (BINARY_TREE_ELEMENT.node 2 BINARY_TREE_ELEMENT.NULL BINARY_TREE_ELEMENT.NULL) BINARY_TREE_ELEMENT.NULL

/-- The expected outcome of the whole construction for the infinite_dihedral matrix. -/
def infinite_dihedral_summary : RunSummary :=
  { store := infinite_dihedral_store
    simple_roots := [some 0, some 3]
    automaton_heap := infinite_dihedral_heap
    states := infinite_dihedral_states
    binary_tree := infinite_dihedral_tree }

/-- The roots that generate_root_table leaves for the S4 matrix. -/
def S4_heap : List ROOT :=
  [ { coefficients := [1, 0, 0], next_roots := [some 1, some 2, some 0], positive_minimal := true },
    { coefficients := [-1, 0, 0], next_roots := [none, none, none], positive_minimal := false },
    { coefficients := [1, 1, 0], next_roots := [some 3, some 0, some 6], positive_minimal := true },
    { coefficients := [0, 1, 0], next_roots := [some 2, some 4, some 5], positive_minimal := true },
    { coefficients := [0, -1, 0], next_roots := [none, none, none], positive_minimal := false },
    { coefficients := [0, 1, 1], next_roots := [some 6, some 7, some 3], positive_minimal := true },
    { coefficients := [1, 1, 1], next_roots := [some 5, some 6, some 2], positive_minimal := true },
    { coefficients := [0, 0, 1], next_roots := [some 7, some 5, some 8], positive_minimal := true },
    { coefficients := [0, 0, -1], next_roots := [none, none, none], positive_minimal := false } ]

/-- The root tables that generate_root_table leaves for the S4 matrix. -/
def S4_store : RootStore :=
  { heap := S4_heap
    root_table := { first := [1, 4, 8, 7, 3, 5, 0, 2, 6], length := 9 }
    minimal_root_table := { first := [7, 3, 5, 0, 2, 6], length := 6 } }

/-- The automaton states that generate_state_tree leaves for the S4 matrix. -/
def S4_states : List AUTOMATON_STATE :=
  [ { next_states := [some 1, some 13, some 21], root_table := some { first := [], length := 0 } },
    { next_states := [none, some 2, some 10], root_table := some { first := [0], length := 1 } },
    { next_states := [some 3, none, some 7], root_table := some { first := [3, 2], length := 2 } },
    { next_states := [none, none, some 4], root_table := some { first := [3, 0, 2], length := 3 } },
    { next_states := [none, some 5, none], root_table := some { first := [7, 5, 0, 6], length := 4 } },
    { next_states := [some 6, none, none], root_table := some { first := [7, 3, 5, 2, 6], length := 5 } },
    { next_states := [none, none, none], root_table := some { first := [7, 3, 5, 0, 2, 6], length := 6 } },
    { next_states := [some 4, some 8, none], root_table := some { first := [7, 5, 6], length := 3 } },
    { next_states := [some 9, none, none], root_table := some { first := [7, 3, 5, 6], length := 4 } },
    { next_states := [none, some 6, none], root_table := some { first := [7, 5, 0, 2, 6], length := 5 } },
    { next_states := [none, some 11, none], root_table := some { first := [7, 0], length := 2 } },
    { next_states := [some 12, none, some 8], root_table := some { first := [3, 5, 2], length := 3 } },
    { next_states := [none, none, some 9], root_table := some { first := [3, 0, 2, 6], length := 4 } },
    { next_states := [some 14, none, some 18], root_table := some { first := [3], length := 1 } },
    { next_states := [none, some 3, some 15], root_table := some { first := [0, 2], length := 2 } },
    { next_states := [none, some 16, none], root_table := some { first := [7, 0, 6], length := 3 } },
    { next_states := [some 17, none, some 5], root_table := some { first := [3, 5, 2, 6], length := 4 } },
    { next_states := [none, none, some 6], root_table := some { first := [3, 5, 0, 2, 6], length := 5 } },
    { next_states := [some 15, some 19, none], root_table := some { first := [7, 5], length := 2 } },
    { next_states := [some 20, none, none], root_table := some { first := [7, 3, 5], length := 3 } },
    { next_states := [none, some 17, none], root_table := some { first := [7, 0, 2, 6], length := 4 } },
    { next_states := [some 10, some 22, none], root_table := some { first := [7], length := 1 } },
    { next_states := [some 23, none, some 19], root_table := some { first := [3, 5], length := 2 } },
    { next_states := [none, some 12, some 20], root_table := some { first := [0, 2, 6], length := 3 } } ]

/-- The binary tree that generate_state_tree leaves for the S4 matrix. -/
def S4_tree : BINARY_TREE_ELEMENT :=
  BINARY_TREE_ELEMENT.node 1 (BINARY_TREE_ELEMENT.node 13 (BINARY_TREE_ELEMENT.node 21 BINARY_TREE_ELEMENT.NULL BINARY_TREE_ELEMENT.NULL) BINARY_TREE_ELEMENT.NULL) (BINARY_TREE_ELEMENT.node 2 (BINARY_TREE_ELEMENT.node 10 (BINARY_TREE_ELEMENT.node 18 BINARY_TREE_ELEMENT.NULL BINARY_TREE_ELEMENT.NULL) (BINARY_TREE_ELEMENT.node 22 BINARY_TREE_ELEMENT.NULL BINARY_TREE_ELEMENT.NULL)) (BINARY_TREE_ELEMENT.node 3 (BINARY_TREE_ELEMENT.node 7 (BINARY_TREE_ELEMENT.node 14 BINARY_TREE_ELEMENT.NULL (BINARY_TREE_ELEMENT.node 19 BINARY_TREE_ELEMENT.NULL BINARY_TREE_ELEMENT.NULL)) (BINARY_TREE_ELEMENT.node 11 (BINARY_TREE_ELEMENT.node 15 BINARY_TREE_ELEMENT.NULL BINARY_TREE_ELEMENT.NULL) BINARY_TREE_ELEMENT.NULL)) (BINARY_TREE_ELEMENT.node 4 (BINARY_TREE_ELEMENT.node 8 (BINARY_TREE_ELEMENT.node 23 BINARY_TREE_ELEMENT.NULL BINARY_TREE_ELEMENT.NULL) BINARY_TREE_ELEMENT.NULL) (BINARY_TREE_ELEMENT.node 5 (BINARY_TREE_ELEMENT.node 12 (BINARY_TREE_ELEMENT.node 16 (BINARY_TREE_ELEMENT.node 20 BINARY_TREE_ELEMENT.NULL BINARY_TREE_ELEMENT.NULL) BINARY_TREE_ELEMENT.NULL) BINARY_TREE_ELEMENT.NULL) (BINARY_TREE_ELEMENT.node 6 (BINARY_TREE_ELEMENT.node 9 BINARY_TREE_ELEMENT.NULL (BINARY_TREE_ELEMENT.node 17 BINARY_TREE_ELEMENT.NULL BINARY_TREE_ELEMENT.NULL)) BINARY_TREE_ELEMENT.NULL)))))

/-- The expected outcome of the whole construction for the S4 matrix. -/
def S4_summary : RunSummary :=
  { store := S4_store
    simple_roots := [some 0, some 3, some 7]
    automaton_heap := S4_heap
    states := S4_states
    binary_tree := S4_tree }

/-! ## Properties of root lists, states and the binary tree -/

/-- The root p compares SMALLER than the root q under compare_roots. -/
def roots_ascending (heap : List ROOT) (num_generators : Nat) (p q : Nat) : Prop :=
  compare_roots (root_at heap p) (root_at heap q) num_generators = COMPARE_ROOTS_SMALLER

/-- The roots p and q compare EQUAL under compare_roots. -/
def roots_equal (heap : List ROOT) (num_generators : Nat) (p q : Nat) : Prop :=
  compare_roots (root_at heap p) (root_at heap q) num_generators = COMPARE_ROOTS_EQUAL

/-- The list field of a root table pointer, empty for NULL. -/
def table_first (table : Option ROOT_TABLE) : List Nat :=
  match table with
  | some t => t.first
  | none => []

/-- The length field of a root table pointer, 0 for NULL. -/
def table_length (table : Option ROOT_TABLE) : Nat :=
  match table with
  | some t => t.length
  | none => 0

/-- The list l is a compare_roots-sorted, duplicate-free list of the roots of s:
it ascends strictly along the list, its members are roots of s, and every root of
s compares EQUAL to one of its members. -/
def sorted_duplicate_free (heap : List ROOT) (num_generators : Nat) (l s : List Nat) : Prop :=
  List.Chain' (roots_ascending heap num_generators) l ∧ (∀ x ∈ l, x ∈ s) ∧
    (∀ y ∈ s, ∃ x ∈ l, roots_equal heap num_generators x y)

/-- The transition of the state u on the generator a is the reject sentinel NULL
exactly when root_in_list finds simple_roots[a] in the root list of u. -/
def reject_correct (matrix_data : MATRIX_DATA) (num_generators : Nat) (am : Automaton)
    (u a : Nat) : Prop :=
  ∃ table simple_root,
    (state_at am.states u).root_table = some table ∧
    matrix_data.simple_roots.getD a none = some simple_root ∧
    ((state_at am.states u).next_states.getD a none = none ↔
      (root_in_list am.heap table (root_at am.heap simple_root) num_generators).isSome = true)

/-- The root table tv is the successor of the root table tu under the generator a:
with images the roots that cox_action_on_root returns for the roots of tu, in
order, tv equals, position by position under compare_roots, a sorted
duplicate-free list of the images whose flag positive_minimal is set together
with simple_roots[a]. -/
def successor_tables (matrix_data : MATRIX_DATA) (num_generators : Nat) (heap : List ROOT)
    (tu : ROOT_TABLE) (a : Nat) (tv : ROOT_TABLE) : Prop :=
  ∃ simple_root images l,
    matrix_data.simple_roots.getD a none = some simple_root ∧
    List.Forall₂
      (fun p q => cox_action_on_root matrix_data num_generators a heap p none none
        = Except.ok { heap := heap, returned_root := q, new_root_exists := none })
      tu.first images ∧
    sorted_duplicate_free heap num_generators l
      (images.filter (fun q => (root_at heap q).positive_minimal) ++ [simple_root]) ∧
    tv.length = l.length ∧
    List.Forall₂ (roots_equal heap num_generators) l tv.first

/-- What holds of the states throughout the construction of the automaton over
the heap: every state has a root table whose length field counts its list and
one next_states cell per generator; every transition that is set leads to a
state whose root table is the successor table; the binary tree holds states. -/
structure states_invariant (matrix_data : MATRIX_DATA) (num_generators : Nat)
    (heap : List ROOT) (am : Automaton) : Prop where
  heap_eq : am.heap = heap
  tables : ∀ v, v < am.states.length →
    ∃ t, (state_at am.states v).root_table = some t ∧ t.length = t.first.length
  slots : ∀ v, v < am.states.length →
    (state_at am.states v).next_states.length = num_generators
  edges : ∀ v a w, v < am.states.length →
    (state_at am.states v).next_states.getD a none = some w →
    w < am.states.length ∧
      ∃ tu tv, (state_at am.states v).root_table = some tu ∧
        (state_at am.states w).root_table = some tv ∧
        successor_tables matrix_data num_generators heap tu a tv
  catalog : ∀ s, s ∈ binary_tree_states am.binary_tree → s < am.states.length

/-- On the roots of the heap, compare_roots treats roots that compare EQUAL
alike: if p and q compare EQUAL, they compare the same way with every root r. -/
def roots_congruent (heap : List ROOT) (num_generators : Nat) : Prop :=
  ∀ p q r, roots_equal heap num_generators p q →
    compare_roots (root_at heap p) (root_at heap r) num_generators
      = compare_roots (root_at heap q) (root_at heap r) num_generators

/-- On the roots of the heap, two coefficients at the same index that differ by
less than EPSILON_COMP_VAL are equal. -/
def roots_separated (heap : List ROOT) (num_generators : Nat) : Prop :=
  ∀ p q i, i < num_generators →
    |(root_at heap p).coefficients.getD i 0 - (root_at heap q).coefficients.getD i 0|
      < EPSILON_COMP_VAL →
    (root_at heap p).coefficients.getD i 0 = (root_at heap q).coefficients.getD i 0

/-- The states a and b compare COMPARE_STATES_EQUAL under compare_states. -/
def states_equal (heap : List ROOT) (num_generators : Nat) (a b : AUTOMATON_STATE) : Prop :=
  compare_states heap a b num_generators = Except.ok COMPARE_STATES_EQUAL

/-- No two entries of the binary tree compare COMPARE_STATES_EQUAL, in either
order of the arguments; st is the dereference of state pointers. -/
def catalog_unique (heap : List ROOT) (num_generators : Nat) (st : Nat → AUTOMATON_STATE)
    (tree : BINARY_TREE_ELEMENT) : Prop :=
  (binary_tree_states tree).Pairwise
    (fun x y => ¬ states_equal heap num_generators (st x) (st y) ∧
      ¬ states_equal heap num_generators (st y) (st x))

/-- The search order of the binary tree: every state of a left branch compares
SMALLER than the state at its root, every state of a right branch GREATER. -/
def bst_ordered (heap : List ROOT) (num_generators : Nat) (st : Nat → AUTOMATON_STATE) :
    BINARY_TREE_ELEMENT → Prop
  | BINARY_TREE_ELEMENT.NULL => True
  | BINARY_TREE_ELEMENT.node state left right =>
    (∀ x, x ∈ binary_tree_states left →
      compare_states heap (st x) (st state) num_generators = Except.ok COMPARE_STATES_SMALLER) ∧
    (∀ x, x ∈ binary_tree_states right →
      compare_states heap (st x) (st state) num_generators = Except.ok COMPARE_STATES_GREATER) ∧
    bst_ordered heap num_generators st left ∧ bst_ordered heap num_generators st right

/-! ## Data of the examples -/

deriving instance DecidableEq for Except

/-- The matrix data that generate_root_table leaves for the S_3 matrix with the
exact cosine. -/
def S3_matrix_data : MATRIX_DATA :=
  { coxeter_matrix := S3_matrix
    scalar_products :=
      some (fill_scalar_product_matrix exact_cos_pi_over S3_matrix (fun _ _ => 0) 2)
    simple_action_results :=
      some (fill_cox_action_matrix
        (fill_scalar_product_matrix exact_cos_pi_over S3_matrix (fun _ _ => 0) 2)
        (fun _ _ => 0) 2)
    simple_roots := [some 0, some 3] }

/-- The automaton that generate_state_tree leaves for the S_3 matrix. -/
def S3_automaton : Automaton :=
  { heap := S3_heap, states := S3_states, binary_tree := S3_tree }

/-! ## The reflection, the memo slots and the invariant of the enumeration -/

/-- The coefficient with index i of the root r, 0 past the end of the array. -/
def coefficient (r : ROOT) (i : Nat) : ℚ := r.coefficients.getD i 0

/-- What the coefficient with index j of r adds to the output coefficient a in
cox_action_on_root, for j other than a. -/
def action_term (simple_action_results : Nat → Nat → ℚ) (a : Nat) (r : ROOT) (j : Nat) : ℚ :=
  if j ≠ a ∧ |coefficient r j| > EPSILON_COMP_VAL then
    simple_action_results j a * coefficient r j
  else 0

/-- The output coefficient with index i of cox_action_on_root in closed form,
after the passes of the loop for the indices below k. -/
def action_coefficient_upto (simple_action_results : Nat → Nat → ℚ) (a : Nat) (r : ROOT)
    (k i : Nat) : ℚ :=
  if i = a then
    (if a < k ∧ |coefficient r a| > EPSILON_COMP_VAL then -coefficient r a else 0)
      + ((List.range k).map (action_term simple_action_results a r)).sum
  else if i < k ∧ |coefficient r i| > EPSILON_COMP_VAL then coefficient r i
  else 0


/-- The output coefficient with index i of cox_action_on_root in closed form: a
coefficient of the root takes part when its magnitude exceeds EPSILON_COMP_VAL. -/
def action_coefficient (simple_action_results : Nat → Nat → ℚ) (num_generators a : Nat)
    (r : ROOT) (i : Nat) : ℚ :=
  if i = a then
    (if |coefficient r a| > EPSILON_COMP_VAL then -coefficient r a else 0)
      + ((List.range num_generators).map (action_term simple_action_results a r)).sum
  else if |coefficient r i| > EPSILON_COMP_VAL then coefficient r i
  else 0

/-- The root that cox_action_on_root computes from the root r before it looks
the result up in the root table. -/
def computed_root (simple_action_results : Nat → Nat → ℚ) (num_generators a : Nat)
    (r : ROOT) : ROOT :=
  { init_root num_generators with
    coefficients := cox_action_on_root_coefficients simple_action_results num_generators a r }

/-- The simple_action_results table of the S_3 matrix with the exact cosine. -/
def S3_action : Nat → Nat → ℚ :=
  fill_cox_action_matrix
    (fill_scalar_product_matrix exact_cos_pi_over S3_matrix (fun _ _ => 0) 2) (fun _ _ => 0) 2

/-- The simple root that generate_root_table creates for the generator ii: the
root of init_root with the coefficient ii set to 1. -/
def simple_root (num_generators ii : Nat) : ROOT :=
  { init_root num_generators with
    coefficients := (init_root num_generators).coefficients.set ii 1 }

/-- The memo slot next_roots[a] of the root p. -/
def memo_slot (heap : List ROOT) (p a : Nat) : Option Nat :=
  (root_at heap p).next_roots.getD a none

/-- The write root->next_roots[a] = q of cox_action_on_root. -/
def memo_write (heap : List ROOT) (root a q : Nat) : List ROOT :=
  heap.set root
    { root_at heap root with next_roots := (root_at heap root).next_roots.set a (some q) }

/-- The write new_root->positive_minimal = flag of generate_next_root. -/
def flag_write (heap : List ROOT) (p : Nat) (flag : Bool) : List ROOT :=
  heap.set p { root_at heap p with positive_minimal := flag }

/-- The heap heap1 is the heap at a later point of the enumeration: no root is
removed, no coefficient changes and no memo slot that is set changes. -/
def heap_extends (heap heap1 : List ROOT) : Prop :=
  heap.length ≤ heap1.length ∧
    ∀ p, p < heap.length →
      (root_at heap1 p).coefficients = (root_at heap p).coefficients ∧
      ∀ a q, memo_slot heap p a = some q → memo_slot heap1 p a = some q

/-- Every coefficient of the root with an index below num_generators is an
integer. -/
def root_integral (r : ROOT) (num_generators : Nat) : Prop :=
  ∀ i, i < num_generators → ∃ k : Int, coefficient r i = k

/-- Every entry of simple_action_results off the diagonal is an integer. -/
def action_integral (simple_action_results : Nat → Nat → ℚ) (num_generators : Nat) : Prop :=
  ∀ i a, i < num_generators → a < num_generators → i ≠ a →
    ∃ k : Int, simple_action_results i a = k

/-- Twice the cosine is an integer at every entry of the Coxeter matrix above
the diagonal that is not 0: the entries at which the cosine of pi / m is
rational, which are 1, 2 and 3. -/
def cosines_integral (cos_pi_over : Int → ℚ) (coxeter_matrix : Nat → Nat → Int)
    (num_generators : Nat) : Prop :=
  ∀ i j, i < j → j < num_generators → coxeter_matrix i j ≠ 0 →
    ∃ k : Int, 2 * cos_pi_over (coxeter_matrix i j) = k

/-- What holds of the roots and the two root tables between the steps of the
enumeration: both tables ascend along their lists, count their lists and hold
roots of the heap; every memo slot that is set holds a root of the root table
that compares EQUAL to the root computed for it; the roots of the table of
minimal roots and the roots whose flag positive_minimal is set are positive;
every root has one memo slot per generator; and the coefficients are integers
when the entries of simple_action_results are. -/
structure store_invariant (act : Nat → Nat → ℚ) (num_generators : Nat) (st : RootStore) :
    Prop where
  table_chain : List.Chain' (roots_ascending st.heap num_generators) st.root_table.first
  table_length : st.root_table.length = st.root_table.first.length
  table_range : ∀ x ∈ st.root_table.first, x < st.heap.length
  minimal_chain :
    List.Chain' (roots_ascending st.heap num_generators) st.minimal_root_table.first
  minimal_length : st.minimal_root_table.length = st.minimal_root_table.first.length
  minimal_range : ∀ x ∈ st.minimal_root_table.first, x < st.heap.length
  memo_agree : ∀ p a q, memo_slot st.heap p a = some q →
    q ∈ st.root_table.first ∧
      compare_roots (root_at st.heap q)
        (computed_root act num_generators a (root_at st.heap p)) num_generators = 0
  minimal_positive : ∀ x ∈ st.minimal_root_table.first,
    root_positive (root_at st.heap x) num_generators = Except.ok true
  flag_positive : ∀ p, p < st.heap.length → (root_at st.heap p).positive_minimal = true →
    root_positive (root_at st.heap p) num_generators = Except.ok true
  memo_length : ∀ p, p < st.heap.length → (root_at st.heap p).next_roots.length = num_generators
  integral : action_integral act num_generators →
    ∀ p, p < st.heap.length → root_integral (root_at st.heap p) num_generators

/-- Every memo slot of the root p is set. -/
def memo_complete (heap : List ROOT) (num_generators p : Nat) : Prop :=
  ∀ a, a < num_generators → ∃ q, memo_slot heap p a = some q

/-- What a call of generate_next_root on the root leaves, from the store st to
the store st1: the invariant holds, the heap and both tables have only grown,
the roots of st other than the root are as they were, and every root that has
entered the table of minimal roots, and every new root whose flag
positive_minimal is set, has all its memo slots set. -/
def next_root_post (act : Nat → Nat → ℚ) (num_generators : Nat) (st : RootStore) (root : Nat)
    (st1 : RootStore) : Prop :=
  store_invariant act num_generators st1 ∧ heap_extends st.heap st1.heap ∧
    (∀ x ∈ st.root_table.first, x ∈ st1.root_table.first) ∧
    (∀ x ∈ st.minimal_root_table.first, x ∈ st1.minimal_root_table.first) ∧
    (∀ p, p < st.heap.length → p ≠ root → root_at st1.heap p = root_at st.heap p) ∧
    (∀ x ∈ st1.minimal_root_table.first, x ∉ st.minimal_root_table.first →
      memo_complete st1.heap num_generators x) ∧
    (∀ p, st.heap.length ≤ p → p < st1.heap.length →
      (root_at st1.heap p).positive_minimal = true → memo_complete st1.heap num_generators p)

/-- What holds of a run of generate_root_table between the passes of its loop:
the table simple_action_results is act, the store meets store_invariant, and
every root of the table of minimal roots and every root whose flag
positive_minimal is set has all its memo slots set. -/
def run_invariant (act : Nat → Nat → ℚ) (num_generators : Nat) (run : RootTableRun) : Prop :=
  run.matrix_data.simple_action_results = some act ∧
    store_invariant act num_generators run.store ∧
    (∀ x ∈ run.store.minimal_root_table.first,
      memo_complete run.store.heap num_generators x) ∧
    (∀ p, p < run.store.heap.length → (root_at run.store.heap p).positive_minimal = true →
      memo_complete run.store.heap num_generators p)

/-- The roots of the heap have integer coefficients, and a memo slot that is set
holds a root of the heap with the coefficients of the computed root. -/
def memo_exact (act : Nat → Nat → ℚ) (num_generators : Nat) (heap : List ROOT) : Prop :=
  (∀ p, root_integral (root_at heap p) num_generators) ∧
    ∀ p a q, memo_slot heap p a = some q →
      a < num_generators ∧ q < heap.length ∧
        ∀ i, i < num_generators →
          coefficient (root_at heap q) i
            = coefficient (computed_root act num_generators a (root_at heap p)) i

/-- The positive roots of the root system A_n in the basis of the simple roots:
the sums e_i + ... + e_j of consecutive simple roots, for i ≤ j < n. -/
def positive_roots_of_A (n : Nat) : List (List ℚ) :=
  ((List.range n).map (fun i =>
    ((List.range n).filter (fun j => decide (i ≤ j))).map (fun j =>
      (List.range n).map (fun k => if i ≤ k ∧ k ≤ j then (1 : ℚ) else 0)))).flatten

/-- The root (1, 1) of the S_3 matrix, with empty memo slots. -/
def S3_highest_root : ROOT :=
  { coefficients := [1, 1], next_roots := [none, none], positive_minimal := true }

/-! ## The order of the roots, and the word typed by the user -/

/-- A matrix whose entries off the diagonal are 1. -/
def all_ones_matrix : Nat → Nat → Int := matrix_of_rows [[1, 1], [1, 1]]

/-- A matrix that is not symmetric: the entry (0, 1) is 3 and the entry (1, 0) is 2. -/
def lopsided_matrix : Nat → Nat → Int := matrix_of_rows [[1, 3], [2, 1]]

/-- The coefficients of a and b with the same index below num_generators either
coincide or differ by EPSILON_COMP_VAL or more. -/
def coefficients_separated (a b : ROOT) (num_generators : Nat) : Prop :=
  ∀ i, i < num_generators →
    |a.coefficients.getD i 0 - b.coefficients.getD i 0| < EPSILON_COMP_VAL →
    a.coefficients.getD i 0 = b.coefficients.getD i 0

/-- A root with the given coefficients, its memo slots empty. -/
def root_of_coefficients (coefficients : List ℚ) : ROOT :=
  { coefficients := coefficients, next_roots := coefficients.map (fun _ => none),
    positive_minimal := false }

/-- A state whose root list holds the root of the given pointer only. -/
def single_root_state (p : Nat) : AUTOMATON_STATE :=
  { next_states := [none, none], root_table := some { first := [p], length := 1 } }

/-- Three roots of two coefficients: the root 0 compares SMALLER than the root 1,
the root 1 compares EQUAL to the root 2, and the root 0 compares GREATER than the
root 2. -/
def crossing_heap : List ROOT :=
  [ root_of_coefficients [-6 / 1000000, 5],
    root_of_coefficients [5 / 1000000, 0],
    root_of_coefficients [0, 0] ]

/-- The constant MAX_WORD_LEN of cox_grp_limits.h. -/
def MAX_WORD_LEN : Nat := 200

/-- The constant MAX_GENERATORS of cox_grp_limits.h. -/
def MAX_GENERATORS : Nat := 10

/-- Modelled from the spec: the return codes STRING_INPUT_ERR_CODE of input_string;
coxeter_inc.h, which defines them, is not among the sources, and only that they
differ is used. -/
inductive STRING_INPUT_ERR_CODE where
  | STRING_INPUT_OK
  | STRING_INPUT_INVALID
  | STRING_INPUT_MEM_ERR
  deriving DecidableEq, Repr

/-- Modelled from the spec: the return codes WORD_INPUT_RET_CODES of
user_input_word; coxeter_inc.h, which defines them, is not among the sources, and
only that they differ is used. -/
inductive WORD_INPUT_RET_CODES where
  | WORD_INPUT_OK
  | WORD_INPUT_INVALID
  | WORD_INPUT_TOO_LONG
  | WORD_INPUT_MEM_FAIL
  deriving DecidableEq, Repr

/-- The function input_string, with the line on stdin as a parameter: typed holds
the characters before the new line.  fgets stores at most max_string_size - 1
characters, the new line included; the string returned is the input without its
last character.  An empty input makes the source read input[-1]. -/
def input_string (max_string_size : Nat) (typed : List Char) :
    Except Fault (STRING_INPUT_ERR_CODE × Option (List Char)) :=
  let input := (typed ++ ['\n']).take (max_string_size - 1)
  match input.getLast? with
  | none => throw Fault.out_of_bounds
  | some last =>
    if last ≠ '\n' then pure (STRING_INPUT_ERR_CODE.STRING_INPUT_INVALID, none)
    else pure (STRING_INPUT_ERR_CODE.STRING_INPUT_OK, some input.dropLast)

/-- The test of user_input_word for a generator letter:
(int) c >= (int) 'a' && (int) c <= (int) 'a' + grp_max_generators - 1. -/
def is_generator_letter (grp_max_generators : Nat) (c : Char) : Bool :=
  decide ((c.toNat : Int) ≥ ('a'.toNat : Int) ∧
    (c.toNat : Int) ≤ ('a'.toNat : Int) + (grp_max_generators : Int) - 1)

/-- The test of user_input_word for a digit. -/
def is_digit (c : Char) : Bool :=
  decide (c.toNat ≥ '0'.toNat ∧ c.toNat ≤ '9'.toNat)

/-- The local variables of user_input_word that the loop over the input changes.
A character buffer is held as the string in it, the characters before the first
NUL; exponent_string holds the digits written since exp_string_index was last
reset, so exp_string_index is its length; top is the string stack, top first. -/
structure WordParse where
  subword : List Char
  subword_index : Nat
  exponent_string : List Char
  parsing_exponent : Bool
  hat_found : Bool
  valid_exp : Bool
  top : List (List Char)
  nest_depth : Nat
  deriving DecidableEq, Repr

/-- The function atoi on a string of digits.  The source does not define the
result when it does not fit an int. -/
def atoi (digits : List Char) : Except Fault Nat :=
  let value := digits.foldl (fun v c => 10 * v + (c.toNat - '0'.toNat)) 0
  if value < 2 ^ 31 then pure value else throw Fault.out_of_bounds

/-- The loop for (jj = 0; jj < exponent; jj++) strncat(popped_word, subword,
strlen(subword)): the buffer of popped_word, allocated by
init_string_stack_element, has MAX_WORD_LEN characters, and strncat writes the
copy and a NUL after it. -/
def strncat_copies (popped_word subword : List Char) : Nat → Except Fault (List Char)
  | 0 => pure popped_word
  | jj + 1 =>
    if popped_word.length + subword.length + 1 ≤ MAX_WORD_LEN then
      strncat_copies (popped_word ++ subword) subword jj
    else throw Fault.out_of_bounds

/-- The function string_stack_push: strncpy copies the string and its NUL into a
buffer of MAX_WORD_LEN characters. -/
def string_stack_push (new_string : List Char) (top : List (List Char)) :
    Except Fault (List (List Char)) :=
  if new_string.length + 1 ≤ MAX_WORD_LEN then pure (new_string :: top)
  else throw Fault.out_of_bounds

/-- The function string_stack_pop: the string of the top element and the stack
below it.  The source dereferences top without a test. -/
def string_stack_pop (top : List (List Char)) : Except Fault (List Char × List (List Char)) :=
  match top with
  | [] => throw Fault.null_dereference
  | s :: rest => pure (s, rest)

/-- The lines of user_input_word that run when an exponent is complete, in the
loop and after it: exponent_string is closed by a NUL, atoi reads it, the string
stack is popped and exponent copies of subword are appended to the popped word.
The result is the popped word and the stack. -/
def apply_exponent (grp_max_word_len : Nat) (st : WordParse) :
    Except Fault (List Char × List (List Char)) := do
  if ¬ st.exponent_string.length < grp_max_word_len then throw Fault.out_of_bounds
  let exponent ← atoi st.exponent_string
  let popped ← string_stack_pop st.top
  let popped_word ← strncat_copies popped.1 st.subword exponent
  pure (popped_word, popped.2)

/-- The branch if (!parsing_exponent) of the loop of user_input_word for the
character c: the return code with which the function leaves, or the variables
after the pass.  subword has grp_max_word_len characters. -/
def parse_word_character (grp_max_generators grp_max_word_len : Nat) (st : WordParse)
    (c : Char) : Except Fault (WORD_INPUT_RET_CODES ⊕ WordParse) :=
  if is_generator_letter grp_max_generators c then
    if st.subword_index + 1 < grp_max_word_len then
      pure (Sum.inr { st with
        subword :=
          if st.subword_index ≤ st.subword.length then st.subword.take st.subword_index ++ [c]
          else st.subword
        subword_index := st.subword_index + 1 })
    else throw Fault.out_of_bounds
  else if c = '(' then do
    let top ← string_stack_push st.subword st.top
    pure (Sum.inr { st with top := top, subword_index := 0, nest_depth := st.nest_depth + 1 })
  else if c = ')' then
    if st.nest_depth ≤ 0 then pure (Sum.inl WORD_INPUT_RET_CODES.WORD_INPUT_INVALID)
    else
      pure (Sum.inr { st with
        parsing_exponent := true, subword_index := 0, nest_depth := st.nest_depth - 1 })
  else pure (Sum.inl WORD_INPUT_RET_CODES.WORD_INPUT_INVALID)

/-- One pass of the loop of user_input_word, for the character c. -/
def user_input_word_step (grp_max_generators grp_max_word_len : Nat) (st : WordParse)
    (c : Char) : Except Fault (WORD_INPUT_RET_CODES ⊕ WordParse) :=
  if st.parsing_exponent then
    if c = '^' then pure (Sum.inr { st with hat_found := true })
    else if is_digit c then
      if ¬ st.hat_found then pure (Sum.inl WORD_INPUT_RET_CODES.WORD_INPUT_INVALID)
      else if st.exponent_string.length < grp_max_word_len then
        pure (Sum.inr { st with
          valid_exp := true, exponent_string := st.exponent_string ++ [c] })
      else throw Fault.out_of_bounds
    else if is_generator_letter grp_max_generators c ∨ c = '(' ∨ c = ')' then
      if ¬ st.valid_exp then pure (Sum.inl WORD_INPUT_RET_CODES.WORD_INPUT_INVALID)
      else do
        let r ← apply_exponent grp_max_word_len st
        -- strncpy(subword, popped_word, strlen(popped_word)) and the NUL after it
        if r.1.length < grp_max_word_len then
          parse_word_character grp_max_generators grp_max_word_len
            { subword := r.1, subword_index := r.1.length, exponent_string := [],
              parsing_exponent := false, hat_found := false, valid_exp := false,
              top := r.2, nest_depth := st.nest_depth } c
        else throw Fault.out_of_bounds
    else
      -- the source prints that the character is invalid and goes on
      pure (Sum.inr st)
  else parse_word_character grp_max_generators grp_max_word_len st c

/-- The loop of user_input_word over the characters of user_input. -/
def user_input_word_loop (grp_max_generators grp_max_word_len : Nat) :
    WordParse → List Char → Except Fault (WORD_INPUT_RET_CODES ⊕ WordParse)
  | st, [] => pure (Sum.inr st)
  | st, c :: rest => do
    match ← user_input_word_step grp_max_generators grp_max_word_len st c with
    | Sum.inl ret_code => pure (Sum.inl ret_code)
    | Sum.inr st1 => user_input_word_loop grp_max_generators grp_max_word_len st1 rest

/-- The function user_input_word, with the line on stdin as a parameter: the
return code and the word.  Allocations succeed. -/
def user_input_word (grp_max_generators grp_max_word_len : Nat) (typed : List Char) :
    Except Fault (WORD_INPUT_RET_CODES × Option (List Char)) := do
  -- assert(grp_max_word_len < MAX_WORD_LEN)
  if ¬ grp_max_word_len < MAX_WORD_LEN then throw Fault.assertion_failed
  -- assert(grp_max_generators < MAX_GENERATORS)
  if ¬ grp_max_generators < MAX_GENERATORS then throw Fault.assertion_failed
  let input ← input_string MAX_WORD_LEN typed
  match input with
  | (STRING_INPUT_ERR_CODE.STRING_INPUT_OK, some user_input) =>
    if user_input.length > grp_max_word_len then
      pure (WORD_INPUT_RET_CODES.WORD_INPUT_TOO_LONG, none)
    -- subword[0] = NUL
    else if ¬ 0 < grp_max_word_len then throw Fault.out_of_bounds
    else
      match ← user_input_word_loop grp_max_generators grp_max_word_len
          { subword := [], subword_index := 0, exponent_string := [],
            parsing_exponent := false, hat_found := false, valid_exp := false,
            top := [], nest_depth := 0 } user_input with
      | Sum.inl ret_code => pure (ret_code, none)
      | Sum.inr st =>
        if st.nest_depth ≠ 0 then pure (WORD_INPUT_RET_CODES.WORD_INPUT_INVALID, none)
        else if st.parsing_exponent ∧ ¬ st.valid_exp then
          pure (WORD_INPUT_RET_CODES.WORD_INPUT_INVALID, none)
        else if st.valid_exp then do
          let r ← apply_exponent grp_max_word_len st
          -- strncpy(subword, popped_word, strlen(popped_word) + 1)
          if r.1.length < grp_max_word_len then
            pure (WORD_INPUT_RET_CODES.WORD_INPUT_OK, some r.1)
          else throw Fault.out_of_bounds
        else pure (WORD_INPUT_RET_CODES.WORD_INPUT_OK, some st.subword)
  | _ => pure (WORD_INPUT_RET_CODES.WORD_INPUT_INVALID, none)

/-- The words of section 6 of the spec, written with brackets: the empty word, a
generator letter followed by a word, or a bracket group (w)^k followed by a
word. -/
inductive BracketWord where
  | empty
  | letter (c : Char) (rest : BracketWord)
  | group (body : BracketWord) (exponent : Nat) (rest : BracketWord)
  deriving DecidableEq, Repr

/-- The line typed for a bracket word: a group is written ( body )^ followed by
the decimal digits of its exponent. -/
def BracketWord.text : BracketWord → List Char
  | BracketWord.empty => []
  | BracketWord.letter c rest => c :: rest.text
  | BracketWord.group body exponent rest =>
    '(' :: body.text ++ [')', '^'] ++ Nat.toDigits 10 exponent ++ rest.text

/-- The expansion of a bracket word as the spec words it: each bracket group
(w)^k is replaced by k concatenated copies of the expansion of w. -/
def BracketWord.expansion : BracketWord → List Char
  | BracketWord.empty => []
  | BracketWord.letter c rest => c :: rest.expansion
  | BracketWord.group body exponent rest =>
    (List.replicate exponent body.expansion).flatten ++ rest.expansion

/-- The bracket word a((b)^2)^2: a group that opens a group, after a letter. -/
def nested_group_word : BracketWord :=
  BracketWord.letter 'a'
    (BracketWord.group
      (BracketWord.group (BracketWord.letter 'b' BracketWord.empty) 2 BracketWord.empty)
      2 BracketWord.empty)

/-- A character that is a generator letter or a bracket. -/
def is_letter_or_bracket (grp_max_generators : Nat) (c : Char) : Bool :=
  is_generator_letter grp_max_generators c || decide (c = '(') || decide (c = ')')

/-- The last generator letter or bracket of a string, if there is one. -/
def last_letter_or_bracket (grp_max_generators : Nat) (s : List Char) : Option Char :=
  s.foldl (fun found c => if is_letter_or_bracket grp_max_generators c then some c else found)
    none

/-- The number of brackets that are open at the end of a string: none when a
bracket is closed that was not opened. -/
def bracket_depth (s : List Char) : Option Nat :=
  s.foldl
    (fun depth c =>
      match depth with
      | none => none
      | some d =>
        if c = '(' then some (d + 1)
        else if c = ')' then (if d = 0 then none else some (d - 1))
        else some d)
    (some 0)

/-- What holds of the variables of user_input_word after the loop has passed the
characters of the string s without leaving: nest_depth counts the open brackets,
the string stack holds one string for each of them and one more while an
exponent is parsed, an exponent is parsed exactly when the last letter or
bracket read is a close bracket, and the flags hat_found and valid_exp are only
set while an exponent is parsed, valid_exp only after hat_found. -/
structure parse_invariant (grp_max_generators : Nat) (s : List Char) (st : WordParse) :
    Prop where
  depth : bracket_depth s = some st.nest_depth
  stack : st.top.length = st.nest_depth + (if st.parsing_exponent then 1 else 0)
  mode : st.parsing_exponent = true ↔
    last_letter_or_bracket grp_max_generators s = some ')'
  hat : st.hat_found = true → st.parsing_exponent = true
  valid : st.valid_exp = true → st.hat_found = true

/-- The variables of user_input_word before the loop. -/
def initial_word_parse : WordParse :=
  { subword := [], subword_index := 0, exponent_string := [], parsing_exponent := false,
    hat_found := false, valid_exp := false, top := [], nest_depth := 0 }

/-- What a pass or a run of the loop of user_input_word gives after the string s
has been read: it overruns a buffer, or leaves with WORD_INPUT_INVALID, or goes
on with variables that meet parse_invariant. -/
def parse_result_ok (grp_max_generators : Nat) (s : List Char)
    (r : Except Fault (WORD_INPUT_RET_CODES ⊕ WordParse)) : Prop :=
  match r with
  | Except.error f => f = Fault.out_of_bounds
  | Except.ok (Sum.inl ret_code) => ret_code = WORD_INPUT_RET_CODES.WORD_INPUT_INVALID
  | Except.ok (Sum.inr st) => parse_invariant grp_max_generators s st

/-- The lines of user_input_word after the loop, from the variables st. -/
def user_input_word_finish (grp_max_word_len : Nat) (st : WordParse) :
    Except Fault (WORD_INPUT_RET_CODES × Option (List Char)) :=
  if st.nest_depth ≠ 0 then pure (WORD_INPUT_RET_CODES.WORD_INPUT_INVALID, none)
  else if st.parsing_exponent ∧ ¬ st.valid_exp then
    pure (WORD_INPUT_RET_CODES.WORD_INPUT_INVALID, none)
  else if st.valid_exp then do
    let r ← apply_exponent grp_max_word_len st
    if r.1.length < grp_max_word_len then
      pure (WORD_INPUT_RET_CODES.WORD_INPUT_OK, some r.1)
    else throw Fault.out_of_bounds
  else pure (WORD_INPUT_RET_CODES.WORD_INPUT_OK, some st.subword)

/-- The loop from the variables st over the string leaves the function with
WORD_INPUT_INVALID, in the loop or in the tests after it, or overruns a buffer. -/
def leads_to_invalid (grp_max_generators grp_max_word_len : Nat) (st : WordParse)
    (s : List Char) : Prop :=
  user_input_word_loop grp_max_generators grp_max_word_len st s
      = Except.error Fault.out_of_bounds ∨
    user_input_word_loop grp_max_generators grp_max_word_len st s
      = Except.ok (Sum.inl WORD_INPUT_RET_CODES.WORD_INPUT_INVALID) ∨
    ∃ st1, user_input_word_loop grp_max_generators grp_max_word_len st s
        = Except.ok (Sum.inr st1) ∧
      (st1.nest_depth ≠ 0 ∨ (st1.parsing_exponent = true ∧ st1.valid_exp = false))

/-- The brackets of a line are mismatched: a bracket is closed that was not
opened, or a bracket is left open at the end. -/
def brackets_mismatched (typed : List Char) : Prop :=
  bracket_depth typed ≠ some 0

/-- A close bracket is followed by the character ^ with no digit before the next
letter or bracket or the end of the line. -/
def hat_without_digit (grp_max_generators : Nat) (typed : List Char) : Prop :=
  ∃ pre mid rest, typed = pre ++ (')' :: '^' :: (mid ++ rest)) ∧
    (∀ c ∈ mid, is_letter_or_bracket grp_max_generators c = false ∧ is_digit c = false) ∧
    (rest = [] ∨ ∃ c rest1, rest = c :: rest1 ∧ is_letter_or_bracket grp_max_generators c = true)

/-- A close bracket is followed by a digit with no character ^, letter or bracket
in between. -/
def digit_without_hat (grp_max_generators : Nat) (typed : List Char) : Prop :=
  ∃ pre mid d post, typed = pre ++ (')' :: (mid ++ d :: post)) ∧ is_digit d = true ∧
    ∀ c ∈ mid, c ≠ '^' ∧ is_letter_or_bracket grp_max_generators c = false ∧ is_digit c = false

/-- A digit or the character ^ stands outside an exponent: the last letter or
bracket before it is not a close bracket. -/
def exponent_character_outside (grp_max_generators : Nat) (typed : List Char) : Prop :=
  ∃ pre c post, typed = pre ++ (c :: post) ∧ (c = '^' ∨ is_digit c = true) ∧
    last_letter_or_bracket grp_max_generators pre ≠ some ')'

/-! ## The tables of matrix_data and the coefficients of the roots -/

/-- The matrix data with another Coxeter matrix in the field coxeter_matrix. -/
def with_coxeter_matrix (coxeter_matrix : Nat → Nat → Int) (matrix_data : MATRIX_DATA) :
    MATRIX_DATA :=
  { matrix_data with coxeter_matrix := coxeter_matrix }

/-- The run of generate_root_table with another Coxeter matrix in its matrix data. -/
def run_with_coxeter_matrix (coxeter_matrix : Nat → Nat → Int) (run : RootTableRun) :
    RootTableRun :=
  { run with matrix_data := with_coxeter_matrix coxeter_matrix run.matrix_data }

def INIT_ROOT_OK : Int := 0
def INIT_ROOT_MEM_ERR : Int := 1
def INIT_ELEMENT_MEM_ERR : Int := 1
def INIT_ROOT_TABLE_OK : Int := 0
def INIT_ROOT_TABLE_MEM_ERR : Int := 1
def GENERATE_ROOT_TABLE_OK : Int := 0
def GENERATE_ROOT_TABLE_MEM_ERR : Int := 1
def GENERATE_NEXT_ROOT_OK : Int := 0
def GENERATE_NEXT_ROOT_MEM_ERR : Int := 1
def GENERATE_NEXT_ROOT_UNHANDLED_ERR : Int := 2
def COX_ACTION_ON_ROOT_OK : Int := 0
def COX_ACTION_ON_ROOT_MEM_ERR : Int := 1
def COX_ACTION_ON_ROOT_MEM_ERR_SUB_FUNC : Int := 3
def FILL_SCALAR_PRODUCT_MATRIX_OK : Int := 0
def FILL_SCALAR_PRODUCT_MATRIX_MEM_ERR : Int := 1
def FILL_COX_ACTION_MATRIX_OK : Int := 0
def FILL_COX_ACTION_MATRIX_MEM_ERR : Int := 1

/-- One request to malloc or calloc.  The list holds the outcomes of the requests
still to come, in the order in which the program makes them: true when the
request is granted.  Past the end of the list every request is granted.  The
result is the outcome and the outcomes left. -/
def allocate (allocations : List Bool) : Bool × List Bool :=
  match allocations with
  | [] => (true, [])
  | granted :: rest => (granted, rest)

/-- The return code of init_root: the root, its coefficients and its memo slots
are three requests, and the first one refused ends the function. -/
def init_root_code (allocations : List Bool) : Int × List Bool :=
  let root := allocate allocations
  if root.1 = false then (INIT_ROOT_MEM_ERR, root.2)
  else
    let coefficients := allocate root.2
    if coefficients.1 = false then (INIT_ROOT_MEM_ERR, coefficients.2)
    else
      let next_roots := allocate coefficients.2
      if next_roots.1 = false then (INIT_ROOT_MEM_ERR, next_roots.2)
      else (INIT_ROOT_OK, next_roots.2)

/-- The return code of init_root_table_element. -/
def init_root_table_element_code (allocations : List Bool) : Int × List Bool :=
  let element := allocate allocations
  if element.1 = false then (INIT_ELEMENT_MEM_ERR, element.2) else (INIT_ELEMENT_OK, element.2)

/-- The return code of init_root_table. -/
def init_root_table_code (allocations : List Bool) : Int × List Bool :=
  let table := allocate allocations
  if table.1 = false then (INIT_ROOT_TABLE_MEM_ERR, table.2) else (INIT_ROOT_TABLE_OK, table.2)

/-- The allocations of fill_scalar_product_matrix and of fill_cox_action_matrix:
the array of rows, then one row per generator; true when all are granted. -/
def allocate_table (num_generators : Nat) (allocations : List Bool) : Bool × List Bool :=
  let rows := allocate allocations
  if rows.1 = false then (false, rows.2)
  else
    (List.range num_generators).foldl
      (fun acc _ =>
        if acc.1 = false then acc
        else allocate acc.2)
      (true, rows.2)

/-- The result of a function of the enumeration that returns a code: the code,
the roots and tables, and the outcomes of the allocation requests left. -/
structure CodeResult where
  ret_code : Int
  store : RootStore
  allocations : List Bool
  deriving DecidableEq

/-- The function cox_action_on_root with its return code.  When the memo slot is
empty init_root is called first, and its failure is returned as
COX_ACTION_ON_ROOT_MEM_ERR_SUB_FUNC, with nothing written to the out-parameters;
the rest is cox_action_on_root as above. -/
def cox_action_on_root_code (matrix_data : MATRIX_DATA) (num_generators a : Nat)
    (heap : List ROOT) (root : Nat) (root_table : Option ROOT_TABLE)
    (new_root_exists : Option Bool) (allocations : List Bool) :
    Except Fault (Int × Option ActionResult × List Bool) :=
  match (root_at heap root).next_roots.getD a none with
  | some memo =>
    pure (COX_ACTION_ON_ROOT_OK,
      some { heap := heap, returned_root := memo, new_root_exists := new_root_exists },
      allocations)
  | none =>
    let ret_val := init_root_code allocations
    if ret_val.1 ≠ INIT_ROOT_OK ∧ ret_val.1 = INIT_ROOT_MEM_ERR then
      pure (COX_ACTION_ON_ROOT_MEM_ERR_SUB_FUNC, none, ret_val.2)
    else do
      let r ← cox_action_on_root matrix_data num_generators a heap root root_table new_root_exists
      pure (COX_ACTION_ON_ROOT_OK, some r, ret_val.2)

/-- The loop of generate_next_root over the generators that are left, with the
return code; recurse is the recursive call, whose return code the source does
not read. -/
def generate_next_root_code_loop (matrix_data : MATRIX_DATA) (num_generators : Nat) (root : Nat)
    (recurse : RootStore → Nat → List Bool → Except Fault CodeResult) :
    List Nat → RootStore → Option Bool → List Bool → Except Fault CodeResult
  | [], st, _, allocations =>
    pure { ret_code := GENERATE_NEXT_ROOT_OK, store := st, allocations := allocations }
  | ii :: rest, st, new_root_exists, allocations => do
    let acted ← cox_action_on_root_code matrix_data num_generators ii st.heap root
      (some st.root_table) new_root_exists allocations
    if acted.1 ≠ COX_ACTION_ON_ROOT_OK then
      if acted.1 = COX_ACTION_ON_ROOT_MEM_ERR ∨ acted.1 = COX_ACTION_ON_ROOT_MEM_ERR_SUB_FUNC then
        pure { ret_code := GENERATE_NEXT_ROOT_MEM_ERR, store := st, allocations := acted.2.2 }
      else
        pure { ret_code := GENERATE_NEXT_ROOT_UNHANDLED_ERR, store := st,
               allocations := acted.2.2 }
    else
      match acted.2.1 with
      | none => throw Fault.uninitialised_read
      | some r =>
        match r.new_root_exists with
        | none => throw Fault.uninitialised_read
        | some true =>
          generate_next_root_code_loop matrix_data num_generators root recurse rest
            { st with heap := r.heap } r.new_root_exists acted.2.2
        | some false =>
          let new_root := r.returned_root
          let element := init_root_table_element_code acted.2.2
          if element.1 ≠ INIT_ELEMENT_OK then
            if element.1 = INIT_ELEMENT_MEM_ERR then
              pure { ret_code := GENERATE_NEXT_ROOT_MEM_ERR, store := { st with heap := r.heap },
                     allocations := element.2 }
            else
              pure { ret_code := GENERATE_NEXT_ROOT_UNHANDLED_ERR,
                     store := { st with heap := r.heap }, allocations := element.2 }
          else
            let ins := insert_in_table r.heap new_root (some st.root_table) num_generators
            match matrix_data.scalar_products with
            | none => throw Fault.null_dereference
            | some scalar_products => do
              let dominance_value :=
                cox_scalar_product_root scalar_products ii (root_at r.heap new_root)
                  num_generators
              let positive ← root_positive (root_at r.heap new_root) num_generators
              let flag : Bool := positive && decide (dominance_value < 1 - EPSILON_COMP_VAL)
              let heap1 :=
                r.heap.set new_root { root_at r.heap new_root with positive_minimal := flag }
              if flag then
                let element_minimal := init_root_table_element_code element.2
                if element_minimal.1 ≠ INIT_ELEMENT_OK then
                  if element_minimal.1 = INIT_ELEMENT_MEM_ERR then
                    pure { ret_code := GENERATE_NEXT_ROOT_MEM_ERR,
                           store := { heap := heap1, root_table := ins.2,
                                      minimal_root_table := st.minimal_root_table },
                           allocations := element_minimal.2 }
                  else
                    pure { ret_code := GENERATE_NEXT_ROOT_UNHANDLED_ERR,
                           store := { heap := heap1, root_table := ins.2,
                                      minimal_root_table := st.minimal_root_table },
                           allocations := element_minimal.2 }
                else
                  let ins_minimal :=
                    insert_in_table heap1 new_root (some st.minimal_root_table) num_generators
                  -- the value returned by the recursive call is dropped
                  let deeper ← recurse
                    { heap := heap1, root_table := ins.2, minimal_root_table := ins_minimal.2 }
                    new_root element_minimal.2
                  generate_next_root_code_loop matrix_data num_generators root recurse rest
                    deeper.store r.new_root_exists deeper.allocations
              else
                generate_next_root_code_loop matrix_data num_generators root recurse rest
                  { heap := heap1, root_table := ins.2,
                    minimal_root_table := st.minimal_root_table }
                  r.new_root_exists element.2

/-- The function generate_next_root with its return code; the fuel bounds the
depth of the recursion. -/
def generate_next_root_code (matrix_data : MATRIX_DATA) (num_generators : Nat) :
    Nat → RootStore → Nat → List Bool → Except Fault CodeResult
  | 0, _, _, _ => throw Fault.out_of_fuel
  | fuel + 1, st, root, allocations =>
    generate_next_root_code_loop matrix_data num_generators root
      (generate_next_root_code matrix_data num_generators fuel)
      (List.range num_generators) st none allocations
/-- The result of generate_root_table with its return code. -/
structure TableCodeResult where
  ret_code : Int
  run : RootTableRun
  allocations : List Bool

/-- The loop of generate_root_table over the generators that are left, with the
return code.  The variable ret_val holds the code of the second
init_root_table_element when the code of generate_next_root, kept in
ret_val_next_root, is examined. -/
def generate_root_table_code_loop (num_generators fuel : Nat) :
    List Nat → RootTableRun → List Bool → Except Fault TableCodeResult
  | [], run, allocations =>
    pure { ret_code := GENERATE_ROOT_TABLE_OK, run := run, allocations := allocations }
  | ii :: rest, run, allocations =>
    let md := run.matrix_data
    let st := run.store
    let created := init_root_code allocations
    if created.1 ≠ INIT_ROOT_OK ∧ created.1 = INIT_ROOT_MEM_ERR then
      pure { ret_code := GENERATE_ROOT_TABLE_MEM_ERR, run := run, allocations := created.2 }
    else
      let simple_root : ROOT :=
        { init_root num_generators with
          coefficients := (init_root num_generators).coefficients.set ii 1 }
      match root_in_list st.heap st.minimal_root_table simple_root num_generators with
      | none =>
        let p := st.heap.length
        let heap1 := st.heap ++ [simple_root]
        let md1 := { md with simple_roots := md.simple_roots.set ii (some p) }
        let element := init_root_table_element_code created.2
        if element.1 ≠ INIT_ELEMENT_OK ∧ element.1 = INIT_ELEMENT_MEM_ERR then
          pure { ret_code := GENERATE_ROOT_TABLE_MEM_ERR,
                 run := { matrix_data := md1, store := { st with heap := heap1 } },
                 allocations := element.2 }
        else
          let ins := insert_in_table heap1 p (some st.root_table) num_generators
          let element_minimal := init_root_table_element_code element.2
          let ret_val := element_minimal.1
          if ret_val ≠ INIT_ELEMENT_OK ∧ ret_val = INIT_ELEMENT_MEM_ERR then
            pure { ret_code := GENERATE_ROOT_TABLE_MEM_ERR,
                   run := { matrix_data := md1,
                            store := { heap := heap1, root_table := ins.2,
                                       minimal_root_table := st.minimal_root_table } },
                   allocations := element_minimal.2 }
          else if ret_val = INSERT_IN_TABLE_OK then do
            let ins_minimal :=
              insert_in_table heap1 p (some st.minimal_root_table) num_generators
            let next ← generate_next_root_code md1 num_generators fuel
              { heap := heap1, root_table := ins.2, minimal_root_table := ins_minimal.2 } p
              element_minimal.2
            let ret_val_next_root := next.ret_code
            if ret_val_next_root ≠ GENERATE_NEXT_ROOT_OK ∧ ret_val = GENERATE_NEXT_ROOT_MEM_ERR then
              pure { ret_code := GENERATE_ROOT_TABLE_MEM_ERR,
                     run := { matrix_data := md1, store := next.store },
                     allocations := next.allocations }
            else
              generate_root_table_code_loop num_generators fuel rest
                { matrix_data := md1, store := next.store } next.allocations
          else if ret_val = INSERT_IN_TABLE_MEM_ERR then
            pure { ret_code := GENERATE_ROOT_TABLE_MEM_ERR,
                   run := { matrix_data := md1,
                            store := { heap := heap1, root_table := ins.2,
                                       minimal_root_table := st.minimal_root_table } },
                   allocations := element_minimal.2 }
          else
            generate_root_table_code_loop num_generators fuel rest
              { matrix_data := md1,
                store := { heap := heap1, root_table := ins.2,
                           minimal_root_table := st.minimal_root_table } }
              element_minimal.2
      | some existing_simple_root =>
        generate_root_table_code_loop num_generators fuel rest
          { matrix_data :=
              { md with simple_roots := md.simple_roots.set ii (some existing_simple_root) },
            store := st }
          created.2

/-- The function generate_root_table with its return code.  The tables of
matrix_data are allocated and filled when they are NULL, then the two root
tables are allocated; with a code other than GENERATE_ROOT_TABLE_OK the data
returned is the data reached when the function left. -/
def generate_root_table_code (cos_pi_over : Int → ℚ) (malloced_sp malloced_act : Nat → Nat → ℚ)
    (matrix_data : MATRIX_DATA) (num_generators fuel : Nat) (allocations : List Bool) :
    Except Fault TableCodeResult :=
  let empty : RootStore :=
    { heap := [], root_table := { first := [], length := 0 },
      minimal_root_table := { first := [], length := 0 } }
  let sp_allocated :=
    match matrix_data.scalar_products with
    | some _ => (true, allocations)
    | none => allocate_table num_generators allocations
  if sp_allocated.1 = false then
    pure { ret_code := GENERATE_ROOT_TABLE_MEM_ERR,
           run := { matrix_data := matrix_data, store := empty }, allocations := sp_allocated.2 }
  else
    let sp := match matrix_data.scalar_products with
      | some t => t
      | none => fill_scalar_product_matrix cos_pi_over matrix_data.coxeter_matrix malloced_sp
          num_generators
    let md_sp : MATRIX_DATA := { matrix_data with scalar_products := some sp }
    let act_allocated :=
      match matrix_data.simple_action_results with
      | some _ => (true, sp_allocated.2)
      | none => allocate_table num_generators sp_allocated.2
    if act_allocated.1 = false then
      pure { ret_code := GENERATE_ROOT_TABLE_MEM_ERR,
             run := { matrix_data := md_sp, store := empty }, allocations := act_allocated.2 }
    else
      let act := match matrix_data.simple_action_results with
        | some t => t
        | none => fill_cox_action_matrix sp malloced_act num_generators
      let md : MATRIX_DATA := { md_sp with simple_action_results := some act }
      let table := init_root_table_code act_allocated.2
      if table.1 ≠ INIT_ROOT_TABLE_OK ∧ table.1 = INIT_ROOT_TABLE_MEM_ERR then
        pure { ret_code := GENERATE_ROOT_TABLE_MEM_ERR,
               run := { matrix_data := md, store := empty }, allocations := table.2 }
      else
        let minimal_table := init_root_table_code table.2
        if minimal_table.1 ≠ INIT_ROOT_TABLE_OK ∧ minimal_table.1 = INIT_ROOT_TABLE_MEM_ERR then
          pure { ret_code := GENERATE_ROOT_TABLE_MEM_ERR,
                 run := { matrix_data := md, store := empty }, allocations := minimal_table.2 }
        else
          generate_root_table_code_loop num_generators fuel (List.range num_generators)
            { matrix_data := md, store := empty } minimal_table.2
/-- The matrix of the group with one generator. -/
def one_generator_matrix : Nat → Nat → Int := matrix_of_rows [[1]]

/-- The matrix data of the one-generator group once generate_root_table has
filled the tables and created the simple root. -/
def one_generator_matrix_data : MATRIX_DATA :=
  { coxeter_matrix := one_generator_matrix
    scalar_products :=
      some (fill_scalar_product_matrix exact_cos_pi_over one_generator_matrix (fun _ _ => 0) 1)
    simple_action_results :=
      some (fill_cox_action_matrix
        (fill_scalar_product_matrix exact_cos_pi_over one_generator_matrix (fun _ _ => 0) 1)
        (fun _ _ => 0) 1)
    simple_roots := [some 0] }

/-- The roots and tables of the one-generator group when generate_root_table
calls generate_next_root: the simple root, in both tables. -/
def one_generator_store : RootStore :=
  { heap := [simple_root 1 0], root_table := { first := [0], length := 1 },
    minimal_root_table := { first := [0], length := 1 } }

/-- The roots and tables of S_3 when generate_next_root, working on the simple
root (1, 0), calls itself on the new root (1, 1): the roots (1, 0), (-1, 0) and
(1, 1). -/
def S3_store_at_recursion : RootStore :=
  { heap :=
      [ { coefficients := [1, 0], next_roots := [some 1, some 2], positive_minimal := true },
        { coefficients := [-1, 0], next_roots := [none, none], positive_minimal := false },
        { coefficients := [1, 1], next_roots := [none, none], positive_minimal := true } ]
    root_table := { first := [1, 0, 2], length := 3 }
    minimal_root_table := { first := [0, 2], length := 2 } }

/-! ## file_input_output_matrix.c: the matrix file -/

def FILE_INPUT_ERR_NONE : Int := 0
def FILE_INPUT_ERR_OPEN : Int := 1
def FILE_INPUT_ERR_INFO_LINE : Int := 2
def FILE_INPUT_ERR_MAT_DIM : Int := 3
def FILE_INPUT_ERR_INFO_MEM : Int := 4
def FILE_INPUT_ERR_MAT_DATA : Int := 5

/-- The struct matrix_file_info. -/
structure MATRIX_FILE_INFO where
  version : Int
  width : Int
  depth : Int
  deriving DecidableEq, Repr

/-- The characters that one call of fgets stores from the characters left in the
stream: at most count of them, ending after the first newline. -/
def fgets_line : Nat → List Char → List Char
  | 0, _ => []
  | _, [] => []
  | count + 1, c :: rest => if c = '\n' then [c] else c :: fgets_line count rest

/-- The strings that successive calls of fgets with a buffer of the given size
return until the stream is at its end, where fgets returns NULL; the first
argument bounds the number of calls by the length of the stream. -/
def fgets_all (size : Nat) : Nat → List Char → List (List Char)
  | 0, _ => []
  | _, [] => []
  | calls + 1, c :: rest =>
    let line := fgets_line (size - 1) (c :: rest)
    if line = [] then []
    else line :: fgets_all size calls ((c :: rest).drop line.length)

/-- The tokens that strtok returns for a string with the delimiter string " ",
call after call: the maximal runs of characters other than the blank. -/
def strtok_all (line : List Char) : List (List Char) :=
  (line.splitOn ' ').filter (fun token => token ≠ [])

/-- The value of a digit character in the given base, if it is one. -/
def digit_value (base : Nat) (c : Char) : Option Nat :=
  let v :=
    if '0'.toNat ≤ c.toNat ∧ c.toNat ≤ '9'.toNat then some (c.toNat - '0'.toNat)
    else if 'a'.toNat ≤ c.toNat ∧ c.toNat ≤ 'z'.toNat then some (c.toNat - 'a'.toNat + 10)
    else if 'A'.toNat ≤ c.toNat ∧ c.toNat ≤ 'Z'.toNat then some (c.toNat - 'A'.toNat + 10)
    else none
  match v with
  | some d => if d < base then some d else none
  | none => none

/-- The number written by the leading digits of the string in the given base. -/
def digits_value (base : Nat) : List Char → Nat → Nat
  | [], acc => acc
  | c :: rest, acc =>
    match digit_value base c with
    | some d => digits_value base rest (acc * base + d)
    | none => acc

/-- The library function strtol with the base argument 0, for a long of 64 bits:
white space is skipped, a sign is read, the prefix 0x or 0X announces base 16 and
a leading 0 base 8, the leading digits are converted, and a value out of range
is replaced by LONG_MAX or LONG_MIN. -/
def strtol (s : List Char) : Int :=
  let s1 := s.dropWhile
    (fun c => c = ' ' ∨ c = '\t' ∨ c = '\n' ∨ c.toNat = 11 ∨ c.toNat = 12 ∨ c = '\r')
  let negative := s1.head? = some '-'
  let s2 := if s1.head? = some '-' ∨ s1.head? = some '+' then s1.drop 1 else s1
  let magnitude : Nat :=
    match s2 with
    | '0' :: x :: h :: rest =>
      if (x = 'x' ∨ x = 'X') ∧ (digit_value 16 h).isSome then digits_value 16 (h :: rest) 0
      else digits_value 8 (x :: h :: rest) 0
    | '0' :: rest => digits_value 8 rest 0
    | _ => digits_value 10 s2 0
  if negative then (if magnitude > 2 ^ 63 then -(2 ^ 63) else -(magnitude : Int))
  else (if magnitude > 2 ^ 63 - 1 then 2 ^ 63 - 1 else (magnitude : Int))

/-- The conversion of a long to int. -/
def long_to_int (v : Int) : Int :=
  (v + 2 ^ 31) % 2 ^ 32 - 2 ^ 31

/-- The loop of load_matrix_from_file that stores the tokens of a line in the row
of the matrix: the row afterwards and the variable column.  The row has width
cells, and a token past them is written past the end of the row. -/
def store_row (width : Int) : List (List Char) → List Int → Nat → Except Fault (List Int × Nat)
  | [], stored, column => pure (stored, column)
  | line_part :: rest, stored, column =>
    if (column : Int) < width then store_row width rest (stored ++ [strtol line_part]) (column + 1)
    else throw Fault.out_of_bounds

/-- The loop of load_matrix_from_file over the lines after the information line:
the return code and the rows stored. -/
def load_rows (width depth : Int) : List (List Char) → Nat → List (List Int) →
    Except Fault (Int × List (List Int))
  | [], row, matrix =>
    if (row : Int) < depth then pure (FILE_INPUT_ERR_MAT_DATA, matrix)
    else pure (FILE_INPUT_ERR_NONE, matrix)
  | line :: rest, row, matrix =>
    if (row : Int) = depth then pure (FILE_INPUT_ERR_MAT_DATA, matrix)
    else do
      let stored ← store_row width (strtok_all line) [] 0
      if (stored.2 : Int) < width then pure (FILE_INPUT_ERR_MAT_DATA, matrix ++ [stored.1])
      else load_rows width depth rest (row + 1) (matrix ++ [stored.1])

/-- The function load_matrix_from_file.  The file is the string of its
characters, none when it cannot be opened; the result is the return code, the
rows stored in the matrix and the information structure.  A request to malloc
for a negative number of cells is refused. -/
def load_matrix_from_file (file : Option (List Char)) (max_width max_depth : Int) :
    Except Fault (Int × List (List Int) × Option MATRIX_FILE_INFO) :=
  match file with
  | none => pure (FILE_INPUT_ERR_OPEN, [], none)
  | some contents =>
    match fgets_all (MAX_GENERATORS * 2 + 1) contents.length contents with
    | [] => pure (FILE_INPUT_ERR_INFO_LINE, [], none)
    | line :: data =>
      match strtok_all line with
      | version :: width :: depth :: _ =>
        let matrix_info : MATRIX_FILE_INFO :=
          { version := long_to_int (strtol version), width := strtol width,
            depth := strtol depth }
        if matrix_info.width > max_width ∨ matrix_info.depth > max_depth then
          pure (FILE_INPUT_ERR_MAT_DIM, [], some matrix_info)
        else if matrix_info.depth < 0 ∨ (0 < matrix_info.depth ∧ matrix_info.width < 0) then
          pure (FILE_INPUT_ERR_INFO_MEM, [], some matrix_info)
        else do
          let r ← load_rows matrix_info.width matrix_info.depth data 0 []
          pure (r.1, r.2, some matrix_info)
      | _ => pure (FILE_INPUT_ERR_INFO_LINE, [], none)

/-- Every cell of simple_roots that is set holds a root of the table of minimal
roots. -/
def simple_roots_minimal (run : RootTableRun) : Prop :=
  ∀ a p, run.matrix_data.simple_roots.getD a none = some p →
    p ∈ run.store.minimal_root_table.first

/-- A root of the heap all of whose memo slots are set. -/
def memo_ready (heap : List ROOT) (num_generators p : Nat) : Prop :=
  p < heap.length ∧ memo_complete heap num_generators p

/-- The heap is ready for the construction of the automaton: every memo slot
that is set holds a root of the heap, and every root of the heap whose flag
positive_minimal is set has all its memo slots set. -/
def heap_ready (heap : List ROOT) (num_generators : Nat) : Prop :=
  (∀ p a q, memo_slot heap p a = some q → q < heap.length) ∧
    ∀ p, p < heap.length → (root_at heap p).positive_minimal = true →
      memo_complete heap num_generators p

/-- What keeps the construction of the automaton on the memo slots: the heap is
the given one, every state has a root table whose roots have all their memo
slots set, and the binary tree holds states. -/
structure states_ready (heap : List ROOT) (num_generators : Nat) (am : Automaton) : Prop where
  heap_eq : am.heap = heap
  tables : ∀ v, v < am.states.length →
    ∃ t, (state_at am.states v).root_table = some t ∧
      ∀ x ∈ t.first, memo_ready heap num_generators x
  catalog : ∀ s, s ∈ binary_tree_states am.binary_tree → s < am.states.length

/-! ## The two root tables and the flag positive_minimal -/

/-- The flags positive_minimal of the roots of the heap are the same in heap1. -/
def flags_kept (heap heap1 : List ROOT) : Prop :=
  ∀ p, p < heap.length →
    (root_at heap1 p).positive_minimal = (root_at heap p).positive_minimal

/-- How the root p has come into the heap: generate_root_table has created it as
a simple root, with the flag positive_minimal set by init_root, or
generate_next_root has received it from cox_action_on_root as the new root for a
flagged root parent and a generator a, and has set its flag to the outcome of
root_positive and of the test of the scalar product with the simple root a
against 1 - EPSILON_COMP_VAL. -/
def first_produced (sp act : Nat → Nat → ℚ) (num_generators : Nat) (heap : List ROOT)
    (p : Nat) : Prop :=
  (∃ ii, ii < num_generators ∧
      (root_at heap p).coefficients = (simple_root num_generators ii).coefficients ∧
      (root_at heap p).positive_minimal = true) ∨
    (∃ parent a, parent < heap.length ∧ a < num_generators ∧
      (root_at heap parent).positive_minimal = true ∧
      memo_slot heap parent a = some p ∧
      (root_at heap p).coefficients
        = (computed_root act num_generators a (root_at heap parent)).coefficients ∧
      ((root_at heap p).positive_minimal = true ↔
        root_positive (root_at heap p) num_generators = Except.ok true ∧
          cox_scalar_product_root sp a (root_at heap p) num_generators
            < 1 - EPSILON_COMP_VAL))

/-- The table of minimal roots against the root table: every root of the table
of minimal roots is in the root table and has its flag positive_minimal set,
every root of the heap whose flag is set is in the table of minimal roots, every
root of the heap is in the root table, and every root of the heap has come into
it in one of the two ways of first_produced. -/
structure tables_consistent (sp act : Nat → Nat → ℚ) (num_generators : Nat) (st : RootStore) :
    Prop where
  minimal_registry : ∀ x ∈ st.minimal_root_table.first, x ∈ st.root_table.first
  minimal_flag : ∀ x ∈ st.minimal_root_table.first,
    (root_at st.heap x).positive_minimal = true
  flag_minimal : ∀ p, p < st.heap.length → (root_at st.heap p).positive_minimal = true →
    p ∈ st.minimal_root_table.first
  heap_registry : ∀ p, p < st.heap.length → p ∈ st.root_table.first
  origin : ∀ p, p < st.heap.length → first_produced sp act num_generators st.heap p

/-- The scalar product of two distinct simple roots is below
1 - EPSILON_COMP_VAL: at every entry m of the Coxeter matrix above the diagonal
that is not 0, the negated cosine of pi / m is.  The cosine of pi / m is not
negative for m from 2 on. -/
def scalar_products_dominated (cos_pi_over : Int → ℚ) (coxeter_matrix : Nat → Nat → Int)
    (num_generators : Nat) : Prop :=
  ∀ i j, i < j → j < num_generators → coxeter_matrix i j ≠ 0 →
    -1 * cos_pi_over (coxeter_matrix i j) < 1 - EPSILON_COMP_VAL

/-! ## The number of states of the automaton -/

/-- What the construction of the automaton needs of the outcome of the
enumeration: the coefficients are separated, the list m of the table of minimal
roots ascends, it holds every root whose flag positive_minimal is set and every
simple root, its roots have all their memo slots set, and a memo slot that is
set holds a root of the heap. -/
structure heap_tables (matrix_data : MATRIX_DATA) (num_generators : Nat) (heap : List ROOT)
    (m : List Nat) : Prop where
  separated : roots_separated heap num_generators
  ascending : List.Pairwise (roots_ascending heap num_generators) m
  flagged : ∀ p, (root_at heap p).positive_minimal = true → p ∈ m
  ready : ∀ x ∈ m, memo_ready heap num_generators x
  simple : ∀ g, g < num_generators →
    ∃ sr, matrix_data.simple_roots.getD g none = some sr ∧ sr ∈ m
  slots : ∀ p a q, memo_slot heap p a = some q → q < heap.length

/-- What holds of the states throughout the construction of the automaton over
the outcome of the enumeration: states_invariant, the binary tree is in search
order and holds no two states that compare EQUAL, the root list of every state
ascends and holds roots of the table of minimal roots, the root list of every
state but the initial one holds a simple root, and every state but the initial
one is in the binary tree. -/
structure states_within (matrix_data : MATRIX_DATA) (num_generators : Nat) (heap : List ROOT)
    (m : List Nat) (am : Automaton) : Prop where
  base : states_invariant matrix_data num_generators heap am
  bst : bst_ordered heap num_generators (state_at am.states) am.binary_tree
  unique : catalog_unique heap num_generators (state_at am.states) am.binary_tree
  lists : ∀ v, v < am.states.length →
    ∃ t, (state_at am.states v).root_table = some t ∧
      List.Chain' (roots_ascending heap num_generators) t.first ∧ ∀ x ∈ t.first, x ∈ m
  simple : ∀ v, 0 < v → v < am.states.length →
    ∃ t g sr, (state_at am.states v).root_table = some t ∧ g < num_generators ∧
      matrix_data.simple_roots.getD g none = some sr ∧ sr ∈ t.first
  count : (binary_tree_states am.binary_tree).length + 1 = am.states.length

/-! ## The arithmetic of the doubles

The definitions of this part embed the same functions once more, with the
rounding of the arithmetic as a parameter fl : ℚ → ℚ that is applied to the
result of every addition, subtraction and multiplication of doubles and to the
literal 0.00001.  With fl the identity this is the arithmetic of the
definitions above; with fl = binary64 it is the arithmetic of the doubles, as
long as no operation is contracted and nothing overflows or is subnormal. -/

/-- The power 2 ^ e as a rational, for an integer e. -/
def pow2 (e : Int) : ℚ :=
  if 0 ≤ e then ((2 ^ e.toNat : Nat) : ℚ) else 1 / ((2 ^ (-e).toNat : Nat) : ℚ)

/-- The number of halvings that bring n below 2, at most fuel of them. -/
def bit_length_loop : Nat → Nat → Nat
  | 0, _ => 0
  | fuel + 1, n => if 2 ≤ n then bit_length_loop fuel (n / 2) + 1 else 0

/-- The integer k with 2 ^ k ≤ n < 2 ^ (k + 1), for a positive natural number n. -/
def floor_log2 (n : Nat) : Nat := bit_length_loop n n

/-- The integer k with 2 ^ k ≤ x < 2 ^ (k + 1), for a positive rational x. -/
def binade (x : ℚ) : Int :=
  let k : Int := (floor_log2 x.num.natAbs : Int) - (floor_log2 x.den : Int)
  if x < pow2 k then k - 1 else k

/-- The integer nearest to x, the even one when two are nearest. -/
def round_half_even (x : ℚ) : Int :=
  let f := ⌊x⌋
  let r := x - f
  if r < 1 / 2 then f
  else if 1 / 2 < r then f + 1
  else if f % 2 = 0 then f else f + 1

/-- The double nearest to x, the one with the even significand when two are
nearest: the rounding of IEEE 754 binary64 arithmetic in its default mode, for
results in the normal range. -/
def binary64 (x : ℚ) : ℚ :=
  if x = 0 then 0
  else
    let e := binade |x| - 52
    let n := round_half_even (|x| / pow2 e)
    if x < 0 then -((n : ℚ) * pow2 e) else (n : ℚ) * pow2 e

/-- The scanning loop of compare_roots, the difference rounded by fl. -/
def compare_roots_scan_fl (fl : ℚ → ℚ) (a b : ROOT) (num_generators : Nat) : Nat → Nat → Nat
  | 0, ii => ii
  | fuel + 1, ii =>
    if ii < num_generators ∧
        |fl (a.coefficients.getD ii 0 - b.coefficients.getD ii 0)|
          < fl EPSILON_COMP_VAL then
      compare_roots_scan_fl fl a b num_generators fuel (ii + 1)
    else ii

/-- The function compare_roots, with its assert on num_generators. -/
def compare_roots_fl (fl : ℚ → ℚ) (a b : ROOT) (num_generators : Nat) : Except Fault Int :=
  -- assert(num_generators > 0)
  if ¬ 0 < num_generators then throw Fault.assertion_failed
  else
    let ii := compare_roots_scan_fl fl a b num_generators num_generators 0
    if ii = num_generators then pure COMPARE_ROOTS_EQUAL
    else if a.coefficients.getD ii 0 > b.coefficients.getD ii 0 then pure COMPARE_ROOTS_GREATER
    else pure COMPARE_ROOTS_SMALLER

/-- The non-empty branch of insert_in_table, run from the element curr. -/
def insert_in_table_walk_fl (fl : ℚ → ℚ) (heap : List ROOT) (element : Nat)
    (num_generators : Nat) : Nat → List Nat → Except Fault (Int × List Nat)
  | curr, [] => do
    let compare_val ←
      compare_roots_fl fl (root_at heap curr) (root_at heap element) num_generators
    if compare_val = 0 then pure (INSERT_IN_TABLE_ROOT_EXISTS, [curr])
    else if compare_val < 0 then pure (INSERT_IN_TABLE_OK, [curr, element])
    else pure (INSERT_IN_TABLE_OK, [element, curr])
  | curr, next :: rest1 => do
    let compare_val ←
      compare_roots_fl fl (root_at heap curr) (root_at heap element) num_generators
    if compare_val < 0 then do
      let r ← insert_in_table_walk_fl fl heap element num_generators next rest1
      pure (r.1, curr :: r.2)
    else if compare_val = 0 then pure (INSERT_IN_TABLE_ROOT_EXISTS, curr :: next :: rest1)
    else pure (INSERT_IN_TABLE_OK, element :: curr :: next :: rest1)

/-- The function insert_in_table: the return code and the table afterwards. -/
def insert_in_table_fl (fl : ℚ → ℚ) (heap : List ROOT) (element : Nat)
    (table : Option ROOT_TABLE) (num_generators : Nat) : Except Fault (Int × ROOT_TABLE) :=
  let t : ROOT_TABLE := match table with
    | some t => t
    | none => { first := [], length := 0 }
  match t.first with
  | [] => pure (INSERT_IN_TABLE_OK, { first := [element], length := t.length + 1 })
  | curr :: rest => do
    let r ← insert_in_table_walk_fl fl heap element num_generators curr rest
    if r.1 = INSERT_IN_TABLE_ROOT_EXISTS then pure (r.1, t)
    else pure (r.1, { first := r.2, length := t.length + 1 })

/-- The loop of root_in_list over the linked list: the root found, if any. -/
def root_in_list_walk_fl (fl : ℚ → ℚ) (heap : List ROOT) (root : ROOT) (num_generators : Nat) :
    List Nat → Except Fault (Option Nat)
  | [] => pure none
  | current :: rest => do
    let c ← compare_roots_fl fl (root_at heap current) root num_generators
    if c = 0 then pure (some current)
    else root_in_list_walk_fl fl heap root num_generators rest

/-- The function root_in_list. -/
def root_in_list_fl (fl : ℚ → ℚ) (heap : List ROOT) (table : ROOT_TABLE) (root : ROOT)
    (num_generators : Nat) : Except Fault (Option Nat) :=
  root_in_list_walk_fl fl heap root num_generators table.first

/-- The scanning loop of root_positive. -/
def root_positive_scan_fl (fl : ℚ → ℚ) (root : ROOT) (num_generators : Nat) : Nat → Nat → Nat
  | 0, ii => ii
  | fuel + 1, ii =>
    if ii < num_generators ∧ |root.coefficients.getD ii 0| < fl EPSILON_COMP_VAL then
      root_positive_scan_fl fl root num_generators fuel (ii + 1)
    else ii

/-- The function root_positive. -/
def root_positive_fl (fl : ℚ → ℚ) (root : ROOT) (num_generators : Nat) : Except Fault Bool :=
  let ii := root_positive_scan_fl fl root num_generators num_generators 0
  if ii < num_generators then
    if root.coefficients.getD ii 0 < fl EPSILON_COMP_VAL then pure false else pure true
  else throw Fault.out_of_bounds

/-- The function cox_scalar_product_root, with its asserts: each product and
each sum is rounded. -/
def cox_scalar_product_root_fl (fl : ℚ → ℚ) (scalar_products : Nat → Nat → ℚ) (a : Nat)
    (root : ROOT) (num_generators : Nat) : Except Fault ℚ :=
  -- assert(num_generators > 0); assert(a < num_generators)
  if ¬ 0 < num_generators then throw Fault.assertion_failed
  else if ¬ a < num_generators then throw Fault.assertion_failed
  else
    pure ((List.range num_generators).foldl
      (fun answer ii => fl (answer + fl (root.coefficients.getD ii 0 * scalar_products ii a))) 0)

/-- One pass of the coefficient loop of cox_action_on_root. -/
def cox_action_on_root_step_fl (fl : ℚ → ℚ) (simple_action_results : Nat → Nat → ℚ) (a : Nat)
    (root : ROOT) (returned : List ℚ) (ii : Nat) : List ℚ :=
  let curr_coefficient := root.coefficients.getD ii 0
  if |curr_coefficient| > fl EPSILON_COMP_VAL then
    if ii = a then returned.set ii (fl (returned.getD ii 0 - curr_coefficient))
    else
      let curr_action_val := simple_action_results ii a
      let returned1 :=
        returned.set a (fl (returned.getD a 0 + fl (curr_action_val * curr_coefficient)))
      returned1.set ii (fl (returned1.getD ii 0 + curr_coefficient))
  else returned

/-- The coefficients computed by cox_action_on_root when the memo slot is empty. -/
def cox_action_on_root_coefficients_fl (fl : ℚ → ℚ) (simple_action_results : Nat → Nat → ℚ)
    (num_generators a : Nat) (root : ROOT) : List ℚ :=
  (List.range num_generators).foldl (cox_action_on_root_step_fl fl simple_action_results a root)
    (init_root num_generators).coefficients

/-- The function cox_action_on_root, with its assert on num_generators. -/
def cox_action_on_root_fl (fl : ℚ → ℚ) (matrix_data : MATRIX_DATA) (num_generators a : Nat)
    (heap : List ROOT) (root : Nat) (root_table : Option ROOT_TABLE)
    (new_root_exists : Option Bool) : Except Fault ActionResult :=
  -- assert(num_generators > 0)
  if ¬ 0 < num_generators then throw Fault.assertion_failed
  else
    match (root_at heap root).next_roots.getD a none with
    | some memo =>
      pure { heap := heap, returned_root := memo, new_root_exists := new_root_exists }
    | none =>
      match matrix_data.simple_action_results with
      | none => throw Fault.null_dereference
      | some simple_action_results =>
        let computed : ROOT :=
          { init_root num_generators with
            coefficients :=
              cox_action_on_root_coefficients_fl fl simple_action_results num_generators a
                (root_at heap root) }
        match root_table with
        | none => throw Fault.null_dereference
        | some table => do
          let found ← root_in_list_fl fl heap table computed num_generators
          match found with
          | some existing_root =>
            let r := root_at heap root
            pure { heap := heap.set root
                     { r with next_roots := r.next_roots.set a (some existing_root) }
                   returned_root := existing_root
                   new_root_exists := some true }
          | none =>
            let fresh := heap.length
            let heap1 := heap ++ [computed]
            let r := root_at heap1 root
            pure { heap := heap1.set root { r with next_roots := r.next_roots.set a (some fresh) }
                   returned_root := fresh
                   new_root_exists := some false }

/-- The loop of cox_action_on_root_list. -/
def cox_action_on_root_list_walk_fl (fl : ℚ → ℚ) (matrix_data : MATRIX_DATA)
    (generator num_generators : Nat) :
    List ROOT → List Nat → Option ROOT_TABLE → Option Bool →
      Except Fault (List ROOT × Option ROOT_TABLE)
  | heap, [], new, _ => pure (heap, new)
  | heap, current :: rest, new, root_exists => do
    let r ← cox_action_on_root_fl fl matrix_data num_generators generator heap current none
      root_exists
    if (root_at r.heap r.returned_root).positive_minimal then do
      let ins ← insert_in_table_fl fl r.heap r.returned_root new num_generators
      cox_action_on_root_list_walk_fl fl matrix_data generator num_generators r.heap rest
        (some ins.2) r.new_root_exists
    else
      cox_action_on_root_list_walk_fl fl matrix_data generator num_generators r.heap rest
        new r.new_root_exists

/-- The function cox_action_on_root_list. -/
def cox_action_on_root_list_fl (fl : ℚ → ℚ) (matrix_data : MATRIX_DATA) (heap : List ROOT)
    (root_table : ROOT_TABLE) (new : Option ROOT_TABLE) (generator num_generators : Nat) :
    Except Fault (List ROOT × Option ROOT_TABLE) :=
  cox_action_on_root_list_walk_fl fl matrix_data generator num_generators heap root_table.first
    new none

/-- The body of the loop of generate_next_root for the generator ii; recurse is
the recursive call.  The bound of the dominance test is the double 1.0 - 0.00001. -/
def generate_next_root_body_fl (fl : ℚ → ℚ) (matrix_data : MATRIX_DATA) (num_generators : Nat)
    (root : Nat) (recurse : RootStore → Nat → Except Fault RootStore)
    (acc : RootStore × Option Bool) (ii : Nat) : Except Fault (RootStore × Option Bool) := do
  let st := acc.1
  let r ← cox_action_on_root_fl fl matrix_data num_generators ii st.heap root
    (some st.root_table) acc.2
  match r.new_root_exists with
  | none => throw Fault.uninitialised_read
  | some true => pure ({ st with heap := r.heap }, r.new_root_exists)
  | some false =>
    let new_root := r.returned_root
    let ins ← insert_in_table_fl fl r.heap new_root (some st.root_table) num_generators
    match matrix_data.scalar_products with
    | none => throw Fault.null_dereference
    | some scalar_products =>
      let dominance_value ←
        cox_scalar_product_root_fl fl scalar_products ii (root_at r.heap new_root) num_generators
      let positive ← root_positive_fl fl (root_at r.heap new_root) num_generators
      let flag : Bool := positive && decide (dominance_value < fl (1 - fl EPSILON_COMP_VAL))
      let heap1 := r.heap.set new_root { root_at r.heap new_root with positive_minimal := flag }
      if flag then do
        let ins_minimal ←
          insert_in_table_fl fl heap1 new_root (some st.minimal_root_table) num_generators
        let st1 ← recurse
          { heap := heap1, root_table := ins.2, minimal_root_table := ins_minimal.2 } new_root
        pure (st1, r.new_root_exists)
      else
        pure ({ heap := heap1, root_table := ins.2, minimal_root_table := st.minimal_root_table },
          r.new_root_exists)

/-- The function generate_next_root; the fuel bounds the depth of the recursion. -/
def generate_next_root_fl (fl : ℚ → ℚ) (matrix_data : MATRIX_DATA) (num_generators : Nat) :
    Nat → RootStore → Nat → Except Fault RootStore
  | 0, _, _ => throw Fault.out_of_fuel
  | fuel + 1, st, root => do
    let r ← (List.range num_generators).foldlM
      (generate_next_root_body_fl fl matrix_data num_generators root
        (generate_next_root_fl fl matrix_data num_generators fuel))
      (st, none)
    pure r.1

/-- The body of the loop of generate_root_table for the generator ii. -/
def generate_root_table_body_fl (fl : ℚ → ℚ) (num_generators fuel : Nat) (run : RootTableRun)
    (ii : Nat) : Except Fault RootTableRun := do
  let md := run.matrix_data
  let st := run.store
  let simple_root : ROOT :=
    { init_root num_generators with
      coefficients := (init_root num_generators).coefficients.set ii 1 }
  let found ← root_in_list_fl fl st.heap st.minimal_root_table simple_root num_generators
  match found with
  | none =>
    let p := st.heap.length
    let heap1 := st.heap ++ [simple_root]
    let md1 := { md with simple_roots := md.simple_roots.set ii (some p) }
    let ins ← insert_in_table_fl fl heap1 p (some st.root_table) num_generators
    -- ret_val, set by insert_in_table, is overwritten by init_root_table_element
    -- before the source tests it against INSERT_IN_TABLE_OK
    let ret_val := INIT_ELEMENT_OK
    if ret_val = INSERT_IN_TABLE_OK then do
      let ins_minimal ←
        insert_in_table_fl fl heap1 p (some st.minimal_root_table) num_generators
      let st1 ← generate_next_root_fl fl md1 num_generators fuel
        { heap := heap1, root_table := ins.2, minimal_root_table := ins_minimal.2 } p
      pure { matrix_data := md1, store := st1 }
    else
      pure { matrix_data := md1,
             store := { heap := heap1, root_table := ins.2,
                        minimal_root_table := st.minimal_root_table } }
  | some existing_simple_root =>
    pure { matrix_data :=
             { md with simple_roots := md.simple_roots.set ii (some existing_simple_root) },
           store := st }

/-- The function generate_root_table.  The scalar products -1.0 * cos and the
action values -2.0 * scalar product are the exact products: a product with -1.0
or with -2.0 is a double. -/
def generate_root_table_fl (fl : ℚ → ℚ) (cos_pi_over : Int → ℚ)
    (malloced_sp malloced_act : Nat → Nat → ℚ) (matrix_data : MATRIX_DATA)
    (num_generators fuel : Nat) : Except Fault RootTableRun :=
  let sp := match matrix_data.scalar_products with
    | some t => t
    | none => fill_scalar_product_matrix cos_pi_over matrix_data.coxeter_matrix malloced_sp
        num_generators
  let act := match matrix_data.simple_action_results with
    | some t => t
    | none => fill_cox_action_matrix sp malloced_act num_generators
  let md : MATRIX_DATA :=
    { matrix_data with scalar_products := some sp, simple_action_results := some act }
  (List.range num_generators).foldlM (generate_root_table_body_fl fl num_generators fuel)
    { matrix_data := md,
      store := { heap := [], root_table := { first := [], length := 0 },
                 minimal_root_table := { first := [], length := 0 } } }

/-- The comparing loop of compare_states over the two linked lists; the first
argument is the variable compare_roots_ret. -/
def compare_states_walk_fl (fl : ℚ → ℚ) (heap : List ROOT) (num_generators : Nat) :
    Int → List Nat → List Nat → Except Fault Int
  | compare_roots_ret, a :: rest_a, b :: rest_b =>
    if compare_roots_ret = COMPARE_ROOTS_EQUAL then do
      let c ← compare_roots_fl fl (root_at heap a) (root_at heap b) num_generators
      compare_states_walk_fl fl heap num_generators c rest_a rest_b
    else pure compare_roots_ret
  | compare_roots_ret, _, _ => pure compare_roots_ret

/-- The function compare_states, with its assert on num_generators. -/
def compare_states_fl (fl : ℚ → ℚ) (heap : List ROOT) (state_a state_b : AUTOMATON_STATE)
    (num_generators : Nat) : Except Fault Int :=
  -- assert(num_generators > 0)
  if ¬ 0 < num_generators then throw Fault.assertion_failed
  else
    match state_a.root_table, state_b.root_table with
    | some table_a, some table_b =>
      if table_a.length > table_b.length then pure COMPARE_STATES_GREATER
      else if table_a.length < table_b.length then pure COMPARE_STATES_SMALLER
      else do
        let compare_roots_ret ←
          compare_states_walk_fl fl heap num_generators COMPARE_ROOTS_EQUAL table_a.first
            table_b.first
        if compare_roots_ret = COMPARE_ROOTS_GREATER then pure COMPARE_STATES_GREATER
        else if compare_roots_ret = COMPARE_ROOTS_SMALLER then pure COMPARE_STATES_SMALLER
        else pure COMPARE_STATES_EQUAL
    | _, _ => throw Fault.null_dereference

/-- The function add_state_to_binary_tree. -/
def add_state_to_binary_tree_fl (fl : ℚ → ℚ) (heap : List ROOT) (states : List AUTOMATON_STATE)
    (new : Nat) (new_state : AUTOMATON_STATE) (num_generators : Nat) :
    BINARY_TREE_ELEMENT → Except Fault AddResult
  | BINARY_TREE_ELEMENT.NULL =>
    pure { ret_code := ADD_STATE_TO_BINARY_TREE_OK
           tree := BINARY_TREE_ELEMENT.node new BINARY_TREE_ELEMENT.NULL BINARY_TREE_ELEMENT.NULL
           existing := none }
  | BINARY_TREE_ELEMENT.node state left right => do
    let compare_val ← compare_states_fl fl heap new_state (state_at states state) num_generators
    if compare_val = COMPARE_STATES_SMALLER then
      let r ← add_state_to_binary_tree_fl fl heap states new new_state num_generators left
      pure { r with tree := BINARY_TREE_ELEMENT.node state r.tree right }
    else if compare_val = COMPARE_STATES_GREATER then
      let r ← add_state_to_binary_tree_fl fl heap states new new_state num_generators right
      pure { r with tree := BINARY_TREE_ELEMENT.node state left r.tree }
    else if compare_val = COMPARE_STATES_EQUAL then
      pure { ret_code := ADD_STATE_TO_BINARY_TREE_EXISTS
             tree := BINARY_TREE_ELEMENT.node state left right
             existing := some state }
    else
      pure { ret_code := ADD_STATE_TO_BINARY_TREE_COMPARE_ERR
             tree := BINARY_TREE_ELEMENT.node state left right
             existing := none }

/-- The function generate_next_automaton_state, with its asserts on
num_generators and generator; the fuel bounds the depth of the recursion. -/
def generate_next_automaton_state_fl (fl : ℚ → ℚ) (matrix_data : MATRIX_DATA)
    (num_generators : Nat) : Nat → Automaton → Nat → Nat → Except Fault Automaton
  | 0, _, _, _ => throw Fault.out_of_fuel
  | fuel + 1, am, tree_state, generator =>
    -- assert(num_generators > 0); assert(generator < num_generators)
    if ¬ 0 < num_generators then throw Fault.assertion_failed
    else if ¬ generator < num_generators then throw Fault.assertion_failed
    else
    match matrix_data.simple_roots.getD generator none with
    | none => throw Fault.null_dereference
    | some simple_root =>
      match (state_at am.states tree_state).root_table with
      | none => throw Fault.null_dereference
      | some table => do
        let found ←
          root_in_list_fl fl am.heap table (root_at am.heap simple_root) num_generators
        match found with
        | some _ =>
          pure { am with states := set_next_state am.states tree_state generator none }
        | none => do
          let acted ← cox_action_on_root_list_fl fl matrix_data am.heap table none generator
            num_generators
          let heap1 := acted.1
          let ins ← insert_in_table_fl fl heap1 simple_root acted.2 num_generators
          let new_state := successor_state num_generators ins.2
          let new := am.states.length
          let added ← add_state_to_binary_tree_fl fl heap1 am.states new new_state
            num_generators am.binary_tree
          if added.ret_code = ADD_STATE_TO_BINARY_TREE_OK then
            let am1 : Automaton :=
              { heap := heap1
                states := set_next_state (am.states ++ [new_state]) tree_state generator (some new)
                binary_tree := added.tree }
            (List.range num_generators).foldlM
              (fun am2 ii =>
                generate_next_automaton_state_fl fl matrix_data num_generators fuel am2 new ii)
              am1
          else if added.ret_code = ADD_STATE_TO_BINARY_TREE_EXISTS then
            pure { heap := heap1
                   states := set_next_state am.states tree_state generator added.existing
                   binary_tree := added.tree }
          else
            pure { heap := heap1, states := am.states, binary_tree := added.tree }

/-- The function generate_state_tree. -/
def generate_state_tree_fl (fl : ℚ → ℚ) (matrix_data : MATRIX_DATA) (num_generators : Nat)
    (heap : List ROOT) (binary_tree : BINARY_TREE_ELEMENT) (fuel : Nat) :
    Except Fault Automaton :=
  let tree_start : AUTOMATON_STATE :=
    { create_state num_generators with root_table := some { first := [], length := 0 } }
  (List.range num_generators).foldlM
    (fun am ii => generate_next_automaton_state_fl fl matrix_data num_generators fuel am 0 ii)
    { heap := heap, states := [tree_start], binary_tree := binary_tree }

/-- The whole construction in the arithmetic rounded by fl. -/
def build_automaton_fl (fl : ℚ → ℚ) (cos_pi_over : Int → ℚ) (coxeter_matrix : Nat → Nat → Int)
    (num_generators fuel : Nat) : Except Fault (RootTableRun × Automaton) := do
  let run ← generate_root_table_fl fl cos_pi_over (fun _ _ => 0) (fun _ _ => 0)
    (initial_matrix_data coxeter_matrix num_generators) num_generators fuel
  let am ← generate_state_tree_fl fl run.matrix_data num_generators run.store.heap
    BINARY_TREE_ELEMENT.NULL fuel
  pure (run, am)

/-- The doubles that cos(M_PI / m) returns at m = 1, 2 and 3: -1,
6.123233995736766e-17 and 0.5000000000000001.  The value elsewhere is not used. -/
def double_cos_pi_over (m : Int) : ℚ :=
  if m = 1 then -1
  else if m = 2 then 4967757600021511 / 81129638414606681695789005144064
  else if m = 3 then 4503599627370497 / 9007199254740992
  else 0

/-- The roots that generate_root_table leaves for the S3 matrix in the arithmetic
of the doubles.  The coefficients 4503599627370497 / 4503599627370496 and
1 / 2251799813685248 are the doubles 1.0000000000000002 and 4.440892098500626e-16. -/
def S3_double_heap : List ROOT :=
  [ { coefficients := [1, 0], next_roots := [some 1, some 2], positive_minimal := true },
    { coefficients := [-1, 0], next_roots := [none, none], positive_minimal := false },
    { coefficients := [1, 4503599627370497 / 4503599627370496],
      next_roots := [some 3, some 0], positive_minimal := true },
    { coefficients := [1 / 2251799813685248, 4503599627370497 / 4503599627370496],
      next_roots := [some 2, some 4], positive_minimal := true },
    { coefficients := [0, -4503599627370497 / 4503599627370496],
      next_roots := [none, none], positive_minimal := false } ]

/-- The root tables that generate_root_table leaves for the S3 matrix in the
arithmetic of the doubles. -/
def S3_double_store : RootStore :=
  { heap := S3_double_heap
    root_table := { first := [1, 4, 3, 0, 2], length := 5 }
    minimal_root_table := { first := [3, 0, 2], length := 3 } }

/-- The outcome of the whole construction for the S3 matrix in the arithmetic of
the doubles: the states and the binary tree are those of S3_summary. -/
def S3_double_summary : RunSummary :=
  { store := S3_double_store
    simple_roots := [some 0, some 3]
    automaton_heap := S3_double_heap
    states := S3_states
    binary_tree := S3_tree }

/-- The roots that generate_root_table leaves for the S4 matrix in the arithmetic
of the doubles.  The coefficients 4503599627370499 / 4503599627370496 and
2251799813685249 / 2251799813685248 are the doubles 1.0000000000000007 and
1.0000000000000004. -/
def S4_double_heap : List ROOT :=
  [ { coefficients := [1, 0, 0], next_roots := [some 1, some 2, some 0],
      positive_minimal := true },
    { coefficients := [-1, 0, 0], next_roots := [none, none, none],
      positive_minimal := false },
    { coefficients := [1, 4503599627370497 / 4503599627370496, 0],
      next_roots := [some 3, some 0, some 6], positive_minimal := true },
    { coefficients := [1 / 2251799813685248, 4503599627370497 / 4503599627370496, 0],
      next_roots := [some 2, some 4, some 5], positive_minimal := true },
    { coefficients := [0, -4503599627370497 / 4503599627370496, 0],
      next_roots := [none, none, none], positive_minimal := false },
    { coefficients :=
        [0, 4503599627370497 / 4503599627370496, 2251799813685249 / 2251799813685248],
      next_roots := [some 6, some 7, some 3], positive_minimal := true },
    { coefficients :=
        [4503599627370499 / 4503599627370496, 4503599627370497 / 4503599627370496,
          2251799813685249 / 2251799813685248],
      next_roots := [some 5, some 6, some 2], positive_minimal := true },
    { coefficients := [0, 1 / 2251799813685248, 2251799813685249 / 2251799813685248],
      next_roots := [some 7, some 5, some 8], positive_minimal := true },
    { coefficients := [0, 0, -2251799813685249 / 2251799813685248],
      next_roots := [none, none, none], positive_minimal := false } ]

/-- The root tables that generate_root_table leaves for the S4 matrix in the
arithmetic of the doubles. -/
def S4_double_store : RootStore :=
  { heap := S4_double_heap
    root_table := { first := [1, 4, 8, 7, 3, 5, 0, 2, 6], length := 9 }
    minimal_root_table := { first := [7, 3, 5, 0, 2, 6], length := 6 } }

/-- The outcome of the whole construction for the S4 matrix in the arithmetic of
the doubles: the states and the binary tree are those of S4_summary. -/
def S4_double_summary : RunSummary :=
  { store := S4_double_store
    simple_roots := [some 0, some 3, some 7]
    automaton_heap := S4_double_heap
    states := S4_states
    binary_tree := S4_tree }

theorem compare_roots_range (a b : ROOT) (N : Nat) :
    compare_roots a b N = 1 ∨ compare_roots a b N = 0 ∨ compare_roots a b N = -1 := by
  unfold compare_roots COMPARE_ROOTS_EQUAL COMPARE_ROOTS_GREATER COMPARE_ROOTS_SMALLER
  dsimp only
  split_ifs <;> simp

theorem compare_roots_scan_self (a : ROOT) (N : Nat) :
    ∀ fuel ii, ii + fuel = N → compare_roots_scan a a N fuel ii = N := by
  intro fuel
  induction fuel with
  | zero => intro ii h; simpa [compare_roots_scan] using h
  | succ n ih =>
    intro ii h
    have hlt : ii < N := by omega
    have heps : (0 : ℚ) < EPSILON_COMP_VAL := by unfold EPSILON_COMP_VAL; norm_num
    rw [compare_roots_scan]
    simp only [sub_self, abs_zero, heps, hlt, and_self, if_true]
    exact ih (ii + 1) (by omega)

theorem compare_roots_self (a : ROOT) (N : Nat) : compare_roots a a N = 0 := by
  unfold compare_roots
  simp [compare_roots_scan_self a N N 0 (by omega), COMPARE_ROOTS_EQUAL]

theorem compare_states_walk_of_ne_zero (heap : List ROOT) (N : Nat) (c : Int) (hc : c ≠ 0) :
    ∀ l1 l2, compare_states_walk heap N c l1 l2 = c := by
  intro l1 l2
  cases l1 with
  | nil => simp [compare_states_walk]
  | cons a ra =>
    cases l2 with
    | nil => simp [compare_states_walk]
    | cons b rb => simp [compare_states_walk, COMPARE_ROOTS_EQUAL, hc]

theorem compare_states_walk_range (heap : List ROOT) (N : Nat) :
    ∀ l1 l2 c, (c = 1 ∨ c = 0 ∨ c = -1) →
      (compare_states_walk heap N c l1 l2 = 1 ∨ compare_states_walk heap N c l1 l2 = 0 ∨
        compare_states_walk heap N c l1 l2 = -1) := by
  intro l1
  induction l1 with
  | nil => intro l2 c hc; simpa [compare_states_walk] using hc
  | cons a ra ih =>
    intro l2 c hc
    cases l2 with
    | nil => simpa [compare_states_walk] using hc
    | cons b rb =>
      rw [compare_states_walk]
      split_ifs
      · exact ih rb _ (compare_roots_range _ _ _)
      · exact hc

theorem compare_states_walk_zero (heap : List ROOT) (N : Nat) :
    ∀ l1 l2, l1.length = l2.length → compare_states_walk heap N 0 l1 l2 = 0 →
      List.Forall₂ (fun p q => compare_roots (root_at heap p) (root_at heap q) N = 0) l1 l2 := by
  intro l1
  induction l1 with
  | nil =>
    intro l2 hlen _
    cases l2 with
    | nil => exact List.Forall₂.nil
    | cons b rb => simp at hlen
  | cons a ra ih =>
    intro l2 hlen hw
    cases l2 with
    | nil => simp at hlen
    | cons b rb =>
      rw [compare_states_walk] at hw
      simp only [COMPARE_ROOTS_EQUAL, if_true] at hw
      by_cases hab : compare_roots (root_at heap a) (root_at heap b) N = 0
      · rw [hab] at hw
        exact List.Forall₂.cons hab (ih rb (by simpa using hlen) hw)
      · rw [compare_states_walk_of_ne_zero heap N _ hab] at hw
        exact absurd hw hab

theorem compare_states_walk_zero_of_forall2 (heap : List ROOT) (N : Nat) :
    ∀ l1 l2,
      List.Forall₂ (fun p q => compare_roots (root_at heap p) (root_at heap q) N = 0) l1 l2 →
      compare_states_walk heap N 0 l1 l2 = 0 := by
  intro l1 l2 h
  induction h with
  | nil => simp [compare_states_walk]
  | cons hab _ ih =>
    rw [compare_states_walk]
    simp only [COMPARE_ROOTS_EQUAL, if_true]
    rw [hab]; exact ih

theorem compare_states_ok (heap : List ROOT) (sa sb : AUTOMATON_STATE) (N : Nat) (c : Int)
    (h : compare_states heap sa sb N = Except.ok c) :
    ∃ ta tb, sa.root_table = some ta ∧ sb.root_table = some tb ∧ (c = 1 ∨ c = 0 ∨ c = -1) ∧
      (c = 0 ↔ (ta.length = tb.length ∧ compare_states_walk heap N 0 ta.first tb.first = 0)) := by
  unfold compare_states at h
  split at h
  · rename_i ta tb hta htb
    refine ⟨ta, tb, hta, htb, ?_⟩
    simp only [COMPARE_STATES_GREATER, COMPARE_STATES_SMALLER, COMPARE_STATES_EQUAL,
      COMPARE_ROOTS_EQUAL, COMPARE_ROOTS_GREATER, COMPARE_ROOTS_SMALLER, pure, Except.pure] at h
    have hr := compare_states_walk_range heap N ta.first tb.first 0 (Or.inr (Or.inl rfl))
    split_ifs at h with h1 h2 h3 h4
    · cases h; exact ⟨Or.inl rfl, by constructor <;> intro hh <;> [simp at hh; omega]⟩
    · cases h; exact ⟨Or.inr (Or.inr rfl), by constructor <;> intro hh <;> [simp at hh; omega]⟩
    · cases h
      refine ⟨Or.inl rfl, ?_⟩
      constructor
      · intro hh; simp at hh
      · intro hh; rw [h3] at hh; simp at hh
    · cases h
      refine ⟨Or.inr (Or.inr rfl), ?_⟩
      constructor
      · intro hh; simp at hh
      · intro hh; rw [h4] at hh; simp at hh
    · cases h
      refine ⟨Or.inr (Or.inl rfl), ?_⟩
      constructor
      · intro _
        refine ⟨by omega, ?_⟩
        rcases hr with hr | hr | hr
        · exact absurd hr h3
        · exact hr
        · exact absurd hr h4
      · intro _; rfl
  · cases h

theorem add_state_to_binary_tree_ok (heap : List ROOT) (states : List AUTOMATON_STATE)
    (new : Nat) (ns : AUTOMATON_STATE) (N : Nat) :
    ∀ (tree : BINARY_TREE_ELEMENT) (r : AddResult),
      add_state_to_binary_tree heap states new ns N tree = Except.ok r →
      (r.ret_code = ADD_STATE_TO_BINARY_TREE_OK ∧
          (binary_tree_states r.tree).Perm (new :: binary_tree_states tree)) ∨
        (r.ret_code = ADD_STATE_TO_BINARY_TREE_EXISTS ∧ r.tree = tree ∧
          ∃ s, r.existing = some s ∧ s ∈ binary_tree_states tree ∧
            compare_states heap ns (state_at states s) N = Except.ok 0) := by
  intro tree
  induction tree with
  | NULL =>
    intro r h
    simp only [add_state_to_binary_tree, pure, Except.pure, Except.ok.injEq] at h
    subst h
    left
    exact ⟨rfl, by simp [binary_tree_states]⟩
  | node state left right ihl ihr =>
    intro r h
    rw [add_state_to_binary_tree] at h
    simp only [bind, Except.bind] at h
    split at h
    · cases h
    · rename_i x c hc
      obtain ⟨_, _, _, _, hrange, _⟩ := compare_states_ok heap ns _ N c hc
      simp only [COMPARE_STATES_SMALLER, COMPARE_STATES_GREATER, COMPARE_STATES_EQUAL] at h
      split_ifs at h with h1 h2 h3
      · split at h
        · cases h
        · rename_i y r1 hr1
          simp only [pure, Except.pure, Except.ok.injEq] at h
          subst h
          rcases ihl r1 hr1 with ⟨hk, hp⟩ | ⟨hk, ht, s, hs, hmem, hcmp⟩
          · left
            refine ⟨hk, ?_⟩
            simp only [binary_tree_states]
            exact (hp.append_right _).trans (by simp)
          · right
            refine ⟨hk, by simp [ht], s, hs, ?_, hcmp⟩
            simp [binary_tree_states, hmem]
      · split at h
        · cases h
        · rename_i y r1 hr1
          simp only [pure, Except.pure, Except.ok.injEq] at h
          subst h
          rcases ihr r1 hr1 with ⟨hk, hp⟩ | ⟨hk, ht, s, hs, hmem, hcmp⟩
          · left
            refine ⟨hk, ?_⟩
            simp only [binary_tree_states]
            have := (hp.cons state).append_left (binary_tree_states left)
            refine this.trans ?_
            have h2 : (state :: new :: binary_tree_states right).Perm
                (new :: state :: binary_tree_states right) := List.Perm.swap _ _ _
            exact (h2.append_left _).trans (List.perm_middle)
          · right
            refine ⟨hk, by simp [ht], s, hs, ?_, hcmp⟩
            simp [binary_tree_states, hmem]
      · simp only [pure, Except.pure, Except.ok.injEq] at h
        subst h
        right
        refine ⟨rfl, rfl, state, rfl, by simp [binary_tree_states], ?_⟩
        rw [hc, h3]
      · exfalso
        rcases hrange with hh | hh | hh
        · exact h2 hh
        · exact h3 hh
        · exact h1 hh

theorem compare_roots_scan_comm (a b : ROOT) (N : Nat) :
    ∀ fuel ii, compare_roots_scan a b N fuel ii = compare_roots_scan b a N fuel ii := by
  intro fuel
  induction fuel with
  | zero => intro ii; rfl
  | succ n ih =>
    intro ii
    rw [compare_roots_scan, compare_roots_scan, abs_sub_comm, ih]

theorem compare_roots_scan_stop (a b : ROOT) (N : Nat) :
    ∀ fuel ii, ii + fuel = N → compare_roots_scan a b N fuel ii ≠ N →
      ¬ |a.coefficients.getD (compare_roots_scan a b N fuel ii) 0
          - b.coefficients.getD (compare_roots_scan a b N fuel ii) 0| < EPSILON_COMP_VAL := by
  intro fuel
  induction fuel with
  | zero => intro ii h hne; simp [compare_roots_scan] at hne; omega
  | succ n ih =>
    intro ii h hne
    rw [compare_roots_scan] at hne ⊢
    split_ifs at hne ⊢ with hc
    · exact ih (ii + 1) (by omega) hne
    · intro habs
      exact hc ⟨by omega, habs⟩

theorem compare_roots_antisymm (a b : ROOT) (N : Nat) (h : compare_roots a b N = 1) :
    compare_roots b a N = -1 := by
  unfold compare_roots at h ⊢
  simp only [COMPARE_ROOTS_EQUAL, COMPARE_ROOTS_GREATER, COMPARE_ROOTS_SMALLER] at h ⊢
  rw [compare_roots_scan_comm b a]
  by_cases h1 : compare_roots_scan a b N N 0 = N
  · simp [h1] at h
  · simp only [h1, if_false] at h ⊢
    by_cases h2 : a.coefficients.getD (compare_roots_scan a b N N 0) 0
        > b.coefficients.getD (compare_roots_scan a b N N 0) 0
    · rw [if_neg (not_lt.mpr (le_of_lt h2))]
    · rw [if_neg h2] at h
      exact absurd h (by norm_num)

theorem compare_roots_neg_iff (a b : ROOT) (N : Nat) :
    compare_roots a b N < 0 ↔ compare_roots a b N = -1 := by
  rcases compare_roots_range a b N with h | h | h <;> simp [h]

theorem compare_roots_pos_of_not (a b : ROOT) (N : Nat) (h1 : ¬ compare_roots a b N < 0)
    (h2 : ¬ compare_roots a b N = 0) : compare_roots a b N = 1 := by
  rcases compare_roots_range a b N with h | h | h
  · exact h
  · exact absurd h h2
  · rw [h] at h1; exact absurd (by norm_num) h1

/-! ## insert_in_table and the action on a root list -/

theorem insert_in_table_walk_spec (heap : List ROOT) (e N : Nat) :
    ∀ (rest : List Nat) (curr : Nat), List.Chain' (roots_ascending heap N) (curr :: rest) →
      let r := insert_in_table_walk heap e N curr rest
      (r.1 = INSERT_IN_TABLE_OK ∧ List.Chain' (roots_ascending heap N) r.2 ∧
          (∀ p, roots_ascending heap N p curr → roots_ascending heap N p e →
            List.Chain (roots_ascending heap N) p r.2) ∧
          (∀ x, x ∈ r.2 ↔ x = e ∨ x ∈ curr :: rest) ∧ r.2.length = rest.length + 2) ∨
        (r.1 = INSERT_IN_TABLE_ROOT_EXISTS ∧ r.2 = curr :: rest ∧
          ∃ x ∈ curr :: rest, roots_equal heap N x e) := by
  intro rest
  induction rest with
  | nil =>
    intro curr _
    rw [insert_in_table_walk]
    dsimp only
    split_ifs with h1 h2
    · right
      exact ⟨rfl, rfl, curr, by simp, h1⟩
    · left
      have hlt : roots_ascending heap N curr e := (compare_roots_neg_iff _ _ _).mp h2
      refine ⟨rfl, ?_, ?_, ?_, rfl⟩
      · exact List.chain'_pair.mpr hlt
      · intro p hp _
        exact List.Chain.cons hp (List.Chain.cons hlt List.Chain.nil)
      · intro x; simp [or_comm]
    · left
      have hgt : roots_ascending heap N e curr :=
        compare_roots_antisymm _ _ _ (compare_roots_pos_of_not _ _ _ h2 h1)
      refine ⟨rfl, ?_, ?_, ?_, rfl⟩
      · exact List.chain'_pair.mpr hgt
      · intro p _ hp
        exact List.Chain.cons hp (List.Chain.cons hgt List.Chain.nil)
      · intro x; simp
  | cons next rest1 ih =>
    intro curr hchain
    have hcn : roots_ascending heap N curr next := (List.chain'_cons.mp hchain).1
    have hrest : List.Chain' (roots_ascending heap N) (next :: rest1) :=
      (List.chain'_cons.mp hchain).2
    rw [insert_in_table_walk]
    dsimp only
    split_ifs with h1 h2
    · have hlt : roots_ascending heap N curr e := (compare_roots_neg_iff _ _ _).mp h1
      rcases ih next hrest with ⟨hk, hch, hp, hmem, hlen⟩ | ⟨hk, heq, x, hx, hxe⟩
      · left
        refine ⟨hk, ?_, ?_, ?_, ?_⟩
        · exact hp curr hcn hlt
        · intro p hpc _
          exact List.Chain.cons hpc (hp curr hcn hlt)
        · intro x
          simp only [List.mem_cons, hmem]
          tauto
        · simp [hlen]
      · right
        refine ⟨hk, by rw [heq], x, List.mem_cons_of_mem _ hx, hxe⟩
    · right
      exact ⟨rfl, rfl, curr, by simp, h2⟩
    · left
      have hgt : roots_ascending heap N e curr :=
        compare_roots_antisymm _ _ _ (compare_roots_pos_of_not _ _ _ h1 h2)
      refine ⟨rfl, ?_, ?_, ?_, by simp⟩
      · exact List.chain'_cons.mpr ⟨hgt, hchain⟩
      · intro p _ hp
        exact List.Chain.cons hp (List.chain'_cons.mpr ⟨hgt, hchain⟩)
      · intro x; simp

theorem insert_in_table_spec (heap : List ROOT) (e N : Nat) (table : Option ROOT_TABLE)
    (hchain : List.Chain' (roots_ascending heap N) (table_first table))
    (hwf : table_length table = (table_first table).length) :
    let r := insert_in_table heap e table N
    (r.1 = INSERT_IN_TABLE_OK ∧ List.Chain' (roots_ascending heap N) r.2.first ∧
        (∀ x, x ∈ r.2.first ↔ x = e ∨ x ∈ table_first table) ∧
        r.2.length = r.2.first.length ∧ r.2.length = table_length table + 1) ∨
      (r.1 = INSERT_IN_TABLE_ROOT_EXISTS ∧ r.2.first = table_first table ∧
        r.2.length = table_length table ∧ (∃ x ∈ table_first table, roots_equal heap N x e)) := by
  cases table with
  | none =>
    left
    simp [insert_in_table, table_first, table_length]
  | some t =>
    simp only [table_first, table_length] at hchain hwf ⊢
    unfold insert_in_table
    dsimp only
    cases hf : t.first with
    | nil =>
      left
      simp [hf] at hwf
      simp [hwf]
    | cons curr rest =>
      rw [hf] at hchain hwf
      dsimp only
      rcases insert_in_table_walk_spec heap e N rest curr hchain with
        ⟨hk, hch, _, hmem, hlen⟩ | ⟨hk, heq, x, hx, hxe⟩
      · left
        have hne : ¬ (insert_in_table_walk heap e N curr rest).1 = INSERT_IN_TABLE_ROOT_EXISTS := by
          rw [hk]; decide
        rw [if_neg hne]
        refine ⟨hk, hch, hmem, ?_, rfl⟩
        simp [hlen, hwf]
      · right
        rw [if_pos hk]
        exact ⟨hk, hf, rfl, x, hx, hxe⟩

theorem cox_action_on_root_null_table (md : MATRIX_DATA) (N a : Nat) (heap : List ROOT)
    (root : Nat) (e : Option Bool) (res : ActionResult)
    (h : cox_action_on_root md N a heap root none e = Except.ok res) :
    res = { heap := heap, returned_root := res.returned_root, new_root_exists := e } ∧
      (root_at heap root).next_roots.getD a none = some res.returned_root := by
  unfold cox_action_on_root at h
  split at h
  · rename_i memo hmemo
    simp only [pure, Except.pure, Except.ok.injEq] at h
    subst h
    exact ⟨rfl, hmemo⟩
  · split at h
    · cases h
    · cases h

theorem cox_action_on_root_list_walk_spec (md : MATRIX_DATA) (g N : Nat) (heap : List ROOT) :
    ∀ (l : List Nat) (new : Option ROOT_TABLE) (done : List Nat)
      (r : List ROOT × Option ROOT_TABLE),
      cox_action_on_root_list_walk md g N heap l new none = Except.ok r →
      List.Chain' (roots_ascending heap N) (table_first new) →
      table_length new = (table_first new).length →
      (∀ x ∈ table_first new, x ∈ done) →
      (∀ y ∈ done, ∃ x ∈ table_first new, roots_equal heap N x y) →
      r.1 = heap ∧ ∃ images,
        List.Forall₂ (fun p q => cox_action_on_root md N g heap p none none
          = Except.ok { heap := heap, returned_root := q, new_root_exists := none }) l images ∧
        List.Chain' (roots_ascending heap N) (table_first r.2) ∧
        table_length r.2 = (table_first r.2).length ∧
        (∀ x ∈ table_first r.2,
          x ∈ done ++ images.filter (fun q => (root_at heap q).positive_minimal)) ∧
        (∀ y ∈ done ++ images.filter (fun q => (root_at heap q).positive_minimal),
          ∃ x ∈ table_first r.2, roots_equal heap N x y) := by
  intro l
  induction l with
  | nil =>
    intro new done r h hch hwf hsub hcov
    simp only [cox_action_on_root_list_walk, pure, Except.pure, Except.ok.injEq] at h
    subst h
    exact ⟨rfl, [], List.Forall₂.nil, hch, hwf, by simpa using hsub, by simpa using hcov⟩
  | cons current rest ih =>
    intro new done r h hch hwf hsub hcov
    rw [cox_action_on_root_list_walk] at h
    simp only [bind, Except.bind] at h
    split at h
    · cases h
    · rename_i x res hres
      obtain ⟨hres_eq, _⟩ := cox_action_on_root_null_table md N g heap current none res hres
      have hheap : res.heap = heap := by rw [hres_eq]
      have hexists : res.new_root_exists = none := by rw [hres_eq]
      rw [hheap, hexists] at h
      have hact : cox_action_on_root md N g heap current none none
          = Except.ok { heap := heap, returned_root := res.returned_root,
                        new_root_exists := none } := by
        rw [hres]; exact congrArg Except.ok hres_eq
      split_ifs at h with hflag
      · rcases insert_in_table_spec heap res.returned_root N new hch hwf with
          ⟨_, hch1, hmem1, hwf1, _⟩ | ⟨_, hfirst, hlen, y, hy, hye⟩
        · obtain ⟨h1, images, hf, hc2, hw2, hs2, hv2⟩ :=
            ih (some (insert_in_table heap res.returned_root new N).2)
              (done ++ [res.returned_root]) r h
              (by simpa [table_first] using hch1) (by simpa [table_first, table_length] using hwf1)
              (by
                intro x hx
                simp only [table_first] at hx
                rcases (hmem1 x).mp hx with hx1 | hx1
                · simp [hx1]
                · simp [hsub x hx1])
              (by
                intro y hy
                simp only [List.mem_append, List.mem_singleton] at hy
                simp only [table_first]
                rcases hy with hy | hy
                · obtain ⟨x, hx, hxy⟩ := hcov y hy
                  exact ⟨x, (hmem1 x).mpr (Or.inr hx), hxy⟩
                · subst hy
                  exact ⟨res.returned_root, (hmem1 _).mpr (Or.inl rfl), compare_roots_self _ _⟩)
          refine ⟨h1, res.returned_root :: images, List.Forall₂.cons hact hf, hc2, hw2, ?_, ?_⟩
          · intro x hx
            have := hs2 x hx
            simp only [List.filter_cons, hflag, if_true, List.mem_append, List.mem_cons,
              List.mem_singleton, List.not_mem_nil, or_false] at this ⊢
            tauto
          · intro y hy
            apply hv2
            simp only [List.filter_cons, hflag, if_true, List.mem_append, List.mem_cons,
              List.mem_singleton, List.not_mem_nil, or_false] at hy ⊢
            tauto
        · obtain ⟨h1, images, hf, hc2, hw2, hs2, hv2⟩ :=
            ih (some (insert_in_table heap res.returned_root new N).2)
              (done ++ [res.returned_root]) r h
              (by simpa [table_first, hfirst] using hch)
              (by simp only [table_first, table_length, hfirst, hlen]; exact hwf)
              (by
                intro x hx
                simp only [table_first, hfirst] at hx
                simp [hsub x hx])
              (by
                intro z hz
                simp only [List.mem_append, List.mem_singleton] at hz
                simp only [table_first, hfirst]
                rcases hz with hz | hz
                · exact hcov z hz
                · subst hz
                  exact ⟨y, hy, hye⟩)
          refine ⟨h1, res.returned_root :: images, List.Forall₂.cons hact hf, hc2, hw2, ?_, ?_⟩
          · intro x hx
            have := hs2 x hx
            simp only [List.filter_cons, hflag, if_true, List.mem_append, List.mem_cons,
              List.mem_singleton, List.not_mem_nil, or_false] at this ⊢
            tauto
          · intro y hy
            apply hv2
            simp only [List.filter_cons, hflag, if_true, List.mem_append, List.mem_cons,
              List.mem_singleton, List.not_mem_nil, or_false] at hy ⊢
            tauto
      · obtain ⟨h1, images, hf, hc2, hw2, hs2, hv2⟩ := ih new done r h hch hwf hsub hcov
        refine ⟨h1, res.returned_root :: images, List.Forall₂.cons hact hf, hc2, hw2, ?_, ?_⟩
        · intro x hx
          have := hs2 x hx
          simpa [List.filter_cons, hflag] using this
        · intro y hy
          apply hv2
          simpa [List.filter_cons, hflag] using hy

/-! ## The induction over the depth-first construction -/

theorem generate_next_automaton_state_inv (md : MATRIX_DATA) (N fuel : Nat) (am : Automaton)
    (u g : Nat) (am1 : Automaton)
    (h : generate_next_automaton_state md N (fuel + 1) am u g = Except.ok am1) :
    ∃ sr table, md.simple_roots.getD g none = some sr ∧
      (state_at am.states u).root_table = some table ∧
      ((∃ e, root_in_list am.heap table (root_at am.heap sr) N = some e ∧
          am1 = { am with states := set_next_state am.states u g none }) ∨
        (root_in_list am.heap table (root_at am.heap sr) N = none ∧
          ∃ acted added,
            cox_action_on_root_list md am.heap table none g N = Except.ok acted ∧
            add_state_to_binary_tree acted.1 am.states am.states.length
              (successor_state N (insert_in_table acted.1 sr acted.2 N).2) N am.binary_tree
                = Except.ok added ∧
            ((added.ret_code = ADD_STATE_TO_BINARY_TREE_OK ∧
                (List.range N).foldlM
                  (fun am2 ii =>
                    generate_next_automaton_state md N fuel am2 am.states.length ii)
                  { heap := acted.1
                    states := set_next_state
                      (am.states ++ [successor_state N (insert_in_table acted.1 sr acted.2 N).2])
                      u g (some am.states.length)
                    binary_tree := added.tree } = Except.ok am1) ∨
              (added.ret_code = ADD_STATE_TO_BINARY_TREE_EXISTS ∧
                am1 = { heap := acted.1
                        states := set_next_state am.states u g added.existing
                        binary_tree := added.tree })))) := by
  rw [generate_next_automaton_state] at h
  split at h
  · cases h
  · rename_i sr hsr
    split at h
    · cases h
    · rename_i table htable
      refine ⟨sr, table, hsr, htable, ?_⟩
      split at h
      · rename_i e he
        left
        simp only [pure, Except.pure, Except.ok.injEq] at h
        exact ⟨e, he, h.symm⟩
      · rename_i he
        right
        refine ⟨he, ?_⟩
        simp only [bind, Except.bind] at h
        split at h
        · cases h
        · rename_i x acted hacted
          split at h
          · cases h
          · rename_i y added hadded
            refine ⟨acted, added, hacted, hadded, ?_⟩
            rcases add_state_to_binary_tree_ok _ _ _ _ _ _ _ hadded with ⟨hk, _⟩ | ⟨hk, _⟩
            · left
              rw [if_pos hk] at h
              exact ⟨hk, h⟩
            · right
              have hne : ¬ added.ret_code = ADD_STATE_TO_BINARY_TREE_OK := by
                rw [hk]; decide
              rw [if_neg hne, if_pos hk] at h
              simp only [pure, Except.pure, Except.ok.injEq] at h
              exact ⟨hk, h.symm⟩

theorem set_next_state_length (states : List AUTOMATON_STATE) (u g : Nat) (t : Option Nat) :
    (set_next_state states u g t).length = states.length := by
  simp [set_next_state]

/-- The loop of generate_next_automaton_state over the generators of one state,
given what one call achieves. -/
theorem generate_next_automaton_state_loop (md : MATRIX_DATA) (N : Nat)
    (P : Automaton → Prop) (Q : Automaton → Nat → Nat → Prop) (fuel k : Nat)
    (hstep : ∀ (am : Automaton) (g : Nat) (am1 : Automaton),
      generate_next_automaton_state md N fuel am k g = Except.ok am1 →
      P am → k < am.states.length → g < N →
      P am1 ∧ am.states.length ≤ am1.states.length ∧ Q am1 k g ∧
        (∀ v b, Q am v b → Q am1 v b) ∧
        (∀ v, am.states.length ≤ v → v < am1.states.length → ∀ b, b < N → Q am1 v b)) :
    ∀ (l : List Nat) (amA amB : Automaton),
      l.foldlM (fun am2 ii => generate_next_automaton_state md N fuel am2 k ii) amA
        = Except.ok amB →
      (∀ b ∈ l, b < N) → P amA → k < amA.states.length →
      P amB ∧ amA.states.length ≤ amB.states.length ∧
        (∀ b ∈ l, Q amB k b) ∧ (∀ v b, Q amA v b → Q amB v b) ∧
        (∀ v, amA.states.length ≤ v → v < amB.states.length → ∀ b, b < N → Q amB v b) := by
  intro l
  induction l with
  | nil =>
    intro amA amB hf _ hPA _
    simp only [List.foldlM, pure, Except.pure, Except.ok.injEq] at hf
    subst hf
    exact ⟨hPA, le_refl _, by simp, fun _ _ hq => hq, fun v h1 h2 => by omega⟩
  | cons b rest ihl =>
    intro amA amB hf hl hPA hlen
    rw [List.foldlM_cons] at hf
    simp only [bind, Except.bind] at hf
    split at hf
    · cases hf
    · rename_i x amC hC
      obtain ⟨c1, c2, c3, c4, c5⟩ := hstep amA b amC hC hPA hlen (hl b (by simp))
      obtain ⟨d1, d2, d3, d4, d5⟩ :=
        ihl amC amB hf (fun b1 hb1 => hl b1 (by simp [hb1])) c1 (by omega)
      refine ⟨d1, by omega, ?_, fun v b1 hq => d4 v b1 (c4 v b1 hq), ?_⟩
      · intro b1 hb1
        simp only [List.mem_cons] at hb1
        rcases hb1 with hb1 | hb1
        · subst hb1; exact d4 _ _ c3
        · exact d3 b1 hb1
      · intro v hv1 hv2 b1 hb1
        by_cases hvC : v < amC.states.length
        · exact d4 _ _ (c5 v hv1 hvC b1 hb1)
        · exact d5 v (by omega) hv2 b1 hb1

/-- The induction over the depth-first construction.  P is kept by each of the
three ways in which generate_next_automaton_state writes a transition; Q u g,
which each write establishes for the transition written and no write destroys,
then holds of the transition asked for and of every transition of every state
created on the way. -/
theorem generate_next_automaton_state_induction (md : MATRIX_DATA) (N : Nat)
    (P : Automaton → Prop) (Q : Automaton → Nat → Nat → Prop)
    (h_reject : ∀ am u g sr table e, P am → u < am.states.length → g < N →
      md.simple_roots.getD g none = some sr →
      (state_at am.states u).root_table = some table →
      root_in_list am.heap table (root_at am.heap sr) N = some e →
      ∀ am1, am1 = { am with states := set_next_state am.states u g none } →
      P am1 ∧ Q am1 u g ∧ ∀ v b, Q am v b → Q am1 v b)
    (h_new : ∀ am u g sr table acted added, P am → u < am.states.length → g < N →
      md.simple_roots.getD g none = some sr →
      (state_at am.states u).root_table = some table →
      root_in_list am.heap table (root_at am.heap sr) N = none →
      cox_action_on_root_list md am.heap table none g N = Except.ok acted →
      add_state_to_binary_tree acted.1 am.states am.states.length
        (successor_state N (insert_in_table acted.1 sr acted.2 N).2) N am.binary_tree
          = Except.ok added →
      added.ret_code = ADD_STATE_TO_BINARY_TREE_OK →
      ∀ am1, am1 = { heap := acted.1
                     states := set_next_state
                       (am.states ++ [successor_state N (insert_in_table acted.1 sr acted.2 N).2])
                       u g (some am.states.length)
                     binary_tree := added.tree } →
      P am1 ∧ Q am1 u g ∧ ∀ v b, Q am v b → Q am1 v b)
    (h_exists : ∀ am u g sr table acted added, P am → u < am.states.length → g < N →
      md.simple_roots.getD g none = some sr →
      (state_at am.states u).root_table = some table →
      root_in_list am.heap table (root_at am.heap sr) N = none →
      cox_action_on_root_list md am.heap table none g N = Except.ok acted →
      add_state_to_binary_tree acted.1 am.states am.states.length
        (successor_state N (insert_in_table acted.1 sr acted.2 N).2) N am.binary_tree
          = Except.ok added →
      added.ret_code = ADD_STATE_TO_BINARY_TREE_EXISTS →
      ∀ am1, am1 = { heap := acted.1
                     states := set_next_state am.states u g added.existing
                     binary_tree := added.tree } →
      P am1 ∧ Q am1 u g ∧ ∀ v b, Q am v b → Q am1 v b) :
    ∀ (fuel : Nat) (am : Automaton) (u g : Nat) (am1 : Automaton),
      generate_next_automaton_state md N fuel am u g = Except.ok am1 →
      P am → u < am.states.length → g < N →
      P am1 ∧ am.states.length ≤ am1.states.length ∧ Q am1 u g ∧
        (∀ v b, Q am v b → Q am1 v b) ∧
        (∀ v, am.states.length ≤ v → v < am1.states.length → ∀ b, b < N → Q am1 v b) := by
  intro fuel
  induction fuel with
  | zero => intro am u g am1 h; simp [generate_next_automaton_state] at h
  | succ n ih =>
    intro am u g am1 h hP hu hg
    obtain ⟨sr, table, hsr, htable, hcase⟩ := generate_next_automaton_state_inv md N n am u g am1 h
    rcases hcase with ⟨e, he, hEq⟩ | ⟨he, acted, added, hacted, hadded, hcase2⟩
    · obtain ⟨h1, h2, h3⟩ := h_reject am u g sr table e hP hu hg hsr htable he am1 hEq
      refine ⟨h1, ?_, h2, h3, ?_⟩
      · rw [hEq]; simp [set_next_state_length]
      · intro v hv1 hv2
        rw [hEq] at hv2
        simp only [set_next_state_length] at hv2
        omega
    · rcases hcase2 with ⟨hk, hfold⟩ | ⟨hk, hEq⟩
      · obtain ⟨h1, h2, h3⟩ :=
          h_new am u g sr table acted added hP hu hg hsr htable he hacted hadded hk _ rfl
        have hlen1 : ({ heap := acted.1
                        states := set_next_state
                          (am.states ++ [successor_state N (insert_in_table acted.1 sr acted.2 N).2])
                          u g (some am.states.length)
                        binary_tree := added.tree } : Automaton).states.length
            = am.states.length + 1 := by
          simp [set_next_state_length]
        obtain ⟨e1, e2, e3, e4, e5⟩ :=
          generate_next_automaton_state_loop md N P Q n am.states.length
            (fun am0 g0 am2 hrun hP0 hk0 hg0 => ih am0 am.states.length g0 am2 hrun hP0 hk0 hg0)
            (List.range N) _ am1 hfold (fun b hb => List.mem_range.mp hb) h1
            (by rw [hlen1]; omega)
        rw [hlen1] at e2 e5
        refine ⟨e1, by omega, e4 _ _ h2, fun v b hq => e4 v b (h3 v b hq), ?_⟩
        intro v hv1 hv2 b hb
        by_cases hv : v = am.states.length
        · subst hv; exact e3 b (List.mem_range.mpr hb)
        · exact e5 v (by omega) hv2 b hb
      · obtain ⟨h1, h2, h3⟩ :=
          h_exists am u g sr table acted added hP hu hg hsr htable he hacted hadded hk am1 hEq
        refine ⟨h1, ?_, h2, h3, ?_⟩
        · rw [hEq]; simp [set_next_state_length]
        · intro v hv1 hv2
          rw [hEq] at hv2
          simp only [set_next_state_length] at hv2
          omega

theorem state_at_of_lt (states : List AUTOMATON_STATE) (v : Nat) (h : v < states.length) :
    state_at states v = states[v] := by
  simp [state_at, List.getD_eq_getElem?_getD, h]

theorem state_at_set_next_state_ne (states : List AUTOMATON_STATE) (u g v : Nat)
    (t : Option Nat) (h : v ≠ u) :
    state_at (set_next_state states u g t) v = state_at states v := by
  simp only [state_at, set_next_state, List.getD_eq_getElem?_getD]
  rw [List.getElem?_set_ne (Ne.symm h)]

theorem state_at_set_next_state_eq (states : List AUTOMATON_STATE) (u g : Nat)
    (t : Option Nat) (h : u < states.length) :
    state_at (set_next_state states u g t) u
      = { state_at states u with
          next_states := (state_at states u).next_states.set g t } := by
  simp only [state_at, set_next_state, List.getD_eq_getElem?_getD]
  rw [List.getElem?_set_self (by simpa using h)]
  simp [h]

theorem state_at_append_lt (states : List AUTOMATON_STATE) (x : AUTOMATON_STATE) (v : Nat)
    (h : v < states.length) : state_at (states ++ [x]) v = state_at states v := by
  simp only [state_at, List.getD_eq_getElem?_getD]
  rw [List.getElem?_append_left h]

theorem state_at_append_eq (states : List AUTOMATON_STATE) (x : AUTOMATON_STATE) :
    state_at (states ++ [x]) states.length = x := by
  simp [state_at, List.getD_eq_getElem?_getD]

theorem state_at_root_table_set_next_state (states : List AUTOMATON_STATE) (u g v : Nat)
    (t : Option Nat) :
    (state_at (set_next_state states u g t) v).root_table = (state_at states v).root_table := by
  by_cases h : v = u
  · subst h
    by_cases hlt : v < states.length
    · rw [state_at_set_next_state_eq _ _ _ _ hlt]
    · simp only [state_at, set_next_state, List.getD_eq_getElem?_getD]
      rw [List.getElem?_eq_none (by simpa using hlt), List.getElem?_eq_none (by simpa using hlt)]
  · rw [state_at_set_next_state_ne _ _ _ _ _ h]

theorem getD_set_slot (l : List (Option Nat)) (g b : Nat) (t : Option Nat) :
    (l.set g t).getD b none = if b = g ∧ g < l.length then t else l.getD b none := by
  simp only [List.getD_eq_getElem?_getD]
  by_cases h : b = g
  · subst h
    by_cases hlt : b < l.length
    · simp [hlt]
    · have h1 : (l.set b t)[b]? = none := List.getElem?_eq_none (by simpa using hlt)
      have h2 : l[b]? = none := List.getElem?_eq_none (by simpa using hlt)
      simp [hlt, h1, h2]
  · rw [List.getElem?_set_ne (Ne.symm h)]
    simp [h]

theorem successor_root_list_spec (md : MATRIX_DATA) (N g sr : Nat) (heap : List ROOT)
    (table : ROOT_TABLE) (acted : List ROOT × Option ROOT_TABLE)
    (h : cox_action_on_root_list md heap table none g N = Except.ok acted) :
    acted.1 = heap ∧
      (insert_in_table heap sr acted.2 N).2.length
        = (insert_in_table heap sr acted.2 N).2.first.length ∧
      ∃ images,
        List.Forall₂ (fun p q => cox_action_on_root md N g heap p none none
          = Except.ok { heap := heap, returned_root := q, new_root_exists := none })
          table.first images ∧
        sorted_duplicate_free heap N (insert_in_table heap sr acted.2 N).2.first
          (images.filter (fun q => (root_at heap q).positive_minimal) ++ [sr]) := by
  unfold cox_action_on_root_list at h
  obtain ⟨h1, images, hf, hch, hwf, hsub, hcov⟩ :=
    cox_action_on_root_list_walk_spec md g N heap table.first none [] acted h
      (by simp [table_first]) (by simp [table_first, table_length]) (by simp [table_first])
      (by simp)
  simp only [List.nil_append] at hsub hcov
  refine ⟨h1, ?_⟩
  rcases insert_in_table_spec heap sr N acted.2 hch hwf with
    ⟨_, hch1, hmem1, hwf1, _⟩ | ⟨_, hfirst, hlen, y, hy, hye⟩
  · refine ⟨hwf1, images, hf, hch1, ?_, ?_⟩
    · intro x hx
      rcases (hmem1 x).mp hx with hx1 | hx1
      · simp [hx1]
      · simp [hsub x hx1]
    · intro z hz
      simp only [List.mem_append, List.mem_singleton] at hz
      rcases hz with hz | hz
      · obtain ⟨x, hx, hxz⟩ := hcov z hz
        exact ⟨x, (hmem1 x).mpr (Or.inr hx), hxz⟩
      · subst hz
        exact ⟨z, (hmem1 z).mpr (Or.inl rfl), compare_roots_self _ _⟩
  · refine ⟨by rw [hlen, hfirst]; exact hwf, images, hf, by rw [hfirst]; exact hch, ?_, ?_⟩
    · intro x hx
      rw [hfirst] at hx
      simp [hsub x hx]
    · intro z hz
      simp only [List.mem_append, List.mem_singleton] at hz
      rw [hfirst]
      rcases hz with hz | hz
      · exact hcov z hz
      · subst hz
        exact ⟨y, hy, hye⟩

theorem reject_correct_set_next_state (md : MATRIX_DATA) (N : Nat) (heap : List ROOT)
    (states : List AUTOMATON_STATE) (tree tree1 : BINARY_TREE_ELEMENT) (u g : Nat)
    (t : Option Nat) (v b : Nat)
    (hq : reject_correct md N { heap := heap, states := states, binary_tree := tree } v b)
    (hne : ¬ (v = u ∧ b = g)) :
    reject_correct md N
      { heap := heap, states := set_next_state states u g t, binary_tree := tree1 } v b := by
  obtain ⟨table, sr, h1, h2, h3⟩ := hq
  refine ⟨table, sr, ?_, h2, ?_⟩
  · simpa [state_at_root_table_set_next_state] using h1
  · dsimp only at h1 h3 ⊢
    by_cases hv : v = u
    · subst hv
      by_cases hlt : v < states.length
      · rw [state_at_set_next_state_eq _ _ _ _ hlt]
        dsimp only
        rw [getD_set_slot]
        have hb : ¬ (b = g ∧ g < (state_at states v).next_states.length) := by
          intro hh; exact hne ⟨rfl, hh.1⟩
        rw [if_neg hb]
        exact h3
      · have : state_at (set_next_state states v g t) v = state_at states v := by
          simp only [state_at, set_next_state, List.getD_eq_getElem?_getD]
          rw [List.getElem?_eq_none (by simpa using hlt),
            List.getElem?_eq_none (by simpa using hlt)]
        rw [this]; exact h3
    · rw [state_at_set_next_state_ne _ _ _ _ _ hv]
      exact h3

theorem states_invariant_link (md : MATRIX_DATA) (N : Nat) (H : List ROOT)
    (states : List AUTOMATON_STATE) (tree tree1 : BINARY_TREE_ELEMENT) (u g : Nat)
    (t : Option Nat)
    (hinv : states_invariant md N H { heap := H, states := states, binary_tree := tree })
    (hu : u < states.length) (hg : g < N)
    (htarget : ∀ w, t = some w → w < states.length ∧
      ∃ tu tv, (state_at states u).root_table = some tu ∧
        (state_at states w).root_table = some tv ∧ successor_tables md N H tu g tv)
    (htree : ∀ s, s ∈ binary_tree_states tree1 → s < states.length)
    (hQ : ∃ table sr, (state_at states u).root_table = some table ∧
      md.simple_roots.getD g none = some sr ∧
      (t = none ↔ (root_in_list H table (root_at H sr) N).isSome = true)) :
    states_invariant md N H
        { heap := H, states := set_next_state states u g t, binary_tree := tree1 } ∧
      reject_correct md N
        { heap := H, states := set_next_state states u g t, binary_tree := tree1 } u g ∧
      ∀ v b, reject_correct md N { heap := H, states := states, binary_tree := tree } v b →
        reject_correct md N
          { heap := H, states := set_next_state states u g t, binary_tree := tree1 } v b := by
  have hslot : g < (state_at states u).next_states.length := by
    rw [hinv.slots u hu]; exact hg
  have hQ1 : reject_correct md N
      { heap := H, states := set_next_state states u g t, binary_tree := tree1 } u g := by
    obtain ⟨table, sr, h1, h2, h3⟩ := hQ
    refine ⟨table, sr, ?_, h2, ?_⟩
    · simpa [state_at_root_table_set_next_state] using h1
    · dsimp only
      rw [state_at_set_next_state_eq _ _ _ _ hu]
      dsimp only
      rw [getD_set_slot, if_pos ⟨rfl, hslot⟩]
      exact h3
  refine ⟨?_, hQ1, ?_⟩
  · constructor
    · rfl
    · intro v hv
      simp only [set_next_state_length] at hv
      obtain ⟨tb, h1, h2⟩ := hinv.tables v hv
      exact ⟨tb, by simpa [state_at_root_table_set_next_state] using h1, h2⟩
    · intro v hv
      simp only [set_next_state_length] at hv
      have := hinv.slots v hv
      dsimp only at this ⊢
      by_cases hvu : v = u
      · subst hvu
        rw [state_at_set_next_state_eq _ _ _ _ hu]
        simpa using this
      · rw [state_at_set_next_state_ne _ _ _ _ _ hvu]; exact this
    · intro v a w hv hnext
      simp only [set_next_state_length] at hv ⊢
      dsimp only at hnext
      have hold : ∀ w, (state_at states v).next_states.getD a none = some w →
          w < states.length ∧ ∃ tu tv,
            (state_at (set_next_state states u g t) v).root_table = some tu ∧
            (state_at (set_next_state states u g t) w).root_table = some tv ∧
            successor_tables md N H tu a tv := by
        intro w hw
        obtain ⟨k1, tu, tv, k2, k3, k4⟩ := hinv.edges v a w hv hw
        exact ⟨k1, tu, tv, by simpa [state_at_root_table_set_next_state] using k2,
          by simpa [state_at_root_table_set_next_state] using k3, k4⟩
      by_cases hvu : v = u
      · subst hvu
        rw [state_at_set_next_state_eq _ _ _ _ hu] at hnext
        dsimp only at hnext
        rw [getD_set_slot] at hnext
        split_ifs at hnext with hc
        · obtain ⟨k1, tu, tv, k2, k3, k4⟩ := htarget w hnext
          rw [hc.1]
          exact ⟨k1, tu, tv, by simpa [state_at_root_table_set_next_state] using k2,
            by simpa [state_at_root_table_set_next_state] using k3, k4⟩
        · exact hold w hnext
      · rw [state_at_set_next_state_ne _ _ _ _ _ hvu] at hnext
        exact hold w hnext
    · intro s hs
      simp only [set_next_state_length]
      exact htree s hs
  · intro v b hq
    by_cases hc : v = u ∧ b = g
    · rw [hc.1, hc.2]; exact hQ1
    · exact reject_correct_set_next_state md N H states tree tree1 u g t v b hq hc

theorem states_invariant_append (md : MATRIX_DATA) (N : Nat) (H : List ROOT)
    (states : List AUTOMATON_STATE) (tree tree1 : BINARY_TREE_ELEMENT) (table : ROOT_TABLE)
    (hinv : states_invariant md N H { heap := H, states := states, binary_tree := tree })
    (hwf : table.length = table.first.length)
    (htree : ∀ s, s ∈ binary_tree_states tree1 → s < states.length + 1) :
    states_invariant md N H
        { heap := H, states := states ++ [successor_state N table], binary_tree := tree1 } ∧
      ∀ v b, reject_correct md N { heap := H, states := states, binary_tree := tree } v b →
        reject_correct md N
          { heap := H, states := states ++ [successor_state N table], binary_tree := tree1 }
          v b := by
  constructor
  · constructor
    · rfl
    · intro v hv
      simp only [List.length_append, List.length_singleton] at hv
      by_cases hlt : v < states.length
      · rw [state_at_append_lt _ _ _ hlt]; exact hinv.tables v hlt
      · have : v = states.length := by omega
        subst this
        rw [state_at_append_eq]
        exact ⟨table, rfl, hwf⟩
    · intro v hv
      simp only [List.length_append, List.length_singleton] at hv
      by_cases hlt : v < states.length
      · rw [state_at_append_lt _ _ _ hlt]; exact hinv.slots v hlt
      · have : v = states.length := by omega
        subst this
        rw [state_at_append_eq]
        simp [successor_state, create_state]
    · intro v a w hv hnext
      simp only [List.length_append, List.length_singleton] at hv ⊢
      dsimp only at hnext
      by_cases hlt : v < states.length
      · rw [state_at_append_lt _ _ _ hlt] at hnext
        obtain ⟨k1, tu, tv, k2, k3, k4⟩ := hinv.edges v a w hlt hnext
        have k1 : w < states.length := k1
        refine ⟨by omega, tu, tv, ?_, ?_, k4⟩
        · rw [state_at_append_lt _ _ _ hlt]; exact k2
        · rw [state_at_append_lt _ _ _ k1]; exact k3
      · have : v = states.length := by omega
        subst this
        rw [state_at_append_eq] at hnext
        simp [successor_state, create_state, List.getD_eq_getElem?_getD,
          List.getElem?_replicate] at hnext
        split_ifs at hnext <;> simp at hnext
    · intro s hs
      simp only [List.length_append, List.length_singleton]
      exact htree s hs
  · intro v b hq
    obtain ⟨tb, sr, h1, h2, h3⟩ := hq
    dsimp only at h1 h3
    have hlt : v < states.length := by
      by_contra hge
      have : state_at states v = { next_states := [], root_table := none } := by
        simp only [state_at, List.getD_eq_getElem?_getD]
        rw [List.getElem?_eq_none (by omega)]
        rfl
      rw [this] at h1
      cases h1
    refine ⟨tb, sr, ?_, h2, ?_⟩
    · dsimp only; rw [state_at_append_lt _ _ _ hlt]; exact h1
    · dsimp only; rw [state_at_append_lt _ _ _ hlt]; exact h3

theorem states_step_reject (md : MATRIX_DATA) (N : Nat) (H : List ROOT)
    (am : Automaton) (u g sr : Nat) (table : ROOT_TABLE) (e : Nat)
    (hP : states_invariant md N H am) (hu : u < am.states.length) (hg : g < N)
    (hsr : md.simple_roots.getD g none = some sr)
    (htable : (state_at am.states u).root_table = some table)
    (he : root_in_list am.heap table (root_at am.heap sr) N = some e)
    (am1 : Automaton) (hEq : am1 = { am with states := set_next_state am.states u g none }) :
    states_invariant md N H am1 ∧ reject_correct md N am1 u g ∧
      ∀ v b, reject_correct md N am v b → reject_correct md N am1 v b := by
  obtain ⟨heap, states, tree⟩ := am
  have hh : heap = H := hP.heap_eq
  subst hh
  subst hEq
  exact states_invariant_link md N heap states tree tree u g none hP hu hg
    (by intro w hw; cases hw) hP.catalog ⟨table, sr, htable, hsr, by simp [he]⟩

theorem states_step_new (md : MATRIX_DATA) (N : Nat) (H : List ROOT)
    (am : Automaton) (u g sr : Nat) (table : ROOT_TABLE)
    (acted : List ROOT × Option ROOT_TABLE) (added : AddResult)
    (hP : states_invariant md N H am) (hu : u < am.states.length) (hg : g < N)
    (hsr : md.simple_roots.getD g none = some sr)
    (htable : (state_at am.states u).root_table = some table)
    (he : root_in_list am.heap table (root_at am.heap sr) N = none)
    (hacted : cox_action_on_root_list md am.heap table none g N = Except.ok acted)
    (hadded : add_state_to_binary_tree acted.1 am.states am.states.length
      (successor_state N (insert_in_table acted.1 sr acted.2 N).2) N am.binary_tree
        = Except.ok added)
    (hk : added.ret_code = ADD_STATE_TO_BINARY_TREE_OK)
    (am1 : Automaton)
    (hEq : am1 = { heap := acted.1
                   states := set_next_state
                     (am.states ++ [successor_state N (insert_in_table acted.1 sr acted.2 N).2])
                     u g (some am.states.length)
                   binary_tree := added.tree }) :
    states_invariant md N H am1 ∧ reject_correct md N am1 u g ∧
      ∀ v b, reject_correct md N am v b → reject_correct md N am1 v b := by
  obtain ⟨heap, states, tree⟩ := am
  have hh : heap = H := hP.heap_eq
  subst hh
  dsimp only at hu htable he hacted hadded hEq
  obtain ⟨h1, hwf, images, hf, hsdf⟩ := successor_root_list_spec md N g sr heap table acted hacted
  rw [h1] at hadded hEq
  subst hEq
  have hperm : (binary_tree_states added.tree).Perm (states.length :: binary_tree_states tree) := by
    rcases add_state_to_binary_tree_ok _ _ _ _ _ _ _ hadded with ⟨_, hp⟩ | ⟨hk2, _⟩
    · exact hp
    · rw [hk] at hk2; exact absurd hk2 (by decide)
  have htree : ∀ s, s ∈ binary_tree_states added.tree → s < states.length + 1 := by
    intro s hs
    have := hperm.mem_iff.mp hs
    simp only [List.mem_cons] at this
    rcases this with hs1 | hs1
    · omega
    · have := hP.catalog s hs1
      have : s < states.length := this
      omega
  obtain ⟨a1, a2⟩ := states_invariant_append md N heap states tree added.tree
    (insert_in_table heap sr acted.2 N).2 hP hwf htree
  have hlen : (states ++ [successor_state N (insert_in_table heap sr acted.2 N).2]).length
      = states.length + 1 := by simp
  obtain ⟨b1, b2, b3⟩ := states_invariant_link md N heap
    (states ++ [successor_state N (insert_in_table heap sr acted.2 N).2]) added.tree added.tree
    u g (some states.length) a1 (by rw [hlen]; omega) hg
    (by
      intro w hw
      simp only [Option.some.injEq] at hw
      subst hw
      refine ⟨by rw [hlen]; omega, table, (insert_in_table heap sr acted.2 N).2, ?_, ?_, ?_⟩
      · rw [state_at_append_lt _ _ _ hu]; exact htable
      · rw [state_at_append_eq]; rfl
      · refine ⟨sr, images, _, hsr, hf, hsdf, hwf, ?_⟩
        exact List.forall₂_same.mpr (fun x _ => compare_roots_self _ _))
    (by intro s hs; rw [hlen]; exact htree s hs)
    ⟨table, sr, by rw [state_at_append_lt _ _ _ hu]; exact htable, hsr, by simp [he]⟩
  exact ⟨b1, b2, fun v b hq => b3 v b (a2 v b hq)⟩

theorem states_step_exists (md : MATRIX_DATA) (N : Nat) (H : List ROOT)
    (am : Automaton) (u g sr : Nat) (table : ROOT_TABLE)
    (acted : List ROOT × Option ROOT_TABLE) (added : AddResult)
    (hP : states_invariant md N H am) (hu : u < am.states.length) (hg : g < N)
    (hsr : md.simple_roots.getD g none = some sr)
    (htable : (state_at am.states u).root_table = some table)
    (he : root_in_list am.heap table (root_at am.heap sr) N = none)
    (hacted : cox_action_on_root_list md am.heap table none g N = Except.ok acted)
    (hadded : add_state_to_binary_tree acted.1 am.states am.states.length
      (successor_state N (insert_in_table acted.1 sr acted.2 N).2) N am.binary_tree
        = Except.ok added)
    (hk : added.ret_code = ADD_STATE_TO_BINARY_TREE_EXISTS)
    (am1 : Automaton)
    (hEq : am1 = { heap := acted.1
                   states := set_next_state am.states u g added.existing
                   binary_tree := added.tree }) :
    states_invariant md N H am1 ∧ reject_correct md N am1 u g ∧
      ∀ v b, reject_correct md N am v b → reject_correct md N am1 v b := by
  obtain ⟨heap, states, tree⟩ := am
  have hh : heap = H := hP.heap_eq
  subst hh
  dsimp only at hu htable he hacted hadded hEq
  obtain ⟨h1, hwf, images, hf, hsdf⟩ := successor_root_list_spec md N g sr heap table acted hacted
  rw [h1] at hadded hEq
  subst hEq
  rcases add_state_to_binary_tree_ok _ _ _ _ _ _ _ hadded with ⟨hk2, _⟩ | ⟨_, htr, s, hs, hmem, hcmp⟩
  · rw [hk] at hk2; exact absurd hk2 (by decide)
  · rw [htr, hs]
    have hslt : s < states.length := hP.catalog s hmem
    obtain ⟨ts, hts, htswf⟩ := hP.tables s hslt
    dsimp only at hts
    obtain ⟨ta, tb, hta, htb, _, hzero⟩ := compare_states_ok heap _ _ N 0 hcmp
    simp only [successor_state, Option.some.injEq] at hta
    rw [hts] at htb
    simp only [Option.some.injEq] at htb
    subst hta
    subst htb
    obtain ⟨hlen, hwalk⟩ := hzero.mp rfl
    have hlist : (insert_in_table heap sr acted.2 N).2.first.length = ts.first.length := by
      rw [← hwf, ← htswf]; exact hlen
    exact states_invariant_link md N heap states tree tree u g (some s) hP hu hg
      (by
        intro w hw
        simp only [Option.some.injEq] at hw
        subst hw
        refine ⟨hslt, table, ts, htable, hts, sr, images, _, hsr, hf, hsdf, ?_, ?_⟩
        · rw [← hlen]; exact hwf
        · exact compare_states_walk_zero heap N _ _ hlist hwalk)
      hP.catalog ⟨table, sr, htable, hsr, by simp [he]⟩

theorem generate_state_tree_states (md : MATRIX_DATA) (N : Nat) (heap : List ROOT)
    (fuel : Nat) (am : Automaton)
    (h : generate_state_tree md N heap BINARY_TREE_ELEMENT.NULL fuel = Except.ok am) :
    states_invariant md N heap am ∧ 0 < am.states.length ∧
      ∀ v, v < am.states.length → ∀ b, b < N → reject_correct md N am v b := by
  unfold generate_state_tree at h
  have hP0 : states_invariant md N heap
      { heap := heap
        states := [{ create_state N with root_table := some { first := [], length := 0 } }]
        binary_tree := BINARY_TREE_ELEMENT.NULL } := by
    constructor
    · rfl
    · intro v hv
      simp only [List.length_singleton, Nat.lt_one_iff] at hv
      subst hv
      exact ⟨{ first := [], length := 0 }, rfl, rfl⟩
    · intro v hv
      simp only [List.length_singleton, Nat.lt_one_iff] at hv
      subst hv
      simp [state_at, create_state]
    · intro v a w hv hnext
      simp only [List.length_singleton, Nat.lt_one_iff] at hv
      subst hv
      simp [state_at, create_state, List.getD_eq_getElem?_getD, List.getElem?_replicate] at hnext
      split_ifs at hnext <;> simp at hnext
    · intro s hs
      simp [binary_tree_states] at hs
  obtain ⟨e1, e2, e3, _, e5⟩ :=
    generate_next_automaton_state_loop md N (states_invariant md N heap) (reject_correct md N)
      fuel 0
      (fun am0 g am1 hrun hP hk hg =>
        generate_next_automaton_state_induction md N (states_invariant md N heap)
          (reject_correct md N)
          (fun am u g sr table e => states_step_reject md N heap am u g sr table e)
          (fun am u g sr table acted added => states_step_new md N heap am u g sr table acted added)
          (fun am u g sr table acted added =>
            states_step_exists md N heap am u g sr table acted added)
          fuel am0 0 g am1 hrun hP hk hg)
      (List.range N) _ am h (fun b hb => List.mem_range.mp hb) hP0 (by simp)
  refine ⟨e1, by simp at e2; omega, ?_⟩
  intro v hv b hb
  by_cases hv0 : v = 0
  · subst hv0; exact e3 b (List.mem_range.mpr hb)
  · exact e5 v (by simp; omega) hv b hb

/-! ## The binary tree as a search tree -/

theorem compare_roots_eq_zero_iff (a b : ROOT) (N : Nat) :
    compare_roots a b N = 0 ↔ compare_roots_scan a b N N 0 = N := by
  unfold compare_roots
  simp only [COMPARE_ROOTS_EQUAL, COMPARE_ROOTS_GREATER, COMPARE_ROOTS_SMALLER]
  split_ifs with h1 h2
  · simp [h1]
  · simp [h1]
  · simp [h1]

theorem compare_roots_eq_zero_comm (a b : ROOT) (N : Nat) (h : compare_roots a b N = 0) :
    compare_roots b a N = 0 := by
  rw [compare_roots_eq_zero_iff] at h ⊢
  rw [compare_roots_scan_comm]; exact h

theorem compare_states_congr (heap : List ROOT) (N : Nat) (a a1 b b1 : AUTOMATON_STATE)
    (ha : a.root_table = a1.root_table) (hb : b.root_table = b1.root_table) :
    compare_states heap a b N = compare_states heap a1 b1 N := by
  unfold compare_states
  rw [ha, hb]

theorem compare_states_total (heap : List ROOT) (N : Nat) (a b : AUTOMATON_STATE)
    (ta tb : ROOT_TABLE) (ha : a.root_table = some ta) (hb : b.root_table = some tb) :
    ∃ c, compare_states heap a b N = Except.ok c := by
  unfold compare_states
  rw [ha, hb]
  dsimp only
  split_ifs <;> exact ⟨_, rfl⟩

theorem compare_states_walk_congr (heap : List ROOT) (N : Nat) (hcong : roots_congruent heap N) :
    ∀ (la lb : List Nat), List.Forall₂ (roots_equal heap N) la lb →
      ∀ (ls : List Nat) (c : Int),
        compare_states_walk heap N c la ls = compare_states_walk heap N c lb ls := by
  intro la lb h
  induction h with
  | nil => intro ls c; rfl
  | cons hab _ ih =>
    intro ls c
    cases ls with
    | nil => simp [compare_states_walk]
    | cons s rs =>
      rw [compare_states_walk, compare_states_walk, hcong _ _ s hab, ih]

theorem compare_states_equal_forall2 (heap : List ROOT) (N : Nat) (a b : AUTOMATON_STATE)
    (ta tb : ROOT_TABLE) (ha : a.root_table = some ta) (hb : b.root_table = some tb)
    (hwa : ta.length = ta.first.length) (hwb : tb.length = tb.first.length)
    (h : states_equal heap N a b) :
    ta.length = tb.length ∧ List.Forall₂ (roots_equal heap N) ta.first tb.first := by
  obtain ⟨ta1, tb1, h1, h2, _, hz⟩ := compare_states_ok heap a b N 0 h
  rw [ha] at h1; rw [hb] at h2
  simp only [Option.some.injEq] at h1 h2
  subst h1; subst h2
  obtain ⟨hlen, hwalk⟩ := hz.mp rfl
  exact ⟨hlen, compare_states_walk_zero heap N _ _ (by rw [← hwa, ← hwb]; exact hlen) hwalk⟩

theorem states_equal_symm (heap : List ROOT) (N : Nat) (a b : AUTOMATON_STATE)
    (ta tb : ROOT_TABLE) (ha : a.root_table = some ta) (hb : b.root_table = some tb)
    (hwa : ta.length = ta.first.length) (hwb : tb.length = tb.first.length)
    (h : states_equal heap N a b) : states_equal heap N b a := by
  obtain ⟨hlen, hf⟩ := compare_states_equal_forall2 heap N a b ta tb ha hb hwa hwb h
  obtain ⟨c, hc⟩ := compare_states_total heap N b a tb ta hb ha
  obtain ⟨tb1, ta1, h1, h2, _, hz⟩ := compare_states_ok heap b a N c hc
  rw [hb] at h1; rw [ha] at h2
  simp only [Option.some.injEq] at h1 h2
  subst h1; subst h2
  have hf2 : List.Forall₂
      (fun p q => compare_roots (root_at heap p) (root_at heap q) N = 0) tb.first ta.first := by
    have := hf.flip
    exact this.imp (fun p q hpq => compare_roots_eq_zero_comm _ _ _ hpq)
  have : c = 0 := hz.mpr ⟨hlen.symm, compare_states_walk_zero_of_forall2 heap N _ _ hf2⟩
  subst this
  exact hc

theorem states_equal_congr (heap : List ROOT) (N : Nat) (hcong : roots_congruent heap N)
    (a b s : AUTOMATON_STATE) (ta tb : ROOT_TABLE)
    (ha : a.root_table = some ta) (hb : b.root_table = some tb)
    (hwa : ta.length = ta.first.length) (hwb : tb.length = tb.first.length)
    (h : states_equal heap N a b) :
    compare_states heap a s N = compare_states heap b s N := by
  obtain ⟨hlen, hf⟩ := compare_states_equal_forall2 heap N a b ta tb ha hb hwa hwb h
  unfold compare_states
  rw [ha, hb]
  cases hs : s.root_table with
  | none => rfl
  | some ts =>
    dsimp only
    rw [hlen, compare_states_walk_congr heap N hcong _ _ hf]

theorem bst_ordered_congr (heap : List ROOT) (N : Nat) (st st1 : Nat → AUTOMATON_STATE) :
    ∀ (tree : BINARY_TREE_ELEMENT),
      (∀ s, s ∈ binary_tree_states tree → (st1 s).root_table = (st s).root_table) →
      bst_ordered heap N st tree → bst_ordered heap N st1 tree := by
  intro tree
  induction tree with
  | NULL => intro _ _; trivial
  | node state left right ihl ihr =>
    intro hag h
    simp only [bst_ordered] at h ⊢
    simp only [binary_tree_states, List.mem_append, List.mem_cons] at hag
    obtain ⟨h1, h2, h3, h4⟩ := h
    refine ⟨?_, ?_, ihl (fun s hs => hag s (Or.inl hs)) h3,
      ihr (fun s hs => hag s (Or.inr (Or.inr hs))) h4⟩
    · intro x hx
      rw [compare_states_congr heap N (st1 x) (st x) (st1 state) (st state)
        (hag x (Or.inl hx)) (hag state (Or.inr (Or.inl rfl)))]
      exact h1 x hx
    · intro x hx
      rw [compare_states_congr heap N (st1 x) (st x) (st1 state) (st state)
        (hag x (Or.inr (Or.inr hx))) (hag state (Or.inr (Or.inl rfl)))]
      exact h2 x hx

theorem catalog_unique_congr (heap : List ROOT) (N : Nat) (st st1 : Nat → AUTOMATON_STATE)
    (tree : BINARY_TREE_ELEMENT)
    (hag : ∀ s, s ∈ binary_tree_states tree → (st1 s).root_table = (st s).root_table)
    (h : catalog_unique heap N st tree) : catalog_unique heap N st1 tree := by
  unfold catalog_unique at h ⊢
  refine h.imp_of_mem ?_
  intro x y hx hy hxy
  unfold states_equal at hxy ⊢
  rw [compare_states_congr heap N (st1 x) (st x) (st1 y) (st y) (hag x hx) (hag y hy),
    compare_states_congr heap N (st1 y) (st y) (st1 x) (st x) (hag y hy) (hag x hx)]
  exact hxy

/-- Adding a state that the search does not find keeps the search order, and the
new state compares EQUAL to no state of the tree. -/
theorem add_state_to_binary_tree_bst (heap : List ROOT) (N : Nat)
    (hcong : roots_congruent heap N) (states : List AUTOMATON_STATE) (new : Nat)
    (ns : AUTOMATON_STATE) (tn : ROOT_TABLE) (hns : ns.root_table = some tn)
    (hwn : tn.length = tn.first.length) (st1 : Nat → AUTOMATON_STATE)
    (hst1 : (st1 new).root_table = ns.root_table) :
    ∀ (tree : BINARY_TREE_ELEMENT) (r : AddResult),
      add_state_to_binary_tree heap states new ns N tree = Except.ok r →
      r.ret_code = ADD_STATE_TO_BINARY_TREE_OK →
      (∀ s, s ∈ binary_tree_states tree →
        (st1 s).root_table = (state_at states s).root_table ∧
        ∃ t, (state_at states s).root_table = some t ∧ t.length = t.first.length) →
      bst_ordered heap N (state_at states) tree →
      bst_ordered heap N st1 r.tree ∧
        ∀ s, s ∈ binary_tree_states tree →
          ¬ states_equal heap N ns (state_at states s) ∧
          ¬ states_equal heap N (state_at states s) ns := by
  intro tree
  induction tree with
  | NULL =>
    intro r h _ _ _
    simp only [add_state_to_binary_tree, pure, Except.pure, Except.ok.injEq] at h
    subst h
    simp [bst_ordered, binary_tree_states]
  | node state left right ihl ihr =>
    intro r h hk hag hbst
    simp only [bst_ordered] at hbst
    obtain ⟨b1, b2, b3, b4⟩ := hbst
    simp only [binary_tree_states, List.mem_append, List.mem_cons] at hag
    obtain ⟨hst_state, tstate, htstate, hwstate⟩ := hag state (Or.inr (Or.inl rfl))
    rw [add_state_to_binary_tree] at h
    simp only [bind, Except.bind] at h
    split at h
    · cases h
    · rename_i x c hc
      -- equality with a state of the tree contradicts a strict comparison at the node
      have hside : ∀ s (ts : ROOT_TABLE), (state_at states s).root_table = some ts →
          ts.length = ts.first.length →
          compare_states heap (state_at states s) (state_at states state) N ≠ Except.ok c →
          ¬ states_equal heap N ns (state_at states s) ∧
            ¬ states_equal heap N (state_at states s) ns := by
        intro s ts hts hws hne
        have hone : ¬ states_equal heap N ns (state_at states s) := by
          intro heq
          have := states_equal_congr heap N hcong ns (state_at states s)
            (state_at states state) tn ts hns hts hwn hws heq
          rw [hc] at this
          exact hne this.symm
        exact ⟨hone, fun heq =>
          hone (states_equal_symm heap N _ _ ts tn hts hns hws hwn heq)⟩
      simp only [COMPARE_STATES_SMALLER, COMPARE_STATES_GREATER, COMPARE_STATES_EQUAL] at h b1 b2
      split_ifs at h with h1 h2 h3
      · split at h
        · cases h
        · rename_i y r1 hr1
          simp only [pure, Except.pure, Except.ok.injEq] at h
          subst h
          dsimp only at hk ⊢
          subst h1
          obtain ⟨i1, i2⟩ := ihl r1 hr1 hk (fun s hs => hag s (Or.inl hs)) b3
          have hperm : (binary_tree_states r1.tree).Perm (new :: binary_tree_states left) := by
            rcases add_state_to_binary_tree_ok _ _ _ _ _ _ _ hr1 with ⟨_, hp⟩ | ⟨hk2, _⟩
            · exact hp
            · rw [hk] at hk2; exact absurd hk2 (by decide)
          refine ⟨?_, ?_⟩
          · simp only [bst_ordered]
            refine ⟨?_, ?_, i1, ?_⟩
            · intro x hx
              have := hperm.mem_iff.mp hx
              simp only [List.mem_cons] at this
              rcases this with hx1 | hx1
              · subst hx1
                rw [compare_states_congr heap N (st1 x) ns (st1 state) (state_at states state)
                  hst1 hst_state]
                exact hc
              · rw [compare_states_congr heap N (st1 x) (state_at states x) (st1 state)
                  (state_at states state) (hag x (Or.inl hx1)).1 hst_state]
                exact b1 x hx1
            · intro x hx
              rw [compare_states_congr heap N (st1 x) (state_at states x) (st1 state)
                (state_at states state) (hag x (Or.inr (Or.inr hx))).1 hst_state]
              exact b2 x hx
            · exact bst_ordered_congr heap N (state_at states) st1 right
                (fun s hs => (hag s (Or.inr (Or.inr hs))).1) b4
          · intro s hs
            simp only [binary_tree_states, List.mem_append, List.mem_cons] at hs
            rcases hs with hs | hs | hs
            · exact i2 s hs
            · subst hs
              have hone : ¬ states_equal heap N ns (state_at states s) := by
                unfold states_equal; rw [hc]; simp [COMPARE_STATES_EQUAL]
              exact ⟨hone, fun heq =>
                hone (states_equal_symm heap N _ _ tstate tn htstate hns hwstate hwn heq)⟩
            · obtain ⟨_, ts, hts, hws⟩ := hag s (Or.inr (Or.inr hs))
              exact hside s ts hts hws (by rw [b2 s hs]; simp)
      · split at h
        · cases h
        · rename_i y r1 hr1
          simp only [pure, Except.pure, Except.ok.injEq] at h
          subst h
          dsimp only at hk ⊢
          subst h2
          obtain ⟨i1, i2⟩ := ihr r1 hr1 hk (fun s hs => hag s (Or.inr (Or.inr hs))) b4
          have hperm : (binary_tree_states r1.tree).Perm (new :: binary_tree_states right) := by
            rcases add_state_to_binary_tree_ok _ _ _ _ _ _ _ hr1 with ⟨_, hp⟩ | ⟨hk2, _⟩
            · exact hp
            · rw [hk] at hk2; exact absurd hk2 (by decide)
          refine ⟨?_, ?_⟩
          · simp only [bst_ordered]
            refine ⟨?_, ?_, ?_, i1⟩
            · intro x hx
              rw [compare_states_congr heap N (st1 x) (state_at states x) (st1 state)
                (state_at states state) (hag x (Or.inl hx)).1 hst_state]
              exact b1 x hx
            · intro x hx
              have := hperm.mem_iff.mp hx
              simp only [List.mem_cons] at this
              rcases this with hx1 | hx1
              · subst hx1
                rw [compare_states_congr heap N (st1 x) ns (st1 state) (state_at states state)
                  hst1 hst_state]
                exact hc
              · rw [compare_states_congr heap N (st1 x) (state_at states x) (st1 state)
                  (state_at states state) (hag x (Or.inr (Or.inr hx1))).1 hst_state]
                exact b2 x hx1
            · exact bst_ordered_congr heap N (state_at states) st1 left
                (fun s hs => (hag s (Or.inl hs)).1) b3
          · intro s hs
            simp only [binary_tree_states, List.mem_append, List.mem_cons] at hs
            rcases hs with hs | hs | hs
            · obtain ⟨_, ts, hts, hws⟩ := hag s (Or.inl hs)
              exact hside s ts hts hws (by rw [b1 s hs]; simp)
            · subst hs
              have hone : ¬ states_equal heap N ns (state_at states s) := by
                unfold states_equal; rw [hc]; simp [COMPARE_STATES_EQUAL]
              exact ⟨hone, fun heq =>
                hone (states_equal_symm heap N _ _ tstate tn htstate hns hwstate hwn heq)⟩
            · exact i2 s hs
      · simp only [pure, Except.pure, Except.ok.injEq] at h
        subst h
        dsimp only at hk
        exact absurd hk (by decide)
      · simp only [pure, Except.pure, Except.ok.injEq] at h
        subst h
        dsimp only at hk
        exact absurd hk (by decide)

/-- When the tree is in search order and holds a state that compares EQUAL to
the new one, the search finds a state and returns EXISTS. -/
theorem add_state_to_binary_tree_finds (heap : List ROOT) (N : Nat)
    (hcong : roots_congruent heap N) (states : List AUTOMATON_STATE) (new : Nat)
    (ns : AUTOMATON_STATE) (tn : ROOT_TABLE) (hns : ns.root_table = some tn)
    (hwn : tn.length = tn.first.length) :
    ∀ (tree : BINARY_TREE_ELEMENT),
      (∀ s, s ∈ binary_tree_states tree →
        ∃ t, (state_at states s).root_table = some t ∧ t.length = t.first.length) →
      bst_ordered heap N (state_at states) tree →
      (∃ s, s ∈ binary_tree_states tree ∧ states_equal heap N ns (state_at states s)) →
      ∃ r, add_state_to_binary_tree heap states new ns N tree = Except.ok r ∧
        r.ret_code = ADD_STATE_TO_BINARY_TREE_EXISTS := by
  intro tree
  induction tree with
  | NULL =>
    intro _ _ h
    obtain ⟨s, hs, _⟩ := h
    simp [binary_tree_states] at hs
  | node state left right ihl ihr =>
    intro htab hbst hex
    simp only [bst_ordered] at hbst
    obtain ⟨b1, b2, b3, b4⟩ := hbst
    simp only [binary_tree_states, List.mem_append, List.mem_cons] at htab
    obtain ⟨tstate, htstate, _⟩ := htab state (Or.inr (Or.inl rfl))
    obtain ⟨c, hc⟩ := compare_states_total heap N ns (state_at states state) tn tstate hns htstate
    obtain ⟨_, _, _, _, hrange, _⟩ := compare_states_ok heap ns _ N c hc
    obtain ⟨s, hs, hseq⟩ := hex
    simp only [binary_tree_states, List.mem_append, List.mem_cons] at hs
    obtain ⟨ts, hts, hws⟩ := htab s hs
    have hcs : compare_states heap (state_at states s) (state_at states state) N = Except.ok c := by
      rw [← states_equal_congr heap N hcong ns (state_at states s) (state_at states state)
        tn ts hns hts hwn hws hseq]
      exact hc
    rw [add_state_to_binary_tree]
    simp only [bind, Except.bind, hc, COMPARE_STATES_SMALLER, COMPARE_STATES_GREATER,
      COMPARE_STATES_EQUAL] at b1 b2 ⊢
    rcases hrange with hh | hh | hh
    · subst hh
      have hsr : s ∈ binary_tree_states right := by
        rcases hs with hs | hs | hs
        · rw [b1 s hs] at hcs; simp at hcs
        · subst hs
          unfold states_equal at hseq
          rw [hc] at hseq; simp [COMPARE_STATES_EQUAL] at hseq
        · exact hs
      obtain ⟨r1, hr1, hk1⟩ := ihr (fun s hs => htab s (Or.inr (Or.inr hs))) b4 ⟨s, hsr, hseq⟩
      simp only [hr1]
      exact ⟨_, rfl, hk1⟩
    · subst hh
      exact ⟨_, rfl, rfl⟩
    · subst hh
      have hsl : s ∈ binary_tree_states left := by
        rcases hs with hs | hs | hs
        · exact hs
        · subst hs
          unfold states_equal at hseq
          rw [hc] at hseq; simp [COMPARE_STATES_EQUAL] at hseq
        · rw [b2 s hs] at hcs; simp at hcs
      obtain ⟨r1, hr1, hk1⟩ := ihl (fun s hs => htab s (Or.inl hs)) b3 ⟨s, hsl, hseq⟩
      simp only [hr1]
      exact ⟨_, rfl, hk1⟩

theorem catalog_step_same_tree (N : Nat) (H : List ROOT)
    (states : List AUTOMATON_STATE) (tree : BINARY_TREE_ELEMENT) (u g : Nat) (t : Option Nat)
    (h : bst_ordered H N (state_at states) tree ∧ catalog_unique H N (state_at states) tree) :
    bst_ordered H N (state_at (set_next_state states u g t)) tree ∧
      catalog_unique H N (state_at (set_next_state states u g t)) tree :=
  ⟨bst_ordered_congr H N _ _ tree
      (fun s _ => state_at_root_table_set_next_state states u g s t) h.1,
    catalog_unique_congr H N _ _ tree
      (fun s _ => state_at_root_table_set_next_state states u g s t) h.2⟩

/-- The states of the automaton built over a heap on which compare_roots is
congruent: the binary tree is in search order and no two of its entries compare
EQUAL. -/
theorem generate_state_tree_catalog (md : MATRIX_DATA) (N : Nat) (heap : List ROOT)
    (hcong : roots_congruent heap N) (fuel : Nat) (am : Automaton)
    (h : generate_state_tree md N heap BINARY_TREE_ELEMENT.NULL fuel = Except.ok am) :
    states_invariant md N heap am ∧
      bst_ordered heap N (state_at am.states) am.binary_tree ∧
      catalog_unique heap N (state_at am.states) am.binary_tree := by
  unfold generate_state_tree at h
  let P : Automaton → Prop := fun am =>
    states_invariant md N heap am ∧
      bst_ordered heap N (state_at am.states) am.binary_tree ∧
      catalog_unique heap N (state_at am.states) am.binary_tree
  let Q : Automaton → Nat → Nat → Prop := fun _ _ _ => True
  have h_reject : ∀ am u g sr table e, P am → u < am.states.length → g < N →
      md.simple_roots.getD g none = some sr →
      (state_at am.states u).root_table = some table →
      root_in_list am.heap table (root_at am.heap sr) N = some e →
      ∀ am1, am1 = { am with states := set_next_state am.states u g none } →
      P am1 ∧ Q am1 u g ∧ ∀ v b, Q am v b → Q am1 v b := by
    intro am u g sr table e hP hu hg hsr htable he am1 hEq
    obtain ⟨k1, _, _⟩ := states_step_reject md N heap am u g sr table e hP.1 hu hg hsr htable he
      am1 hEq
    subst hEq
    exact ⟨⟨k1, catalog_step_same_tree N heap am.states am.binary_tree u g none hP.2⟩,
      trivial, fun _ _ _ => trivial⟩
  have h_exists : ∀ am u g sr table acted added, P am → u < am.states.length → g < N →
      md.simple_roots.getD g none = some sr →
      (state_at am.states u).root_table = some table →
      root_in_list am.heap table (root_at am.heap sr) N = none →
      cox_action_on_root_list md am.heap table none g N = Except.ok acted →
      add_state_to_binary_tree acted.1 am.states am.states.length
        (successor_state N (insert_in_table acted.1 sr acted.2 N).2) N am.binary_tree
          = Except.ok added →
      added.ret_code = ADD_STATE_TO_BINARY_TREE_EXISTS →
      ∀ am1, am1 = { heap := acted.1
                     states := set_next_state am.states u g added.existing
                     binary_tree := added.tree } →
      P am1 ∧ Q am1 u g ∧ ∀ v b, Q am v b → Q am1 v b := by
    intro am u g sr table acted added hP hu hg hsr htable he hacted hadded hk am1 hEq
    obtain ⟨k1, _, _⟩ := states_step_exists md N heap am u g sr table acted added hP.1 hu hg hsr
      htable he hacted hadded hk am1 hEq
    subst hEq
    have htr : added.tree = am.binary_tree := by
      rcases add_state_to_binary_tree_ok _ _ _ _ _ _ _ hadded with ⟨hk2, _⟩ | ⟨_, htr, _⟩
      · rw [hk] at hk2; exact absurd hk2 (by decide)
      · exact htr
    rw [htr] at k1 ⊢
    exact ⟨⟨k1, catalog_step_same_tree N heap am.states am.binary_tree u g _ hP.2⟩,
      trivial, fun _ _ _ => trivial⟩
  have h_new : ∀ am u g sr table acted added, P am → u < am.states.length → g < N →
      md.simple_roots.getD g none = some sr →
      (state_at am.states u).root_table = some table →
      root_in_list am.heap table (root_at am.heap sr) N = none →
      cox_action_on_root_list md am.heap table none g N = Except.ok acted →
      add_state_to_binary_tree acted.1 am.states am.states.length
        (successor_state N (insert_in_table acted.1 sr acted.2 N).2) N am.binary_tree
          = Except.ok added →
      added.ret_code = ADD_STATE_TO_BINARY_TREE_OK →
      ∀ am1, am1 = { heap := acted.1
                     states := set_next_state
                       (am.states ++ [successor_state N (insert_in_table acted.1 sr acted.2 N).2])
                       u g (some am.states.length)
                     binary_tree := added.tree } →
      P am1 ∧ Q am1 u g ∧ ∀ v b, Q am v b → Q am1 v b := by
    intro am u g sr table acted added hP hu hg hsr htable he hacted hadded hk am1 hEq
    obtain ⟨k1, _, _⟩ := states_step_new md N heap am u g sr table acted added hP.1 hu hg hsr
      htable he hacted hadded hk am1 hEq
    refine ⟨⟨k1, ?_⟩, trivial, fun _ _ _ => trivial⟩
    have hheap : am.heap = heap := hP.1.heap_eq
    obtain ⟨h1, hwf, _, _, _⟩ :=
      successor_root_list_spec md N g sr am.heap table acted hacted
    rw [hheap] at h1 hwf
    rw [h1] at hadded hEq
    subst hEq
    dsimp only
    have hlt : ∀ s, s ∈ binary_tree_states am.binary_tree → s < am.states.length :=
      hP.1.catalog
    have hag : ∀ s, s ∈ binary_tree_states am.binary_tree →
        (state_at (set_next_state
          (am.states ++ [successor_state N (insert_in_table heap sr acted.2 N).2])
          u g (some am.states.length)) s).root_table = (state_at am.states s).root_table := by
      intro s hs
      rw [state_at_root_table_set_next_state, state_at_append_lt _ _ _ (hlt s hs)]
    have hnew : (state_at (set_next_state
          (am.states ++ [successor_state N (insert_in_table heap sr acted.2 N).2])
          u g (some am.states.length)) am.states.length).root_table
        = (successor_state N (insert_in_table heap sr acted.2 N).2).root_table := by
      rw [state_at_root_table_set_next_state, state_at_append_eq]
    obtain ⟨i1, i2⟩ := add_state_to_binary_tree_bst heap N hcong am.states am.states.length
      (successor_state N (insert_in_table heap sr acted.2 N).2)
      (insert_in_table heap sr acted.2 N).2 rfl hwf _ hnew am.binary_tree added hadded hk
      (fun s hs => ⟨hag s hs, hP.1.tables s (hlt s hs)⟩) hP.2.1
    refine ⟨i1, ?_⟩
    have hperm : (binary_tree_states added.tree).Perm
        (am.states.length :: binary_tree_states am.binary_tree) := by
      rcases add_state_to_binary_tree_ok _ _ _ _ _ _ _ hadded with ⟨_, hp⟩ | ⟨hk2, _⟩
      · exact hp
      · rw [hk] at hk2; exact absurd hk2 (by decide)
    unfold catalog_unique
    rw [List.Perm.pairwise_iff (fun {x y} hxy => ⟨hxy.2, hxy.1⟩) hperm, List.pairwise_cons]
    constructor
    · intro s hs
      obtain ⟨j1, j2⟩ := i2 s hs
      unfold states_equal at j1 j2 ⊢
      rw [compare_states_congr heap N _ _ _ _ hnew (hag s hs),
        compare_states_congr heap N _ _ _ _ (hag s hs) hnew]
      exact ⟨j1, j2⟩
    · exact catalog_unique_congr heap N (state_at am.states) _ am.binary_tree hag hP.2.2
  have hP0 : P
      { heap := heap
        states := [{ create_state N with root_table := some { first := [], length := 0 } }]
        binary_tree := BINARY_TREE_ELEMENT.NULL } := by
    refine ⟨?_, trivial, by simp [catalog_unique, binary_tree_states]⟩
    constructor
    · rfl
    · intro v hv
      simp only [List.length_singleton, Nat.lt_one_iff] at hv
      subst hv
      exact ⟨{ first := [], length := 0 }, rfl, rfl⟩
    · intro v hv
      simp only [List.length_singleton, Nat.lt_one_iff] at hv
      subst hv
      simp [state_at, create_state]
    · intro v a w hv hnext
      simp only [List.length_singleton, Nat.lt_one_iff] at hv
      subst hv
      simp [state_at, create_state, List.getD_eq_getElem?_getD, List.getElem?_replicate] at hnext
      split_ifs at hnext <;> simp at hnext
    · intro s hs
      simp [binary_tree_states] at hs
  obtain ⟨e1, _⟩ :=
    generate_next_automaton_state_loop md N P Q fuel 0
      (fun am0 g am1 hrun hP hk hg =>
        generate_next_automaton_state_induction md N P Q h_reject h_new h_exists
          fuel am0 0 g am1 hrun hP hk hg)
      (List.range N) _ am h (fun b hb => List.mem_range.mp hb) hP0 (by simp)
  exact e1

/-! ## Fuel: a run that returns keeps its result with more fuel -/

theorem foldlM_ok_mono {α β : Type} (f g : β → α → Except Fault β)
    (h : ∀ b a r, f b a = .ok r → g b a = .ok r) :
    ∀ (l : List α) (b r : β), l.foldlM f b = .ok r → l.foldlM g b = .ok r := by
  intro l
  induction l with
  | nil => intro b r hr; simpa using hr
  | cons a l ih =>
    intro b r hr
    rw [List.foldlM_cons] at hr ⊢
    cases hfa : f b a with
    | error e => rw [hfa] at hr; cases hr
    | ok x =>
      rw [hfa] at hr
      rw [h b a x hfa]
      exact ih x r hr

theorem generate_next_root_body_mono (md : MATRIX_DATA) (N root : Nat)
    (rec1 rec2 : RootStore → Nat → Except Fault RootStore)
    (h : ∀ st p r, rec1 st p = .ok r → rec2 st p = .ok r)
    (acc : RootStore × Option Bool) (ii : Nat) (r : RootStore × Option Bool)
    (hr : generate_next_root_body md N root rec1 acc ii = .ok r) :
    generate_next_root_body md N root rec2 acc ii = .ok r := by
  unfold generate_next_root_body at hr ⊢
  dsimp only at hr ⊢
  cases hact : cox_action_on_root md N ii acc.1.heap root (some acc.1.root_table) acc.2 with
  | error e => rw [hact] at hr; cases hr
  | ok res =>
    rw [hact] at hr
    simp only [Except.bind, bind] at hr ⊢
    split at hr
    · cases hr
    · rename_i h1; simpa [h1] using hr
    · rename_i h1
      simp only [h1]
      split at hr
      · cases hr
      · rename_i sp hsp
        cases hpos : root_positive (root_at res.heap res.returned_root) N with
        | error e => rw [hpos] at hr; cases hr
        | ok positive =>
          rw [hpos] at hr
          dsimp only at hr ⊢
          split at hr
          · rename_i hflag
            rw [if_pos hflag]
            split at hr
            · cases hr
            · rename_i x st1 hrec
              rw [h _ _ _ hrec]
              simpa [h1] using hr
          · rename_i hflag
            rw [if_neg hflag]
            simpa [h1] using hr

theorem generate_next_root_mono (md : MATRIX_DATA) (N : Nat) :
    ∀ (fuel : Nat) (st : RootStore) (root : Nat) (r : RootStore),
      generate_next_root md N fuel st root = .ok r →
      generate_next_root md N (fuel + 1) st root = .ok r := by
  intro fuel
  induction fuel with
  | zero => intro st root r hr; simp [generate_next_root] at hr
  | succ n ih =>
    intro st root r hr
    rw [generate_next_root] at hr ⊢
    simp only [bind, Except.bind] at hr ⊢
    split at hr
    · cases hr
    · rename_i x v hfold
      rw [foldlM_ok_mono _ _ (generate_next_root_body_mono md N root _ _ ih) _ _ _ hfold]
      exact hr


theorem generate_root_table_body_mono (N fuel : Nat) (run : RootTableRun) (ii : Nat)
    (r : RootTableRun) (hr : generate_root_table_body N fuel run ii = .ok r) :
    generate_root_table_body N (fuel + 1) run ii = .ok r := by
  unfold generate_root_table_body at hr ⊢
  dsimp only at hr ⊢
  split at hr
  · rename_i hin
    try simp only [hin]
    split at hr
    · rename_i hret
      rw [if_pos hret]
      simp only [bind, Except.bind] at hr ⊢
      split at hr
      · cases hr
      · rename_i x st1 hrec
        rw [generate_next_root_mono _ _ _ _ _ _ hrec]
        exact hr
    · rename_i hret
      rw [if_neg hret]
      exact hr
  · rename_i e hin
    try simp only [hin]
    exact hr

theorem generate_root_table_mono (c : Int → ℚ) (g1 g2 : Nat → Nat → ℚ) (md : MATRIX_DATA)
    (N fuel : Nat) (r : RootTableRun) (hr : generate_root_table c g1 g2 md N fuel = .ok r) :
    generate_root_table c g1 g2 md N (fuel + 1) = .ok r := by
  unfold generate_root_table at hr ⊢
  exact foldlM_ok_mono _ _ (generate_root_table_body_mono N fuel) _ _ _ hr

theorem generate_next_automaton_state_mono (md : MATRIX_DATA) (N : Nat) :
    ∀ (fuel : Nat) (am : Automaton) (u g : Nat) (r : Automaton),
      generate_next_automaton_state md N fuel am u g = .ok r →
      generate_next_automaton_state md N (fuel + 1) am u g = .ok r := by
  intro fuel
  induction fuel with
  | zero => intro am u g r hr; simp [generate_next_automaton_state] at hr
  | succ n ih =>
    intro am u g r hr
    rw [generate_next_automaton_state] at hr ⊢
    split at hr
    · cases hr
    · rename_i sr hsr
      try simp only [hsr]
      split at hr
      · cases hr
      · rename_i table htable
        try simp only [htable]
        split at hr
        · rename_i e he
          try simp only [he]
          exact hr
        · rename_i he
          try simp only [he]
          simp only [bind, Except.bind] at hr ⊢
          split at hr
          · cases hr
          · rename_i x acted hacted
            try simp only [hacted]
            split at hr
            · cases hr
            · rename_i y added hadded
              try simp only [hadded]
              split at hr
              · rename_i hok
                rw [if_pos hok]
                exact foldlM_ok_mono _ _ (fun b a r1 h1 => ih b _ a r1 h1) _ _ _ hr
              · rename_i hok
                rw [if_neg hok]
                exact hr

theorem generate_state_tree_mono (md : MATRIX_DATA) (N : Nat) (heap : List ROOT)
    (tree : BINARY_TREE_ELEMENT) (fuel : Nat) (r : Automaton)
    (hr : generate_state_tree md N heap tree fuel = .ok r) :
    generate_state_tree md N heap tree (fuel + 1) = .ok r := by
  unfold generate_state_tree at hr ⊢
  exact foldlM_ok_mono _ _
    (fun b a r1 h1 => generate_next_automaton_state_mono md N fuel b 0 a r1 h1) _ _ _ hr

theorem build_automaton_mono (c : Int → ℚ) (M : Nat → Nat → Int) (N fuel : Nat)
    (r : RootTableRun × Automaton) (hr : build_automaton c M N fuel = .ok r) :
    build_automaton c M N (fuel + 1) = .ok r := by
  unfold build_automaton at hr ⊢
  simp only [bind, Except.bind] at hr ⊢
  split at hr
  · cases hr
  · rename_i x run hrun
    rw [generate_root_table_mono _ _ _ _ _ _ _ hrun]
    dsimp only at hr ⊢
    split at hr
    · cases hr
    · rename_i y am ham
      rw [generate_state_tree_mono _ _ _ _ _ _ ham]
      exact hr

theorem build_automaton_mono_le (c : Int → ℚ) (M : Nat → Nat → Int) (N fuel : Nat)
    (r : RootTableRun × Automaton) (hr : build_automaton c M N fuel = .ok r) :
    ∀ fuel1, fuel ≤ fuel1 → build_automaton c M N fuel1 = .ok r := by
  intro fuel1 hle
  induction hle with
  | refl => exact hr
  | step _ ih => exact build_automaton_mono c M N _ r ih


theorem fill_scalar_product_matrix_congr (c1 c2 : Int → ℚ) (M : Nat → Nat → Int)
    (g : Nat → Nat → ℚ) (N : Nat)
    (h : ∀ i j, i < j → j < N → M i j ≠ 0 → c1 (M i j) = c2 (M i j)) :
    fill_scalar_product_matrix c1 M g N = fill_scalar_product_matrix c2 M g N := by
  unfold fill_scalar_product_matrix
  apply List.foldl_ext
  intro t row hrow
  apply List.foldl_ext
  intro t1 k hk
  have hrow1 : row < N := List.mem_range.mp hrow
  have hk1 : k < N - (row + 1) := List.mem_range.mp hk
  have hcol : row + 1 + k < N := by omega
  have hsp : cox_scalar_product c1 M row (row + 1 + k) = cox_scalar_product c2 M row (row + 1 + k) := by
    unfold cox_scalar_product
    split_ifs with h1 h2
    · rfl
    · rfl
    · rw [h row (row + 1 + k) (by omega) hcol h2]
  simp only [hsp]

theorem build_automaton_congr (c1 c2 : Int → ℚ) (M : Nat → Nat → Int) (N fuel : Nat)
    (h : ∀ i j, i < j → j < N → M i j ≠ 0 → c1 (M i j) = c2 (M i j)) :
    build_automaton c1 M N fuel = build_automaton c2 M N fuel := by
  have hg : generate_root_table c1 (fun _ _ => 0) (fun _ _ => 0) (initial_matrix_data M N) N fuel
      = generate_root_table c2 (fun _ _ => 0) (fun _ _ => 0) (initial_matrix_data M N) N fuel := by
    unfold generate_root_table
    rw [fill_scalar_product_matrix_congr c1 c2 (initial_matrix_data M N).coxeter_matrix _ N h]
  unfold build_automaton
  rw [hg]

set_option maxRecDepth 100000 in
theorem S3_run : run_summary (build_automaton exact_cos_pi_over S3_matrix 2 4) = some S3_summary := by
  decide!

set_option maxRecDepth 100000 in
theorem infinite_dihedral_run :
    run_summary (build_automaton exact_cos_pi_over infinite_dihedral_matrix 2 3)
      = some infinite_dihedral_summary := by
  decide!

set_option maxRecDepth 100000 in
theorem S4_run : run_summary (build_automaton exact_cos_pi_over S4_matrix 3 7) = some S4_summary := by
  decide!


theorem build_automaton_ok_inv (c : Int → ℚ) (M : Nat → Nat → Int) (N fuel : Nat)
    (run : RootTableRun) (am : Automaton)
    (h : build_automaton c M N fuel = Except.ok (run, am)) :
    generate_root_table c (fun _ _ => 0) (fun _ _ => 0) (initial_matrix_data M N) N fuel
        = Except.ok run ∧
      generate_state_tree run.matrix_data N run.store.heap BINARY_TREE_ELEMENT.NULL fuel
        = Except.ok am := by
  unfold build_automaton at h
  simp only [bind, Except.bind] at h
  split at h
  · cases h
  · rename_i x run1 hrun
    split at h
    · cases h
    · rename_i y am1 ham
      simp only [pure, Except.pure, Except.ok.injEq, Prod.mk.injEq] at h
      obtain ⟨h1, h2⟩ := h
      subst h1
      subst h2
      exact ⟨hrun, ham⟩

theorem run_summary_some (r : Except Fault (RootTableRun × Automaton)) (s : RunSummary)
    (h : run_summary r = some s) :
    ∃ run am, r = Except.ok (run, am) ∧ run.store = s.store ∧
      run.matrix_data.simple_roots = s.simple_roots ∧ am.heap = s.automaton_heap ∧
      am.states = s.states ∧ am.binary_tree = s.binary_tree := by
  cases r with
  | error e => simp [run_summary] at h
  | ok x =>
    simp only [run_summary, Option.some.injEq] at h
    subst h
    exact ⟨x.1, x.2, rfl, rfl, rfl, rfl, rfl, rfl⟩

theorem S3_build (c : Int → ℚ) (h3 : c 3 = 1 / 2) (fuel : Nat) (hfuel : 4 ≤ fuel) :
    ∃ run am, build_automaton c S3_matrix 2 fuel = Except.ok (run, am) ∧
      run.store = S3_store ∧ run.matrix_data.simple_roots = [some 0, some 3] ∧
      am.heap = S3_heap ∧ am.states = S3_states ∧ am.binary_tree = S3_tree := by
  have hc : build_automaton c S3_matrix 2 4 = build_automaton exact_cos_pi_over S3_matrix 2 4 := by
    apply build_automaton_congr
    intro i j hi hj _
    obtain ⟨rfl, rfl⟩ : i = 0 ∧ j = 1 := by omega
    have hM : S3_matrix 0 1 = 3 := by decide
    rw [hM, h3]; simp [exact_cos_pi_over]
  obtain ⟨run, am, hb, h1, h2, h3, h4, h5⟩ := run_summary_some _ _ S3_run
  refine ⟨run, am, ?_, h1, h2, h3, h4, h5⟩
  apply build_automaton_mono_le _ _ _ 4 _ _ fuel hfuel
  rw [hc]; exact hb

theorem infinite_dihedral_build (c : Int → ℚ) (fuel : Nat) (hfuel : 3 ≤ fuel) :
    ∃ run am, build_automaton c infinite_dihedral_matrix 2 fuel = Except.ok (run, am) ∧
      run.store = infinite_dihedral_store ∧ run.matrix_data.simple_roots = [some 0, some 3] ∧
      am.heap = infinite_dihedral_heap ∧ am.states = infinite_dihedral_states ∧
      am.binary_tree = infinite_dihedral_tree := by
  have hc : build_automaton c infinite_dihedral_matrix 2 3
      = build_automaton exact_cos_pi_over infinite_dihedral_matrix 2 3 := by
    apply build_automaton_congr
    intro i j hi hj hne
    obtain ⟨rfl, rfl⟩ : i = 0 ∧ j = 1 := by omega
    exact absurd (by decide : infinite_dihedral_matrix 0 1 = 0) hne
  obtain ⟨run, am, hb, h1, h2, h3, h4, h5⟩ := run_summary_some _ _ infinite_dihedral_run
  refine ⟨run, am, ?_, h1, h2, h3, h4, h5⟩
  apply build_automaton_mono_le _ _ _ 3 _ _ fuel hfuel
  rw [hc]; exact hb

theorem S4_build (c : Int → ℚ) (h2 : c 2 = 0) (h3 : c 3 = 1 / 2) (fuel : Nat)
    (hfuel : 7 ≤ fuel) :
    ∃ run am, build_automaton c S4_matrix 3 fuel = Except.ok (run, am) ∧
      run.store = S4_store ∧ run.matrix_data.simple_roots = [some 0, some 3, some 7] ∧
      am.heap = S4_heap ∧ am.states = S4_states ∧ am.binary_tree = S4_tree := by
  have hc : build_automaton c S4_matrix 3 7 = build_automaton exact_cos_pi_over S4_matrix 3 7 := by
    apply build_automaton_congr
    intro i j hi hj _
    have hij : (i = 0 ∧ j = 1) ∨ (i = 0 ∧ j = 2) ∨ (i = 1 ∧ j = 2) := by omega
    rcases hij with ⟨rfl, rfl⟩ | ⟨rfl, rfl⟩ | ⟨rfl, rfl⟩
    · have hM : S4_matrix 0 1 = 3 := by decide
      rw [hM, h3]; simp [exact_cos_pi_over]
    · have hM : S4_matrix 0 2 = 2 := by decide
      rw [hM, h2]; simp [exact_cos_pi_over]
    · have hM : S4_matrix 1 2 = 3 := by decide
      rw [hM, h3]; simp [exact_cos_pi_over]
  obtain ⟨run, am, hb, k1, k2, k3, k4, k5⟩ := run_summary_some _ _ S4_run
  refine ⟨run, am, ?_, k1, k2, k3, k4, k5⟩
  apply build_automaton_mono_le _ _ _ 7 _ _ fuel hfuel
  rw [hc]; exact hb

theorem compare_roots_scan_le (a b : ROOT) (N : Nat) :
    ∀ fuel ii, ii ≤ N → compare_roots_scan a b N fuel ii ≤ N := by
  intro fuel
  induction fuel with
  | zero => intro ii h; simpa [compare_roots_scan] using h
  | succ n ih =>
    intro ii h
    rw [compare_roots_scan]
    split_ifs with hc
    · exact ih (ii + 1) (by omega)
    · exact h

theorem compare_roots_scan_all (a b : ROOT) (N : Nat) :
    ∀ fuel ii, compare_roots_scan a b N fuel ii = N →
      ∀ i, ii ≤ i → i < N →
        |a.coefficients.getD i 0 - b.coefficients.getD i 0| < EPSILON_COMP_VAL := by
  intro fuel
  induction fuel with
  | zero =>
    intro ii h i h1 h2
    simp only [compare_roots_scan] at h
    omega
  | succ n ih =>
    intro ii h i h1 h2
    rw [compare_roots_scan] at h
    split_ifs at h with hc
    · by_cases hi : i = ii
      · subst hi; exact hc.2
      · exact ih (ii + 1) h i (by omega) h2
    · omega

theorem compare_roots_scan_congr (a a1 b : ROOT) (N : Nat)
    (h : ∀ i, i < N → a.coefficients.getD i 0 = a1.coefficients.getD i 0) :
    ∀ fuel ii, compare_roots_scan a b N fuel ii = compare_roots_scan a1 b N fuel ii := by
  intro fuel
  induction fuel with
  | zero => intro ii; rfl
  | succ n ih =>
    intro ii
    rw [compare_roots_scan, compare_roots_scan]
    by_cases hlt : ii < N
    · rw [h ii hlt, ih]
    · simp [hlt]

/-- Separated coefficients make compare_roots congruent. -/
theorem roots_congruent_of_separated (heap : List ROOT) (N : Nat)
    (hsep : roots_separated heap N) : roots_congruent heap N := by
  intro p q r hpq
  unfold roots_equal at hpq
  have hscan := (compare_roots_eq_zero_iff _ _ _).mp hpq
  have hall : ∀ i, i < N →
      (root_at heap p).coefficients.getD i 0 = (root_at heap q).coefficients.getD i 0 :=
    fun i hi => hsep p q i hi (compare_roots_scan_all _ _ N N 0 hscan i (by omega) hi)
  unfold compare_roots
  dsimp only
  rw [compare_roots_scan_congr _ _ (root_at heap r) N hall N 0]
  by_cases hN : compare_roots_scan (root_at heap q) (root_at heap r) N N 0 = N
  · simp [hN]
  · have hle := compare_roots_scan_le (root_at heap q) (root_at heap r) N N 0 (by omega)
    rw [hall _ (by omega)]

/-! ## The properties of the automaton -/

theorem root_at_clamp (heap : List ROOT) (p : Nat) :
    root_at heap p = root_at heap (min p heap.length) := by
  by_cases h : p < heap.length
  · rw [Nat.min_eq_left (le_of_lt h)]
  · rw [Nat.min_eq_right (by omega)]
    simp only [root_at, List.getD_eq_getElem?_getD]
    rw [List.getElem?_eq_none (by omega), List.getElem?_eq_none (le_refl _)]

theorem roots_congruent_of_bounded (heap : List ROOT) (N : Nat)
    (h : ∀ p ∈ List.range (heap.length + 1), ∀ q ∈ List.range (heap.length + 1),
      ∀ r ∈ List.range (heap.length + 1),
        compare_roots (root_at heap p) (root_at heap q) N = COMPARE_ROOTS_EQUAL →
        compare_roots (root_at heap p) (root_at heap r) N
          = compare_roots (root_at heap q) (root_at heap r) N) :
    roots_congruent heap N := by
  intro p q r hpq
  unfold roots_equal at hpq
  rw [root_at_clamp heap p, root_at_clamp heap q] at hpq
  rw [root_at_clamp heap p, root_at_clamp heap q, root_at_clamp heap r]
  exact h _ (List.mem_range.mpr (by omega)) _ (List.mem_range.mpr (by omega)) _
    (List.mem_range.mpr (by omega)) hpq

/-- C1: after generate_state_tree has returned, for the initial state and for
every state of the binary tree, and for every generator a below
num_generators, next_states[a] is the reject sentinel NULL exactly when
root_in_list finds simple_roots[a] in the root list of the state. -/
theorem reject_iff_simple_root_in_list (matrix_data : MATRIX_DATA) (num_generators : Nat)
    (heap : List ROOT) (fuel : Nat) (am : Automaton)
    (h : generate_state_tree matrix_data num_generators heap BINARY_TREE_ELEMENT.NULL fuel
      = Except.ok am) :
    ∀ u, (u = 0 ∨ u ∈ binary_tree_states am.binary_tree) →
      ∀ a, a < num_generators → reject_correct matrix_data num_generators am u a := by
  obtain ⟨hinv, hlen, hq⟩ :=
    generate_state_tree_states matrix_data num_generators heap fuel am h
  intro u hu a ha
  rcases hu with hu | hu
  · subst hu; exact hq 0 hlen a ha
  · exact hq u (hinv.catalog u hu) a ha

theorem reject_iff_simple_root_in_list_witness :
    generate_state_tree S3_matrix_data 2 S3_heap BINARY_TREE_ELEMENT.NULL 4
        = Except.ok S3_automaton ∧
    ∀ u, (u = 0 ∨ u ∈ binary_tree_states S3_automaton.binary_tree) →
      ∀ a, a < 2 → reject_correct S3_matrix_data 2 S3_automaton u a :=
  ⟨by decide!,
    reject_iff_simple_root_in_list S3_matrix_data 2 S3_heap 4 S3_automaton (by decide!)⟩

/-- C2: after generate_state_tree has returned, for every state U (the initial
state or a state of the binary tree) and every generator a whose transition
leads to a state V, the root list of V, read in order, equals under compare_roots
a sorted duplicate-free list of the roots that cox_action_on_root returns for the
roots of U and whose flag positive_minimal is set, together with
simple_roots[a]; the lengths agree as well. -/
theorem successor_root_list_correct (matrix_data : MATRIX_DATA) (num_generators : Nat)
    (heap : List ROOT) (fuel : Nat) (am : Automaton)
    (h : generate_state_tree matrix_data num_generators heap BINARY_TREE_ELEMENT.NULL fuel
      = Except.ok am) :
    ∀ u a v, (u = 0 ∨ u ∈ binary_tree_states am.binary_tree) →
      (state_at am.states u).next_states.getD a none = some v →
      ∃ tu tv, (state_at am.states u).root_table = some tu ∧
        (state_at am.states v).root_table = some tv ∧
        successor_tables matrix_data num_generators am.heap tu a tv := by
  obtain ⟨hinv, hlen, _⟩ :=
    generate_state_tree_states matrix_data num_generators heap fuel am h
  intro u a v hu hnext
  have hult : u < am.states.length := by
    rcases hu with hu | hu
    · subst hu; exact hlen
    · exact hinv.catalog u hu
  obtain ⟨_, tu, tv, h1, h2, h3⟩ := hinv.edges u a v hult hnext
  rw [hinv.heap_eq]
  exact ⟨tu, tv, h1, h2, h3⟩

theorem successor_root_list_correct_witness :
    generate_state_tree S3_matrix_data 2 S3_heap BINARY_TREE_ELEMENT.NULL 4
        = Except.ok S3_automaton ∧
    ∀ u a v, (u = 0 ∨ u ∈ binary_tree_states S3_automaton.binary_tree) →
      (state_at S3_automaton.states u).next_states.getD a none = some v →
      ∃ tu tv, (state_at S3_automaton.states u).root_table = some tu ∧
        (state_at S3_automaton.states v).root_table = some tv ∧
        successor_tables S3_matrix_data 2 S3_automaton.heap tu a tv :=
  ⟨by decide!,
    successor_root_list_correct S3_matrix_data 2 S3_heap 4 S3_automaton (by decide!)⟩

/-- When compare_roots is congruent on the heap, after generate_state_tree has
returned no two entries of the binary tree compare
COMPARE_STATES_EQUAL, and add_state_to_binary_tree returns
ADD_STATE_TO_BINARY_TREE_EXISTS for every new state, with a root table whose
length field counts its list, to which some entry of the tree compares equal. -/
theorem catalog_entries_distinct (matrix_data : MATRIX_DATA) (num_generators : Nat)
    (heap : List ROOT) (fuel : Nat) (am : Automaton)
    (hcong : roots_congruent heap num_generators)
    (h : generate_state_tree matrix_data num_generators heap BINARY_TREE_ELEMENT.NULL fuel
      = Except.ok am) :
    catalog_unique am.heap num_generators (state_at am.states) am.binary_tree ∧
      ∀ (new : Nat) (new_state : AUTOMATON_STATE) (table : ROOT_TABLE),
        new_state.root_table = some table → table.length = table.first.length →
        (∃ s, s ∈ binary_tree_states am.binary_tree ∧
          states_equal am.heap num_generators new_state (state_at am.states s)) →
        ∃ r, add_state_to_binary_tree am.heap am.states new new_state num_generators
            am.binary_tree = Except.ok r ∧
          r.ret_code = ADD_STATE_TO_BINARY_TREE_EXISTS := by
  obtain ⟨hinv, hbst, huniq⟩ :=
    generate_state_tree_catalog matrix_data num_generators heap hcong fuel am h
  rw [hinv.heap_eq]
  refine ⟨huniq, ?_⟩
  intro new new_state table htable hwf hex
  exact add_state_to_binary_tree_finds heap num_generators hcong am.states new new_state table
    htable hwf am.binary_tree (fun s hs => hinv.tables s (hinv.catalog s hs)) hbst hex

theorem catalog_entries_distinct_witness :
    roots_congruent S3_heap 2 ∧
    generate_state_tree S3_matrix_data 2 S3_heap BINARY_TREE_ELEMENT.NULL 4
        = Except.ok S3_automaton ∧
    catalog_unique S3_automaton.heap 2 (state_at S3_automaton.states)
        S3_automaton.binary_tree ∧
      ∀ (new : Nat) (new_state : AUTOMATON_STATE) (table : ROOT_TABLE),
        new_state.root_table = some table → table.length = table.first.length →
        (∃ s, s ∈ binary_tree_states S3_automaton.binary_tree ∧
          states_equal S3_automaton.heap 2 new_state (state_at S3_automaton.states s)) →
        ∃ r, add_state_to_binary_tree S3_automaton.heap S3_automaton.states new new_state 2
            S3_automaton.binary_tree = Except.ok r ∧
          r.ret_code = ADD_STATE_TO_BINARY_TREE_EXISTS :=
  ⟨roots_congruent_of_bounded S3_heap 2 (by decide!), by decide!,
    catalog_entries_distinct S3_matrix_data 2 S3_heap 4 S3_automaton
      (roots_congruent_of_bounded S3_heap 2 (by decide!)) (by decide!)⟩

/-- C7: for the infinite dihedral matrix, with any cosine, the enumeration of the
roots and generate_state_tree return for every fuel from 3 on; the table of
minimal roots holds exactly the 2 simple roots (0,1) and (1,0); and the
automaton has exactly 3 states: the initial state, the state with root list
(1,0) reached by a, and the state with root list (0,1) reached by b, the last
two being the states of the binary tree. -/
theorem infinite_dihedral_roots_and_states (cos_pi_over : Int → ℚ) (fuel : Nat)
    (hfuel : 3 ≤ fuel) :
    ∃ run am, build_automaton cos_pi_over infinite_dihedral_matrix 2 fuel = Except.ok (run, am) ∧
      run.store.minimal_root_table.length = 2 ∧
      table_coefficients run.store.heap run.store.minimal_root_table = [[0, 1], [1, 0]] ∧
      (∃ e0 e1, run.matrix_data.simple_roots = [some e0, some e1] ∧
        run.store.minimal_root_table.first = [e1, e0]) ∧
      am.states.length = 3 ∧
      (state_at am.states 0).root_table = some { first := [], length := 0 } ∧
      (∃ sa sb ta tb, (state_at am.states 0).next_states = [some sa, some sb] ∧
        sa ≠ 0 ∧ sb ≠ 0 ∧ sa ≠ sb ∧
        (state_at am.states sa).root_table = some ta ∧ ta.length = 1 ∧
        table_coefficients am.heap ta = [[1, 0]] ∧
        (state_at am.states sb).root_table = some tb ∧ tb.length = 1 ∧
        table_coefficients am.heap tb = [[0, 1]] ∧
        (binary_tree_states am.binary_tree).Perm [sa, sb]) := by
  obtain ⟨run, am, hb, hstore, hsimple, hheap, hstates, htree⟩ :=
    infinite_dihedral_build cos_pi_over fuel hfuel
  refine ⟨run, am, hb, ?_⟩
  rw [hstore, hsimple, hheap, hstates, htree]
  refine ⟨by decide, by decide!, ⟨0, 3, rfl, by decide⟩, by decide, by decide,
    1, 2, { first := [0], length := 1 }, { first := [3], length := 1 },
    by decide, by decide, by decide, by decide, by decide, by decide, by decide!,
    by decide, by decide, by decide!, by decide⟩

theorem infinite_dihedral_roots_and_states_witness :
    3 ≤ 3 ∧
    ∃ run am, build_automaton exact_cos_pi_over infinite_dihedral_matrix 2 3
        = Except.ok (run, am) ∧
      run.store.minimal_root_table.length = 2 ∧
      table_coefficients run.store.heap run.store.minimal_root_table = [[0, 1], [1, 0]] ∧
      (∃ e0 e1, run.matrix_data.simple_roots = [some e0, some e1] ∧
        run.store.minimal_root_table.first = [e1, e0]) ∧
      am.states.length = 3 ∧
      (state_at am.states 0).root_table = some { first := [], length := 0 } ∧
      (∃ sa sb ta tb, (state_at am.states 0).next_states = [some sa, some sb] ∧
        sa ≠ 0 ∧ sb ≠ 0 ∧ sa ≠ sb ∧
        (state_at am.states sa).root_table = some ta ∧ ta.length = 1 ∧
        table_coefficients am.heap ta = [[1, 0]] ∧
        (state_at am.states sb).root_table = some tb ∧ tb.length = 1 ∧
        table_coefficients am.heap tb = [[0, 1]] ∧
        (binary_tree_states am.binary_tree).Perm [sa, sb]) :=
  ⟨le_refl 3, infinite_dihedral_roots_and_states exact_cos_pi_over 3 (le_refl 3)⟩

theorem infinite_dihedral_alternating_from_ab (k : Nat) :
    ∀ position,
      first_reject infinite_dihedral_states 1 (alternating_word 1 0 k) position = none ∧
      first_reject infinite_dihedral_states 2 (alternating_word 0 1 k) position = none := by
  induction k with
  | zero => intro position; exact ⟨rfl, rfl⟩
  | succ n ih =>
    intro position
    constructor
    · show first_reject infinite_dihedral_states 2 (alternating_word 0 1 n) (position + 1) = none
      exact (ih (position + 1)).2
    · show first_reject infinite_dihedral_states 1 (alternating_word 1 0 n) (position + 1) = none
      exact (ih (position + 1)).1

/-- C8: in the automaton built for the infinite dihedral matrix, for every
length k the alternating words abab... and baba... of length k meet no reject
transition when walked from the initial state. -/
theorem infinite_dihedral_alternating_words (cos_pi_over : Int → ℚ) (fuel : Nat)
    (hfuel : 3 ≤ fuel) (k : Nat) :
    ∃ run am, build_automaton cos_pi_over infinite_dihedral_matrix 2 fuel = Except.ok (run, am) ∧
      first_reject am.states 0 (alternating_word 0 1 k) 0 = none ∧
      first_reject am.states 0 (alternating_word 1 0 k) 0 = none := by
  obtain ⟨run, am, hb, _, _, _, hstates, _⟩ := infinite_dihedral_build cos_pi_over fuel hfuel
  refine ⟨run, am, hb, ?_⟩
  rw [hstates]
  cases k with
  | zero => exact ⟨rfl, rfl⟩
  | succ n =>
    constructor
    · show first_reject infinite_dihedral_states 1 (alternating_word 1 0 n) 1 = none
      exact (infinite_dihedral_alternating_from_ab n 1).1
    · show first_reject infinite_dihedral_states 2 (alternating_word 0 1 n) 1 = none
      exact (infinite_dihedral_alternating_from_ab n 1).2

theorem infinite_dihedral_alternating_words_witness :
    3 ≤ 3 ∧
    ∃ run am, build_automaton exact_cos_pi_over infinite_dihedral_matrix 2 3
        = Except.ok (run, am) ∧
      first_reject am.states 0 (alternating_word 0 1 5) 0 = none ∧
      first_reject am.states 0 (alternating_word 1 0 5) 0 = none :=
  ⟨le_refl 3, infinite_dihedral_alternating_words exact_cos_pi_over 3 (le_refl 3) 5⟩

/-! ## The reflection computed by cox_action_on_root -/

theorem eps_pos : (0 : ℚ) < EPSILON_COMP_VAL := by unfold EPSILON_COMP_VAL; norm_num

theorem eps_lt_one : EPSILON_COMP_VAL < 1 := by unfold EPSILON_COMP_VAL; norm_num

theorem abs_one_gt_eps : |(1 : ℚ)| > EPSILON_COMP_VAL := by
  rw [abs_one]; exact eps_lt_one

theorem abs_zero_not_gt_eps : ¬ |(0 : ℚ)| > EPSILON_COMP_VAL := by
  rw [abs_zero]; exact not_lt.mpr (le_of_lt eps_pos)

theorem list_eq_of_getD (l1 l2 : List ℚ) (h : l1.length = l2.length)
    (h2 : ∀ i, i < l1.length → l1.getD i 0 = l2.getD i 0) : l1 = l2 := by
  apply List.ext_getElem h
  intro i h1 h3
  have := h2 i h1
  rw [List.getD_eq_getElem _ _ h1, List.getD_eq_getElem _ _ h3] at this
  exact this

theorem getD_set_rat (l : List ℚ) (i j : Nat) (v : ℚ) :
    (l.set i v).getD j 0 = if j = i ∧ i < l.length then v else l.getD j 0 := by
  simp only [List.getD_eq_getElem?_getD, List.getElem?_set]
  by_cases h : i = j
  · subst h
    by_cases h1 : i < l.length
    · simp [h1]
    · simp [h1, List.getElem?_eq_none (not_lt.mp h1)]
  · have h2 : ¬ j = i := fun e => h e.symm
    simp [h, h2]

theorem getD_map_range (f : Nat → ℚ) (N i : Nat) :
    ((List.range N).map f).getD i 0 = if i < N then f i else 0 := by
  simp only [List.getD_eq_getElem?_getD, List.getElem?_map, List.getElem?_range]
  by_cases h : i < N
  · simp [h, List.getElem?_range h]
  · have h1 : (List.range N)[i]? = none := List.getElem?_eq_none (by simpa using h)
    simp [h, h1]

theorem cox_action_on_root_coefficients_upto (act : Nat → Nat → ℚ) (N a : Nat) (r : ROOT)
    (ha : a < N) :
    ∀ k, k ≤ N →
      (List.range k).foldl (cox_action_on_root_step act a r) (init_root N).coefficients
        = (List.range N).map (action_coefficient_upto act a r k) := by
  intro k
  induction k with
  | zero =>
    intro _
    apply list_eq_of_getD
    · simp [init_root]
    · intro i hi
      rw [getD_map_range]
      simp only [List.range_zero, List.foldl_nil, init_root, List.length_replicate] at hi ⊢
      simp [action_coefficient_upto, hi, List.getD_eq_getElem?_getD, List.getElem?_replicate]
  | succ k ih =>
    intro hk
    have hkN : k < N := by omega
    rw [List.range_succ, List.foldl_append, ih (by omega)]
    simp only [List.foldl_cons, List.foldl_nil]
    apply list_eq_of_getD
    · unfold cox_action_on_root_step
      dsimp only
      split_ifs <;> simp
    · intro i hi
      have hiN : i < N := by
        unfold cox_action_on_root_step at hi
        dsimp only at hi
        split_ifs at hi <;> simpa using hi
      have hsum : ((List.range (k + 1)).map (action_term act a r)).sum
          = ((List.range k).map (action_term act a r)).sum + action_term act a r k := by
        rw [List.range_succ, List.map_append, List.sum_append]; simp
      rw [getD_map_range, if_pos hiN]
      unfold cox_action_on_root_step
      dsimp only
      have hck : r.coefficients.getD k 0 = coefficient r k := rfl
      rw [hck]
      by_cases hbig : |coefficient r k| > EPSILON_COMP_VAL
      · rw [if_pos hbig]
        by_cases hka : k = a
        · rw [if_pos hka]
          rw [getD_set_rat, getD_map_range, if_pos hkN]
          simp only [List.length_map, List.length_range, hkN, and_true]
          by_cases hik : i = k
          · rw [if_pos hik]
            subst hik
            subst hka
            have ht : action_term act i r i = 0 := by simp [action_term]
            simp only [action_coefficient_upto, if_true, hsum, ht]
            have h1 : ¬ (i < i ∧ |coefficient r i| > EPSILON_COMP_VAL) := by
              intro h; omega
            have h2 : (i < i + 1 ∧ |coefficient r i| > EPSILON_COMP_VAL) := ⟨by omega, hbig⟩
            rw [if_neg h1, if_pos h2]
            ring
          · rw [if_neg hik, getD_map_range, if_pos hiN]
            subst hka
            have hia : ¬ i = k := hik
            simp only [action_coefficient_upto, if_neg hia]
            have e1 : (i < k ∧ |coefficient r i| > EPSILON_COMP_VAL)
                ↔ (i < k + 1 ∧ |coefficient r i| > EPSILON_COMP_VAL) := by
              constructor
              · rintro ⟨h1, h2⟩; exact ⟨by omega, h2⟩
              · rintro ⟨h1, h2⟩; exact ⟨by omega, h2⟩
            simp only [e1]
        · rw [if_neg hka]
          rw [getD_set_rat, getD_set_rat, getD_set_rat, getD_map_range, getD_map_range,
            getD_map_range, if_pos hkN, if_pos ha, if_pos hiN]
          simp only [List.length_set, List.length_map, List.length_range, hkN, ha, and_true]
          have hka1 : ¬ a = k := fun e => hka e.symm
          have ht : action_term act a r k = act k a * coefficient r k := by
            simp [action_term, hka, hbig]
          by_cases hik : i = k
          · subst hik
            rw [if_pos rfl, if_neg hka]
            simp only [action_coefficient_upto, if_neg hka]
            have h1 : ¬ (i < i ∧ |coefficient r i| > EPSILON_COMP_VAL) := by
              intro h; omega
            have h2 : (i < i + 1 ∧ |coefficient r i| > EPSILON_COMP_VAL) := ⟨by omega, hbig⟩
            rw [if_neg h1, if_pos h2]
            ring
          · rw [if_neg hik]
            by_cases hia : i = a
            · subst hia
              rw [if_pos rfl]
              simp only [action_coefficient_upto, if_true, hsum, ht]
              have e1 : (i < k ∧ |coefficient r i| > EPSILON_COMP_VAL)
                  ↔ (i < k + 1 ∧ |coefficient r i| > EPSILON_COMP_VAL) := by
                constructor
                · rintro ⟨h1, h2⟩; exact ⟨by omega, h2⟩
                · rintro ⟨h1, h2⟩; exact ⟨by omega, h2⟩
              simp only [e1]
              ring
            · rw [if_neg hia]
              simp only [action_coefficient_upto, if_neg hia]
              have e1 : (i < k ∧ |coefficient r i| > EPSILON_COMP_VAL)
                  ↔ (i < k + 1 ∧ |coefficient r i| > EPSILON_COMP_VAL) := by
                constructor
                · rintro ⟨h1, h2⟩; exact ⟨by omega, h2⟩
                · rintro ⟨h1, h2⟩; exact ⟨by omega, h2⟩
              simp only [e1]
      · rw [if_neg hbig, getD_map_range, if_pos hiN]
        have ht : action_term act a r k = 0 := by simp [action_term, hbig]
        simp only [action_coefficient_upto, hsum, ht, add_zero]
        by_cases hia : i = a
        · subst hia
          rw [if_pos rfl, if_pos rfl]
          have e1 : (i < k ∧ |coefficient r i| > EPSILON_COMP_VAL)
              ↔ (i < k + 1 ∧ |coefficient r i| > EPSILON_COMP_VAL) := by
            constructor
            · rintro ⟨h1, h2⟩; exact ⟨by omega, h2⟩
            · rintro ⟨h1, h2⟩
              refine ⟨?_, h2⟩
              by_contra hn
              have : i = k := by omega
              subst this
              exact hbig h2
          simp only [e1]
        · rw [if_neg hia, if_neg hia]
          have e1 : (i < k ∧ |coefficient r i| > EPSILON_COMP_VAL)
              ↔ (i < k + 1 ∧ |coefficient r i| > EPSILON_COMP_VAL) := by
            constructor
            · rintro ⟨h1, h2⟩; exact ⟨by omega, h2⟩
            · rintro ⟨h1, h2⟩
              refine ⟨?_, h2⟩
              by_contra hn
              have : i = k := by omega
              subst this
              exact hbig h2
          simp only [e1]



theorem table_set_apply (t : Nat → Nat → ℚ) (i j : Nat) (v : ℚ) (x y : Nat) :
    table_set t i j v x y = if x = i ∧ y = j then v else t x y := rfl

theorem fill_scalar_product_inner (c : Int → ℚ) (M : Nat → Nat → Int) (row : Nat)
    (t0 : Nat → Nat → ℚ) :
    ∀ n x y,
      (List.range n).foldl
        (fun t1 k =>
          let column := row + 1 + k
          let t2 := table_set t1 row column (cox_scalar_product c M row column)
          table_set t2 column row (t2 row column)) t0 x y
      = if (x = row ∧ row < y ∧ y < row + 1 + n) then cox_scalar_product c M row y
        else if (y = row ∧ row < x ∧ x < row + 1 + n) then cox_scalar_product c M row x
        else t0 x y := by
  intro n
  induction n with
  | zero =>
    intro x y
    simp only [List.range_zero, List.foldl_nil]
    rw [if_neg (by omega), if_neg (by omega)]
  | succ n ih =>
    intro x y
    rw [List.range_succ, List.foldl_append, List.foldl_cons, List.foldl_nil]
    generalize hT : List.foldl _ t0 (List.range n) = T
    have ihT : ∀ x y, T x y
        = if (x = row ∧ row < y ∧ y < row + 1 + n) then cox_scalar_product c M row y
          else if (y = row ∧ row < x ∧ x < row + 1 + n) then cox_scalar_product c M row x
          else t0 x y := by
      intro x y; rw [← hT]; exact ih x y
    show table_set (table_set T row (row + 1 + n) (cox_scalar_product c M row (row + 1 + n)))
      (row + 1 + n) row
      (table_set T row (row + 1 + n) (cox_scalar_product c M row (row + 1 + n)) row (row + 1 + n))
      x y = _
    rw [table_set_apply]
    by_cases h1 : x = row + 1 + n ∧ y = row
    · obtain ⟨hx, hy⟩ := h1
      subst hx; subst hy
      rw [if_pos ⟨rfl, rfl⟩, table_set_apply, if_pos ⟨rfl, rfl⟩, if_neg (by omega),
        if_pos ⟨rfl, by omega, by omega⟩]
    · rw [if_neg h1, table_set_apply]
      by_cases h2 : x = row ∧ y = row + 1 + n
      · obtain ⟨hx, hy⟩ := h2
        subst hx; subst hy
        rw [if_pos ⟨rfl, rfl⟩, if_pos ⟨rfl, by omega, by omega⟩]
      · rw [if_neg h2, ihT]
        by_cases h3 : x = row ∧ row < y ∧ y < row + 1 + n
        · rw [if_pos h3, if_pos ⟨h3.1, h3.2.1, by omega⟩]
        · rw [if_neg h3]
          have h3b : ¬ (x = row ∧ row < y ∧ y < row + 1 + (n + 1)) := by
            rintro ⟨e1, e2, e3⟩
            by_cases e4 : y = row + 1 + n
            · exact h2 ⟨e1, e4⟩
            · exact h3 ⟨e1, e2, by omega⟩
          rw [if_neg h3b]
          by_cases h4 : y = row ∧ row < x ∧ x < row + 1 + n
          · rw [if_pos h4, if_pos ⟨h4.1, h4.2.1, by omega⟩]
          · rw [if_neg h4]
            have h4b : ¬ (y = row ∧ row < x ∧ x < row + 1 + (n + 1)) := by
              rintro ⟨e1, e2, e3⟩
              by_cases e4 : x = row + 1 + n
              · exact h1 ⟨e4, e1⟩
              · exact h4 ⟨e1, e2, by omega⟩
            rw [if_neg h4b]

/-- The cells of the table that fill_scalar_product_matrix leaves. -/
theorem fill_scalar_product_matrix_apply (c : Int → ℚ) (M : Nat → Nat → Int)
    (g : Nat → Nat → ℚ) (N : Nat) (x y : Nat) :
    fill_scalar_product_matrix c M g N x y
      = if x < N ∧ y < N then
          (if x = y then 1 else cox_scalar_product c M (min x y) (max x y))
        else g x y := by
  unfold fill_scalar_product_matrix
  have key : ∀ k, k ≤ N → ∀ x y,
      (List.range k).foldl
        (fun t row =>
          (List.range (N - (row + 1))).foldl
            (fun t1 k =>
              let column := row + 1 + k
              let t2 := table_set t1 row column (cox_scalar_product c M row column)
              table_set t2 column row (t2 row column))
            (table_set t row row 1)) g x y
      = if x < N ∧ y < N ∧ min x y < k then
          (if x = y then 1 else cox_scalar_product c M (min x y) (max x y))
        else g x y := by
    intro k
    induction k with
    | zero =>
      intro _ x y
      simp
    | succ k ih =>
      intro hk x y
      rw [List.range_succ, List.foldl_append, List.foldl_cons, List.foldl_nil]
      generalize hT : List.foldl _ g (List.range k) = T
      have ihT : ∀ x y, T x y
          = if x < N ∧ y < N ∧ min x y < k then
              (if x = y then 1 else cox_scalar_product c M (min x y) (max x y))
            else g x y := by
        intro x y; rw [← hT]; exact ih (by omega) x y
      rw [fill_scalar_product_inner]
      have hsub : k + 1 + (N - (k + 1)) = N := by omega
      rw [hsub]
      by_cases h1 : x = k ∧ k < y ∧ y < N
      · rw [if_pos h1]
        obtain ⟨e1, e2, e3⟩ := h1
        subst e1
        have hmin : min x y = x := by omega
        have hmax : max x y = y := by omega
        rw [if_pos ⟨by omega, e3, by omega⟩, if_neg (by omega), hmin, hmax]
      · rw [if_neg h1]
        by_cases h2 : y = k ∧ k < x ∧ x < N
        · rw [if_pos h2]
          obtain ⟨e1, e2, e3⟩ := h2
          subst e1
          have hmin : min x y = y := by omega
          have hmax : max x y = x := by omega
          rw [if_pos ⟨e3, by omega, by omega⟩, if_neg (by omega), hmin, hmax]
        · rw [if_neg h2, table_set_apply]
          by_cases h3 : x = k ∧ y = k
          · rw [if_pos h3]
            obtain ⟨e1, e2⟩ := h3
            subst e1; subst e2
            rw [if_pos ⟨by omega, by omega, by simp⟩, if_pos rfl]
          · rw [if_neg h3, ihT]
            by_cases h4 : x < N ∧ y < N ∧ min x y < k
            · have h5 : x < N ∧ y < N ∧ min x y < k + 1 := ⟨h4.1, h4.2.1, by omega⟩
              rw [if_pos h4, if_pos h5]
            · rw [if_neg h4]
              have h4b : ¬ (x < N ∧ y < N ∧ min x y < k + 1) := by
                rintro ⟨e1, e2, e3⟩
                by_cases e4 : min x y < k
                · exact h4 ⟨e1, e2, e4⟩
                · have e5 : min x y = k := by omega
                  rcases Nat.lt_trichotomy x y with e6 | e6 | e6
                  · exact h1 ⟨by omega, by omega, e2⟩
                  · exact h3 ⟨by omega, by omega⟩
                  · exact h2 ⟨by omega, by omega, e1⟩
              rw [if_neg h4b]
  rw [key N (le_refl N)]
  by_cases h : x < N ∧ y < N
  · rw [if_pos h, if_pos ⟨h.1, h.2, by omega⟩]
  · rw [if_neg h]
    have hb : ¬ (x < N ∧ y < N ∧ min x y < N) := fun e => h ⟨e.1, e.2.1⟩
    rw [if_neg hb]

theorem fill_cox_action_inner (sp : Nat → Nat → ℚ) (ii : Nat) (t0 : Nat → Nat → ℚ) :
    ∀ n x y,
      (List.range n).foldl
        (fun t1 k =>
          let jj := ii + 1 + k
          let curr_action_val := cox_action sp ii jj
          table_set (table_set t1 ii jj curr_action_val) jj ii curr_action_val) t0 x y
      = if (x = ii ∧ ii < y ∧ y < ii + 1 + n) then cox_action sp ii y
        else if (y = ii ∧ ii < x ∧ x < ii + 1 + n) then cox_action sp ii x
        else t0 x y := by
  intro n
  induction n with
  | zero =>
    intro x y
    simp only [List.range_zero, List.foldl_nil]
    rw [if_neg (by omega), if_neg (by omega)]
  | succ n ih =>
    intro x y
    rw [List.range_succ, List.foldl_append, List.foldl_cons, List.foldl_nil]
    generalize hT : List.foldl _ t0 (List.range n) = T
    have ihT : ∀ x y, T x y
        = if (x = ii ∧ ii < y ∧ y < ii + 1 + n) then cox_action sp ii y
          else if (y = ii ∧ ii < x ∧ x < ii + 1 + n) then cox_action sp ii x
          else t0 x y := by
      intro x y; rw [← hT]; exact ih x y
    show table_set (table_set T ii (ii + 1 + n) (cox_action sp ii (ii + 1 + n)))
      (ii + 1 + n) ii (cox_action sp ii (ii + 1 + n)) x y = _
    rw [table_set_apply]
    by_cases h1 : x = ii + 1 + n ∧ y = ii
    · obtain ⟨hx, hy⟩ := h1
      subst hx; subst hy
      rw [if_pos ⟨rfl, rfl⟩, if_neg (by omega), if_pos ⟨rfl, by omega, by omega⟩]
    · rw [if_neg h1, table_set_apply]
      by_cases h2 : x = ii ∧ y = ii + 1 + n
      · obtain ⟨hx, hy⟩ := h2
        subst hx; subst hy
        rw [if_pos ⟨rfl, rfl⟩, if_pos ⟨rfl, by omega, by omega⟩]
      · rw [if_neg h2, ihT]
        by_cases h3 : x = ii ∧ ii < y ∧ y < ii + 1 + n
        · rw [if_pos h3, if_pos ⟨h3.1, h3.2.1, by omega⟩]
        · rw [if_neg h3]
          have h3b : ¬ (x = ii ∧ ii < y ∧ y < ii + 1 + (n + 1)) := by
            rintro ⟨e1, e2, e3⟩
            by_cases e4 : y = ii + 1 + n
            · exact h2 ⟨e1, e4⟩
            · exact h3 ⟨e1, e2, by omega⟩
          rw [if_neg h3b]
          by_cases h4 : y = ii ∧ ii < x ∧ x < ii + 1 + n
          · rw [if_pos h4, if_pos ⟨h4.1, h4.2.1, by omega⟩]
          · rw [if_neg h4]
            have h4b : ¬ (y = ii ∧ ii < x ∧ x < ii + 1 + (n + 1)) := by
              rintro ⟨e1, e2, e3⟩
              by_cases e4 : x = ii + 1 + n
              · exact h1 ⟨e4, e1⟩
              · exact h4 ⟨e1, e2, by omega⟩
            rw [if_neg h4b]

/-- The cells of the table that fill_cox_action_matrix leaves: off the diagonal
the value of cox_action, on the diagonal the content of the allocation. -/
theorem fill_cox_action_matrix_apply (sp : Nat → Nat → ℚ) (g : Nat → Nat → ℚ) (N : Nat)
    (x y : Nat) :
    fill_cox_action_matrix sp g N x y
      = if x < N ∧ y < N ∧ x ≠ y then cox_action sp (min x y) (max x y) else g x y := by
  unfold fill_cox_action_matrix
  have key : ∀ k, k ≤ N → ∀ x y,
      (List.range k).foldl
        (fun t ii =>
          (List.range (N - (ii + 1))).foldl
            (fun t1 k =>
              let jj := ii + 1 + k
              let curr_action_val := cox_action sp ii jj
              table_set (table_set t1 ii jj curr_action_val) jj ii curr_action_val)
            t) g x y
      = if x < N ∧ y < N ∧ x ≠ y ∧ min x y < k then cox_action sp (min x y) (max x y)
        else g x y := by
    intro k
    induction k with
    | zero =>
      intro _ x y
      simp
    | succ k ih =>
      intro hk x y
      rw [List.range_succ, List.foldl_append, List.foldl_cons, List.foldl_nil]
      generalize hT : List.foldl _ g (List.range k) = T
      have ihT : ∀ x y, T x y
          = if x < N ∧ y < N ∧ x ≠ y ∧ min x y < k then cox_action sp (min x y) (max x y)
            else g x y := by
        intro x y; rw [← hT]; exact ih (by omega) x y
      rw [fill_cox_action_inner]
      have hsub : k + 1 + (N - (k + 1)) = N := by omega
      rw [hsub]
      by_cases h1 : x = k ∧ k < y ∧ y < N
      · rw [if_pos h1]
        obtain ⟨e1, e2, e3⟩ := h1
        subst e1
        have hmin : min x y = x := by omega
        have hmax : max x y = y := by omega
        rw [if_pos ⟨by omega, e3, by omega, by omega⟩, hmin, hmax]
      · rw [if_neg h1]
        by_cases h2 : y = k ∧ k < x ∧ x < N
        · rw [if_pos h2]
          obtain ⟨e1, e2, e3⟩ := h2
          subst e1
          have hmin : min x y = y := by omega
          have hmax : max x y = x := by omega
          rw [if_pos ⟨e3, by omega, by omega, by omega⟩, hmin, hmax]
        · rw [if_neg h2, ihT]
          by_cases h4 : x < N ∧ y < N ∧ x ≠ y ∧ min x y < k
          · have h5 : x < N ∧ y < N ∧ x ≠ y ∧ min x y < k + 1 :=
              ⟨h4.1, h4.2.1, h4.2.2.1, by omega⟩
            rw [if_pos h4, if_pos h5]
          · rw [if_neg h4]
            have h4b : ¬ (x < N ∧ y < N ∧ x ≠ y ∧ min x y < k + 1) := by
              rintro ⟨e1, e2, e3, e4⟩
              by_cases e5 : min x y < k
              · exact h4 ⟨e1, e2, e3, e5⟩
              · rcases Nat.lt_trichotomy x y with e6 | e6 | e6
                · exact h1 ⟨by omega, by omega, e2⟩
                · exact e3 e6
                · exact h2 ⟨by omega, by omega, e1⟩
            rw [if_neg h4b]
  rw [key N (le_refl N)]
  by_cases h : x < N ∧ y < N ∧ x ≠ y
  · rw [if_pos h, if_pos ⟨h.1, h.2.1, h.2.2, by omega⟩]
  · rw [if_neg h]
    have hb : ¬ (x < N ∧ y < N ∧ x ≠ y ∧ min x y < N) := fun e => h ⟨e.1, e.2.1, e.2.2.1⟩
    rw [if_neg hb]

/-- With both tables filled, the entry of simple_action_results off the diagonal
is -2 times the entry of scalar_products. -/
theorem simple_action_results_eq (c : Int → ℚ) (M : Nat → Nat → Int)
    (g1 g2 : Nat → Nat → ℚ) (N x y : Nat) (hx : x < N) (hy : y < N) (hxy : x ≠ y) :
    fill_cox_action_matrix (fill_scalar_product_matrix c M g1 N) g2 N x y
      = -2 * fill_scalar_product_matrix c M g1 N x y := by
  rw [fill_cox_action_matrix_apply, if_pos ⟨hx, hy, hxy⟩]
  unfold cox_action
  have hyx : y ≠ x := fun e => hxy e.symm
  rcases Nat.lt_or_gt_of_ne hxy with h | h
  · have hmin : min x y = x := by omega
    have hmax : max x y = y := by omega
    have e1 : min y x = x := by omega
    have e2 : max y x = y := by omega
    have b1 : y < N ∧ x < N := ⟨hy, hx⟩
    have b2 : x < N ∧ y < N := ⟨hx, hy⟩
    rw [hmin, hmax, fill_scalar_product_matrix_apply c M g1 N y x,
      fill_scalar_product_matrix_apply c M g1 N x y, if_pos b1, if_pos b2,
      if_neg hyx, if_neg hxy, e1, e2, hmin, hmax]
  · have hmin : min x y = y := by omega
    have hmax : max x y = x := by omega
    rw [hmin, hmax]



theorem cox_action_on_root_coefficients_eq (act : Nat → Nat → ℚ) (N a : Nat) (r : ROOT)
    (ha : a < N) :
    cox_action_on_root_coefficients act N a r
      = (List.range N).map (action_coefficient act N a r) := by
  unfold cox_action_on_root_coefficients
  rw [cox_action_on_root_coefficients_upto act N a r ha N (le_refl N)]
  apply List.map_congr_left
  intro i hi
  have hi1 : i < N := List.mem_range.mp hi
  unfold action_coefficient_upto action_coefficient
  by_cases hia : i = a
  · rw [if_pos hia, if_pos hia]
    simp only [ha, true_and]
  · rw [if_neg hia, if_neg hia]
    simp only [hi1, true_and]

theorem coefficient_computed_root (act : Nat → Nat → ℚ) (N a : Nat) (r : ROOT)
    (ha : a < N) (i : Nat) (hi : i < N) :
    coefficient (computed_root act N a r) i = action_coefficient act N a r i := by
  unfold coefficient computed_root
  dsimp only
  rw [cox_action_on_root_coefficients_eq act N a r ha, getD_map_range, if_pos hi]

theorem range_sum_eq_finset (f : Nat → ℚ) (n : Nat) :
    ((List.range n).map f).sum = ∑ i in Finset.range n, f i := by
  induction n with
  | zero => simp
  | succ n ih => rw [List.range_succ, List.map_append, List.sum_append, ih,
      Finset.sum_range_succ]; simp

theorem cox_scalar_product_root_sum (sp : Nat → Nat → ℚ) (a : Nat) (r : ROOT) (N : Nat) :
    cox_scalar_product_root sp a r N = ∑ i in Finset.range N, coefficient r i * sp i a := by
  unfold cox_scalar_product_root
  induction N with
  | zero => simp
  | succ n ih =>
    rw [List.range_succ, List.foldl_append, ih, Finset.sum_range_succ]
    simp [coefficient]

theorem compare_roots_scan_of_close (a b : ROOT) (N : Nat)
    (h : ∀ i, i < N → |a.coefficients.getD i 0 - b.coefficients.getD i 0| < EPSILON_COMP_VAL) :
    ∀ fuel ii, ii + fuel = N → compare_roots_scan a b N fuel ii = N := by
  intro fuel
  induction fuel with
  | zero => intro ii hii; simpa [compare_roots_scan] using hii
  | succ n ih =>
    intro ii hii
    have hlt : ii < N := by omega
    rw [compare_roots_scan, if_pos ⟨hlt, h ii hlt⟩]
    exact ih (ii + 1) (by omega)

theorem compare_roots_eq_zero_of_close (a b : ROOT) (N : Nat)
    (h : ∀ i, i < N → |a.coefficients.getD i 0 - b.coefficients.getD i 0| < EPSILON_COMP_VAL) :
    compare_roots a b N = 0 :=
  (compare_roots_eq_zero_iff a b N).mpr (compare_roots_scan_of_close a b N h N 0 (by omega))

theorem compare_roots_eq_zero_close (a b : ROOT) (N : Nat) (h : compare_roots a b N = 0) :
    ∀ i, i < N → |a.coefficients.getD i 0 - b.coefficients.getD i 0| < EPSILON_COMP_VAL :=
  fun i hi => compare_roots_scan_all a b N N 0 ((compare_roots_eq_zero_iff a b N).mp h) i
    (by omega) hi

theorem root_at_of_lt (heap : List ROOT) (p : Nat) (h : p < heap.length) :
    root_at heap p = heap[p] := by
  unfold root_at
  rw [List.getD_eq_getElem _ _ h]

theorem root_at_set_ne (heap : List ROOT) (p q : Nat) (v : ROOT) (h : p ≠ q) :
    root_at (heap.set q v) p = root_at heap p := by
  unfold root_at
  simp only [List.getD_eq_getElem?_getD]
  rw [List.getElem?_set_ne (fun e => h e.symm)]

theorem root_at_set_eq (heap : List ROOT) (q : Nat) (v : ROOT) (h : q < heap.length) :
    root_at (heap.set q v) q = v := by
  unfold root_at
  simp only [List.getD_eq_getElem?_getD]
  rw [List.getElem?_set_self h]
  rfl

theorem root_at_append_lt (heap : List ROOT) (v : ROOT) (p : Nat) (h : p < heap.length) :
    root_at (heap ++ [v]) p = root_at heap p := by
  unfold root_at
  simp only [List.getD_eq_getElem?_getD]
  rw [List.getElem?_append_left h]

theorem root_at_append_eq (heap : List ROOT) (v : ROOT) :
    root_at (heap ++ [v]) heap.length = v := by
  unfold root_at
  simp only [List.getD_eq_getElem?_getD]
  rw [List.getElem?_append_right (le_refl _)]
  simp

theorem compare_roots_congr (a a1 b b1 : ROOT) (N : Nat)
    (ha : a.coefficients = a1.coefficients) (hb : b.coefficients = b1.coefficients) :
    compare_roots a b N = compare_roots a1 b1 N := by
  have hscan : ∀ fuel ii, compare_roots_scan a b N fuel ii = compare_roots_scan a1 b1 N fuel ii := by
    intro fuel
    induction fuel with
    | zero => intro ii; rfl
    | succ n ih =>
      intro ii
      rw [compare_roots_scan, compare_roots_scan, ha, hb, ih]
  unfold compare_roots
  rw [hscan, ha, hb]

theorem root_positive_congr (a a1 : ROOT) (N : Nat) (ha : a.coefficients = a1.coefficients) :
    root_positive a N = root_positive a1 N := by
  have hscan : ∀ fuel ii, root_positive_scan a N fuel ii = root_positive_scan a1 N fuel ii := by
    intro fuel
    induction fuel with
    | zero => intro ii; rfl
    | succ n ih =>
      intro ii
      rw [root_positive_scan, root_positive_scan, ha, ih]
  unfold root_positive
  rw [hscan, ha]

theorem root_in_list_walk_congr (heap heap1 : List ROOT) (r r1 : ROOT) (N : Nat)
    (hr : r.coefficients = r1.coefficients) :
    ∀ (l : List Nat),
      (∀ x ∈ l, (root_at heap1 x).coefficients = (root_at heap x).coefficients) →
      root_in_list_walk heap1 r1 N l = root_in_list_walk heap r N l := by
  intro l
  induction l with
  | nil => intro _; rfl
  | cons x rest ih =>
    intro h
    rw [root_in_list_walk, root_in_list_walk,
      compare_roots_congr (root_at heap1 x) (root_at heap x) r1 r N
        (h x (List.mem_cons_self _ _)) hr.symm,
      ih (fun y hy => h y (List.mem_cons_of_mem _ hy))]

theorem root_in_list_walk_some (heap : List ROOT) (r : ROOT) (N : Nat) :
    ∀ (l : List Nat) (x : Nat), root_in_list_walk heap r N l = some x →
      x ∈ l ∧ compare_roots (root_at heap x) r N = 0 := by
  intro l
  induction l with
  | nil => intro x h; simp [root_in_list_walk] at h
  | cons y rest ih =>
    intro x h
    rw [root_in_list_walk] at h
    split_ifs at h with hc
    · simp only [Option.some.injEq] at h
      subst h
      exact ⟨List.mem_cons_self _ _, hc⟩
    · obtain ⟨h1, h2⟩ := ih x h
      exact ⟨List.mem_cons_of_mem _ h1, h2⟩

theorem root_in_list_walk_none (heap : List ROOT) (r : ROOT) (N : Nat) :
    ∀ (l : List Nat), root_in_list_walk heap r N l = none ↔
      ∀ x ∈ l, compare_roots (root_at heap x) r N ≠ 0 := by
  intro l
  induction l with
  | nil => simp [root_in_list_walk]
  | cons y rest ih =>
    rw [root_in_list_walk]
    split_ifs with hc
    · simp only [reduceCtorEq, false_iff]
      intro h
      exact h y (List.mem_cons_self _ _) hc
    · rw [ih]
      constructor
      · intro h x hx
        rcases List.mem_cons.mp hx with e | e
        · subst e; exact hc
        · exact h x e
      · intro h x hx
        exact h x (List.mem_cons_of_mem _ hx)

/-- The three ways in which cox_action_on_root returns when it is given a root
table: through the memo slot, with a root found in the table, or with a new root. -/
theorem cox_action_on_root_table_spec (md : MATRIX_DATA) (N a : Nat) (heap : List ROOT)
    (root : Nat) (table : ROOT_TABLE) (e : Option Bool) (res : ActionResult)
    (h : cox_action_on_root md N a heap root (some table) e = Except.ok res) :
    (∃ q, (root_at heap root).next_roots.getD a none = some q ∧
        res = { heap := heap, returned_root := q, new_root_exists := e }) ∨
      ((root_at heap root).next_roots.getD a none = none ∧
        ∃ act, md.simple_action_results = some act ∧
          ((∃ x, root_in_list heap table (computed_root act N a (root_at heap root)) N = some x ∧
              res = { heap := heap.set root
                        { root_at heap root with
                          next_roots := (root_at heap root).next_roots.set a (some x) }
                      returned_root := x, new_root_exists := some true }) ∨
            (root_in_list heap table (computed_root act N a (root_at heap root)) N = none ∧
              res = { heap := (heap ++ [computed_root act N a (root_at heap root)]).set root
                        { root_at (heap ++ [computed_root act N a (root_at heap root)]) root with
                          next_roots :=
                            (root_at (heap ++ [computed_root act N a (root_at heap root)])
                              root).next_roots.set a (some heap.length) }
                      returned_root := heap.length, new_root_exists := some false }))) := by
  unfold cox_action_on_root at h
  cases hm : (root_at heap root).next_roots.getD a none with
  | some q =>
    left
    rw [hm] at h
    simp only [pure, Except.pure, Except.ok.injEq] at h
    exact ⟨q, rfl, h.symm⟩
  | none =>
    right
    rw [hm] at h
    refine ⟨rfl, ?_⟩
    cases hact : md.simple_action_results with
    | none => rw [hact] at h; cases h
    | some act =>
      rw [hact] at h
      refine ⟨act, rfl, ?_⟩
      dsimp only at h
      change (match root_in_list heap table (computed_root act N a (root_at heap root)) N with
        | some existing_root => _
        | none => _) = _ at h
      cases hf : root_in_list heap table (computed_root act N a (root_at heap root)) N with
      | some x =>
        left
        rw [hf] at h
        simp only [pure, Except.pure, Except.ok.injEq] at h
        exact ⟨x, rfl, h.symm⟩
      | none =>
        right
        rw [hf] at h
        simp only [pure, Except.pure, Except.ok.injEq] at h
        exact ⟨rfl, h.symm⟩

theorem root_at_set_coefficients (heap : List ROOT) (q p : Nat) (v : ROOT)
    (hv : v.coefficients = (root_at heap q).coefficients) :
    (root_at (heap.set q v) p).coefficients = (root_at heap p).coefficients := by
  by_cases hpq : p = q
  · subst hpq
    by_cases hlt : p < heap.length
    · rw [root_at_set_eq heap p v hlt, hv]
    · have h1 : heap.set p v = heap := List.set_eq_of_length_le (by omega)
      rw [h1]
  · rw [root_at_set_ne heap p q v hpq]

theorem coefficient_simple_root (N ii i : Nat) (hii : ii < N) :
    coefficient (simple_root N ii) i = if i = ii then 1 else 0 := by
  unfold coefficient simple_root init_root
  dsimp only
  rw [getD_set_rat]
  by_cases h : i = ii
  · rw [if_pos h, if_pos ⟨h, by simpa using hii⟩]
  · rw [if_neg h, if_neg (fun e => h e.1)]
    simp only [List.getD_eq_getElem?_getD, List.getElem?_replicate]
    split_ifs <;> rfl

theorem cox_action_on_root_new (md : MATRIX_DATA) (N a : Nat) (heap : List ROOT)
    (root : Nat) (table : ROOT_TABLE) (e : Option Bool) (act : Nat → Nat → ℚ)
    (hact : md.simple_action_results = some act)
    (hmemo : (root_at heap root).next_roots.getD a none = none)
    (hnone : root_in_list heap table (computed_root act N a (root_at heap root)) N = none) :
    cox_action_on_root md N a heap root (some table) e
      = Except.ok
          { heap := (heap ++ [computed_root act N a (root_at heap root)]).set root
              { root_at (heap ++ [computed_root act N a (root_at heap root)]) root with
                next_roots :=
                  (root_at (heap ++ [computed_root act N a (root_at heap root)])
                    root).next_roots.set a (some heap.length) }
            returned_root := heap.length, new_root_exists := some false } := by
  unfold cox_action_on_root
  rw [hmemo]
  dsimp only
  rw [hact]
  dsimp only
  change (match root_in_list heap table (computed_root act N a (root_at heap root)) N with
    | some existing_root => _
    | none => _) = _
  rw [hnone]
  rfl

/-- The root computed from the simple root e_1 by the generator 0. -/
theorem action_coefficient_simple_root_1 (act : Nat → Nat → ℚ) (N : Nat) (hN : 2 ≤ N) (i : Nat) :
    action_coefficient act N 0 (simple_root N 1) i
      = if i = 0 then act 1 0 else if i = 1 then 1 else 0 := by
  have hterm : ∀ j ∈ Finset.range N,
      action_term act 0 (simple_root N 1) j = if j = 1 then act 1 0 else 0 := by
    intro j _
    unfold action_term
    rw [coefficient_simple_root N 1 j (by omega)]
    by_cases hj : j = 1
    · subst hj
      simp [eps_lt_one, not_le.mpr eps_lt_one]
    · simp [hj, abs_zero_not_gt_eps]
  have h1N : 1 ∈ Finset.range N := Finset.mem_range.mpr (by omega)
  unfold action_coefficient
  rw [range_sum_eq_finset, Finset.sum_congr rfl hterm, Finset.sum_ite_eq' (Finset.range N) 1,
    if_pos h1N, coefficient_simple_root N 1 0 (by omega)]
  by_cases hi : i = 0
  · subst hi
    simp [abs_zero_not_gt_eps]
  · rw [coefficient_simple_root N 1 i (by omega)]
    by_cases h1 : i = 1
    · subst h1
      simp [eps_lt_one, not_le.mpr eps_lt_one]
    · simp [hi, h1, abs_zero_not_gt_eps]

theorem reflection_twice_coefficients (act : Nat → Nat → ℚ) (N : Nat) (hN : 2 ≤ N) (i : Nat)
    (hi : i < N) :
    coefficient (computed_root act N 0 (computed_root act N 0 (simple_root N 1))) i
      = if i = 0 then (if |act 1 0| > EPSILON_COMP_VAL then 0 else act 1 0)
        else if i = 1 then 1 else 0 := by
  have hv : ∀ j, j < N → coefficient (computed_root act N 0 (simple_root N 1)) j
      = if j = 0 then act 1 0 else if j = 1 then 1 else 0 := by
    intro j hj
    rw [coefficient_computed_root act N 0 _ (by omega) j hj,
      action_coefficient_simple_root_1 act N hN j]
  have hterm : ∀ j ∈ Finset.range N,
      action_term act 0 (computed_root act N 0 (simple_root N 1)) j
        = if j = 1 then act 1 0 else 0 := by
    intro j hj
    unfold action_term
    rw [hv j (Finset.mem_range.mp hj)]
    by_cases h0 : j = 0
    · subst h0
      simp
    · by_cases h1 : j = 1
      · subst h1
        simp [eps_lt_one, not_le.mpr eps_lt_one]
      · simp [h0, h1, abs_zero_not_gt_eps]
  have h1N : 1 ∈ Finset.range N := Finset.mem_range.mpr (by omega)
  rw [coefficient_computed_root act N 0 _ (by omega) i hi]
  unfold action_coefficient
  rw [range_sum_eq_finset, Finset.sum_congr rfl hterm, Finset.sum_ite_eq' (Finset.range N) 1,
    if_pos h1N, hv 0 (by omega), if_pos rfl]
  by_cases h0 : i = 0
  · subst h0
    by_cases hb : |act 1 0| > EPSILON_COMP_VAL
    · simp [hb]
    · simp [hb]
  · rw [hv i hi]
    by_cases h1 : i = 1
    · subst h1
      simp [eps_lt_one, not_le.mpr eps_lt_one]
    · simp [h0, h1, abs_zero_not_gt_eps]

theorem action_1_0_ne_eps (cos_pi_over : Int → ℚ) (M : Nat → Nat → Int)
    (msp mact : Nat → Nat → ℚ) (N : Nat) (hN : 2 ≤ N)
    (hcos : M 0 1 ≠ 0 → 2 * |cos_pi_over (M 0 1)| ≠ EPSILON_COMP_VAL) :
    |fill_cox_action_matrix (fill_scalar_product_matrix cos_pi_over M msp N) mact N 1 0|
      ≠ EPSILON_COMP_VAL := by
  rw [simple_action_results_eq cos_pi_over M msp mact N 1 0 (by omega) (by omega) (by omega),
    fill_scalar_product_matrix_apply]
  have h1 : (1 < N ∧ 0 < N) := ⟨by omega, by omega⟩
  have hmin : min 1 0 = 0 := by decide
  have hmax : max 1 0 = 1 := by decide
  rw [if_pos h1, if_neg (by omega), hmin, hmax]
  unfold cox_scalar_product
  rw [if_neg (by omega)]
  by_cases hM : M 0 1 = 0
  · rw [if_pos hM]
    unfold EPSILON_COMP_VAL
    norm_num
  · rw [if_neg hM]
    have h2 : |(-2 : ℚ) * (-1 * cos_pi_over (M 0 1))| = 2 * |cos_pi_over (M 0 1)| := by
      rw [abs_mul, abs_mul]
      norm_num
    rw [h2]
    exact hcos hM

/-- C17: for every integer matrix and at least 2 generators, with the tables
filled by fill_scalar_product_matrix and fill_cox_action_matrix and a cosine
whose double at the entry (0, 1) is not exactly EPSILON_COMP_VAL in magnitude
(the cosine of pi / m at an integer m is 0 or at least 1/2 in magnitude), the
root computed from the simple root e_1 by applying the generator 0 twice
compares EQUAL to e_1; and two calls of cox_action_on_root with the generator 0,
the first on e_1 and the second on the root returned by the first, return a root
that compares EQUAL to e_1. -/
theorem reflection_twice_on_simple_root (cos_pi_over : Int → ℚ)
    (coxeter_matrix : Nat → Nat → Int) (malloced_sp malloced_act : Nat → Nat → ℚ)
    (num_generators : Nat) (hN : 2 ≤ num_generators)
    (hcos : coxeter_matrix 0 1 ≠ 0 →
      2 * |cos_pi_over (coxeter_matrix 0 1)| ≠ EPSILON_COMP_VAL) :
    compare_roots
        (computed_root
          (fill_cox_action_matrix
            (fill_scalar_product_matrix cos_pi_over coxeter_matrix malloced_sp num_generators)
            malloced_act num_generators) num_generators 0
          (computed_root
            (fill_cox_action_matrix
              (fill_scalar_product_matrix cos_pi_over coxeter_matrix malloced_sp num_generators)
              malloced_act num_generators) num_generators 0 (simple_root num_generators 1)))
        (simple_root num_generators 1) num_generators = COMPARE_ROOTS_EQUAL ∧
    ∀ (matrix_data : MATRIX_DATA) (new_root_exists : Option Bool),
      matrix_data.simple_action_results
        = some (fill_cox_action_matrix
            (fill_scalar_product_matrix cos_pi_over coxeter_matrix malloced_sp num_generators)
            malloced_act num_generators) →
      ∃ res1 res2,
        cox_action_on_root matrix_data num_generators 0 [simple_root num_generators 1] 0
            (some { first := [], length := 0 }) new_root_exists = Except.ok res1 ∧
        cox_action_on_root matrix_data num_generators 0 res1.heap res1.returned_root
            (some { first := [], length := 0 }) res1.new_root_exists = Except.ok res2 ∧
        compare_roots (root_at res2.heap res2.returned_root) (root_at res2.heap 0)
            num_generators = COMPARE_ROOTS_EQUAL := by
  have hne := action_1_0_ne_eps cos_pi_over coxeter_matrix malloced_sp malloced_act
    num_generators hN hcos
  generalize fill_cox_action_matrix
    (fill_scalar_product_matrix cos_pi_over coxeter_matrix malloced_sp num_generators)
    malloced_act num_generators = act at hne ⊢
  have hvec : compare_roots
      (computed_root act num_generators 0
        (computed_root act num_generators 0 (simple_root num_generators 1)))
      (simple_root num_generators 1) num_generators = COMPARE_ROOTS_EQUAL := by
    apply compare_roots_eq_zero_of_close
    intro i hi
    have h1 := reflection_twice_coefficients act num_generators hN i hi
    have h2 := coefficient_simple_root num_generators 1 i (by omega)
    unfold coefficient at h1 h2
    rw [h1, h2]
    by_cases h0 : i = 0
    · subst h0
      have h01 : ¬ ((0 : Nat) = 1) := by omega
      simp only [if_true, if_neg h01, sub_zero]
      by_cases hb : |act 1 0| > EPSILON_COMP_VAL
      · rw [if_pos hb]; simp [eps_pos]
      · rw [if_neg hb]
        exact lt_of_le_of_ne (not_lt.mp hb) hne
    · rw [if_neg h0]
      simp [eps_pos]
  refine ⟨hvec, ?_⟩
  intro md e hact
  have hmemo1 : (root_at [simple_root num_generators 1] 0).next_roots.getD 0 none = none := by
    have hr : root_at [simple_root num_generators 1] 0 = simple_root num_generators 1 := rfl
    rw [hr]
    simp only [simple_root, init_root, List.getD_eq_getElem?_getD, List.getElem?_replicate]
    split_ifs <;> rfl
  have hrun1 := cox_action_on_root_new md num_generators 0 [simple_root num_generators 1] 0
    { first := [], length := 0 } e act hact hmemo1 rfl
  have hr0 : root_at [simple_root num_generators 1] 0 = simple_root num_generators 1 := rfl
  have hlen0 : [simple_root num_generators 1].length = 1 := rfl
  rw [hr0, hlen0] at hrun1
  obtain ⟨H1, hH1⟩ : ∃ H1, H1 = ([simple_root num_generators 1]
      ++ [computed_root act num_generators 0 (simple_root num_generators 1)]).set 0
      { root_at ([simple_root num_generators 1]
          ++ [computed_root act num_generators 0 (simple_root num_generators 1)]) 0 with
        next_roots := (root_at ([simple_root num_generators 1]
          ++ [computed_root act num_generators 0 (simple_root num_generators 1)])
            0).next_roots.set 0 (some 1) } := ⟨_, rfl⟩
  rw [← hH1] at hrun1
  have hlen1 : H1.length = 2 := by rw [hH1]; simp
  have hat1 : root_at H1 1 = computed_root act num_generators 0 (simple_root num_generators 1) := by
    rw [hH1]; rfl
  have hat0 : (root_at H1 0).coefficients = (simple_root num_generators 1).coefficients := by
    rw [hH1]; rfl
  have hmemo2 : (root_at H1 1).next_roots.getD 0 none = none := by
    rw [hat1]
    simp only [computed_root, init_root, List.getD_eq_getElem?_getD, List.getElem?_replicate]
    split_ifs <;> rfl
  have hrun2 := cox_action_on_root_new md num_generators 0 H1 1
    { first := [], length := 0 } (some false) act hact hmemo2 rfl
  rw [hat1, hlen1] at hrun2
  refine ⟨_, _, hrun1, hrun2, ?_⟩
  dsimp only
  have h2 : root_at ((H1 ++ [computed_root act num_generators 0
        (computed_root act num_generators 0 (simple_root num_generators 1))]).set 1
      { root_at (H1 ++ [computed_root act num_generators 0
          (computed_root act num_generators 0 (simple_root num_generators 1))]) 1 with
        next_roots := (root_at (H1 ++ [computed_root act num_generators 0
          (computed_root act num_generators 0 (simple_root num_generators 1))])
            1).next_roots.set 0 (some 2) }) 2
      = computed_root act num_generators 0
          (computed_root act num_generators 0 (simple_root num_generators 1)) := by
    rw [root_at_set_ne _ _ _ _ (by omega), ← hlen1, root_at_append_eq]
  have h0 : (root_at ((H1 ++ [computed_root act num_generators 0
        (computed_root act num_generators 0 (simple_root num_generators 1))]).set 1
      { root_at (H1 ++ [computed_root act num_generators 0
          (computed_root act num_generators 0 (simple_root num_generators 1))]) 1 with
        next_roots := (root_at (H1 ++ [computed_root act num_generators 0
          (computed_root act num_generators 0 (simple_root num_generators 1))])
            1).next_roots.set 0 (some 2) }) 0).coefficients
      = (simple_root num_generators 1).coefficients := by
    rw [root_at_set_ne _ _ _ _ (by omega), root_at_append_lt _ _ _ (by omega), hat0]
  rw [h2]
  exact (compare_roots_congr _ _ _ _ _ rfl h0).trans hvec

theorem reflection_twice_on_simple_root_witness :
    2 ≤ 2 ∧
    (S3_matrix 0 1 ≠ 0 → 2 * |exact_cos_pi_over (S3_matrix 0 1)| ≠ EPSILON_COMP_VAL) ∧
    compare_roots
        (computed_root
          (fill_cox_action_matrix
            (fill_scalar_product_matrix exact_cos_pi_over S3_matrix (fun _ _ => 0) 2)
            (fun _ _ => 0) 2) 2 0
          (computed_root
            (fill_cox_action_matrix
              (fill_scalar_product_matrix exact_cos_pi_over S3_matrix (fun _ _ => 0) 2)
              (fun _ _ => 0) 2) 2 0 (simple_root 2 1)))
        (simple_root 2 1) 2 = COMPARE_ROOTS_EQUAL ∧
    ∀ (matrix_data : MATRIX_DATA) (new_root_exists : Option Bool),
      matrix_data.simple_action_results
        = some (fill_cox_action_matrix
            (fill_scalar_product_matrix exact_cos_pi_over S3_matrix (fun _ _ => 0) 2)
            (fun _ _ => 0) 2) →
      ∃ res1 res2,
        cox_action_on_root matrix_data 2 0 [simple_root 2 1] 0
            (some { first := [], length := 0 }) new_root_exists = Except.ok res1 ∧
        cox_action_on_root matrix_data 2 0 res1.heap res1.returned_root
            (some { first := [], length := 0 }) res1.new_root_exists = Except.ok res2 ∧
        compare_roots (root_at res2.heap res2.returned_root) (root_at res2.heap 0) 2
          = COMPARE_ROOTS_EQUAL := by
  have hcos : S3_matrix 0 1 ≠ 0 →
      2 * |exact_cos_pi_over (S3_matrix 0 1)| ≠ EPSILON_COMP_VAL := by
    intro _
    have hM : S3_matrix 0 1 = 3 := by decide
    rw [hM]
    simp only [exact_cos_pi_over, EPSILON_COMP_VAL]
    have habs : |(1 / 2 : ℚ)| = 1 / 2 := abs_of_pos (by norm_num)
    norm_num [habs]
  exact ⟨le_refl 2, hcos,
    reflection_twice_on_simple_root exact_cos_pi_over S3_matrix (fun _ _ => 0) (fun _ _ => 0)
      2 (le_refl 2) hcos⟩

/-! ## The enumeration of the roots -/

theorem memo_write_length (heap : List ROOT) (root a q : Nat) :
    (memo_write heap root a q).length = heap.length := by
  simp [memo_write]

theorem flag_write_length (heap : List ROOT) (p : Nat) (flag : Bool) :
    (flag_write heap p flag).length = heap.length := by
  simp [flag_write]

theorem root_at_memo_write_ne (heap : List ROOT) (root a q p : Nat) (h : p ≠ root) :
    root_at (memo_write heap root a q) p = root_at heap p :=
  root_at_set_ne heap p root _ h

theorem root_at_memo_write_eq (heap : List ROOT) (root a q : Nat) (h : root < heap.length) :
    root_at (memo_write heap root a q) root
      = { root_at heap root with next_roots := (root_at heap root).next_roots.set a (some q) } :=
  root_at_set_eq heap root _ h

theorem root_at_flag_write_ne (heap : List ROOT) (p x : Nat) (flag : Bool) (h : x ≠ p) :
    root_at (flag_write heap p flag) x = root_at heap x :=
  root_at_set_ne heap x p _ h

theorem root_at_flag_write_eq (heap : List ROOT) (p : Nat) (flag : Bool) (h : p < heap.length) :
    root_at (flag_write heap p flag) p = { root_at heap p with positive_minimal := flag } :=
  root_at_set_eq heap p _ h

theorem memo_write_coefficients (heap : List ROOT) (root a q p : Nat) :
    (root_at (memo_write heap root a q) p).coefficients = (root_at heap p).coefficients :=
  root_at_set_coefficients heap root p _ rfl

theorem flag_write_coefficients (heap : List ROOT) (p x : Nat) (flag : Bool) :
    (root_at (flag_write heap p flag) x).coefficients = (root_at heap x).coefficients :=
  root_at_set_coefficients heap p x _ rfl

theorem flag_write_next_roots (heap : List ROOT) (p x : Nat) (flag : Bool) :
    (root_at (flag_write heap p flag) x).next_roots = (root_at heap x).next_roots := by
  by_cases hx : x = p
  · subst hx
    by_cases hlt : x < heap.length
    · rw [root_at_flag_write_eq heap x flag hlt]
    · have h1 : flag_write heap x flag = heap := List.set_eq_of_length_le (by omega)
      rw [h1]
  · rw [root_at_flag_write_ne heap p x flag hx]

theorem memo_write_flag (heap : List ROOT) (root a q p : Nat) :
    (root_at (memo_write heap root a q) p).positive_minimal
      = (root_at heap p).positive_minimal := by
  by_cases hx : p = root
  · subst hx
    by_cases hlt : p < heap.length
    · rw [root_at_memo_write_eq heap p a q hlt]
    · have h1 : memo_write heap p a q = heap := List.set_eq_of_length_le (by omega)
      rw [h1]
  · rw [root_at_memo_write_ne heap root a q p hx]

theorem memo_slot_flag_write (heap : List ROOT) (p x b : Nat) (flag : Bool) :
    memo_slot (flag_write heap p flag) x b = memo_slot heap x b := by
  unfold memo_slot
  rw [flag_write_next_roots]

theorem memo_slot_memo_write (heap : List ROOT) (root a q p b : Nat)
    (hroot : root < heap.length) :
    memo_slot (memo_write heap root a q) p b
      = if p = root ∧ b = a ∧ a < (root_at heap root).next_roots.length then some q
        else memo_slot heap p b := by
  unfold memo_slot
  by_cases hp : p = root
  · subst hp
    rw [root_at_memo_write_eq heap p a q hroot]
    dsimp only
    rw [getD_set_slot]
    by_cases hb : b = a ∧ a < (root_at heap p).next_roots.length
    · rw [if_pos hb, if_pos ⟨rfl, hb⟩]
    · rw [if_neg hb, if_neg (fun e => hb e.2)]
  · rw [root_at_memo_write_ne heap root a q p hp, if_neg (fun e => hp e.1)]

theorem memo_write_next_roots_length (heap : List ROOT) (root a q p : Nat) :
    (root_at (memo_write heap root a q) p).next_roots.length
      = (root_at heap p).next_roots.length := by
  by_cases hx : p = root
  · subst hx
    by_cases hlt : p < heap.length
    · rw [root_at_memo_write_eq heap p a q hlt]
      simp
    · have h1 : memo_write heap p a q = heap := List.set_eq_of_length_le (by omega)
      rw [h1]
  · rw [root_at_memo_write_ne heap root a q p hx]

theorem heap_extends_refl (heap : List ROOT) : heap_extends heap heap :=
  ⟨le_refl _, fun _ _ => ⟨rfl, fun _ _ h => h⟩⟩

theorem heap_extends_trans (h1 h2 h3 : List ROOT) (a : heap_extends h1 h2)
    (b : heap_extends h2 h3) : heap_extends h1 h3 := by
  refine ⟨le_trans a.1 b.1, ?_⟩
  intro p hp
  obtain ⟨c1, m1⟩ := a.2 p hp
  obtain ⟨c2, m2⟩ := b.2 p (lt_of_lt_of_le hp a.1)
  exact ⟨c2.trans c1, fun x q h => m2 x q (m1 x q h)⟩

theorem roots_ascending_congr (heap heap1 : List ROOT) (N p q : Nat)
    (hp : (root_at heap1 p).coefficients = (root_at heap p).coefficients)
    (hq : (root_at heap1 q).coefficients = (root_at heap q).coefficients) :
    roots_ascending heap1 N p q ↔ roots_ascending heap N p q := by
  unfold roots_ascending
  rw [compare_roots_congr _ _ _ _ N hp hq]

theorem chain_transfer (heap heap1 : List ROOT) (N : Nat) :
    ∀ (l : List Nat),
      (∀ x ∈ l, (root_at heap1 x).coefficients = (root_at heap x).coefficients) →
      List.Chain' (roots_ascending heap N) l → List.Chain' (roots_ascending heap1 N) l := by
  intro l
  induction l with
  | nil => intro _ _; exact List.chain'_nil
  | cons x rest ih =>
    intro hco hch
    cases rest with
    | nil => exact List.chain'_singleton _
    | cons y rest1 =>
      rw [List.chain'_cons] at hch ⊢
      refine ⟨?_, ih (fun z hz => hco z (List.mem_cons_of_mem _ hz)) hch.2⟩
      exact (roots_ascending_congr heap heap1 N x y (hco x (List.mem_cons_self _ _))
        (hco y (List.mem_cons_of_mem _ (List.mem_cons_self _ _)))).mpr hch.1

theorem insert_in_table_walk_congr (heap heap1 : List ROOT) (e N : Nat)
    (hco : ∀ x, (root_at heap1 x).coefficients = (root_at heap x).coefficients) :
    ∀ (rest : List Nat) (curr : Nat),
      insert_in_table_walk heap1 e N curr rest = insert_in_table_walk heap e N curr rest := by
  intro rest
  induction rest with
  | nil =>
    intro curr
    unfold insert_in_table_walk
    rw [compare_roots_congr _ _ _ _ N (hco curr) (hco e)]
  | cons next rest1 ih =>
    intro curr
    rw [insert_in_table_walk, insert_in_table_walk]
    rw [compare_roots_congr _ _ _ _ N (hco curr) (hco e), ih next]

theorem insert_in_table_congr (heap heap1 : List ROOT) (e N : Nat) (table : Option ROOT_TABLE)
    (hco : ∀ x, (root_at heap1 x).coefficients = (root_at heap x).coefficients) :
    insert_in_table heap1 e table N = insert_in_table heap e table N := by
  unfold insert_in_table
  dsimp only
  split
  · rfl
  · rw [insert_in_table_walk_congr heap heap1 e N hco]

theorem cox_action_on_root_coefficients_congr (act : Nat → Nat → ℚ) (N a : Nat) (r r1 : ROOT)
    (h : r.coefficients = r1.coefficients) :
    cox_action_on_root_coefficients act N a r = cox_action_on_root_coefficients act N a r1 := by
  unfold cox_action_on_root_coefficients
  apply List.foldl_ext
  intro returned ii _
  unfold cox_action_on_root_step
  rw [h]

theorem computed_root_congr (act : Nat → Nat → ℚ) (N a : Nat) (r r1 : ROOT)
    (h : r.coefficients = r1.coefficients) :
    computed_root act N a r = computed_root act N a r1 := by
  unfold computed_root
  rw [cox_action_on_root_coefficients_congr act N a r r1 h]

/-- The two ways in which a pass of the loop of generate_next_root returns when
the memo slot of the root is empty: the computed root is found in the root
table, or it is new, enters the root table, and is recursed on when it is
positive minimal. -/
theorem generate_next_root_body_inv (md : MATRIX_DATA) (N root : Nat)
    (recurse : RootStore → Nat → Except Fault RootStore) (st : RootStore) (e : Option Bool)
    (ii : Nat) (r : RootStore × Option Bool) (act : Nat → Nat → ℚ)
    (hact : md.simple_action_results = some act)
    (hmemo : memo_slot st.heap root ii = none)
    (h : generate_next_root_body md N root recurse (st, e) ii = Except.ok r) :
    (∃ x, root_in_list st.heap st.root_table
          (computed_root act N ii (root_at st.heap root)) N = some x ∧
        r = ({ st with heap := memo_write st.heap root ii x }, some true)) ∨
      (root_in_list st.heap st.root_table
          (computed_root act N ii (root_at st.heap root)) N = none ∧
        ∃ H sp positive,
          H = memo_write (st.heap ++ [computed_root act N ii (root_at st.heap root)]) root ii
            st.heap.length ∧
          md.scalar_products = some sp ∧
          root_positive (root_at H st.heap.length) N = Except.ok positive ∧
          (((positive && decide (cox_scalar_product_root sp ii (root_at H st.heap.length) N
                < 1 - EPSILON_COMP_VAL)) = true ∧
              ∃ st1, recurse
                  { heap := flag_write H st.heap.length true
                    root_table := (insert_in_table H st.heap.length (some st.root_table) N).2
                    minimal_root_table :=
                      (insert_in_table (flag_write H st.heap.length true) st.heap.length
                        (some st.minimal_root_table) N).2 } st.heap.length = Except.ok st1 ∧
                r = (st1, some false)) ∨
            ((positive && decide (cox_scalar_product_root sp ii (root_at H st.heap.length) N
                < 1 - EPSILON_COMP_VAL)) = false ∧
              r = ({ heap := flag_write H st.heap.length false
                     root_table := (insert_in_table H st.heap.length (some st.root_table) N).2
                     minimal_root_table := st.minimal_root_table }, some false)))) := by
  unfold generate_next_root_body at h
  simp only [bind, Except.bind] at h
  cases hcall : cox_action_on_root md N ii st.heap root (some st.root_table) e with
  | error err => rw [hcall] at h; cases h
  | ok res =>
    rw [hcall] at h
    dsimp only at h
    rcases cox_action_on_root_table_spec md N ii st.heap root st.root_table e res hcall with
      ⟨q, hq, _⟩ | ⟨_, act1, hact1, hcase⟩
    · unfold memo_slot at hmemo
      rw [hmemo] at hq; cases hq
    · rw [hact] at hact1
      simp only [Option.some.injEq] at hact1
      subst hact1
      rcases hcase with ⟨x, hx, hres⟩ | ⟨hx, hres⟩
      · left
        subst hres
        simp only [pure, Except.pure, Except.ok.injEq] at h
        exact ⟨x, hx, h.symm⟩
      · right
        subst hres
        refine ⟨hx, ?_⟩
        dsimp only at h
        cases hsp : md.scalar_products with
        | none => rw [hsp] at h; cases h
        | some sp =>
          rw [hsp] at h
          dsimp only at h
          split at h
          · cases h
          · rename_i positive hpos
            refine ⟨_, sp, positive, rfl, rfl, hpos, ?_⟩
            split at h
            · rename_i hflag
              left
              refine ⟨hflag, ?_⟩
              split at h
              · cases h
              · rename_i st1 hrec
                simp only [pure, Except.pure, Except.ok.injEq] at h
                rw [hflag] at hrec
                exact ⟨st1, hrec, h.symm⟩
            · rename_i hflag
              right
              have hflag1 := Bool.eq_false_iff.mpr hflag
              refine ⟨hflag1, ?_⟩
              simp only [pure, Except.pure, Except.ok.injEq] at h
              rw [hflag1] at h
              exact h.symm

theorem memo_slot_of_ge (heap : List ROOT) (p a : Nat) (h : heap.length ≤ p) :
    memo_slot heap p a = none := by
  unfold memo_slot root_at
  rw [List.getD_eq_default _ _ h]
  rfl

theorem memo_slot_append_lt (heap : List ROOT) (c : ROOT) (p a : Nat) (h : p < heap.length) :
    memo_slot (heap ++ [c]) p a = memo_slot heap p a := by
  unfold memo_slot
  rw [root_at_append_lt heap c p h]

theorem memo_slot_computed (act : Nat → Nat → ℚ) (N a : Nat) (r : ROOT) (heap : List ROOT)
    (b : Nat) : memo_slot (heap ++ [computed_root act N a r]) heap.length b = none := by
  unfold memo_slot
  rw [root_at_append_eq]
  simp only [computed_root, init_root, List.getD_eq_getElem?_getD, List.getElem?_replicate]
  split_ifs <;> rfl

/-- The heap after cox_action_on_root has returned a new root for the root and
generate_next_root has set its flag: the roots below the new one keep their
coefficients, flags and memo slots, except the slot a of the root, which holds
the new root; the new root is the computed root with the flag written. -/
theorem new_root_heap_facts (heap : List ROOT) (c : ROOT) (root a : Nat) (flag : Bool)
    (hroot : root < heap.length) :
    (flag_write (memo_write (heap ++ [c]) root a heap.length) heap.length flag).length
        = heap.length + 1 ∧
      root_at (flag_write (memo_write (heap ++ [c]) root a heap.length) heap.length flag)
        heap.length = { c with positive_minimal := flag } ∧
      root_at (memo_write (heap ++ [c]) root a heap.length) heap.length = c ∧
      (∀ p, (root_at (memo_write (heap ++ [c]) root a heap.length) p).coefficients
        = (root_at (heap ++ [c]) p).coefficients) ∧
      (∀ p, (root_at (flag_write (memo_write (heap ++ [c]) root a heap.length) heap.length flag)
          p).coefficients = (root_at (heap ++ [c]) p).coefficients) ∧
      (∀ p, p < heap.length →
        (root_at (flag_write (memo_write (heap ++ [c]) root a heap.length) heap.length flag)
          p).coefficients = (root_at heap p).coefficients ∧
        (root_at (flag_write (memo_write (heap ++ [c]) root a heap.length) heap.length flag)
          p).positive_minimal = (root_at heap p).positive_minimal ∧
        (root_at (flag_write (memo_write (heap ++ [c]) root a heap.length) heap.length flag)
          p).next_roots.length = (root_at heap p).next_roots.length ∧
        (p ≠ root →
          root_at (flag_write (memo_write (heap ++ [c]) root a heap.length) heap.length flag) p
            = root_at heap p)) ∧
      (∀ p b, memo_slot
          (flag_write (memo_write (heap ++ [c]) root a heap.length) heap.length flag) p b
        = if p = root ∧ b = a ∧ a < (root_at heap root).next_roots.length then some heap.length
          else memo_slot (heap ++ [c]) p b) := by
  have hne : heap.length ≠ root := by omega
  have hroot1 : root < (heap ++ [c]).length := by simp; omega
  have hL : heap.length < (memo_write (heap ++ [c]) root a heap.length).length := by
    rw [memo_write_length]; simp
  have hcL : root_at (memo_write (heap ++ [c]) root a heap.length) heap.length = c := by
    rw [root_at_memo_write_ne _ _ _ _ _ hne, root_at_append_eq]
  refine ⟨?_, ?_, hcL, ?_, ?_, ?_, ?_⟩
  · rw [flag_write_length, memo_write_length]; simp
  · rw [root_at_flag_write_eq _ _ _ hL, hcL]
  · intro p
    exact memo_write_coefficients _ _ _ _ _
  · intro p
    rw [flag_write_coefficients, memo_write_coefficients]
  · intro p hp
    have hpL : p ≠ heap.length := by omega
    refine ⟨?_, ?_, ?_, ?_⟩
    · rw [flag_write_coefficients, memo_write_coefficients, root_at_append_lt _ _ _ hp]
    · rw [root_at_flag_write_ne _ _ _ _ hpL, memo_write_flag, root_at_append_lt _ _ _ hp]
    · rw [flag_write_next_roots, memo_write_next_roots_length, root_at_append_lt _ _ _ hp]
    · intro hpr
      rw [root_at_flag_write_ne _ _ _ _ hpL, root_at_memo_write_ne _ _ _ _ _ hpr,
        root_at_append_lt _ _ _ hp]
  · intro p b
    rw [memo_slot_flag_write, memo_slot_memo_write _ _ _ _ _ _ hroot1,
      root_at_append_lt _ _ _ hroot]

theorem integral_sum (f : Nat → ℚ) (n : Nat) (h : ∀ j, j < n → ∃ k : Int, f j = k) :
    ∃ k : Int, ((List.range n).map f).sum = k := by
  induction n with
  | zero => exact ⟨0, by simp⟩
  | succ n ih =>
    obtain ⟨k1, h1⟩ := ih (fun j hj => h j (by omega))
    obtain ⟨k2, h2⟩ := h n (by omega)
    refine ⟨k1 + k2, ?_⟩
    rw [List.range_succ, List.map_append, List.sum_append, h1]
    simp [h2]

theorem action_term_integral (act : Nat → Nat → ℚ) (N a : Nat) (r : ROOT)
    (hact : action_integral act N) (hr : root_integral r N) (ha : a < N) (j : Nat) (hj : j < N) :
    ∃ k : Int, action_term act a r j = k := by
  unfold action_term
  split_ifs with h
  · obtain ⟨k1, h1⟩ := hact j a hj ha h.1
    obtain ⟨k2, h2⟩ := hr j hj
    exact ⟨k1 * k2, by rw [h1, h2]; push_cast; ring⟩
  · exact ⟨0, by simp⟩

theorem computed_root_integral (act : Nat → Nat → ℚ) (N a : Nat) (r : ROOT)
    (hact : action_integral act N) (hr : root_integral r N) (ha : a < N) :
    root_integral (computed_root act N a r) N := by
  intro i hi
  rw [coefficient_computed_root act N a r ha i hi]
  unfold action_coefficient
  obtain ⟨ks, hs⟩ := integral_sum (action_term act a r) N
    (fun j hj => action_term_integral act N a r hact hr ha j hj)
  split_ifs with h1 h2 h3
  · obtain ⟨k, hk⟩ := hr a ha
    exact ⟨-k + ks, by rw [hs, hk]; push_cast; ring⟩
  · exact ⟨ks, by rw [hs]; ring⟩
  · exact hr i hi
  · exact ⟨0, by simp⟩

theorem simple_root_integral (N ii : Nat) (hii : ii < N) : root_integral (simple_root N ii) N := by
  intro i _
  rw [coefficient_simple_root N ii i hii]
  split_ifs
  · exact ⟨1, by simp⟩
  · exact ⟨0, by simp⟩

theorem root_integral_congr (r r1 : ROOT) (N : Nat) (h : r.coefficients = r1.coefficients)
    (hr : root_integral r N) : root_integral r1 N := by
  intro i hi
  obtain ⟨k, hk⟩ := hr i hi
  exact ⟨k, by rw [← hk]; unfold coefficient; rw [h]⟩

theorem root_positive_scan_first (r : ROOT) (N k : Nat) (hk : k < N)
    (hzero : ∀ j, j < k → |coefficient r j| < EPSILON_COMP_VAL)
    (hbig : ¬ |coefficient r k| < EPSILON_COMP_VAL) :
    ∀ fuel i, i ≤ k → k < i + fuel → root_positive_scan r N fuel i = k := by
  intro fuel
  induction fuel with
  | zero => intro i h1 h2; omega
  | succ n ih =>
    intro i h1 h2
    rw [root_positive_scan]
    by_cases hik : i = k
    · subst hik
      rw [if_neg (fun e => hbig e.2)]
    · have hlt : i < k := by omega
      rw [if_pos ⟨by omega, hzero i hlt⟩]
      exact ih (i + 1) (by omega) (by omega)

theorem root_positive_simple_root (N ii : Nat) (hii : ii < N) :
    root_positive (simple_root N ii) N = Except.ok true := by
  have hscan : root_positive_scan (simple_root N ii) N N 0 = ii := by
    apply root_positive_scan_first (simple_root N ii) N ii hii
    · intro j hj
      rw [coefficient_simple_root N ii j hii, if_neg (by omega), abs_zero]
      exact eps_pos
    · rw [coefficient_simple_root N ii ii hii, if_pos rfl, abs_one]
      exact not_lt.mpr (le_of_lt eps_lt_one)
    · omega
    · omega
  unfold root_positive
  dsimp only
  rw [hscan, if_pos hii]
  have h1 : (simple_root N ii).coefficients.getD ii 0 = 1 := by
    have := coefficient_simple_root N ii ii hii
    rw [if_pos rfl] at this
    exact this
  rw [h1, if_neg (not_lt.mpr (le_of_lt eps_lt_one))]
  rfl

theorem insert_in_table_mem (heap : List ROOT) (e N : Nat) (table : Option ROOT_TABLE)
    (hchain : List.Chain' (roots_ascending heap N) (table_first table))
    (hwf : table_length table = (table_first table).length) :
    List.Chain' (roots_ascending heap N) (insert_in_table heap e table N).2.first ∧
      (insert_in_table heap e table N).2.length
        = (insert_in_table heap e table N).2.first.length ∧
      (∀ x, x ∈ (insert_in_table heap e table N).2.first → x = e ∨ x ∈ table_first table) ∧
      (∀ x, x ∈ table_first table → x ∈ (insert_in_table heap e table N).2.first) ∧
      ((∀ x ∈ table_first table, ¬ roots_equal heap N x e) →
        e ∈ (insert_in_table heap e table N).2.first) := by
  rcases insert_in_table_spec heap e N table hchain hwf with
    ⟨_, h2, h3, h4, _⟩ | ⟨_, h2, h3, h4⟩
  · refine ⟨h2, h4, fun x hx => (h3 x).mp hx, fun x hx => (h3 x).mpr (Or.inr hx), ?_⟩
    intro _
    exact (h3 e).mpr (Or.inl rfl)
  · refine ⟨by rw [h2]; exact hchain, by rw [h3, h2]; exact hwf,
      fun x hx => Or.inr (by rw [h2] at hx; exact hx), fun x hx => by rw [h2]; exact hx, ?_⟩
    intro hno
    obtain ⟨x, hx, hxe⟩ := h4
    exact absurd hxe (hno x hx)

/-- A pass of generate_next_root that finds the computed root in the root table
keeps the invariant. -/
theorem store_invariant_found (act : Nat → Nat → ℚ) (N : Nat) (st : RootStore) (root ii x : Nat)
    (hinv : store_invariant act N st) (hroot : root < st.heap.length)
    (hmemo : memo_slot st.heap root ii = none)
    (hx : root_in_list st.heap st.root_table
      (computed_root act N ii (root_at st.heap root)) N = some x) :
    store_invariant act N { st with heap := memo_write st.heap root ii x } ∧
      heap_extends st.heap (memo_write st.heap root ii x) ∧
      (∀ p, p ≠ root → root_at (memo_write st.heap root ii x) p = root_at st.heap p) ∧
      (∀ p b, memo_slot (memo_write st.heap root ii x) p b
        = if p = root ∧ b = ii ∧ ii < (root_at st.heap root).next_roots.length then some x
          else memo_slot st.heap p b) := by
  have hco : ∀ p, (root_at (memo_write st.heap root ii x) p).coefficients
      = (root_at st.heap p).coefficients := fun p => memo_write_coefficients _ _ _ _ _
  have hslot := fun p b => memo_slot_memo_write st.heap root ii x p b hroot
  obtain ⟨hxmem, hxc⟩ := root_in_list_walk_some st.heap _ N _ x hx
  refine ⟨?_, ?_, ?_, hslot⟩
  · constructor
    · exact chain_transfer st.heap _ N _ (fun y _ => hco y) hinv.table_chain
    · exact hinv.table_length
    · intro y hy
      show y < (memo_write st.heap root ii x).length
      rw [memo_write_length]
      exact hinv.table_range y hy
    · exact chain_transfer st.heap _ N _ (fun y _ => hco y) hinv.minimal_chain
    · exact hinv.minimal_length
    · intro y hy
      show y < (memo_write st.heap root ii x).length
      rw [memo_write_length]
      exact hinv.minimal_range y hy
    · intro p a q hq
      change memo_slot (memo_write st.heap root ii x) p a = some q at hq
      change q ∈ st.root_table.first ∧
        compare_roots (root_at (memo_write st.heap root ii x) q)
          (computed_root act N a (root_at (memo_write st.heap root ii x) p)) N = 0
      rw [compare_roots_congr _ (root_at st.heap q) _
        (computed_root act N a (root_at st.heap p)) N (hco q)
        (by rw [computed_root_congr act N a _ _ (hco p)])]
      rw [hslot] at hq
      split_ifs at hq with hc
      · simp only [Option.some.injEq] at hq
        subst hq
        obtain ⟨h1, h2, _⟩ := hc
        subst h1; subst h2
        exact ⟨hxmem, hxc⟩
      · exact hinv.memo_agree p a q hq
    · intro y hy
      change root_positive (root_at (memo_write st.heap root ii x) y) N = Except.ok true
      rw [root_positive_congr _ _ N (hco y)]
      exact hinv.minimal_positive y hy
    · intro p hp hflag
      change p < (memo_write st.heap root ii x).length at hp
      change (root_at (memo_write st.heap root ii x) p).positive_minimal = true at hflag
      change root_positive (root_at (memo_write st.heap root ii x) p) N = Except.ok true
      rw [memo_write_length] at hp
      rw [memo_write_flag] at hflag
      rw [root_positive_congr _ _ N (hco p)]
      exact hinv.flag_positive p hp hflag
    · intro p hp
      change p < (memo_write st.heap root ii x).length at hp
      change (root_at (memo_write st.heap root ii x) p).next_roots.length = N
      rw [memo_write_length] at hp
      rw [memo_write_next_roots_length]
      exact hinv.memo_length p hp
    · intro hact p hp
      change p < (memo_write st.heap root ii x).length at hp
      change root_integral (root_at (memo_write st.heap root ii x) p) N
      rw [memo_write_length] at hp
      exact root_integral_congr _ _ N (hco p).symm (hinv.integral hact p hp)
  · refine ⟨by rw [memo_write_length], ?_⟩
    intro p _
    refine ⟨hco p, ?_⟩
    intro a q hq
    rw [hslot]
    split_ifs with hc
    · obtain ⟨h1, h2, _⟩ := hc
      subst h1; subst h2
      rw [hmemo] at hq
      cases hq
    · exact hq
  · intro p hp
    exact root_at_memo_write_ne _ _ _ _ _ hp

/-- A pass of generate_next_root that obtains a new root keeps the invariant,
whatever the flag it writes, for every table of minimal roots that holds the
new root only if the flag is set. -/
theorem store_invariant_new (act : Nat → Nat → ℚ) (N : Nat) (st : RootStore) (root ii : Nat)
    (flag : Bool) (minimal1 : ROOT_TABLE)
    (hinv : store_invariant act N st) (hroot : root < st.heap.length) (hii : ii < N)
    (hmemo : memo_slot st.heap root ii = none)
    (hnone : root_in_list st.heap st.root_table
      (computed_root act N ii (root_at st.heap root)) N = none)
    (hflag : flag = true →
      root_positive (computed_root act N ii (root_at st.heap root)) N = Except.ok true)
    (hmin_chain : List.Chain'
      (roots_ascending
        (flag_write
          (memo_write (st.heap ++ [computed_root act N ii (root_at st.heap root)]) root ii
            st.heap.length) st.heap.length flag) N) minimal1.first)
    (hmin_len : minimal1.length = minimal1.first.length)
    (hmin_sub : ∀ x ∈ minimal1.first, x = st.heap.length ∨ x ∈ st.minimal_root_table.first)
    (hmin_flag : st.heap.length ∈ minimal1.first → flag = true) :
    store_invariant act N
        { heap := flag_write
            (memo_write (st.heap ++ [computed_root act N ii (root_at st.heap root)]) root ii
              st.heap.length) st.heap.length flag
          root_table := (insert_in_table
            (memo_write (st.heap ++ [computed_root act N ii (root_at st.heap root)]) root ii
              st.heap.length) st.heap.length (some st.root_table) N).2
          minimal_root_table := minimal1 } ∧
      heap_extends st.heap
        (flag_write
          (memo_write (st.heap ++ [computed_root act N ii (root_at st.heap root)]) root ii
            st.heap.length) st.heap.length flag) ∧
      (∀ x ∈ st.root_table.first,
        x ∈ (insert_in_table
          (memo_write (st.heap ++ [computed_root act N ii (root_at st.heap root)]) root ii
            st.heap.length) st.heap.length (some st.root_table) N).2.first) ∧
      memo_slot
        (flag_write
          (memo_write (st.heap ++ [computed_root act N ii (root_at st.heap root)]) root ii
            st.heap.length) st.heap.length flag) root ii = some st.heap.length ∧
      (∀ b, b ≠ ii → memo_slot
        (flag_write
          (memo_write (st.heap ++ [computed_root act N ii (root_at st.heap root)]) root ii
            st.heap.length) st.heap.length flag) root b = memo_slot st.heap root b) ∧
      (∀ b, memo_slot
        (flag_write
          (memo_write (st.heap ++ [computed_root act N ii (root_at st.heap root)]) root ii
            st.heap.length) st.heap.length flag) st.heap.length b = none) := by
  obtain ⟨c, hc⟩ : ∃ c, c = computed_root act N ii (root_at st.heap root) := ⟨_, rfl⟩
  rw [← hc] at hnone hflag hmin_chain ⊢
  obtain ⟨hlen, hatL, hatHL, hcoH, hcoH1, hold, hslot⟩ :=
    new_root_heap_facts st.heap c root ii flag hroot
  obtain ⟨H, hH⟩ : ∃ H, H = memo_write (st.heap ++ [c]) root ii st.heap.length := ⟨_, rfl⟩
  rw [← hH] at hlen hatL hatHL hcoH hcoH1 hold hslot hmin_chain ⊢
  obtain ⟨H1, hH1⟩ : ∃ H1, H1 = flag_write H st.heap.length flag := ⟨_, rfl⟩
  rw [← hH1] at hlen hatL hcoH1 hold hslot hmin_chain ⊢
  have hnl : (root_at st.heap root).next_roots.length = N := hinv.memo_length root hroot
  have hcf : ({ c with positive_minimal := flag } : ROOT).coefficients = c.coefficients := rfl
  have hcoHH1 : ∀ p, (root_at H1 p).coefficients = (root_at H p).coefficients := by
    intro p; rw [hcoH1, hcoH]
  have hcoHold : ∀ p, p < st.heap.length →
      (root_at H p).coefficients = (root_at st.heap p).coefficients := by
    intro p hp; rw [hcoH, root_at_append_lt _ _ _ hp]
  -- the root table
  have hchainH : List.Chain' (roots_ascending H N) st.root_table.first :=
    chain_transfer st.heap H N _ (fun y hy => hcoHold y (hinv.table_range y hy)) hinv.table_chain
  have hnoeq : ∀ y ∈ st.root_table.first, ¬ roots_equal H N y st.heap.length := by
    intro y hy heq
    unfold roots_equal at heq
    rw [hatHL, compare_roots_congr _ (root_at st.heap y) c c N
      (hcoHold y (hinv.table_range y hy)) rfl] at heq
    exact (root_in_list_walk_none st.heap c N st.root_table.first).mp hnone y hy heq
  obtain ⟨hreg_chain, hreg_len, hreg_sub, hreg_sup, hreg_new⟩ :=
    insert_in_table_mem H st.heap.length N (some st.root_table) hchainH hinv.table_length
  have hLreg := hreg_new hnoeq
  have hslot_old : ∀ p b q, memo_slot st.heap p b = some q → memo_slot H1 p b = some q := by
    intro p b q hq
    rw [hslot]
    split_ifs with hcnd
    · obtain ⟨h1, h2, _⟩ := hcnd
      subst h1; subst h2
      rw [hmemo] at hq; cases hq
    · by_cases hp : p < st.heap.length
      · rw [memo_slot_append_lt _ _ _ _ hp]; exact hq
      · rw [memo_slot_of_ge st.heap p b (by omega)] at hq; cases hq
  refine ⟨?_, ?_, hreg_sup, ?_, ?_, ?_⟩
  · constructor
    · exact chain_transfer H H1 N _ (fun y _ => hcoHH1 y) hreg_chain
    · exact hreg_len
    · intro y hy
      show y < H1.length
      rw [hlen]
      rcases hreg_sub y hy with h | h
      · omega
      · have := hinv.table_range y h; omega
    · exact hmin_chain
    · exact hmin_len
    · intro y hy
      show y < H1.length
      rw [hlen]
      rcases hmin_sub y hy with h | h
      · omega
      · have := hinv.minimal_range y h; omega
    · intro p a q hq
      change memo_slot H1 p a = some q at hq
      change q ∈ (insert_in_table H st.heap.length (some st.root_table) N).2.first ∧
        compare_roots (root_at H1 q) (computed_root act N a (root_at H1 p)) N = 0
      rw [hslot] at hq
      split_ifs at hq with hcnd
      · simp only [Option.some.injEq] at hq
        subst hq
        obtain ⟨h1, h2, _⟩ := hcnd
        subst h1; subst h2
        refine ⟨hLreg, ?_⟩
        rw [hatL]
        have h3 : computed_root act N a (root_at H1 p) = c := by
          rw [hc]
          exact computed_root_congr act N a _ _ (hold p hroot).1
        rw [h3]
        exact (compare_roots_congr _ _ _ _ N hcf rfl).trans (compare_roots_self c N)
      · by_cases hp : p < st.heap.length
        · rw [memo_slot_append_lt _ _ _ _ hp] at hq
          obtain ⟨h1, h2⟩ := hinv.memo_agree p a q hq
          refine ⟨hreg_sup q h1, ?_⟩
          rw [compare_roots_congr _ (root_at st.heap q) _
            (computed_root act N a (root_at st.heap p)) N
            (hold q (hinv.table_range q h1)).1
            (by rw [computed_root_congr act N a _ _ (hold p hp).1])]
          exact h2
        · by_cases hpL : p = st.heap.length
          · subst hpL
            rw [hc, memo_slot_computed] at hq; cases hq
          · rw [memo_slot_of_ge (st.heap ++ [c]) p a (by simp; omega)] at hq; cases hq
    · intro y hy
      change root_positive (root_at H1 y) N = Except.ok true
      rcases hmin_sub y hy with h | h
      · subst h
        rw [hatL, root_positive_congr _ _ N hcf]
        exact hflag (hmin_flag hy)
      · rw [root_positive_congr _ _ N (hold y (hinv.minimal_range y h)).1]
        exact hinv.minimal_positive y h
    · intro p hp hfl
      change p < H1.length at hp
      change (root_at H1 p).positive_minimal = true at hfl
      change root_positive (root_at H1 p) N = Except.ok true
      rw [hlen] at hp
      by_cases hpL : p = st.heap.length
      · subst hpL
        rw [hatL] at hfl ⊢
        rw [root_positive_congr _ _ N hcf]
        exact hflag hfl
      · have hp1 : p < st.heap.length := by omega
        rw [(hold p hp1).2.1] at hfl
        rw [root_positive_congr _ _ N (hold p hp1).1]
        exact hinv.flag_positive p hp1 hfl
    · intro p hp
      change p < H1.length at hp
      change (root_at H1 p).next_roots.length = N
      rw [hlen] at hp
      by_cases hpL : p = st.heap.length
      · subst hpL
        rw [hatL, hc]
        simp [computed_root, init_root]
      · have hp1 : p < st.heap.length := by omega
        rw [(hold p hp1).2.2.1]
        exact hinv.memo_length p hp1
    · intro hai p hp
      change p < H1.length at hp
      change root_integral (root_at H1 p) N
      rw [hlen] at hp
      by_cases hpL : p = st.heap.length
      · subst hpL
        rw [hatL]
        apply root_integral_congr c _ N hcf.symm
        rw [hc]
        exact computed_root_integral act N ii _ hai (hinv.integral hai root hroot) hii
      · have hp1 : p < st.heap.length := by omega
        exact root_integral_congr _ _ N (hold p hp1).1.symm (hinv.integral hai p hp1)
  · refine ⟨by rw [hlen]; omega, ?_⟩
    intro p hp
    exact ⟨(hold p hp).1, fun a q hq => hslot_old p a q hq⟩
  · rw [hslot, if_pos ⟨rfl, rfl, by rw [hnl]; exact hii⟩]
  · intro b hb
    rw [hslot, if_neg (fun e => hb e.2.1), memo_slot_append_lt _ _ _ _ hroot]
  · intro b
    rw [hslot, if_neg (fun e => by have := e.1; omega), hc, memo_slot_computed]

theorem and_eq_true_left (a b : Bool) (h : (a && b) = true) : a = true := by
  cases a <;> simp_all

/-- One pass of the loop of generate_next_root, for a root whose memo slot ii is
empty and a recursive call that meets next_root_post. -/
theorem generate_next_root_body_post (md : MATRIX_DATA) (N root : Nat)
    (recurse : RootStore → Nat → Except Fault RootStore) (act : Nat → Nat → ℚ)
    (hact : md.simple_action_results = some act)
    (hrec : ∀ S p S1, recurse S p = Except.ok S1 → store_invariant act N S →
      p < S.heap.length → (∀ a, memo_slot S.heap p a = none) →
      next_root_post act N S p S1 ∧ memo_complete S1.heap N p)
    (st : RootStore) (e : Option Bool) (ii : Nat) (r : RootStore × Option Bool)
    (h : generate_next_root_body md N root recurse (st, e) ii = Except.ok r)
    (hinv : store_invariant act N st) (hroot : root < st.heap.length) (hii : ii < N)
    (hmemo : memo_slot st.heap root ii = none) :
    next_root_post act N st root r.1 ∧
      (∃ q, memo_slot r.1.heap root ii = some q) ∧
      (∀ b, b ≠ ii → memo_slot r.1.heap root b = memo_slot st.heap root b) := by
  have hnl : (root_at st.heap root).next_roots.length = N := hinv.memo_length root hroot
  rcases generate_next_root_body_inv md N root recurse st e ii r act hact hmemo h with
    ⟨x, hx, hr⟩ | ⟨hnone, H, sp, positive, hH, _, hpos, hcase⟩
  · subst hr
    obtain ⟨h1, h2, h3, h4⟩ := store_invariant_found act N st root ii x hinv hroot hmemo hx
    refine ⟨⟨h1, h2, fun y hy => hy, fun y hy => hy, fun p _ hp => h3 p hp, ?_, ?_⟩, ?_, ?_⟩
    · intro y hy hyn
      exact absurd hy hyn
    · intro p hp1 hp2 _
      change p < (memo_write st.heap root ii x).length at hp2
      rw [memo_write_length] at hp2
      omega
    · refine ⟨x, ?_⟩
      show memo_slot (memo_write st.heap root ii x) root ii = some x
      rw [h4, if_pos ⟨rfl, rfl, by rw [hnl]; exact hii⟩]
    · intro b hb
      show memo_slot (memo_write st.heap root ii x) root b = _
      rw [h4, if_neg (fun e => hb e.2.1)]
  · obtain ⟨c, hc⟩ : ∃ c, c = computed_root act N ii (root_at st.heap root) := ⟨_, rfl⟩
    rw [← hc] at hH hnone
    have hfacts := fun flag => new_root_heap_facts st.heap c root ii flag hroot
    have hatHL : root_at H st.heap.length = c := by rw [hH]; exact (hfacts true).2.2.1
    rw [hatHL] at hpos hcase
    have hmin_transfer : ∀ flag, List.Chain'
        (roots_ascending (flag_write H st.heap.length flag) N) st.minimal_root_table.first := by
      intro flag
      apply chain_transfer st.heap _ N _ _ hinv.minimal_chain
      intro y hy
      rw [hH]
      exact ((hfacts flag).2.2.2.2.2.1 y (hinv.minimal_range y hy)).1
    rcases hcase with ⟨hflag, st1, hrun, hr⟩ | ⟨hflag, hr⟩
    · -- the new root is positive minimal and is recursed on
      subst hr
      have hposT : positive = true := and_eq_true_left _ _ hflag
      obtain ⟨hm_chain, hm_len, hm_sub, hm_sup, _⟩ :=
        insert_in_table_mem (flag_write H st.heap.length true) st.heap.length N
          (some st.minimal_root_table) (hmin_transfer true) hinv.minimal_length
      have hnew := store_invariant_new act N st root ii true
        (insert_in_table (flag_write H st.heap.length true) st.heap.length
          (some st.minimal_root_table) N).2 hinv hroot hii hmemo (by rw [← hc]; exact hnone)
        (by intro _; rw [← hc, hpos, hposT])
        (by rw [← hc, ← hH]; exact hm_chain) hm_len hm_sub (fun _ => rfl)
      rw [← hc, ← hH] at hnew
      obtain ⟨n1, n2, n3, n4, n5, n6⟩ := hnew
      have hlenH1 : (flag_write H st.heap.length true).length = st.heap.length + 1 := by
        rw [hH]; exact (hfacts true).1
      obtain ⟨⟨p1, p2, p3, p4, p5, p6, p7⟩, pc⟩ := hrec _ _ _ hrun n1
        (by show st.heap.length < (flag_write H st.heap.length true).length; rw [hlenH1]; omega)
        n6
      have hframe_root : root_at st1.heap root = root_at (flag_write H st.heap.length true) root :=
        p5 root (by show root < (flag_write H st.heap.length true).length; rw [hlenH1]; omega)
          (by omega)
      refine ⟨⟨p1, heap_extends_trans _ _ _ n2 p2, fun y hy => p3 y (n3 y hy),
        fun y hy => p4 y (hm_sup y hy), ?_, ?_, ?_⟩, ?_, ?_⟩
      · intro p hp hpr
        have e1 := p5 p (by show p < (flag_write H st.heap.length true).length; rw [hlenH1]; omega)
          (by omega)
        rw [e1, hH]
        exact ((hfacts true).2.2.2.2.2.1 p hp).2.2.2 hpr
      · intro y hy hyn
        by_cases hym : y ∈ (insert_in_table (flag_write H st.heap.length true) st.heap.length
            (some st.minimal_root_table) N).2.first
        · rcases hm_sub y hym with e1 | e1
          · rw [e1]; exact pc
          · exact absurd e1 hyn
        · exact p6 y hy hym
      · intro p hp1 hp2 hfl
        by_cases hpL : p = st.heap.length
        · rw [hpL]; exact pc
        · exact p7 p (by show (flag_write H st.heap.length true).length ≤ p; rw [hlenH1]; omega)
            hp2 hfl
      · refine ⟨st.heap.length, ?_⟩
        exact (p2.2 root (by rw [hlenH1]; omega)).2 ii _ n4
      · intro b hb
        show memo_slot st1.heap root b = _
        unfold memo_slot
        rw [hframe_root]
        exact n5 b hb
    · -- the new root is not positive minimal
      subst hr
      have hnew := store_invariant_new act N st root ii false st.minimal_root_table hinv hroot
        hii hmemo (by rw [← hc]; exact hnone) (by intro hf; cases hf)
        (by rw [← hc, ← hH]; exact hmin_transfer false) hinv.minimal_length
        (fun y hy => Or.inr hy)
        (fun hL => absurd (hinv.minimal_range _ hL) (by omega))
      rw [← hc, ← hH] at hnew
      obtain ⟨n1, n2, n3, n4, n5, _⟩ := hnew
      refine ⟨⟨n1, n2, n3, fun y hy => hy, ?_, ?_, ?_⟩, ⟨st.heap.length, n4⟩, n5⟩
      · intro p hp hpr
        show root_at (flag_write H st.heap.length false) p = _
        rw [hH]
        exact ((hfacts false).2.2.2.2.2.1 p hp).2.2.2 hpr
      · intro y hy hyn
        exact absurd hy hyn
      · intro p hp1 hp2 hfl
        change p < (flag_write H st.heap.length false).length at hp2
        change (root_at (flag_write H st.heap.length false) p).positive_minimal = true at hfl
        have hlenF : (flag_write H st.heap.length false).length = st.heap.length + 1 := by
          rw [hH]; exact (hfacts false).1
        rw [hlenF] at hp2
        have hpL : p = st.heap.length := by omega
        rw [hpL, hH, (hfacts false).2.1] at hfl
        cases hfl

theorem memo_complete_extends (heap heap1 : List ROOT) (N p : Nat) (hext : heap_extends heap heap1)
    (hp : p < heap.length) (h : memo_complete heap N p) : memo_complete heap1 N p := by
  intro a ha
  obtain ⟨q, hq⟩ := h a ha
  exact ⟨q, (hext.2 p hp).2 a q hq⟩

theorem next_root_post_refl (act : Nat → Nat → ℚ) (N : Nat) (st : RootStore) (root : Nat)
    (hinv : store_invariant act N st) : next_root_post act N st root st :=
  ⟨hinv, heap_extends_refl _, fun _ h => h, fun _ h => h, fun _ _ _ => rfl,
    fun _ h hn => absurd h hn, fun _ h1 h2 _ => absurd h2 (by omega)⟩

theorem next_root_post_trans (act : Nat → Nat → ℚ) (N : Nat) (s1 s2 s3 : RootStore) (root : Nat)
    (hroot : root < s1.heap.length)
    (h12 : next_root_post act N s1 root s2) (h23 : next_root_post act N s2 root s3) :
    next_root_post act N s1 root s3 := by
  obtain ⟨a1, a2, a3, a4, a5, a6, a7⟩ := h12
  obtain ⟨b1, b2, b3, b4, b5, b6, b7⟩ := h23
  refine ⟨b1, heap_extends_trans _ _ _ a2 b2, fun x hx => b3 x (a3 x hx),
    fun x hx => b4 x (a4 x hx), ?_, ?_, ?_⟩
  · intro p hp hpr
    rw [b5 p (lt_of_lt_of_le hp a2.1) hpr, a5 p hp hpr]
  · intro x hx hxn
    by_cases hx2 : x ∈ s2.minimal_root_table.first
    · exact memo_complete_extends _ _ N x b2 (a1.minimal_range x hx2) (a6 x hx2 hxn)
    · exact b6 x hx hx2
  · intro p hp1 hp3 hfl
    by_cases hp2 : p < s2.heap.length
    · have hpr : p ≠ root := by omega
      rw [b5 p hp2 hpr] at hfl
      exact memo_complete_extends _ _ N p b2 hp2 (a7 p hp1 hp2 hfl)
    · exact b7 p (by omega) hp3 hfl

/-- The loop of generate_next_root over the generators of the list l, for a root
whose memo slots for l are empty. -/
theorem generate_next_root_loop_post (md : MATRIX_DATA) (N root : Nat)
    (recurse : RootStore → Nat → Except Fault RootStore) (act : Nat → Nat → ℚ)
    (hact : md.simple_action_results = some act)
    (hrec : ∀ S p S1, recurse S p = Except.ok S1 → store_invariant act N S →
      p < S.heap.length → (∀ a, memo_slot S.heap p a = none) →
      next_root_post act N S p S1 ∧ memo_complete S1.heap N p) :
    ∀ (l : List Nat) (st : RootStore) (e : Option Bool) (r : RootStore × Option Bool),
      l.foldlM (generate_next_root_body md N root recurse) (st, e) = Except.ok r →
      l.Nodup → (∀ a ∈ l, a < N) → store_invariant act N st → root < st.heap.length →
      (∀ a ∈ l, memo_slot st.heap root a = none) →
      next_root_post act N st root r.1 ∧
        (∀ a ∈ l, ∃ q, memo_slot r.1.heap root a = some q) ∧
        (∀ b, b ∉ l → memo_slot r.1.heap root b = memo_slot st.heap root b) := by
  intro l
  induction l with
  | nil =>
    intro st e r h _ _ hinv _ _
    simp only [List.foldlM, pure, Except.pure, Except.ok.injEq] at h
    subst h
    exact ⟨next_root_post_refl act N st root hinv, fun a ha => absurd ha (List.not_mem_nil a),
      fun _ _ => rfl⟩
  | cons ii rest ih =>
    intro st e r h hnd hlt hinv hroot hfresh
    rw [List.foldlM_cons] at h
    simp only [bind, Except.bind] at h
    split at h
    · cases h
    · rename_i mid hmid
      obtain ⟨m1, ⟨q, m2⟩, m3⟩ := generate_next_root_body_post md N root recurse act hact hrec
        st e ii mid hmid hinv hroot (hlt ii (List.mem_cons_self _ _))
        (hfresh ii (List.mem_cons_self _ _))
      have hnd1 := List.nodup_cons.mp hnd
      have hroot1 : root < mid.1.heap.length := lt_of_lt_of_le hroot m1.2.1.1
      obtain ⟨k1, k2, k3⟩ := ih mid.1 mid.2 r h hnd1.2
        (fun a ha => hlt a (List.mem_cons_of_mem _ ha)) m1.1 hroot1
        (by
          intro a ha
          have hne : a ≠ ii := fun e1 => hnd1.1 (e1 ▸ ha)
          rw [m3 a hne]
          exact hfresh a (List.mem_cons_of_mem _ ha))
      refine ⟨next_root_post_trans act N st mid.1 r.1 root hroot m1 k1, ?_, ?_⟩
      · intro a ha
        rcases List.mem_cons.mp ha with e1 | e1
        · subst e1
          exact ⟨q, (k1.2.1.2 root hroot1).2 a q m2⟩
        · exact k2 a e1
      · intro b hb
        have hb1 : b ≠ ii := fun e1 => hb (e1 ▸ List.mem_cons_self _ _)
        have hb2 : b ∉ rest := fun e1 => hb (List.mem_cons_of_mem _ e1)
        rw [k3 b hb2, m3 b hb1]

/-- The function generate_next_root, on a root of the heap whose memo slots are
all empty: the invariant is kept and all memo slots of the root and of the new
minimal roots are set. -/
theorem generate_next_root_post (md : MATRIX_DATA) (N : Nat) (act : Nat → Nat → ℚ)
    (hact : md.simple_action_results = some act) :
    ∀ (fuel : Nat) (st : RootStore) (root : Nat) (st1 : RootStore),
      generate_next_root md N fuel st root = Except.ok st1 →
      store_invariant act N st → root < st.heap.length →
      (∀ a, memo_slot st.heap root a = none) →
      next_root_post act N st root st1 ∧ memo_complete st1.heap N root := by
  intro fuel
  induction fuel with
  | zero =>
    intro st root st1 h
    simp [generate_next_root] at h
  | succ n ih =>
    intro st root st1 h hinv hroot hfresh
    rw [generate_next_root] at h
    simp only [bind, Except.bind] at h
    split at h
    · cases h
    · rename_i r hr
      simp only [pure, Except.pure, Except.ok.injEq] at h
      subst h
      obtain ⟨k1, k2, _⟩ := generate_next_root_loop_post md N root
        (generate_next_root md N n) act hact ih (List.range N) st none r hr
        (List.nodup_range N) (fun a ha => List.mem_range.mp ha) hinv hroot
        (fun a _ => hfresh a)
      exact ⟨k1, fun a ha => k2 a (List.mem_range.mpr ha)⟩

/-- The two ways in which a pass of the loop of generate_root_table returns:
the simple root is found in the table of minimal roots, or it is new, enters
both tables and generate_next_root runs on it. -/
theorem generate_root_table_body_inv (N fuel : Nat) (run : RootTableRun) (ii : Nat)
    (run1 : RootTableRun) (h : generate_root_table_body N fuel run ii = Except.ok run1) :
    (∃ x, root_in_list run.store.heap run.store.minimal_root_table (simple_root N ii) N
          = some x ∧
        run1 = { matrix_data :=
                   { run.matrix_data with
                     simple_roots := run.matrix_data.simple_roots.set ii (some x) }
                 store := run.store }) ∨
      (root_in_list run.store.heap run.store.minimal_root_table (simple_root N ii) N = none ∧
        ∃ st1,
          generate_next_root
              { run.matrix_data with
                simple_roots :=
                  run.matrix_data.simple_roots.set ii (some run.store.heap.length) }
              N fuel
              { heap := run.store.heap ++ [simple_root N ii]
                root_table :=
                  (insert_in_table (run.store.heap ++ [simple_root N ii]) run.store.heap.length
                    (some run.store.root_table) N).2
                minimal_root_table :=
                  (insert_in_table (run.store.heap ++ [simple_root N ii]) run.store.heap.length
                    (some run.store.minimal_root_table) N).2 }
              run.store.heap.length = Except.ok st1 ∧
          run1 = { matrix_data :=
                     { run.matrix_data with
                       simple_roots :=
                         run.matrix_data.simple_roots.set ii (some run.store.heap.length) }
                   store := st1 }) := by
  unfold generate_root_table_body at h
  dsimp only at h
  change (match root_in_list run.store.heap run.store.minimal_root_table (simple_root N ii) N with
    | none => _
    | some existing_simple_root => _) = _ at h
  cases hf : root_in_list run.store.heap run.store.minimal_root_table (simple_root N ii) N with
  | some x =>
    left
    rw [hf] at h
    simp only [pure, Except.pure, Except.ok.injEq] at h
    exact ⟨x, rfl, h.symm⟩
  | none =>
    right
    rw [hf] at h
    refine ⟨rfl, ?_⟩
    dsimp only at h
    rw [if_pos (by decide)] at h
    simp only [bind, Except.bind] at h
    split at h
    · cases h
    · rename_i st1 hrun
      simp only [pure, Except.pure, Except.ok.injEq] at h
      exact ⟨st1, hrun, h.symm⟩

theorem memo_slot_simple_root (heap : List ROOT) (N ii b : Nat) :
    memo_slot (heap ++ [simple_root N ii]) heap.length b = none := by
  unfold memo_slot
  rw [root_at_append_eq]
  simp only [simple_root, init_root, List.getD_eq_getElem?_getD, List.getElem?_replicate]
  split_ifs <;> rfl

/-- Entering a new simple root in the heap and in both tables keeps the
invariant. -/
theorem store_invariant_simple_root (act : Nat → Nat → ℚ) (N : Nat) (st : RootStore) (ii : Nat)
    (hinv : store_invariant act N st) (hii : ii < N) :
    store_invariant act N
        { heap := st.heap ++ [simple_root N ii]
          root_table :=
            (insert_in_table (st.heap ++ [simple_root N ii]) st.heap.length
              (some st.root_table) N).2
          minimal_root_table :=
            (insert_in_table (st.heap ++ [simple_root N ii]) st.heap.length
              (some st.minimal_root_table) N).2 } ∧
      heap_extends st.heap (st.heap ++ [simple_root N ii]) ∧
      (∀ x ∈ (insert_in_table (st.heap ++ [simple_root N ii]) st.heap.length
          (some st.minimal_root_table) N).2.first,
        x = st.heap.length ∨ x ∈ st.minimal_root_table.first) ∧
      (∀ x ∈ st.root_table.first,
        x ∈ (insert_in_table (st.heap ++ [simple_root N ii]) st.heap.length
          (some st.root_table) N).2.first) ∧
      (∀ x ∈ st.minimal_root_table.first,
        x ∈ (insert_in_table (st.heap ++ [simple_root N ii]) st.heap.length
          (some st.minimal_root_table) N).2.first) := by
  have hat : ∀ p, p < st.heap.length →
      root_at (st.heap ++ [simple_root N ii]) p = root_at st.heap p :=
    fun p hp => root_at_append_lt _ _ _ hp
  have hco : ∀ p, p < st.heap.length →
      (root_at (st.heap ++ [simple_root N ii]) p).coefficients = (root_at st.heap p).coefficients :=
    fun p hp => by rw [hat p hp]
  have hatL : root_at (st.heap ++ [simple_root N ii]) st.heap.length = simple_root N ii :=
    root_at_append_eq _ _
  obtain ⟨r1, r2, r3, r4, _⟩ := insert_in_table_mem (st.heap ++ [simple_root N ii])
    st.heap.length N (some st.root_table)
    (chain_transfer st.heap _ N _ (fun y hy => hco y (hinv.table_range y hy)) hinv.table_chain)
    hinv.table_length
  obtain ⟨m1, m2, m3, m4, _⟩ := insert_in_table_mem (st.heap ++ [simple_root N ii])
    st.heap.length N (some st.minimal_root_table)
    (chain_transfer st.heap _ N _ (fun y hy => hco y (hinv.minimal_range y hy))
      hinv.minimal_chain)
    hinv.minimal_length
  have hlen : (st.heap ++ [simple_root N ii]).length = st.heap.length + 1 := by simp
  refine ⟨?_, ?_, m3, r4, m4⟩
  · constructor
    · exact r1
    · exact r2
    · intro y hy
      show y < (st.heap ++ [simple_root N ii]).length
      rw [hlen]
      rcases r3 y hy with e1 | e1
      · omega
      · have := hinv.table_range y e1; omega
    · exact m1
    · exact m2
    · intro y hy
      show y < (st.heap ++ [simple_root N ii]).length
      rw [hlen]
      rcases m3 y hy with e1 | e1
      · omega
      · have := hinv.minimal_range y e1; omega
    · intro p a q hq
      change memo_slot (st.heap ++ [simple_root N ii]) p a = some q at hq
      change q ∈ (insert_in_table (st.heap ++ [simple_root N ii]) st.heap.length
          (some st.root_table) N).2.first ∧
        compare_roots (root_at (st.heap ++ [simple_root N ii]) q)
          (computed_root act N a (root_at (st.heap ++ [simple_root N ii]) p)) N = 0
      by_cases hp : p < st.heap.length
      · rw [memo_slot_append_lt _ _ _ _ hp] at hq
        obtain ⟨h1, h2⟩ := hinv.memo_agree p a q hq
        rw [hat p hp, hat q (hinv.table_range q h1)]
        exact ⟨r4 q h1, h2⟩
      · by_cases hpL : p = st.heap.length
        · subst hpL
          rw [memo_slot_simple_root] at hq; cases hq
        · rw [memo_slot_of_ge _ p a (by rw [hlen]; omega)] at hq; cases hq
    · intro y hy
      change root_positive (root_at (st.heap ++ [simple_root N ii]) y) N = Except.ok true
      rcases m3 y hy with e1 | e1
      · rw [e1, hatL]
        exact root_positive_simple_root N ii hii
      · rw [hat y (hinv.minimal_range y e1)]
        exact hinv.minimal_positive y e1
    · intro p hp hfl
      change p < (st.heap ++ [simple_root N ii]).length at hp
      change (root_at (st.heap ++ [simple_root N ii]) p).positive_minimal = true at hfl
      change root_positive (root_at (st.heap ++ [simple_root N ii]) p) N = Except.ok true
      rw [hlen] at hp
      by_cases hpL : p = st.heap.length
      · rw [hpL, hatL]
        exact root_positive_simple_root N ii hii
      · have hp1 : p < st.heap.length := by omega
        rw [hat p hp1] at hfl ⊢
        exact hinv.flag_positive p hp1 hfl
    · intro p hp
      change p < (st.heap ++ [simple_root N ii]).length at hp
      change (root_at (st.heap ++ [simple_root N ii]) p).next_roots.length = N
      rw [hlen] at hp
      by_cases hpL : p = st.heap.length
      · rw [hpL, hatL]
        simp [simple_root, init_root]
      · have hp1 : p < st.heap.length := by omega
        rw [hat p hp1]
        exact hinv.memo_length p hp1
    · intro hai p hp
      change p < (st.heap ++ [simple_root N ii]).length at hp
      change root_integral (root_at (st.heap ++ [simple_root N ii]) p) N
      rw [hlen] at hp
      by_cases hpL : p = st.heap.length
      · rw [hpL, hatL]
        exact simple_root_integral N ii hii
      · have hp1 : p < st.heap.length := by omega
        rw [hat p hp1]
        exact hinv.integral hai p hp1
  · refine ⟨by rw [hlen]; omega, ?_⟩
    intro p hp
    refine ⟨hco p hp, ?_⟩
    intro a q hq
    rw [memo_slot_append_lt _ _ _ _ hp]
    exact hq

/-- A pass of the loop of generate_root_table keeps the invariant of the run. -/
theorem generate_root_table_body_invariant (act : Nat → Nat → ℚ) (N fuel : Nat)
    (run : RootTableRun) (ii : Nat) (run1 : RootTableRun)
    (h : generate_root_table_body N fuel run ii = Except.ok run1) (hii : ii < N)
    (hinv : run_invariant act N run) : run_invariant act N run1 := by
  obtain ⟨hact, hst, hmin, hflag⟩ := hinv
  rcases generate_root_table_body_inv N fuel run ii run1 h with
    ⟨x, _, hrun1⟩ | ⟨_, st1, hgen, hrun1⟩
  · subst hrun1
    exact ⟨hact, hst, hmin, hflag⟩
  · subst hrun1
    obtain ⟨s1, s2, s3, _, s5⟩ := store_invariant_simple_root act N run.store ii hst hii
    have hlen : (run.store.heap ++ [simple_root N ii]).length = run.store.heap.length + 1 := by
      simp
    have hL : run.store.heap.length < (run.store.heap ++ [simple_root N ii]).length := by
      rw [hlen]; omega
    obtain ⟨⟨p1, p2, p3, p4, p5, p6, p7⟩, pc⟩ := generate_next_root_post
      { run.matrix_data with
        simple_roots := run.matrix_data.simple_roots.set ii (some run.store.heap.length) }
      N act hact fuel _ _ _ hgen s1 hL
      (fun a => memo_slot_simple_root run.store.heap N ii a)
    have hext := heap_extends_trans _ _ _ s2 p2
    refine ⟨hact, p1, ?_, ?_⟩
    · intro y hy
      by_cases hy0 : y ∈ (insert_in_table (run.store.heap ++ [simple_root N ii])
          run.store.heap.length (some run.store.minimal_root_table) N).2.first
      · rcases s3 y hy0 with e1 | e1
        · rw [e1]; exact pc
        · exact memo_complete_extends _ _ N y hext (hst.minimal_range y e1) (hmin y e1)
      · exact p6 y hy hy0
    · intro p hp hfl
      change p < st1.heap.length at hp
      change (root_at st1.heap p).positive_minimal = true at hfl
      change memo_complete st1.heap N p
      by_cases hpL : p < run.store.heap.length
      · have hp1 : p < (run.store.heap ++ [simple_root N ii]).length := by rw [hlen]; omega
        have e1 := p5 p hp1 (by omega)
        change root_at st1.heap p = root_at (run.store.heap ++ [simple_root N ii]) p at e1
        rw [e1, root_at_append_lt _ _ _ hpL] at hfl
        exact memo_complete_extends _ _ N p hext hpL (hflag p hpL hfl)
      · by_cases hpe : p = run.store.heap.length
        · rw [hpe]; exact pc
        · have hp2 : (run.store.heap ++ [simple_root N ii]).length ≤ p := by rw [hlen]; omega
          exact p7 p hp2 hp hfl

theorem store_invariant_empty (act : Nat → Nat → ℚ) (N : Nat) :
    store_invariant act N
      { heap := [], root_table := { first := [], length := 0 },
        minimal_root_table := { first := [], length := 0 } } := by
  constructor
  · exact List.chain'_nil
  · rfl
  · intro x hx; cases hx
  · exact List.chain'_nil
  · rfl
  · intro x hx; cases hx
  · intro p a q hq
    rw [memo_slot_of_ge [] p a (Nat.zero_le _)] at hq
    cases hq
  · intro x hx; cases hx
  · intro p hp; exact absurd hp (Nat.not_lt_zero _)
  · intro p hp; exact absurd hp (Nat.not_lt_zero _)
  · intro _ p hp; exact absurd hp (Nat.not_lt_zero _)

theorem generate_root_table_loop_invariant (act : Nat → Nat → ℚ) (N fuel : Nat) :
    ∀ (l : List Nat) (run0 run : RootTableRun),
      l.foldlM (generate_root_table_body N fuel) run0 = Except.ok run →
      (∀ a ∈ l, a < N) → run_invariant act N run0 →
      run_invariant act N run ∧
        run.matrix_data.scalar_products = run0.matrix_data.scalar_products ∧
        run.matrix_data.coxeter_matrix = run0.matrix_data.coxeter_matrix := by
  intro l
  induction l with
  | nil =>
    intro run0 run h _ hinv
    simp only [List.foldlM, pure, Except.pure, Except.ok.injEq] at h
    subst h
    exact ⟨hinv, rfl, rfl⟩
  | cons ii rest ih =>
    intro run0 run h hlt hinv
    rw [List.foldlM_cons] at h
    simp only [bind, Except.bind] at h
    split at h
    · cases h
    · rename_i mid hmid
      have h1 := generate_root_table_body_invariant act N fuel run0 ii mid hmid
        (hlt ii (List.mem_cons_self _ _)) hinv
      have h2 : mid.matrix_data.scalar_products = run0.matrix_data.scalar_products ∧
          mid.matrix_data.coxeter_matrix = run0.matrix_data.coxeter_matrix := by
        rcases generate_root_table_body_inv N fuel run0 ii mid hmid with
          ⟨x, _, e1⟩ | ⟨_, st1, _, e1⟩
        · subst e1; exact ⟨rfl, rfl⟩
        · subst e1; exact ⟨rfl, rfl⟩
      obtain ⟨k1, k2, k3⟩ := ih mid run h (fun a ha => hlt a (List.mem_cons_of_mem _ ha)) h1
      exact ⟨k1, k2.trans h2.1, k3.trans h2.2⟩

/-- The function generate_root_table leaves a run that meets run_invariant for
the table simple_action_results that it uses. -/
theorem generate_root_table_invariant (cos_pi_over : Int → ℚ) (msp mact : Nat → Nat → ℚ)
    (md : MATRIX_DATA) (N fuel : Nat) (run : RootTableRun)
    (h : generate_root_table cos_pi_over msp mact md N fuel = Except.ok run) :
    ∃ sp act,
      sp = (match md.scalar_products with
        | some t => t
        | none => fill_scalar_product_matrix cos_pi_over md.coxeter_matrix msp N) ∧
      act = (match md.simple_action_results with
        | some t => t
        | none => fill_cox_action_matrix sp mact N) ∧
      run.matrix_data.scalar_products = some sp ∧
      run.matrix_data.coxeter_matrix = md.coxeter_matrix ∧
      run_invariant act N run := by
  unfold generate_root_table at h
  dsimp only at h
  refine ⟨_, _, rfl, rfl, ?_⟩
  obtain ⟨k1, k2, k3⟩ := generate_root_table_loop_invariant _ N fuel (List.range N) _ run h
    (fun a ha => List.mem_range.mp ha)
    ⟨rfl, store_invariant_empty _ N, fun x hx => absurd hx (List.not_mem_nil x),
      fun p hp _ => absurd hp (Nat.not_lt_zero _)⟩
  exact ⟨k2, k3, k1⟩

/-- For the initial matrix data both tables are filled by generate_root_table. -/
theorem generate_root_table_initial (cos_pi_over : Int → ℚ) (M : Nat → Nat → Int)
    (N fuel : Nat) (run : RootTableRun)
    (h : generate_root_table cos_pi_over (fun _ _ => 0) (fun _ _ => 0)
      (initial_matrix_data M N) N fuel = Except.ok run) :
    run.matrix_data.scalar_products
        = some (fill_scalar_product_matrix cos_pi_over M (fun _ _ => 0) N) ∧
      run_invariant
        (fill_cox_action_matrix (fill_scalar_product_matrix cos_pi_over M (fun _ _ => 0) N)
          (fun _ _ => 0) N) N run := by
  obtain ⟨sp, act, h1, h2, h3, _, h5⟩ := generate_root_table_invariant _ _ _ _ _ _ _ h
  have e1 : sp = fill_scalar_product_matrix cos_pi_over M (fun _ _ => 0) N := h1
  subst e1
  have e2 : act = fill_cox_action_matrix
      (fill_scalar_product_matrix cos_pi_over M (fun _ _ => 0) N) (fun _ _ => 0) N := h2
  subst e2
  exact ⟨h3, h5⟩

/-! ## The roots after the enumeration -/

theorem cox_action_on_root_memo (md : MATRIX_DATA) (N a : Nat) (heap : List ROOT) (root q : Nat)
    (table : Option ROOT_TABLE) (e : Option Bool) (h : memo_slot heap root a = some q) :
    cox_action_on_root md N a heap root table e
      = Except.ok { heap := heap, returned_root := q, new_root_exists := e } := by
  unfold memo_slot at h
  unfold cox_action_on_root
  rw [h]
  rfl

theorem S3_root_table_run :
    ∃ run, generate_root_table exact_cos_pi_over (fun _ _ => 0) (fun _ _ => 0)
        (initial_matrix_data S3_matrix 2) 2 4 = Except.ok run ∧ run.store = S3_store := by
  obtain ⟨run, am, hb, hs, _⟩ := S3_build exact_cos_pi_over (by decide!) 4 (le_refl _)
  exact ⟨run, (build_automaton_ok_inv _ _ _ _ _ _ hb).1, hs⟩

theorem infinite_dihedral_root_table_run :
    ∃ run, generate_root_table exact_cos_pi_over (fun _ _ => 0) (fun _ _ => 0)
        (initial_matrix_data infinite_dihedral_matrix 2) 2 3 = Except.ok run ∧
      run.store = infinite_dihedral_store := by
  obtain ⟨run, am, hb, hs, _⟩ := infinite_dihedral_build exact_cos_pi_over 3 (le_refl _)
  exact ⟨run, (build_automaton_ok_inv _ _ _ _ _ _ hb).1, hs⟩

theorem S4_root_table_run :
    ∃ run, generate_root_table exact_cos_pi_over (fun _ _ => 0) (fun _ _ => 0)
        (initial_matrix_data S4_matrix 3) 3 7 = Except.ok run ∧ run.store = S4_store := by
  obtain ⟨run, am, hb, hs, _⟩ :=
    S4_build exact_cos_pi_over (by decide!) (by decide!) 7 (le_refl _)
  exact ⟨run, (build_automaton_ok_inv _ _ _ _ _ _ hb).1, hs⟩

/-- C13: after generate_root_table returns, every root of the table of minimal
roots is positive, and so is every root of the root table whose flag
positive_minimal is set: root_positive returns true for it. -/
theorem flagged_roots_positive (cos_pi_over : Int → ℚ)
    (malloced_sp malloced_act : Nat → Nat → ℚ) (matrix_data : MATRIX_DATA)
    (num_generators fuel : Nat) (run : RootTableRun)
    (h : generate_root_table cos_pi_over malloced_sp malloced_act matrix_data num_generators fuel
      = Except.ok run) :
    (∀ x ∈ run.store.minimal_root_table.first,
      root_positive (root_at run.store.heap x) num_generators = Except.ok true) ∧
    (∀ x ∈ run.store.root_table.first,
      (root_at run.store.heap x).positive_minimal = true →
      root_positive (root_at run.store.heap x) num_generators = Except.ok true) := by
  obtain ⟨sp, act, _, _, _, _, _, hinv, _, _⟩ := generate_root_table_invariant _ _ _ _ _ _ _ h
  exact ⟨hinv.minimal_positive,
    fun x hx hfl => hinv.flag_positive x (hinv.table_range x hx) hfl⟩

theorem flagged_roots_positive_witness :
    ∃ run, generate_root_table exact_cos_pi_over (fun _ _ => 0) (fun _ _ => 0)
        (initial_matrix_data S3_matrix 2) 2 4 = Except.ok run ∧
      (∀ x ∈ run.store.minimal_root_table.first,
        root_positive (root_at run.store.heap x) 2 = Except.ok true) ∧
      (∀ x ∈ run.store.root_table.first,
        (root_at run.store.heap x).positive_minimal = true →
        root_positive (root_at run.store.heap x) 2 = Except.ok true) := by
  obtain ⟨run, hrun, _⟩ := S3_root_table_run
  exact ⟨run, hrun, flagged_roots_positive exact_cos_pi_over (fun _ _ => 0) (fun _ _ => 0)
    (initial_matrix_data S3_matrix 2) 2 4 run hrun⟩

set_option maxRecDepth 100000 in
/-- C13 as stated fails: for the Coxeter matrix of S_3 the root table produced by
generate_root_table stores the root with coefficients (-1, 0), the image of the
first simple root under its own reflection, and root_positive returns false for
it. -/
theorem root_table_stores_negative_root :
    ∃ run, generate_root_table exact_cos_pi_over (fun _ _ => 0) (fun _ _ => 0)
        (initial_matrix_data S3_matrix 2) 2 4 = Except.ok run ∧
      1 ∈ run.store.root_table.first ∧
      (root_at run.store.heap 1).coefficients = [-1, 0] ∧
      root_positive (root_at run.store.heap 1) 2 = Except.ok false := by
  obtain ⟨run, hrun, hs⟩ := S3_root_table_run
  refine ⟨run, hrun, ?_⟩
  rw [hs]
  decide!

/-- C15: after generate_root_table returns, for every root r of the table of
minimal roots, and for every root of the root table whose flag positive_minimal
is set, and every generator a, the memo slot a of r holds a root q of the root
table that compares equal to the vector s_a r computed from the coefficients of r,
and cox_action_on_root returns q. -/
theorem minimal_roots_action_closed (cos_pi_over : Int → ℚ)
    (malloced_sp malloced_act : Nat → Nat → ℚ) (matrix_data : MATRIX_DATA)
    (num_generators fuel : Nat) (run : RootTableRun)
    (h : generate_root_table cos_pi_over malloced_sp malloced_act matrix_data num_generators fuel
      = Except.ok run) :
    ∃ act, run.matrix_data.simple_action_results = some act ∧
      ∀ r, (r ∈ run.store.minimal_root_table.first ∨
          (r ∈ run.store.root_table.first ∧ (root_at run.store.heap r).positive_minimal = true)) →
        ∀ a, a < num_generators →
          ∃ q, q ∈ run.store.root_table.first ∧
            compare_roots (root_at run.store.heap q)
              (computed_root act num_generators a (root_at run.store.heap r)) num_generators
              = COMPARE_ROOTS_EQUAL ∧
            ∀ table e, cox_action_on_root run.matrix_data num_generators a run.store.heap r
              table e
              = Except.ok { heap := run.store.heap, returned_root := q, new_root_exists := e } := by
  obtain ⟨sp, act, _, _, _, _, hact, hinv, hmin, hflag⟩ :=
    generate_root_table_invariant _ _ _ _ _ _ _ h
  refine ⟨act, hact, ?_⟩
  intro r hr a ha
  have hc : memo_complete run.store.heap num_generators r := by
    rcases hr with hr | ⟨hr, hfl⟩
    · exact hmin r hr
    · exact hflag r (hinv.table_range r hr) hfl
  obtain ⟨q, hq⟩ := hc a ha
  obtain ⟨hmem, hcmp⟩ := hinv.memo_agree r a q hq
  exact ⟨q, hmem, hcmp, fun table e => cox_action_on_root_memo _ _ _ _ _ _ table e hq⟩

theorem minimal_roots_action_closed_witness :
    ∃ run, generate_root_table exact_cos_pi_over (fun _ _ => 0) (fun _ _ => 0)
        (initial_matrix_data infinite_dihedral_matrix 2) 2 3 = Except.ok run ∧
      ∃ act, run.matrix_data.simple_action_results = some act ∧
        ∀ r, (r ∈ run.store.minimal_root_table.first ∨
            (r ∈ run.store.root_table.first ∧
              (root_at run.store.heap r).positive_minimal = true)) →
          ∀ a, a < 2 →
            ∃ q, q ∈ run.store.root_table.first ∧
              compare_roots (root_at run.store.heap q)
                (computed_root act 2 a (root_at run.store.heap r)) 2 = COMPARE_ROOTS_EQUAL ∧
              ∀ table e, cox_action_on_root run.matrix_data 2 a run.store.heap r table e
                = Except.ok { heap := run.store.heap, returned_root := q, new_root_exists := e } := by
  obtain ⟨run, hrun, _⟩ := infinite_dihedral_root_table_run
  exact ⟨run, hrun, minimal_roots_action_closed exact_cos_pi_over (fun _ _ => 0) (fun _ _ => 0)
    (initial_matrix_data infinite_dihedral_matrix 2) 2 3 run hrun⟩

set_option maxRecDepth 100000 in
/-- C15 as stated fails: for the Coxeter matrix of the infinite dihedral group the
root table produced by generate_root_table stores the root (1, 2); the vector
computed for generator 0 from it is (3, 2), which compares equal to no root of the
root table and for which root_positive returns true. -/
theorem root_table_not_closed_under_action :
    ∃ run act, generate_root_table exact_cos_pi_over (fun _ _ => 0) (fun _ _ => 0)
        (initial_matrix_data infinite_dihedral_matrix 2) 2 3 = Except.ok run ∧
      run.matrix_data.simple_action_results = some act ∧
      2 ∈ run.store.root_table.first ∧
      (root_at run.store.heap 2).coefficients = [1, 2] ∧
      cox_action_on_root_coefficients act 2 0 (root_at run.store.heap 2) = [3, 2] ∧
      (∀ x ∈ run.store.root_table.first,
        compare_roots (root_at run.store.heap x)
          (computed_root act 2 0 (root_at run.store.heap 2)) 2 ≠ COMPARE_ROOTS_EQUAL) ∧
      root_positive (computed_root act 2 0 (root_at run.store.heap 2)) 2 = Except.ok true := by
  obtain ⟨run, hrun, hs⟩ := infinite_dihedral_root_table_run
  obtain ⟨_, hinv⟩ := generate_root_table_initial _ _ _ _ _ hrun
  refine ⟨run, _, hrun, hinv.1, ?_⟩
  rw [hs]
  decide!

/-! ## Roots with integer coefficients -/

theorem int_close_eq (x y : ℚ) (hx : ∃ k : Int, x = k) (hy : ∃ k : Int, y = k)
    (h : |x - y| < EPSILON_COMP_VAL) : x = y := by
  obtain ⟨k1, rfl⟩ := hx
  obtain ⟨k2, rfl⟩ := hy
  have h1 : |((k1 - k2 : Int) : ℚ)| < 1 := by
    push_cast
    exact lt_trans h eps_lt_one
  have h2 : |k1 - k2| < 1 := by exact_mod_cast h1
  have h3 : k1 - k2 = 0 := Int.abs_lt_one_iff.mp h2
  have h4 : k1 = k2 := by omega
  rw [h4]

theorem root_integral_of_ge (heap : List ROOT) (N p : Nat) (hp : heap.length ≤ p) :
    root_integral (root_at heap p) N := by
  intro i _
  refine ⟨0, ?_⟩
  unfold root_at
  rw [List.getD_eq_default _ _ hp]
  simp [coefficient]

theorem compare_roots_scan_before (a b : ROOT) (N : Nat) :
    ∀ fuel ii i, ii ≤ i → i < compare_roots_scan a b N fuel ii →
      |a.coefficients.getD i 0 - b.coefficients.getD i 0| < EPSILON_COMP_VAL := by
  intro fuel
  induction fuel with
  | zero =>
    intro ii i h1 h2
    simp only [compare_roots_scan] at h2
    omega
  | succ n ih =>
    intro ii i h1 h2
    rw [compare_roots_scan] at h2
    split_ifs at h2 with hc
    · by_cases hi : i = ii
      · subst hi; exact hc.2
      · exact ih (ii + 1) i (by omega) h2
    · omega

theorem compare_roots_scan_first (a b : ROOT) (N k : Nat) (hk : k < N)
    (hclose : ∀ j, j < k →
      |a.coefficients.getD j 0 - b.coefficients.getD j 0| < EPSILON_COMP_VAL)
    (hfar : ¬ |a.coefficients.getD k 0 - b.coefficients.getD k 0| < EPSILON_COMP_VAL) :
    ∀ fuel i, i ≤ k → k < i + fuel → compare_roots_scan a b N fuel i = k := by
  intro fuel
  induction fuel with
  | zero => intro i h1 h2; omega
  | succ n ih =>
    intro i h1 h2
    rw [compare_roots_scan]
    by_cases hik : i = k
    · subst hik
      rw [if_neg (fun e => hfar e.2)]
    · have hlt : i < k := by omega
      have hc : i < N ∧
          |a.coefficients.getD i 0 - b.coefficients.getD i 0| < EPSILON_COMP_VAL :=
        ⟨by omega, hclose i hlt⟩
      rw [if_pos hc]
      exact ih (i + 1) (by omega) (by omega)

/-- The result SMALLER of compare_roots: the first index at which the two roots
differ by the threshold or more has the smaller coefficient in the first root. -/
theorem compare_roots_smaller_iff (a b : ROOT) (N : Nat) :
    compare_roots a b N = COMPARE_ROOTS_SMALLER ↔
      ∃ k, k < N ∧
        (∀ j, j < k →
          |a.coefficients.getD j 0 - b.coefficients.getD j 0| < EPSILON_COMP_VAL) ∧
        ¬ |a.coefficients.getD k 0 - b.coefficients.getD k 0| < EPSILON_COMP_VAL ∧
        a.coefficients.getD k 0 ≤ b.coefficients.getD k 0 := by
  constructor
  · intro h
    unfold compare_roots at h
    simp only [COMPARE_ROOTS_EQUAL, COMPARE_ROOTS_GREATER, COMPARE_ROOTS_SMALLER] at h
    by_cases h1 : compare_roots_scan a b N N 0 = N
    · simp [h1] at h
    · simp only [h1, if_false] at h
      have hle := compare_roots_scan_le a b N N 0 (by omega)
      refine ⟨compare_roots_scan a b N N 0, by omega, ?_, ?_, ?_⟩
      · intro j hj
        exact compare_roots_scan_before a b N N 0 j (by omega) hj
      · exact compare_roots_scan_stop a b N N 0 (by omega) h1
      · by_contra hgt
        rw [if_pos (not_le.mp hgt)] at h
        exact absurd h (by norm_num)
  · rintro ⟨k, hk, hclose, hfar, hle⟩
    have hscan := compare_roots_scan_first a b N k hk hclose hfar N 0 (by omega) (by omega)
    unfold compare_roots
    simp only [COMPARE_ROOTS_EQUAL, COMPARE_ROOTS_GREATER, COMPARE_ROOTS_SMALLER]
    rw [hscan, if_neg (by omega), if_neg (not_lt.mpr hle)]

theorem roots_ascending_trans (heap : List ROOT) (N : Nat) (hsep : roots_separated heap N)
    (p q r : Nat) (h1 : roots_ascending heap N p q) (h2 : roots_ascending heap N q r) :
    roots_ascending heap N p r := by
  unfold roots_ascending at *
  obtain ⟨k1, hk1, hc1, hf1, hl1⟩ := (compare_roots_smaller_iff _ _ _).mp h1
  obtain ⟨k2, hk2, hc2, hf2, hl2⟩ := (compare_roots_smaller_iff _ _ _).mp h2
  apply (compare_roots_smaller_iff _ _ _).mpr
  have he : (0 : ℚ) < EPSILON_COMP_VAL := eps_pos
  have hpre : ∀ j, j < k1 → j < k2 →
      |(root_at heap p).coefficients.getD j 0 - (root_at heap r).coefficients.getD j 0|
        < EPSILON_COMP_VAL := by
    intro j hj1 hj2
    rw [hsep p q j (by omega) (hc1 j hj1), hsep q r j (by omega) (hc2 j hj2)]
    simpa using he
  rw [abs_lt, not_and_or] at hf1 hf2
  rcases Nat.lt_trichotomy k1 k2 with hk | hk | hk
  · refine ⟨k1, hk1, fun j hj => hpre j hj (by omega), ?_, ?_⟩
    · rw [← hsep q r k1 hk1 (hc2 k1 hk)]
      rw [abs_lt, not_and_or]
      exact hf1
    · rw [← hsep q r k1 hk1 (hc2 k1 hk)]
      exact hl1
  · subst hk
    refine ⟨k1, hk1, fun j hj => hpre j hj hj, ?_, le_trans hl1 hl2⟩
    rw [abs_lt, not_and_or]
    left
    rcases hf1 with hf1 | hf1
    · rcases hf2 with hf2 | hf2
      · linarith
      · linarith
    · linarith
  · refine ⟨k2, hk2, fun j hj => hpre j (by omega) hj, ?_, ?_⟩
    · rw [hsep p q k2 hk2 (hc1 k2 hk)]
      rw [abs_lt, not_and_or]
      exact hf2
    · rw [hsep p q k2 hk2 (hc1 k2 hk)]
      exact hl2

theorem roots_ascending_pairwise (heap : List ROOT) (N : Nat) (hsep : roots_separated heap N)
    (l : List Nat) (h : List.Chain' (roots_ascending heap N) l) :
    List.Pairwise (roots_ascending heap N) l := by
  haveI : IsTrans Nat (roots_ascending heap N) :=
    ⟨fun a b c => roots_ascending_trans heap N hsep a b c⟩
  exact List.chain'_iff_pairwise.mp h

theorem roots_separated_of_integral (heap : List ROOT) (N : Nat)
    (h : ∀ p, p < heap.length → root_integral (root_at heap p) N) :
    roots_separated heap N := by
  have hall : ∀ p, root_integral (root_at heap p) N := by
    intro p
    by_cases hp : p < heap.length
    · exact h p hp
    · exact root_integral_of_ge heap N p (by omega)
  intro p q i hi hclose
  exact int_close_eq _ _ (hall p i hi) (hall q i hi) hclose

theorem action_integral_of_cosines (cos_pi_over : Int → ℚ) (M : Nat → Nat → Int)
    (g1 g2 : Nat → Nat → ℚ) (N : Nat) (hcos : cosines_integral cos_pi_over M N) :
    action_integral
      (fill_cox_action_matrix (fill_scalar_product_matrix cos_pi_over M g1 N) g2 N) N := by
  intro i a hi ha hia
  rw [simple_action_results_eq _ _ _ _ _ _ _ hi ha hia, fill_scalar_product_matrix_apply]
  have hb : i < N ∧ a < N := ⟨hi, ha⟩
  rw [if_pos hb, if_neg hia]
  unfold cox_scalar_product
  have hlt : min i a < max i a := by omega
  have hne : ¬ min i a = max i a := by omega
  rw [if_neg hne]
  by_cases hM : M (min i a) (max i a) = 0
  · rw [if_pos hM]
    exact ⟨2, by norm_num⟩
  · rw [if_neg hM]
    obtain ⟨k, hk⟩ := hcos (min i a) (max i a) hlt (by omega) hM
    exact ⟨k, by rw [← hk]; ring⟩

/-- For the initial matrix data both tables are filled by generate_root_table,
whatever the allocated blocks hold. -/
theorem generate_root_table_filled (cos_pi_over : Int → ℚ) (msp mact : Nat → Nat → ℚ)
    (M : Nat → Nat → Int) (N fuel : Nat) (run : RootTableRun)
    (h : generate_root_table cos_pi_over msp mact (initial_matrix_data M N) N fuel
      = Except.ok run) :
    run_invariant
      (fill_cox_action_matrix (fill_scalar_product_matrix cos_pi_over M msp N) mact N) N run := by
  obtain ⟨sp, act, h1, h2, _, _, h5⟩ := generate_root_table_invariant _ _ _ _ _ _ _ h
  have e1 : sp = fill_scalar_product_matrix cos_pi_over M msp N := h1
  subst e1
  have e2 : act = fill_cox_action_matrix
      (fill_scalar_product_matrix cos_pi_over M msp N) mact N := h2
  subst e2
  exact h5

theorem generate_root_table_separated (cos_pi_over : Int → ℚ) (msp mact : Nat → Nat → ℚ)
    (M : Nat → Nat → Int) (N fuel : Nat) (run : RootTableRun)
    (hcos : cosines_integral cos_pi_over M N)
    (h : generate_root_table cos_pi_over msp mact (initial_matrix_data M N) N fuel
      = Except.ok run) :
    roots_separated run.store.heap N := by
  have hinv := generate_root_table_filled _ _ _ _ _ _ _ h
  exact roots_separated_of_integral _ _
    (hinv.2.1.integral (action_integral_of_cosines _ _ _ _ _ hcos))

theorem S3_cosines_integral : cosines_integral exact_cos_pi_over S3_matrix 2 := by
  intro i j hij hj _
  obtain ⟨rfl, rfl⟩ : i = 0 ∧ j = 1 := by omega
  exact ⟨1, by decide!⟩

theorem infinite_dihedral_cosines_integral :
    cosines_integral exact_cos_pi_over infinite_dihedral_matrix 2 := by
  intro i j hij hj hM
  obtain ⟨rfl, rfl⟩ : i = 0 ∧ j = 1 := by omega
  exact absurd (by decide) hM

theorem S4_cosines_integral : cosines_integral exact_cos_pi_over S4_matrix 3 := by
  intro i j hij hj _
  have hcases : (i = 0 ∧ j = 1) ∨ (i = 0 ∧ j = 2) ∨ (i = 1 ∧ j = 2) := by omega
  rcases hcases with ⟨rfl, rfl⟩ | ⟨rfl, rfl⟩ | ⟨rfl, rfl⟩
  · exact ⟨1, by decide!⟩
  · exact ⟨0, by decide!⟩
  · exact ⟨1, by decide!⟩

theorem root_table_pairwise (cos_pi_over : Int → ℚ) (msp mact : Nat → Nat → ℚ)
    (M : Nat → Nat → Int) (N fuel : Nat) (run : RootTableRun)
    (hcos : cosines_integral cos_pi_over M N)
    (h : generate_root_table cos_pi_over msp mact (initial_matrix_data M N) N fuel
      = Except.ok run) :
    List.Pairwise (roots_ascending run.store.heap N) run.store.root_table.first :=
  roots_ascending_pairwise _ _ (generate_root_table_separated _ _ _ _ _ _ _ hcos h) _
    (generate_root_table_filled _ _ _ _ _ _ _ h).2.1.table_chain

/-- In arithmetic without rounding, after generate_root_table returns, each entry
of the root table compares SMALLER than the entry that follows it; and for a
Coxeter matrix at each of whose
entries twice the cosine is an integer, no two entries of the root table compare
equal under compare_roots, in either order, and no root is entered twice. -/
theorem root_table_entries_distinct (cos_pi_over : Int → ℚ)
    (malloced_sp malloced_act : Nat → Nat → ℚ) (coxeter_matrix : Nat → Nat → Int)
    (num_generators fuel : Nat) (run : RootTableRun)
    (h : generate_root_table cos_pi_over malloced_sp malloced_act
      (initial_matrix_data coxeter_matrix num_generators) num_generators fuel = Except.ok run) :
    List.Chain'
        (fun x y =>
          compare_roots (root_at run.store.heap x) (root_at run.store.heap y) num_generators
            = COMPARE_ROOTS_SMALLER)
        run.store.root_table.first ∧
      (cosines_integral cos_pi_over coxeter_matrix num_generators →
        List.Pairwise
            (fun x y =>
              compare_roots (root_at run.store.heap x) (root_at run.store.heap y) num_generators
                  ≠ COMPARE_ROOTS_EQUAL ∧
                compare_roots (root_at run.store.heap y) (root_at run.store.heap x) num_generators
                  ≠ COMPARE_ROOTS_EQUAL)
            run.store.root_table.first ∧
          run.store.root_table.first.Nodup) := by
  refine ⟨(generate_root_table_filled _ _ _ _ _ _ _ h).2.1.table_chain, ?_⟩
  intro hcos
  have hp := root_table_pairwise _ _ _ _ _ _ _ hcos h
  have hne : ∀ x y, roots_ascending run.store.heap num_generators x y →
      compare_roots (root_at run.store.heap x) (root_at run.store.heap y) num_generators
          ≠ COMPARE_ROOTS_EQUAL ∧
        compare_roots (root_at run.store.heap y) (root_at run.store.heap x) num_generators
          ≠ COMPARE_ROOTS_EQUAL := by
    intro x y hxy
    unfold roots_ascending at hxy
    simp only [COMPARE_ROOTS_EQUAL, COMPARE_ROOTS_SMALLER] at hxy ⊢
    constructor
    · rw [hxy]; norm_num
    · intro h0
      rw [compare_roots_eq_zero_comm _ _ _ h0] at hxy
      exact absurd hxy (by norm_num)
  refine ⟨hp.imp (fun {x y} hxy => hne x y hxy), hp.imp (fun {x y} hxy => ?_)⟩
  intro e
  subst e
  exact (hne x x hxy).1 (compare_roots_self _ _)

theorem root_table_entries_distinct_witness :
    cosines_integral exact_cos_pi_over S4_matrix 3 ∧
    ∃ run, generate_root_table exact_cos_pi_over (fun _ _ => 0) (fun _ _ => 0)
        (initial_matrix_data S4_matrix 3) 3 7 = Except.ok run ∧
      List.Chain'
        (fun x y =>
          compare_roots (root_at run.store.heap x) (root_at run.store.heap y) 3
            = COMPARE_ROOTS_SMALLER)
        run.store.root_table.first ∧
      (cosines_integral exact_cos_pi_over S4_matrix 3 →
        List.Pairwise
            (fun x y =>
              compare_roots (root_at run.store.heap x) (root_at run.store.heap y) 3
                  ≠ COMPARE_ROOTS_EQUAL ∧
                compare_roots (root_at run.store.heap y) (root_at run.store.heap x) 3
                  ≠ COMPARE_ROOTS_EQUAL)
            run.store.root_table.first ∧
          run.store.root_table.first.Nodup) := by
  obtain ⟨run, hrun, _⟩ := S4_root_table_run
  exact ⟨S4_cosines_integral, run, hrun,
    root_table_entries_distinct exact_cos_pi_over (fun _ _ => 0) (fun _ _ => 0) S4_matrix 3 7 run
      hrun⟩

theorem memo_slot_bounds (heap : List ROOT) (N r a q : Nat)
    (hlen : ∀ p, p < heap.length → (root_at heap p).next_roots.length = N)
    (h : memo_slot heap r a = some q) : r < heap.length ∧ a < N := by
  have hr : r < heap.length := by
    by_contra hn
    rw [memo_slot_of_ge heap r a (by omega)] at h
    exact absurd h (by simp)
  refine ⟨hr, ?_⟩
  by_contra hn
  unfold memo_slot at h
  rw [List.getD_eq_default _ _ (by rw [hlen r hr]; omega)] at h
  exact absurd h (by simp)

theorem integral_equal_of_compare (a b : ROOT) (N : Nat) (ha : root_integral a N)
    (hb : root_integral b N) (h : compare_roots a b N = 0) :
    ∀ i, i < N → coefficient a i = coefficient b i :=
  fun i hi => int_close_eq _ _ (ha i hi) (hb i hi) (compare_roots_eq_zero_close a b N h i hi)

theorem compare_roots_eq_zero_of_equal (a b : ROOT) (N : Nat)
    (h : ∀ i, i < N → coefficient a i = coefficient b i) : compare_roots a b N = 0 := by
  apply compare_roots_eq_zero_of_close
  intro i hi
  have e : a.coefficients.getD i 0 = b.coefficients.getD i 0 := h i hi
  rw [e, sub_self, abs_zero]
  exact eps_pos

theorem root_table_unique (heap : List ROOT) (N : Nat) (l : List Nat)
    (hp : List.Pairwise (roots_ascending heap N) l) (x q : Nat) (hx : x ∈ l) (hq : q ∈ l)
    (h : compare_roots (root_at heap x) (root_at heap q) N = 0) : x = q := by
  by_contra hne
  have hsym : Symmetric (fun x y : Nat =>
      compare_roots (root_at heap x) (root_at heap y) N ≠ 0 ∧
        compare_roots (root_at heap y) (root_at heap x) N ≠ 0) :=
    fun _ _ hxy => ⟨hxy.2, hxy.1⟩
  have hp1 : List.Pairwise (fun x y : Nat =>
      compare_roots (root_at heap x) (root_at heap y) N ≠ 0 ∧
        compare_roots (root_at heap y) (root_at heap x) N ≠ 0) l := by
    refine hp.imp (fun {x y} hxy => ?_)
    unfold roots_ascending at hxy
    simp only [COMPARE_ROOTS_SMALLER] at hxy
    constructor
    · rw [hxy]; norm_num
    · intro h0
      rw [compare_roots_eq_zero_comm _ _ _ h0] at hxy
      exact absurd hxy (by norm_num)
  exact (hp1.forall hsym hx hq hne).1 h

/-- In arithmetic without rounding: whenever the memo slot r.next_roots[a] is set,
on any roots,
cox_action_on_root(r, a) returns the root q it holds, with the roots unchanged and
nothing computed.  After generate_root_table returns, a memo slot that is set
holds a root q of the root table that compares equal to the vector s_a r; when
twice the cosine is an integer at every entry of the Coxeter matrix, every root of
the root table that compares equal to s_a r is q itself.  generate_state_tree
leaves the roots as they are. -/
theorem memo_is_root_table_entry (cos_pi_over : Int → ℚ)
    (malloced_sp malloced_act : Nat → Nat → ℚ) (coxeter_matrix : Nat → Nat → Int)
    (num_generators fuel : Nat) (run : RootTableRun)
    (h : generate_root_table cos_pi_over malloced_sp malloced_act
      (initial_matrix_data coxeter_matrix num_generators) num_generators fuel = Except.ok run) :
    (∀ (matrix_data : MATRIX_DATA) (heap : List ROOT) (r a q : Nat)
      (table : Option ROOT_TABLE) (e : Option Bool), memo_slot heap r a = some q →
      cox_action_on_root matrix_data num_generators a heap r table e
        = Except.ok { heap := heap, returned_root := q, new_root_exists := e }) ∧
    (∃ act, run.matrix_data.simple_action_results = some act ∧
      ∀ r a q, memo_slot run.store.heap r a = some q →
        q ∈ run.store.root_table.first ∧
          compare_roots (root_at run.store.heap q)
            (computed_root act num_generators a (root_at run.store.heap r)) num_generators
            = COMPARE_ROOTS_EQUAL ∧
          (cosines_integral cos_pi_over coxeter_matrix num_generators →
            ∀ x ∈ run.store.root_table.first,
              compare_roots (root_at run.store.heap x)
                (computed_root act num_generators a (root_at run.store.heap r)) num_generators
                = COMPARE_ROOTS_EQUAL → x = q)) ∧
    ∀ fuel1 am, generate_state_tree run.matrix_data num_generators run.store.heap
        BINARY_TREE_ELEMENT.NULL fuel1 = Except.ok am → am.heap = run.store.heap := by
  have hrun := generate_root_table_filled _ _ _ _ _ _ _ h
  obtain ⟨hact, hinv, _, _⟩ := hrun
  refine ⟨fun md heap r a q table e hq => cox_action_on_root_memo md _ a heap r q table e hq,
    ⟨_, hact, ?_⟩, ?_⟩
  · intro r a q hq
    obtain ⟨hmem, hcmp⟩ := hinv.memo_agree r a q hq
    refine ⟨hmem, hcmp, ?_⟩
    intro hcos x hx hxc
    have hai := action_integral_of_cosines cos_pi_over coxeter_matrix malloced_sp malloced_act
      num_generators hcos
    have hint := hinv.integral hai
    obtain ⟨hr, ha⟩ := memo_slot_bounds _ _ _ _ _ hinv.memo_length hq
    have hc := computed_root_integral _ _ a _ hai (hint r hr) ha
    have e1 := integral_equal_of_compare _ _ _ (hint x (hinv.table_range x hx)) hc hxc
    have e2 := integral_equal_of_compare _ _ _ (hint q (hinv.table_range q hmem)) hc hcmp
    have hxq : compare_roots (root_at run.store.heap x) (root_at run.store.heap q)
        num_generators = 0 :=
      compare_roots_eq_zero_of_equal _ _ _ (fun i hi => (e1 i hi).trans (e2 i hi).symm)
    exact root_table_unique _ _ _ (root_table_pairwise _ _ _ _ _ _ _ hcos h) x q hx hmem hxq
  · intro fuel1 am ham
    exact (generate_state_tree_states _ _ _ _ _ ham).1.heap_eq

theorem memo_is_root_table_entry_witness :
    cosines_integral exact_cos_pi_over S3_matrix 2 ∧
    ∃ run, generate_root_table exact_cos_pi_over (fun _ _ => 0) (fun _ _ => 0)
        (initial_matrix_data S3_matrix 2) 2 4 = Except.ok run ∧
      (∀ (matrix_data : MATRIX_DATA) (heap : List ROOT) (r a q : Nat)
        (table : Option ROOT_TABLE) (e : Option Bool), memo_slot heap r a = some q →
        cox_action_on_root matrix_data 2 a heap r table e
          = Except.ok { heap := heap, returned_root := q, new_root_exists := e }) ∧
      (∃ act, run.matrix_data.simple_action_results = some act ∧
        ∀ r a q, memo_slot run.store.heap r a = some q →
          q ∈ run.store.root_table.first ∧
            compare_roots (root_at run.store.heap q)
              (computed_root act 2 a (root_at run.store.heap r)) 2 = COMPARE_ROOTS_EQUAL ∧
            (cosines_integral exact_cos_pi_over S3_matrix 2 →
              ∀ x ∈ run.store.root_table.first,
                compare_roots (root_at run.store.heap x)
                  (computed_root act 2 a (root_at run.store.heap r)) 2
                  = COMPARE_ROOTS_EQUAL → x = q)) ∧
      ∀ fuel1 am, generate_state_tree run.matrix_data 2 run.store.heap
          BINARY_TREE_ELEMENT.NULL fuel1 = Except.ok am → am.heap = run.store.heap := by
  obtain ⟨run, hrun, _⟩ := S3_root_table_run
  exact ⟨S3_cosines_integral, run, hrun,
    memo_is_root_table_entry exact_cos_pi_over (fun _ _ => 0) (fun _ _ => 0) S3_matrix 2 4 run
      hrun⟩

theorem int_zero_or_gt_eps (x : ℚ) (hx : ∃ k : Int, x = k) :
    x = 0 ∨ |x| > EPSILON_COMP_VAL := by
  obtain ⟨k, rfl⟩ := hx
  by_cases hk : k = 0
  · left; rw [hk]; simp
  · right
    have h1 : (1 : Int) ≤ |k| := Int.one_le_abs hk
    have h2 : (1 : ℚ) ≤ |(k : ℚ)| := by exact_mod_cast h1
    exact lt_of_lt_of_le eps_lt_one h2

theorem int_guard (x : ℚ) (hx : ∃ k : Int, x = k) :
    (if |x| > EPSILON_COMP_VAL then x else 0) = x := by
  rcases int_zero_or_gt_eps x hx with h | h
  · rw [h]; simp
  · rw [if_pos h]

theorem action_term_of_integral (act : Nat → Nat → ℚ) (N a : Nat) (r : ROOT)
    (hr : root_integral r N) (j : Nat) (hj : j < N) :
    action_term act a r j = if j ≠ a then act j a * coefficient r j else 0 := by
  unfold action_term
  by_cases hja : j ≠ a
  · rw [if_pos hja]
    rcases int_zero_or_gt_eps _ (hr j hj) with h | h
    · have hn : ¬ (j ≠ a ∧ |coefficient r j| > EPSILON_COMP_VAL) := by
        rw [h]; exact fun e => abs_zero_not_gt_eps e.2
      rw [if_neg hn, h, mul_zero]
    · have hp : j ≠ a ∧ |coefficient r j| > EPSILON_COMP_VAL := ⟨hja, h⟩
      rw [if_pos hp]
  · have hn : ¬ (j ≠ a ∧ |coefficient r j| > EPSILON_COMP_VAL) := fun e => hja e.1
    rw [if_neg hn, if_neg hja]

theorem action_coefficient_of_integral (act : Nat → Nat → ℚ) (N a : Nat) (r : ROOT)
    (hr : root_integral r N) (ha : a < N) (i : Nat) (hi : i < N) :
    action_coefficient act N a r i
      = if i = a then
          -coefficient r a
            + ((List.range N).map
                (fun j => if j ≠ a then act j a * coefficient r j else 0)).sum
        else coefficient r i := by
  unfold action_coefficient
  have hmap : (List.range N).map (action_term act a r)
      = (List.range N).map (fun j => if j ≠ a then act j a * coefficient r j else 0) := by
    apply List.map_congr_left
    intro j hj
    exact action_term_of_integral act N a r hr j (List.mem_range.mp hj)
  rw [hmap]
  by_cases hia : i = a
  · rw [if_pos hia, if_pos hia]
    have hg : (if |coefficient r a| > EPSILON_COMP_VAL then -coefficient r a else 0)
        = -coefficient r a := by
      rcases int_zero_or_gt_eps _ (hr a ha) with h | h
      · rw [h]; simp
      · rw [if_pos h]
    rw [hg]
  · rw [if_neg hia, if_neg hia]
    exact int_guard _ (hr i hi)

/-- On a root with integer coefficients the computed reflection is an involution. -/
theorem computed_root_twice (act : Nat → Nat → ℚ) (N a : Nat) (r : ROOT)
    (hact : action_integral act N) (hr : root_integral r N) (ha : a < N) (i : Nat) (hi : i < N) :
    coefficient (computed_root act N a (computed_root act N a r)) i = coefficient r i := by
  have hc := computed_root_integral act N a r hact hr ha
  have h1 : ∀ j, j < N → coefficient (computed_root act N a r) j
      = if j = a then
          -coefficient r a
            + ((List.range N).map
                (fun j => if j ≠ a then act j a * coefficient r j else 0)).sum
        else coefficient r j := by
    intro j hj
    rw [coefficient_computed_root act N a r ha j hj]
    exact action_coefficient_of_integral act N a r hr ha j hj
  rw [coefficient_computed_root act N a _ ha i hi,
    action_coefficient_of_integral act N a _ hc ha i hi]
  have hmap : (List.range N).map
        (fun j => if j ≠ a then act j a * coefficient (computed_root act N a r) j else 0)
      = (List.range N).map (fun j => if j ≠ a then act j a * coefficient r j else 0) := by
    apply List.map_congr_left
    intro j hj
    by_cases hja : j = a
    · have hn : ¬ j ≠ a := fun e => e hja
      simp only [if_neg hn]
    · have hp : j ≠ a := hja
      simp only [if_pos hp]
      rw [h1 j (List.mem_range.mp hj), if_neg hja]
  rw [hmap]
  by_cases hia : i = a
  · rw [if_pos hia, h1 a ha, if_pos rfl, hia]
    ring
  · rw [if_neg hia, h1 i hi, if_neg hia]

/-- The computed root depends only on the coefficients with an index below
num_generators. -/
theorem computed_root_agree (act : Nat → Nat → ℚ) (N a : Nat) (r r1 : ROOT) (ha : a < N)
    (h : ∀ i, i < N → coefficient r i = coefficient r1 i) (i : Nat) (hi : i < N) :
    coefficient (computed_root act N a r) i = coefficient (computed_root act N a r1) i := by
  rw [coefficient_computed_root act N a r ha i hi, coefficient_computed_root act N a r1 ha i hi]
  unfold action_coefficient
  have hmap : (List.range N).map (action_term act a r)
      = (List.range N).map (action_term act a r1) := by
    apply List.map_congr_left
    intro j hj
    unfold action_term
    rw [h j (List.mem_range.mp hj)]
  rw [hmap, h a ha, h i hi]

theorem cox_action_on_root_found (md : MATRIX_DATA) (N a : Nat) (heap : List ROOT)
    (root : Nat) (table : ROOT_TABLE) (e : Option Bool) (act : Nat → Nat → ℚ) (x : Nat)
    (hact : md.simple_action_results = some act)
    (hmemo : (root_at heap root).next_roots.getD a none = none)
    (hsome : root_in_list heap table (computed_root act N a (root_at heap root)) N = some x) :
    cox_action_on_root md N a heap root (some table) e
      = Except.ok
          { heap := memo_write heap root a x, returned_root := x, new_root_exists := some true } := by
  unfold cox_action_on_root
  rw [hmemo]
  dsimp only
  rw [hact]
  dsimp only
  change (match root_in_list heap table (computed_root act N a (root_at heap root)) N with
    | some existing_root => _
    | none => _) = _
  rw [hsome]
  rfl

theorem coefficient_congr (r r1 : ROOT) (h : r.coefficients = r1.coefficients) (i : Nat) :
    coefficient r i = coefficient r1 i := by
  unfold coefficient
  rw [h]

/-- A call of cox_action_on_root with a root table returns, keeps the
coefficients of the roots, and returns a root with the coefficients of the
computed root, when the coefficients are integers. -/
theorem cox_action_on_root_exact (md : MATRIX_DATA) (N a : Nat) (heap : List ROOT)
    (root : Nat) (table : ROOT_TABLE) (e : Option Bool) (act : Nat → Nat → ℚ)
    (hact : md.simple_action_results = some act) (hint : action_integral act N)
    (hW : memo_exact act N heap) (ha : a < N) (hroot : root < heap.length)
    (htable : ∀ x ∈ table.first, x < heap.length) :
    ∃ res, cox_action_on_root md N a heap root (some table) e = Except.ok res ∧
      memo_exact act N res.heap ∧ heap.length ≤ res.heap.length ∧
      res.returned_root < res.heap.length ∧
      (∀ p, p < heap.length →
        (root_at res.heap p).coefficients = (root_at heap p).coefficients) ∧
      ∀ i, i < N → coefficient (root_at res.heap res.returned_root) i
        = coefficient (computed_root act N a (root_at heap root)) i := by
  obtain ⟨hI, hM⟩ := hW
  cases hm : memo_slot heap root a with
  | some q =>
    obtain ⟨_, hq, hco⟩ := hM root a q hm
    exact ⟨_, cox_action_on_root_memo md N a heap root q (some table) e hm, ⟨hI, hM⟩,
      le_refl _, hq, fun p _ => rfl, hco⟩
  | none =>
    have hm1 : (root_at heap root).next_roots.getD a none = none := hm
    have hc : root_integral (computed_root act N a (root_at heap root)) N :=
      computed_root_integral act N a _ hint (hI root) ha
    cases hl : root_in_list heap table (computed_root act N a (root_at heap root)) N with
    | some x =>
      obtain ⟨hx, hcmp⟩ := root_in_list_walk_some heap _ N _ x hl
      have hxe := integral_equal_of_compare _ _ N (hI x) hc hcmp
      have hcoef : ∀ p, (root_at (memo_write heap root a x) p).coefficients
          = (root_at heap p).coefficients := fun p => memo_write_coefficients heap root a x p
      refine ⟨_, cox_action_on_root_found md N a heap root table e act x hact hm1 hl,
        ⟨?_, ?_⟩, ?_, ?_, fun p _ => hcoef p, ?_⟩
      · intro p
        exact root_integral_congr _ _ N (hcoef p).symm (hI p)
      · intro p b q hq
        change memo_slot (memo_write heap root a x) p b = some q at hq
        rw [memo_slot_memo_write heap root a x p b hroot] at hq
        have hcomp : computed_root act N b (root_at (memo_write heap root a x) p)
            = computed_root act N b (root_at heap p) :=
          computed_root_congr act N b _ _ (hcoef p)
        change _ ∧ q < (memo_write heap root a x).length ∧
          ∀ i, i < N → coefficient (root_at (memo_write heap root a x) q) i
            = coefficient (computed_root act N b (root_at (memo_write heap root a x) p)) i
        rw [memo_write_length, hcomp]
        split_ifs at hq with hcase
        · simp only [Option.some.injEq] at hq
          subst hq
          obtain ⟨rfl, rfl, _⟩ := hcase
          refine ⟨ha, htable _ hx, fun i hi => ?_⟩
          rw [coefficient_congr _ _ (hcoef x) i]
          exact hxe i hi
        · obtain ⟨hb, hq1, hco⟩ := hM p b q hq
          refine ⟨hb, hq1, fun i hi => ?_⟩
          rw [coefficient_congr _ _ (hcoef q) i]
          exact hco i hi
      · change heap.length ≤ (memo_write heap root a x).length
        rw [memo_write_length]
      · change x < (memo_write heap root a x).length
        rw [memo_write_length]
        exact htable _ hx
      · intro i hi
        change coefficient (root_at (memo_write heap root a x) x) i = _
        rw [coefficient_congr _ _ (hcoef x) i]
        exact hxe i hi
    | none =>
      obtain ⟨c, hcdef⟩ : ∃ c, c = computed_root act N a (root_at heap root) := ⟨_, rfl⟩
      have hnew := cox_action_on_root_new md N a heap root table e act hact hm1 hl
      rw [← hcdef] at hnew hc
      have hroot1 : root < (heap ++ [c]).length := by
        rw [List.length_append]; simp; omega
      have hcoef : ∀ p, (root_at (memo_write (heap ++ [c]) root a heap.length) p).coefficients
          = (root_at (heap ++ [c]) p).coefficients :=
        fun p => memo_write_coefficients (heap ++ [c]) root a heap.length p
      have hlen : (memo_write (heap ++ [c]) root a heap.length).length = heap.length + 1 := by
        rw [memo_write_length, List.length_append]; rfl
      have hold : ∀ p, p < heap.length →
          (root_at (memo_write (heap ++ [c]) root a heap.length) p).coefficients
            = (root_at heap p).coefficients := by
        intro p hp
        rw [hcoef p, root_at_append_lt heap c p hp]
      have hfresh : (root_at (memo_write (heap ++ [c]) root a heap.length) heap.length).coefficients
          = c.coefficients := by
        rw [hcoef, root_at_append_eq]
      refine ⟨_, hnew, ⟨?_, ?_⟩, ?_, ?_, ?_, ?_⟩
      · intro p
        change root_integral (root_at (memo_write (heap ++ [c]) root a heap.length) p) N
        rcases Nat.lt_trichotomy p heap.length with hp | hp | hp
        · exact root_integral_congr _ _ N (hold p hp).symm (hI p)
        · subst hp
          exact root_integral_congr _ _ N hfresh.symm hc
        · exact root_integral_of_ge _ N p (by rw [hlen]; omega)
      · intro p b q hq
        change memo_slot (memo_write (heap ++ [c]) root a heap.length) p b = some q at hq
        rw [memo_slot_memo_write (heap ++ [c]) root a heap.length p b hroot1] at hq
        change _ ∧ q < (memo_write (heap ++ [c]) root a heap.length).length ∧
          ∀ i, i < N → coefficient (root_at (memo_write (heap ++ [c]) root a heap.length) q) i
            = coefficient (computed_root act N b
                (root_at (memo_write (heap ++ [c]) root a heap.length) p)) i
        rw [hlen]
        split_ifs at hq with hcase
        · simp only [Option.some.injEq] at hq
          subst hq
          obtain ⟨rfl, rfl, _⟩ := hcase
          refine ⟨ha, by omega, fun i hi => ?_⟩
          rw [coefficient_congr _ _ hfresh i,
            computed_root_congr act N b _ _ (hold p hroot), ← hcdef]
        · have hp : p < heap.length := by
            by_contra hn
            rcases Nat.lt_or_ge heap.length p with hgt | hle
            · rw [memo_slot_of_ge (heap ++ [c]) p b
                (by rw [List.length_append]; simp; omega)] at hq
              exact absurd hq (by simp)
            · have hpe : p = heap.length := by omega
              rw [hpe, hcdef, memo_slot_computed] at hq
              exact absurd hq (by simp)
          rw [memo_slot_append_lt heap c p b hp] at hq
          obtain ⟨hb, hq1, hco⟩ := hM p b q hq
          refine ⟨hb, by omega, fun i hi => ?_⟩
          rw [coefficient_congr _ _ (hold q hq1) i,
            computed_root_congr act N b _ _ (hold p hp)]
          exact hco i hi
      · change heap.length ≤ (memo_write (heap ++ [c]) root a heap.length).length
        rw [hlen]; omega
      · change heap.length < (memo_write (heap ++ [c]) root a heap.length).length
        rw [hlen]; omega
      · exact hold
      · intro i hi
        change coefficient (root_at (memo_write (heap ++ [c]) root a heap.length) heap.length) i
          = _
        rw [coefficient_congr _ _ hfresh i, hcdef]

theorem generate_root_table_memo_exact (cos_pi_over : Int → ℚ) (msp mact : Nat → Nat → ℚ)
    (M : Nat → Nat → Int) (N fuel : Nat) (run : RootTableRun)
    (hcos : cosines_integral cos_pi_over M N)
    (h : generate_root_table cos_pi_over msp mact (initial_matrix_data M N) N fuel
      = Except.ok run) :
    memo_exact (fill_cox_action_matrix (fill_scalar_product_matrix cos_pi_over M msp N) mact N)
      N run.store.heap := by
  obtain ⟨_, hinv, _, _⟩ := generate_root_table_filled _ _ _ _ _ _ _ h
  have hai := action_integral_of_cosines cos_pi_over M msp mact N hcos
  have hint := hinv.integral hai
  have hall : ∀ p, root_integral (root_at run.store.heap p) N := by
    intro p
    by_cases hp : p < run.store.heap.length
    · exact hint p hp
    · exact root_integral_of_ge _ N p (by omega)
  refine ⟨hall, ?_⟩
  intro p a q hq
  obtain ⟨hmem, hcmp⟩ := hinv.memo_agree p a q hq
  obtain ⟨_, ha⟩ := memo_slot_bounds _ _ _ _ _ hinv.memo_length hq
  exact ⟨ha, hinv.table_range q hmem,
    integral_equal_of_compare _ _ N (hall q) (computed_root_integral _ N a _ hai (hall p) ha) hcmp⟩

/-- In arithmetic without rounding, after generate_root_table returns for a
Coxeter matrix at each of whose entries twice the cosine is an integer, for
every root r of the root table and
every generator a, cox_action_on_root with the generator a applied to r, and
then again to the root it returned, returns both times, and the second root
returned has the coefficients of r: it compares COMPARE_ROOTS_EQUAL to r. -/
theorem reflection_twice_on_root_table (cos_pi_over : Int → ℚ)
    (malloced_sp malloced_act : Nat → Nat → ℚ) (coxeter_matrix : Nat → Nat → Int)
    (num_generators fuel : Nat) (run : RootTableRun)
    (hcos : cosines_integral cos_pi_over coxeter_matrix num_generators)
    (h : generate_root_table cos_pi_over malloced_sp malloced_act
      (initial_matrix_data coxeter_matrix num_generators) num_generators fuel = Except.ok run) :
    ∀ r ∈ run.store.root_table.first, ∀ a, a < num_generators → ∀ e,
      ∃ res1 res2,
        cox_action_on_root run.matrix_data num_generators a run.store.heap r
            (some run.store.root_table) e = Except.ok res1 ∧
          cox_action_on_root run.matrix_data num_generators a res1.heap res1.returned_root
            (some run.store.root_table) res1.new_root_exists = Except.ok res2 ∧
          compare_roots (root_at res2.heap res2.returned_root) (root_at res2.heap r)
            num_generators = COMPARE_ROOTS_EQUAL ∧
          (∀ i, i < num_generators →
            coefficient (root_at res2.heap res2.returned_root) i
              = coefficient (root_at run.store.heap r) i) ∧
          (root_at res2.heap r).coefficients = (root_at run.store.heap r).coefficients := by
  intro r hr a ha e
  obtain ⟨hact, hinv, _, _⟩ := generate_root_table_filled _ _ _ _ _ _ _ h
  have hai := action_integral_of_cosines cos_pi_over coxeter_matrix malloced_sp malloced_act
    num_generators hcos
  have hW := generate_root_table_memo_exact _ _ _ _ _ _ _ hcos h
  have hrlt := hinv.table_range r hr
  obtain ⟨res1, h1, hW1, hlen1, hret1, hco1, hval1⟩ :=
    cox_action_on_root_exact run.matrix_data num_generators a run.store.heap r
      run.store.root_table e _ hact hai hW ha hrlt hinv.table_range
  obtain ⟨res2, h2, _, _, _, hco2, hval2⟩ :=
    cox_action_on_root_exact run.matrix_data num_generators a res1.heap res1.returned_root
      run.store.root_table res1.new_root_exists _ hact hai hW1 ha hret1
      (fun x hx => lt_of_lt_of_le (hinv.table_range x hx) hlen1)
  have hr2 : (root_at res2.heap r).coefficients = (root_at run.store.heap r).coefficients := by
    rw [hco2 r (lt_of_lt_of_le hrlt hlen1), hco1 r hrlt]
  have hval : ∀ i, i < num_generators →
      coefficient (root_at res2.heap res2.returned_root) i
        = coefficient (root_at run.store.heap r) i := by
    intro i hi
    rw [hval2 i hi, computed_root_agree _ _ a _ _ ha hval1 i hi]
    exact computed_root_twice _ _ a _ hai (hW.1 r) ha i hi
  refine ⟨res1, res2, h1, h2, ?_, hval, hr2⟩
  apply compare_roots_eq_zero_of_equal
  intro i hi
  rw [hval i hi]
  exact (coefficient_congr _ _ hr2 i).symm

theorem reflection_twice_on_root_table_witness :
    cosines_integral exact_cos_pi_over S3_matrix 2 ∧
    ∃ run, generate_root_table exact_cos_pi_over (fun _ _ => 0) (fun _ _ => 0)
        (initial_matrix_data S3_matrix 2) 2 4 = Except.ok run ∧
      ∀ r ∈ run.store.root_table.first, ∀ a, a < 2 → ∀ e,
        ∃ res1 res2,
          cox_action_on_root run.matrix_data 2 a run.store.heap r
              (some run.store.root_table) e = Except.ok res1 ∧
            cox_action_on_root run.matrix_data 2 a res1.heap res1.returned_root
              (some run.store.root_table) res1.new_root_exists = Except.ok res2 ∧
            compare_roots (root_at res2.heap res2.returned_root) (root_at res2.heap r) 2
              = COMPARE_ROOTS_EQUAL ∧
            (∀ i, i < 2 →
              coefficient (root_at res2.heap res2.returned_root) i
                = coefficient (root_at run.store.heap r) i) ∧
            (root_at res2.heap r).coefficients = (root_at run.store.heap r).coefficients := by
  obtain ⟨run, hrun, _⟩ := S3_root_table_run
  exact ⟨S3_cosines_integral, run, hrun,
    reflection_twice_on_root_table exact_cos_pi_over (fun _ _ => 0) (fun _ _ => 0) S3_matrix 2 4
      run S3_cosines_integral hrun⟩

/-! ## Words with a doubled generator -/

/-- The initial state keeps its empty root table throughout the construction. -/
theorem generate_state_tree_initial_state (md : MATRIX_DATA) (N : Nat) (heap : List ROOT)
    (fuel : Nat) (am : Automaton)
    (h : generate_state_tree md N heap BINARY_TREE_ELEMENT.NULL fuel = Except.ok am) :
    (state_at am.states 0).root_table = some { first := [], length := 0 } := by
  unfold generate_state_tree at h
  have hkeep : ∀ (states : List AUTOMATON_STATE) (u g : Nat) (t : Option Nat),
      (0 < states.length ∧
        (state_at states 0).root_table = some { first := [], length := 0 }) →
      (0 < (set_next_state states u g t).length ∧
        (state_at (set_next_state states u g t) 0).root_table
          = some { first := [], length := 0 }) := by
    intro states u g t hP
    rw [set_next_state_length, state_at_root_table_set_next_state]
    exact hP
  obtain ⟨e1, _⟩ :=
    generate_next_automaton_state_loop md N
      (fun am => 0 < am.states.length ∧
        (state_at am.states 0).root_table = some { first := [], length := 0 })
      (fun _ _ _ => True) fuel 0
      (fun am0 g am1 hrun hP hk hg =>
        generate_next_automaton_state_induction md N
          (fun am => 0 < am.states.length ∧
            (state_at am.states 0).root_table = some { first := [], length := 0 })
          (fun _ _ _ => True)
          (fun am u g sr table e hP _ _ _ _ _ am1 ham1 => by
            subst ham1
            exact ⟨hkeep am.states u g none hP, trivial, fun _ _ _ => trivial⟩)
          (fun am u g sr table acted added hP _ _ _ _ _ _ _ _ am1 ham1 => by
            subst ham1
            refine ⟨hkeep _ u g _ ⟨by simp, ?_⟩, trivial, fun _ _ _ => trivial⟩
            rw [state_at_append_lt _ _ 0 hP.1]
            exact hP.2)
          (fun am u g sr table acted added hP _ _ _ _ _ _ _ _ am1 ham1 => by
            subst ham1
            exact ⟨hkeep am.states u g _ hP, trivial, fun _ _ _ => trivial⟩)
          fuel am0 0 g am1 hrun hP hk hg)
      (List.range N) _ am h (fun b hb => List.mem_range.mp hb)
      ⟨by simp, by simp [state_at]⟩ (by simp)
  exact e1.2

theorem forall₂_mem_left {α β : Type} (R : α → β → Prop) :
    ∀ (l1 : List α) (l2 : List β), List.Forall₂ R l1 l2 → ∀ x ∈ l1, ∃ y ∈ l2, R x y := by
  intro l1 l2 h
  induction h with
  | nil => intro x hx; simp at hx
  | cons hab _ ih =>
    intro x hx
    rcases List.mem_cons.mp hx with hx | hx
    · subst hx
      exact ⟨_, List.mem_cons_self _ _, hab⟩
    · obtain ⟨y, hy, hr⟩ := ih x hx
      exact ⟨y, List.mem_cons_of_mem _ hy, hr⟩

/-- When compare_roots is congruent on the heap, the target of a transition on
the generator a rejects the generator a. -/
theorem successor_rejects_generator (md : MATRIX_DATA) (N : Nat) (heap : List ROOT)
    (fuel : Nat) (am : Automaton) (hcong : roots_congruent heap N)
    (h : generate_state_tree md N heap BINARY_TREE_ELEMENT.NULL fuel = Except.ok am) :
    ∀ u a v, u < am.states.length →
      (state_at am.states u).next_states.getD a none = some v →
      (state_at am.states v).next_states.getD a none = none := by
  obtain ⟨hinv, _, hq⟩ := generate_state_tree_states md N heap fuel am h
  intro u a v hu hnext
  obtain ⟨hv, tu, tv, _, htv, sr, images, l, hsr, _, hsdf, _, hl⟩ := hinv.edges u a v hu hnext
  have ha : a < N := by
    by_contra hn
    rw [List.getD_eq_default _ _ (by rw [hinv.slots u hu]; omega)] at hnext
    exact absurd hnext (by simp)
  obtain ⟨table, sr1, htable, hsr1, hiff⟩ := hq v hv a ha
  rw [htv] at htable
  simp only [Option.some.injEq] at htable
  subst htable
  rw [hsr] at hsr1
  simp only [Option.some.injEq] at hsr1
  subst hsr1
  rw [hinv.heap_eq] at hiff
  apply hiff.mpr
  obtain ⟨x, hx, hxs⟩ := hsdf.2.2 sr (by simp)
  obtain ⟨z, hz, hxz⟩ := forall₂_mem_left _ _ _ hl x hx
  have hzs : compare_roots (root_at heap z) (root_at heap sr) N = 0 := by
    rw [← hcong x z sr hxz]
    exact hxs
  cases hw : root_in_list heap tv (root_at heap sr) N with
  | some y => rfl
  | none =>
    exact absurd hzs ((root_in_list_walk_none heap _ N tv.first).mp hw z hz)

/-- A word in which a generator occurs twice in a row meets a reject transition
no later than the second of the two symbols, when the target of every transition
on a generator rejects that generator. -/
theorem first_reject_doubled (states : List AUTOMATON_STATE)
    (hedge : ∀ u a v, u < states.length →
      (state_at states u).next_states.getD a none = some v →
      v < states.length ∧ (state_at states v).next_states.getD a none = none) :
    ∀ (pre : List Nat) (a : Nat) (post : List Nat) (current position : Nat),
      current < states.length →
      ∃ k, first_reject states current (pre ++ a :: a :: post) position = some k ∧
        k ≤ position + pre.length + 2 := by
  intro pre
  induction pre with
  | nil =>
    intro a post current position hc
    simp only [List.nil_append, first_reject]
    cases h1 : (state_at states current).next_states.getD a none with
    | none => exact ⟨position + 1, rfl, by omega⟩
    | some v =>
      obtain ⟨_, h2⟩ := hedge current a v hc h1
      simp only [h2]
      exact ⟨position + 1 + 1, rfl, by simp only [List.length_nil]; omega⟩
  | cons g pre1 ih =>
    intro a post current position hc
    simp only [List.cons_append, first_reject]
    cases h1 : (state_at states current).next_states.getD g none with
    | none => exact ⟨position + 1, rfl, by omega⟩
    | some v =>
      obtain ⟨hv, _⟩ := hedge current g v hc h1
      obtain ⟨k, hk, hle⟩ := ih a post v (position + 1) hv
      exact ⟨k, hk, by simp only [List.length_cons]; omega⟩

/-- In arithmetic without rounding, in the automaton built by generate_root_table
and generate_state_tree for a Coxeter matrix at each of whose entries twice the
cosine is an integer, every
state that is the target of a transition on a generator a has the reject
sentinel NULL in next_states[a]; so a word in which a generator occurs twice in a
row meets a reject transition no later than the second of the two symbols, and
the word aa meets its first reject transition at symbol 2. -/
theorem doubled_generator_rejects (cos_pi_over : Int → ℚ) (coxeter_matrix : Nat → Nat → Int)
    (num_generators fuel : Nat) (run : RootTableRun) (am : Automaton)
    (hcos : cosines_integral cos_pi_over coxeter_matrix num_generators)
    (h : build_automaton cos_pi_over coxeter_matrix num_generators fuel = Except.ok (run, am)) :
    (∀ u a v, u < am.states.length →
      (state_at am.states u).next_states.getD a none = some v →
      (state_at am.states v).next_states.getD a none = none) ∧
    (∀ (pre : List Nat) (a : Nat) (post : List Nat),
      ∃ k, first_reject am.states 0 (pre ++ a :: a :: post) 0 = some k ∧ k ≤ pre.length + 2) ∧
    (∀ a, a < num_generators → first_reject am.states 0 [a, a] 0 = some 2) := by
  obtain ⟨hrun, htree⟩ := build_automaton_ok_inv _ _ _ _ _ _ h
  have hcong : roots_congruent run.store.heap num_generators :=
    roots_congruent_of_separated _ _ (generate_root_table_separated _ _ _ _ _ _ _ hcos hrun)
  have hsucc := successor_rejects_generator _ _ _ _ _ hcong htree
  obtain ⟨hinv, hlen, hq⟩ := generate_state_tree_states _ _ _ _ _ htree
  refine ⟨hsucc, ?_, ?_⟩
  · intro pre a post
    obtain ⟨k, hk, hle⟩ := first_reject_doubled am.states
      (fun u a v hu hnext => ⟨(hinv.edges u a v hu hnext).1, hsucc u a v hu hnext⟩)
      pre a post 0 0 hlen
    exact ⟨k, hk, by omega⟩
  · intro a ha
    obtain ⟨table, sr, htable, _, hiff⟩ := hq 0 hlen a ha
    rw [generate_state_tree_initial_state _ _ _ _ _ htree] at htable
    simp only [Option.some.injEq] at htable
    subst htable
    cases h1 : (state_at am.states 0).next_states.getD a none with
    | none =>
      have := hiff.mp h1
      simp [root_in_list, root_in_list_walk] at this
    | some v =>
      have h2 := hsucc 0 a v hlen h1
      simp only [first_reject, h1, h2]

theorem doubled_generator_rejects_witness :
    cosines_integral exact_cos_pi_over S4_matrix 3 ∧
    ∃ run am, build_automaton exact_cos_pi_over S4_matrix 3 7 = Except.ok (run, am) ∧
      (∀ u a v, u < am.states.length →
        (state_at am.states u).next_states.getD a none = some v →
        (state_at am.states v).next_states.getD a none = none) ∧
      (∀ (pre : List Nat) (a : Nat) (post : List Nat),
        ∃ k, first_reject am.states 0 (pre ++ a :: a :: post) 0 = some k ∧
          k ≤ pre.length + 2) ∧
      (∀ a, a < 3 → first_reject am.states 0 [a, a] 0 = some 2) := by
  obtain ⟨run, am, hb, _⟩ := S4_build exact_cos_pi_over (by decide!) (by decide!) 7 (le_refl _)
  exact ⟨S4_cosines_integral, run, am, hb,
    doubled_generator_rejects exact_cos_pi_over S4_matrix 3 7 run am S4_cosines_integral hb⟩

/-! ## The scalar products and the order of roots and states -/

/-- C21: the cell (i, j) of the table that fill_scalar_product_matrix fills, for
i, j below num_generators, is 1 on the diagonal; off the diagonal it is computed
from the entry m of the Coxeter matrix above the diagonal, at (min i j, max i j):
-1 when m = 0, and -cos(pi / m) for every other m.  So for a matrix with
m[i][j] = m[j][i] it is -cos(pi / m[i][j]) when m[i][j] >= 2 and -1 when
m[i][j] = 0. -/
theorem scalar_product_table_cells (cos_pi_over : Int → ℚ) (coxeter_matrix : Nat → Nat → Int)
    (malloced : Nat → Nat → ℚ) (num_generators i j : Nat)
    (hi : i < num_generators) (hj : j < num_generators) :
    fill_scalar_product_matrix cos_pi_over coxeter_matrix malloced num_generators i j
        = (if i = j then 1
          else if coxeter_matrix (min i j) (max i j) = 0 then -1
          else -cos_pi_over (coxeter_matrix (min i j) (max i j))) ∧
      (coxeter_matrix i j = coxeter_matrix j i →
        (i = j →
          fill_scalar_product_matrix cos_pi_over coxeter_matrix malloced num_generators i j
            = 1) ∧
        (i ≠ j → 2 ≤ coxeter_matrix i j →
          fill_scalar_product_matrix cos_pi_over coxeter_matrix malloced num_generators i j
            = -cos_pi_over (coxeter_matrix i j)) ∧
        (i ≠ j → coxeter_matrix i j = 0 →
          fill_scalar_product_matrix cos_pi_over coxeter_matrix malloced num_generators i j
            = -1)) := by
  have hcell : fill_scalar_product_matrix cos_pi_over coxeter_matrix malloced num_generators i j
      = (if i = j then 1
        else if coxeter_matrix (min i j) (max i j) = 0 then -1
        else -cos_pi_over (coxeter_matrix (min i j) (max i j))) := by
    rw [fill_scalar_product_matrix_apply]
    have hb : i < num_generators ∧ j < num_generators := ⟨hi, hj⟩
    rw [if_pos hb]
    by_cases hij : i = j
    · rw [if_pos hij, if_pos hij]
    · rw [if_neg hij, if_neg hij]
      unfold cox_scalar_product
      have hne : ¬ min i j = max i j := by omega
      rw [if_neg hne]
      by_cases hM : coxeter_matrix (min i j) (max i j) = 0
      · rw [if_pos hM, if_pos hM]
      · rw [if_neg hM, if_neg hM]
        ring
  refine ⟨hcell, ?_⟩
  intro hsym
  have hentry : coxeter_matrix (min i j) (max i j) = coxeter_matrix i j := by
    rcases Nat.lt_or_ge i j with h | h
    · rw [Nat.min_eq_left (le_of_lt h), Nat.max_eq_right (le_of_lt h)]
    · rw [Nat.min_eq_right h, Nat.max_eq_left h, hsym]
  rw [hcell, hentry]
  refine ⟨fun h => by rw [if_pos h], fun h h2 => ?_, fun h h0 => ?_⟩
  · have hne : ¬ coxeter_matrix i j = 0 := by omega
    rw [if_neg h, if_neg hne]
  · rw [if_neg h, if_pos h0]

theorem scalar_product_table_cells_witness :
    0 < 2 ∧ 1 < 2 ∧
    fill_scalar_product_matrix exact_cos_pi_over S3_matrix (fun _ _ => 0) 2 0 1
        = (if 0 = 1 then 1
          else if S3_matrix (min 0 1) (max 0 1) = 0 then -1
          else -exact_cos_pi_over (S3_matrix (min 0 1) (max 0 1))) ∧
      (S3_matrix 0 1 = S3_matrix 1 0 →
        (0 = 1 →
          fill_scalar_product_matrix exact_cos_pi_over S3_matrix (fun _ _ => 0) 2 0 1 = 1) ∧
        (0 ≠ 1 → 2 ≤ S3_matrix 0 1 →
          fill_scalar_product_matrix exact_cos_pi_over S3_matrix (fun _ _ => 0) 2 0 1
            = -exact_cos_pi_over (S3_matrix 0 1)) ∧
        (0 ≠ 1 → S3_matrix 0 1 = 0 →
          fill_scalar_product_matrix exact_cos_pi_over S3_matrix (fun _ _ => 0) 2 0 1 = -1)) :=
  ⟨by decide, by decide,
    scalar_product_table_cells exact_cos_pi_over S3_matrix (fun _ _ => 0) 2 0 1
      (by decide) (by decide)⟩

set_option maxRecDepth 100000 in
/-- C21 as stated fails: for a matrix whose entry (0, 1) is 1, which is not 2 or
more, the cell (0, 1) of the table is -cos(pi / 1) = 1 and not -1; and for a
matrix with m[0][1] = 3 and m[1][0] = 2 the cell (1, 0) is -cos(pi / 3) = -1/2,
read from the entry above the diagonal, and not -cos(pi / 2) = 0. -/
theorem scalar_product_table_entry_one :
    all_ones_matrix 0 1 = 1 ∧ exact_cos_pi_over 1 = -1 ∧
    fill_scalar_product_matrix exact_cos_pi_over all_ones_matrix (fun _ _ => 0) 2 0 1 = 1 ∧
    fill_scalar_product_matrix exact_cos_pi_over all_ones_matrix (fun _ _ => 0) 2 0 1 ≠ -1 ∧
    lopsided_matrix 1 0 = 2 ∧
    fill_scalar_product_matrix exact_cos_pi_over lopsided_matrix (fun _ _ => 0) 2 1 0 = -1 / 2 ∧
    fill_scalar_product_matrix exact_cos_pi_over lopsided_matrix (fun _ _ => 0) 2 1 0
      ≠ -exact_cos_pi_over (lopsided_matrix 1 0) := by
  decide!

theorem compare_roots_at_first (a b : ROOT) (N k : Nat) (hk : k < N)
    (hclose : ∀ j, j < k →
      |a.coefficients.getD j 0 - b.coefficients.getD j 0| < EPSILON_COMP_VAL)
    (hfar : ¬ |a.coefficients.getD k 0 - b.coefficients.getD k 0| < EPSILON_COMP_VAL) :
    compare_roots a b N
      = if a.coefficients.getD k 0 > b.coefficients.getD k 0 then COMPARE_ROOTS_GREATER
        else COMPARE_ROOTS_SMALLER := by
  have hscan := compare_roots_scan_first a b N k hk hclose hfar N 0 (by omega) (by omega)
  unfold compare_roots
  dsimp only
  rw [hscan, if_neg (by omega)]

theorem not_close_ne (x y : ℚ) (h : ¬ |x - y| < EPSILON_COMP_VAL) : x ≠ y := by
  intro e
  apply h
  rw [e, sub_self, abs_zero]
  exact eps_pos

theorem compare_roots_first_far (a b : ROOT) (N : Nat) (h : compare_roots a b N ≠ 0) :
    ∃ k, k < N ∧
      (∀ j, j < k →
        |a.coefficients.getD j 0 - b.coefficients.getD j 0| < EPSILON_COMP_VAL) ∧
      ¬ |a.coefficients.getD k 0 - b.coefficients.getD k 0| < EPSILON_COMP_VAL := by
  have h1 : compare_roots_scan a b N N 0 ≠ N := fun e => h ((compare_roots_eq_zero_iff a b N).mpr e)
  have hle := compare_roots_scan_le a b N N 0 (by omega)
  exact ⟨compare_roots_scan a b N N 0, by omega,
    fun j hj => compare_roots_scan_before a b N N 0 j (by omega) hj,
    compare_roots_scan_stop a b N N 0 (by omega) h1⟩

theorem compare_roots_neg (a b : ROOT) (N : Nat) :
    compare_roots a b N = -compare_roots b a N := by
  by_cases h0 : compare_roots a b N = 0
  · rw [h0, compare_roots_eq_zero_comm a b N h0]
    rfl
  · obtain ⟨k, hk, hclose, hfar⟩ := compare_roots_first_far a b N h0
    have hclose1 : ∀ j, j < k →
        |b.coefficients.getD j 0 - a.coefficients.getD j 0| < EPSILON_COMP_VAL :=
      fun j hj => by rw [abs_sub_comm]; exact hclose j hj
    have hfar1 : ¬ |b.coefficients.getD k 0 - a.coefficients.getD k 0| < EPSILON_COMP_VAL := by
      rw [abs_sub_comm]; exact hfar
    rw [compare_roots_at_first a b N k hk hclose hfar,
      compare_roots_at_first b a N k hk hclose1 hfar1]
    have hne := not_close_ne _ _ hfar
    simp only [COMPARE_ROOTS_GREATER, COMPARE_ROOTS_SMALLER]
    rcases lt_or_gt_of_ne hne with hlt | hgt
    · rw [if_neg (not_lt.mpr (le_of_lt hlt)), if_pos hlt]
    · rw [if_pos hgt, if_neg (not_lt.mpr (le_of_lt hgt))]
      norm_num

theorem compare_roots_smaller_trans (a b c : ROOT) (N : Nat)
    (hab : coefficients_separated a b N) (hbc : coefficients_separated b c N)
    (h1 : compare_roots a b N = COMPARE_ROOTS_SMALLER)
    (h2 : compare_roots b c N = COMPARE_ROOTS_SMALLER) :
    compare_roots a c N = COMPARE_ROOTS_SMALLER := by
  obtain ⟨k1, hk1, hc1, hf1, hl1⟩ := (compare_roots_smaller_iff _ _ _).mp h1
  obtain ⟨k2, hk2, hc2, hf2, hl2⟩ := (compare_roots_smaller_iff _ _ _).mp h2
  apply (compare_roots_smaller_iff _ _ _).mpr
  have he : (0 : ℚ) < EPSILON_COMP_VAL := eps_pos
  have hpre : ∀ j, j < k1 → j < k2 →
      |a.coefficients.getD j 0 - c.coefficients.getD j 0| < EPSILON_COMP_VAL := by
    intro j hj1 hj2
    rw [hab j (by omega) (hc1 j hj1), hbc j (by omega) (hc2 j hj2)]
    simpa using he
  rw [abs_lt, not_and_or] at hf1 hf2
  rcases Nat.lt_trichotomy k1 k2 with hk | hk | hk
  · refine ⟨k1, hk1, fun j hj => hpre j hj (by omega), ?_, ?_⟩
    · rw [← hbc k1 hk1 (hc2 k1 hk)]
      rw [abs_lt, not_and_or]
      exact hf1
    · rw [← hbc k1 hk1 (hc2 k1 hk)]
      exact hl1
  · subst hk
    refine ⟨k1, hk1, fun j hj => hpre j hj hj, ?_, le_trans hl1 hl2⟩
    rw [abs_lt, not_and_or]
    left
    rcases hf1 with hf1 | hf1
    · rcases hf2 with hf2 | hf2
      · linarith
      · linarith
    · linarith
  · refine ⟨k2, hk2, fun j hj => hpre j (by omega) hj, ?_, ?_⟩
    · rw [hab k2 hk2 (hc1 k2 hk)]
      rw [abs_lt, not_and_or]
      exact hf2
    · rw [hab k2 hk2 (hc1 k2 hk)]
      exact hl2

theorem compare_roots_equal_trans (a b c : ROOT) (N : Nat)
    (hab : coefficients_separated a b N) (hbc : coefficients_separated b c N)
    (h1 : compare_roots a b N = COMPARE_ROOTS_EQUAL)
    (h2 : compare_roots b c N = COMPARE_ROOTS_EQUAL) :
    compare_roots a c N = COMPARE_ROOTS_EQUAL := by
  apply compare_roots_eq_zero_of_close
  intro i hi
  rw [hab i hi (compare_roots_eq_zero_close a b N h1 i hi),
    hbc i hi (compare_roots_eq_zero_close b c N h2 i hi), sub_self, abs_zero]
  exact eps_pos

theorem coefficients_separated_of_integral (a b : ROOT) (N : Nat) (ha : root_integral a N)
    (hb : root_integral b N) : coefficients_separated a b N :=
  fun i hi hclose => int_close_eq _ _ (ha i hi) (hb i hi) hclose

/-- C23: compare_roots is antisymmetric, and it is transitive on roots whose
coefficients at each index either coincide or differ by EPSILON_COMP_VAL or more,
as the coefficients of roots with integer coefficients do: for such a, b, c,
if compare_roots(a, b) and compare_roots(b, c) are both SMALLER, so is
compare_roots(a, c), and if both are EQUAL, so is compare_roots(a, c). -/
theorem compare_roots_transitive_when_separated (a b c : ROOT) (num_generators : Nat)
    (hab : coefficients_separated a b num_generators)
    (hbc : coefficients_separated b c num_generators) :
    compare_roots a b num_generators = -compare_roots b a num_generators ∧
    (compare_roots a b num_generators = COMPARE_ROOTS_SMALLER →
      compare_roots b c num_generators = COMPARE_ROOTS_SMALLER →
      compare_roots a c num_generators = COMPARE_ROOTS_SMALLER) ∧
    (compare_roots a b num_generators = COMPARE_ROOTS_EQUAL →
      compare_roots b c num_generators = COMPARE_ROOTS_EQUAL →
      compare_roots a c num_generators = COMPARE_ROOTS_EQUAL) ∧
    (root_integral a num_generators → root_integral b num_generators →
      coefficients_separated a b num_generators) :=
  ⟨compare_roots_neg a b _, compare_roots_smaller_trans a b c _ hab hbc,
    compare_roots_equal_trans a b c _ hab hbc,
    fun ha hb => coefficients_separated_of_integral a b _ ha hb⟩

set_option maxRecDepth 100000 in
theorem compare_roots_transitive_when_separated_witness :
    coefficients_separated (root_of_coefficients [0, 1]) (root_of_coefficients [1, 0]) 2 ∧
    coefficients_separated (root_of_coefficients [1, 0]) (root_of_coefficients [1, 1]) 2 ∧
    compare_roots (root_of_coefficients [0, 1]) (root_of_coefficients [1, 0]) 2
      = COMPARE_ROOTS_SMALLER ∧
    compare_roots (root_of_coefficients [1, 0]) (root_of_coefficients [1, 1]) 2
      = COMPARE_ROOTS_SMALLER ∧
    compare_roots (root_of_coefficients [0, 1]) (root_of_coefficients [1, 1]) 2
      = COMPARE_ROOTS_SMALLER := by
  have h01 : coefficients_separated (root_of_coefficients [0, 1]) (root_of_coefficients [1, 0]) 2 := by
    unfold coefficients_separated
    decide!
  have h12 : coefficients_separated (root_of_coefficients [1, 0]) (root_of_coefficients [1, 1]) 2 := by
    unfold coefficients_separated
    decide!
  have hs1 : compare_roots (root_of_coefficients [0, 1]) (root_of_coefficients [1, 0]) 2
      = COMPARE_ROOTS_SMALLER := by decide!
  have hs2 : compare_roots (root_of_coefficients [1, 0]) (root_of_coefficients [1, 1]) 2
      = COMPARE_ROOTS_SMALLER := by decide!
  exact ⟨h01, h12, hs1, hs2,
    (compare_roots_transitive_when_separated (root_of_coefficients [0, 1])
      (root_of_coefficients [1, 0]) (root_of_coefficients [1, 1]) 2 h01 h12).2.1 hs1 hs2⟩

set_option maxRecDepth 100000 in
/-- C23 as stated fails: with EPSILON_COMP_VAL = 0.00001, the roots
a = (0.000009, 0), b = (0, 5), c = (0.00001, -5) have compare_roots(a, b) and
compare_roots(b, c) SMALLER while compare_roots(a, c) is GREATER; and the roots
p = (0, 0), q = (0.000006, 0), r = (0.000012, 0) have compare_roots(p, q) and
compare_roots(q, r) EQUAL while compare_roots(p, r) is SMALLER. -/
theorem compare_roots_not_transitive :
    compare_roots (root_of_coefficients [9 / 1000000, 0]) (root_of_coefficients [0, 5]) 2
      = COMPARE_ROOTS_SMALLER ∧
    compare_roots (root_of_coefficients [0, 5]) (root_of_coefficients [1 / 100000, -5]) 2
      = COMPARE_ROOTS_SMALLER ∧
    compare_roots (root_of_coefficients [9 / 1000000, 0])
      (root_of_coefficients [1 / 100000, -5]) 2 = COMPARE_ROOTS_GREATER ∧
    compare_roots (root_of_coefficients [0, 0]) (root_of_coefficients [6 / 1000000, 0]) 2
      = COMPARE_ROOTS_EQUAL ∧
    compare_roots (root_of_coefficients [6 / 1000000, 0])
      (root_of_coefficients [12 / 1000000, 0]) 2 = COMPARE_ROOTS_EQUAL ∧
    compare_roots (root_of_coefficients [0, 0]) (root_of_coefficients [12 / 1000000, 0]) 2
      = COMPARE_ROOTS_SMALLER := by
  decide!

theorem compare_states_walk_first (heap : List ROOT) (N : Nat) (x y : Nat)
    (rest_a rest_b : List Nat)
    (hxy : compare_roots (root_at heap x) (root_at heap y) N ≠ COMPARE_ROOTS_EQUAL) :
    ∀ (pre_a pre_b : List Nat), List.Forall₂ (roots_equal heap N) pre_a pre_b →
      compare_states_walk heap N COMPARE_ROOTS_EQUAL (pre_a ++ x :: rest_a) (pre_b ++ y :: rest_b)
        = compare_roots (root_at heap x) (root_at heap y) N := by
  intro pre_a pre_b h
  induction h with
  | nil =>
    simp only [List.nil_append]
    rw [compare_states_walk, if_pos rfl]
    exact compare_states_walk_of_ne_zero heap N _ hxy rest_a rest_b
  | cons hab _ ih =>
    simp only [List.cons_append]
    rw [compare_states_walk, if_pos rfl, hab]
    exact ih

/-- C24: for two states whose root tables have length fields that count their
lists, compare_states returns COMPARE_STATES_GREATER when the first state has
more roots and COMPARE_STATES_SMALLER when it has fewer; when the numbers agree,
it returns COMPARE_STATES_EQUAL if the roots compare EQUAL position by position,
and otherwise the result of compare_roots at the first position at which the
two roots do not compare EQUAL. -/
theorem compare_states_by_length_then_roots (heap : List ROOT)
    (state_a state_b : AUTOMATON_STATE) (table_a table_b : ROOT_TABLE) (num_generators : Nat)
    (ha : state_a.root_table = some table_a) (hb : state_b.root_table = some table_b)
    (hla : table_a.length = table_a.first.length)
    (hlb : table_b.length = table_b.first.length) :
    (table_a.first.length > table_b.first.length →
      compare_states heap state_a state_b num_generators = Except.ok COMPARE_STATES_GREATER) ∧
    (table_a.first.length < table_b.first.length →
      compare_states heap state_a state_b num_generators = Except.ok COMPARE_STATES_SMALLER) ∧
    (table_a.first.length = table_b.first.length →
      (List.Forall₂ (roots_equal heap num_generators) table_a.first table_b.first →
        compare_states heap state_a state_b num_generators = Except.ok COMPARE_STATES_EQUAL) ∧
      ∀ (pre_a pre_b : List Nat) (x y : Nat) (rest_a rest_b : List Nat),
        table_a.first = pre_a ++ x :: rest_a → table_b.first = pre_b ++ y :: rest_b →
        List.Forall₂ (roots_equal heap num_generators) pre_a pre_b →
        (compare_roots (root_at heap x) (root_at heap y) num_generators
            = COMPARE_ROOTS_GREATER →
          compare_states heap state_a state_b num_generators
            = Except.ok COMPARE_STATES_GREATER) ∧
        (compare_roots (root_at heap x) (root_at heap y) num_generators
            = COMPARE_ROOTS_SMALLER →
          compare_states heap state_a state_b num_generators
            = Except.ok COMPARE_STATES_SMALLER)) := by
  unfold compare_states
  rw [ha, hb]
  dsimp only
  rw [hla, hlb]
  refine ⟨fun h => by rw [if_pos h]; rfl, fun h => ?_, fun h => ⟨fun hall => ?_, ?_⟩⟩
  · rw [if_neg (by omega), if_pos h]; rfl
  · have hw : compare_states_walk heap num_generators COMPARE_ROOTS_EQUAL table_a.first
        table_b.first = 0 :=
      compare_states_walk_zero_of_forall2 heap num_generators _ _ hall
    rw [if_neg (by omega), if_neg (by omega), hw]
    simp [COMPARE_ROOTS_GREATER, COMPARE_ROOTS_SMALLER, pure, Except.pure]
  · intro pre_a pre_b x y rest_a rest_b hea heb hpre
    rw [if_neg (by omega), if_neg (by omega), hea, heb]
    refine ⟨fun hg => ?_, fun hs => ?_⟩
    · rw [compare_states_walk_first heap num_generators x y rest_a rest_b
        (by rw [hg]; decide) pre_a pre_b hpre, hg, if_pos rfl]
      rfl
    · rw [compare_states_walk_first heap num_generators x y rest_a rest_b
        (by rw [hs]; decide) pre_a pre_b hpre, hs, if_neg (by decide), if_pos rfl]
      rfl

theorem compare_states_by_length_then_roots_witness :
    (single_root_state 0).root_table = some { first := [0], length := 1 } ∧
    (single_root_state 3).root_table = some { first := [3], length := 1 } ∧
    ({ first := [0], length := 1 } : ROOT_TABLE).length
      = ({ first := [0], length := 1 } : ROOT_TABLE).first.length ∧
    ({ first := [3], length := 1 } : ROOT_TABLE).length
      = ({ first := [3], length := 1 } : ROOT_TABLE).first.length ∧
    compare_roots (root_at S3_heap 0) (root_at S3_heap 3) 2 = COMPARE_ROOTS_GREATER ∧
    compare_states S3_heap (single_root_state 0) (single_root_state 3) 2
      = Except.ok COMPARE_STATES_GREATER := by
  have hg : compare_roots (root_at S3_heap 0) (root_at S3_heap 3) 2 = COMPARE_ROOTS_GREATER := by
    decide!
  exact ⟨rfl, rfl, rfl, rfl, hg,
    ((compare_states_by_length_then_roots S3_heap (single_root_state 0) (single_root_state 3)
      { first := [0], length := 1 } { first := [3], length := 1 } 2 rfl rfl rfl rfl).2.2 rfl).2
      [] [] 0 3 [] [] rfl rfl List.Forall₂.nil |>.1 hg⟩

theorem roots_ascending_ne_equal (heap : List ROOT) (N : Nat) (x y : Nat)
    (h : roots_ascending heap N x y) :
    compare_roots (root_at heap x) (root_at heap y) N ≠ 0 ∧
      compare_roots (root_at heap y) (root_at heap x) N ≠ 0 := by
  unfold roots_ascending at h
  simp only [COMPARE_ROOTS_SMALLER] at h
  constructor
  · rw [h]; norm_num
  · intro h0
    rw [compare_roots_eq_zero_comm _ _ _ h0] at h
    exact absurd h (by norm_num)

theorem roots_ascending_nodup (heap : List ROOT) (N : Nat) (l : List Nat)
    (hp : List.Pairwise (roots_ascending heap N) l) : l.Nodup := by
  refine hp.imp (fun {x y} hxy => ?_)
  intro e
  subst e
  exact (roots_ascending_ne_equal heap N x x hxy).1 (compare_roots_self _ _)

/-- With separated coefficients, insert_in_table finds every root of an ascending
list that compares EQUAL to the new element. -/
theorem insert_in_table_finds_equal (heap : List ROOT) (e N : Nat) (table : Option ROOT_TABLE)
    (hchain : List.Chain' (roots_ascending heap N) (table_first table))
    (hwf : table_length table = (table_first table).length)
    (hsep : roots_separated heap N)
    (hex : ∃ x ∈ table_first table, roots_equal heap N x e) :
    (insert_in_table heap e table N).1 = INSERT_IN_TABLE_ROOT_EXISTS := by
  rcases insert_in_table_spec heap e N table hchain hwf with
    ⟨_, h2, h3, h4, h5⟩ | ⟨h1, _⟩
  · exfalso
    obtain ⟨x, hx, hxe⟩ := hex
    have hp := roots_ascending_pairwise heap N hsep _ h2
    have hold := roots_ascending_pairwise heap N hsep _ hchain
    have hxe1 : x = e :=
      root_table_unique heap N _ hp x e ((h3 x).mpr (Or.inr hx)) ((h3 e).mpr (Or.inl rfl)) hxe
    subst hxe1
    have hsub : (insert_in_table heap x table N).2.first ⊆ table_first table := by
      intro y hy
      rcases (h3 y).mp hy with rfl | hy1
      · exact hx
      · exact hy1
    have hle := (List.Nodup.subperm (roots_ascending_nodup heap N _ hp) hsub).length_le
    omega
  · exact h1

/-- C25: for a root table whose list ascends under compare_roots and whose
length field counts it, insert_in_table returns INSERT_IN_TABLE_ROOT_EXISTS or
INSERT_IN_TABLE_OK; when it returns INSERT_IN_TABLE_ROOT_EXISTS the list and the
length are unchanged and some root of the list compares EQUAL to the new element;
when it returns INSERT_IN_TABLE_OK the new element is linked in, the list still
ascends and the length is one more.  When the coefficients of the roots at each
index coincide or differ by EPSILON_COMP_VAL or more, it returns
INSERT_IN_TABLE_ROOT_EXISTS exactly when some root of the list compares EQUAL to
the new element. -/
theorem insert_in_table_exists_iff (heap : List ROOT) (element num_generators : Nat)
    (table : Option ROOT_TABLE)
    (hchain : List.Chain' (roots_ascending heap num_generators) (table_first table))
    (hwf : table_length table = (table_first table).length) :
    ((insert_in_table heap element table num_generators).1 = INSERT_IN_TABLE_ROOT_EXISTS ∨
      (insert_in_table heap element table num_generators).1 = INSERT_IN_TABLE_OK) ∧
    ((insert_in_table heap element table num_generators).1 = INSERT_IN_TABLE_ROOT_EXISTS →
      (insert_in_table heap element table num_generators).2.first = table_first table ∧
      (insert_in_table heap element table num_generators).2.length = table_length table ∧
      ∃ x ∈ table_first table, roots_equal heap num_generators x element) ∧
    ((insert_in_table heap element table num_generators).1 = INSERT_IN_TABLE_OK →
      (∀ x, x ∈ (insert_in_table heap element table num_generators).2.first ↔
        x = element ∨ x ∈ table_first table) ∧
      List.Chain' (roots_ascending heap num_generators)
        (insert_in_table heap element table num_generators).2.first ∧
      (insert_in_table heap element table num_generators).2.first.length
        = (table_first table).length + 1 ∧
      (insert_in_table heap element table num_generators).2.length
        = table_length table + 1) ∧
    (roots_separated heap num_generators →
      ((insert_in_table heap element table num_generators).1 = INSERT_IN_TABLE_ROOT_EXISTS ↔
        ∃ x ∈ table_first table, roots_equal heap num_generators x element)) := by
  have hspec := insert_in_table_spec heap element num_generators table hchain hwf
  have hne : INSERT_IN_TABLE_OK ≠ INSERT_IN_TABLE_ROOT_EXISTS := by decide
  refine ⟨?_, ?_, ?_, ?_⟩
  · rcases hspec with ⟨h1, _⟩ | ⟨h1, _⟩
    · exact Or.inr h1
    · exact Or.inl h1
  · intro he
    rcases hspec with ⟨h1, _⟩ | ⟨_, h2, h3, h4⟩
    · rw [h1] at he; exact absurd he hne
    · exact ⟨h2, h3, h4⟩
  · intro hok
    rcases hspec with ⟨_, h2, h3, h4, h5⟩ | ⟨h1, _⟩
    · exact ⟨h3, h2, by omega, h5⟩
    · rw [h1] at hok; exact absurd hok.symm hne
  · intro hsep
    constructor
    · intro he
      rcases hspec with ⟨h1, _⟩ | ⟨_, _, _, h4⟩
      · rw [h1] at he; exact absurd he hne
      · exact h4
    · exact insert_in_table_finds_equal heap element num_generators table hchain hwf hsep

set_option maxRecDepth 100000 in
theorem insert_in_table_exists_iff_witness :
    List.Chain' (roots_ascending S3_heap 2) (table_first (some S3_store.root_table)) ∧
    table_length (some S3_store.root_table) = (table_first (some S3_store.root_table)).length ∧
    (insert_in_table S3_heap 2 (some S3_store.root_table) 2).1 = INSERT_IN_TABLE_ROOT_EXISTS ∧
    (insert_in_table S3_heap 2 (some S3_store.root_table) 2).2.first
      = table_first (some S3_store.root_table) ∧
    (insert_in_table S3_heap 2 (some S3_store.root_table) 2).2.length
      = table_length (some S3_store.root_table) ∧
    ∃ x ∈ table_first (some S3_store.root_table), roots_equal S3_heap 2 x 2 := by
  have hchain : List.Chain' (roots_ascending S3_heap 2)
      (table_first (some S3_store.root_table)) := by
    simp only [table_first, S3_store, List.chain'_cons, List.chain'_singleton, roots_ascending,
      and_true]
    decide!
  have hwf : table_length (some S3_store.root_table)
      = (table_first (some S3_store.root_table)).length := by decide
  have he : (insert_in_table S3_heap 2 (some S3_store.root_table) 2).1
      = INSERT_IN_TABLE_ROOT_EXISTS := by decide!
  exact ⟨hchain, hwf, he,
    (insert_in_table_exists_iff S3_heap 2 2 (some S3_store.root_table) hchain hwf).2.1 he⟩

set_option maxRecDepth 100000 in
/-- C25 as stated fails: over crossing_heap the list of the roots 0 and 1 ascends
and its root 1 compares EQUAL to the root 2, yet insert_in_table returns
INSERT_IN_TABLE_OK for the root 2 and links it in before the root 0, which
compares GREATER than it. -/
theorem insert_in_table_passes_equal_root :
    compare_roots (root_at crossing_heap 0) (root_at crossing_heap 1) 2
      = COMPARE_ROOTS_SMALLER ∧
    compare_roots (root_at crossing_heap 1) (root_at crossing_heap 2) 2
      = COMPARE_ROOTS_EQUAL ∧
    compare_roots (root_at crossing_heap 0) (root_at crossing_heap 2) 2
      = COMPARE_ROOTS_GREATER ∧
    (insert_in_table crossing_heap 2 (some { first := [0, 1], length := 2 }) 2).1
      = INSERT_IN_TABLE_OK ∧
    (insert_in_table crossing_heap 2 (some { first := [0, 1], length := 2 }) 2).2
      = { first := [2, 0, 1], length := 3 } := by
  decide!

/-! ## The word typed by the user -/

theorem is_generator_letter_iff (G : Nat) (c : Char) :
    is_generator_letter G c = true ↔ 97 ≤ c.toNat ∧ c.toNat < 97 + G := by
  unfold is_generator_letter
  have ha : 'a'.toNat = 97 := by decide
  rw [ha, decide_eq_true_iff]
  constructor
  · rintro ⟨h1, h2⟩
    constructor <;> omega
  · rintro ⟨h1, h2⟩
    constructor <;> omega

theorem is_generator_letter_mono (G G1 : Nat) (c : Char) (h : G ≤ G1)
    (hc : is_generator_letter G c = true) : is_generator_letter G1 c = true := by
  rw [is_generator_letter_iff] at hc ⊢
  omega

theorem is_generator_letter_small (G : Nat) (c : Char) (h : c.toNat < 97) :
    is_generator_letter G c = false := by
  rw [Bool.eq_false_iff, Ne, is_generator_letter_iff]
  omega

set_option maxRecDepth 100000 in
/-- C27: with at least 4 generators and a maximum word length of 12 or more,
both within the bounds that user_input_word asserts (grp_max_generators below
MAX_GENERATORS, grp_max_word_len below MAX_WORD_LEN), user_input_word on the line
a(bc)^3d returns WORD_INPUT_OK with the word abcbcbcd, and on the line
a(b(cd)^2)^2 it returns WORD_INPUT_OK with the word abcdcdbcdcd. -/
theorem user_input_word_examples (grp_max_generators grp_max_word_len : Nat)
    (hG : 4 ≤ grp_max_generators) (hG10 : grp_max_generators < MAX_GENERATORS)
    (hL : 12 ≤ grp_max_word_len) (hL200 : grp_max_word_len < MAX_WORD_LEN) :
    user_input_word grp_max_generators grp_max_word_len "a(bc)^3d".toList
        = Except.ok (WORD_INPUT_RET_CODES.WORD_INPUT_OK, some "abcbcbcd".toList) ∧
      user_input_word grp_max_generators grp_max_word_len "a(b(cd)^2)^2".toList
        = Except.ok (WORD_INPUT_RET_CODES.WORD_INPUT_OK, some "abcdcdbcdcd".toList) := by
  have ga : is_generator_letter grp_max_generators 'a' = true :=
    is_generator_letter_mono 4 _ _ hG (by decide)
  have gb : is_generator_letter grp_max_generators 'b' = true :=
    is_generator_letter_mono 4 _ _ hG (by decide)
  have gc : is_generator_letter grp_max_generators 'c' = true :=
    is_generator_letter_mono 4 _ _ hG (by decide)
  have gd : is_generator_letter grp_max_generators 'd' = true :=
    is_generator_letter_mono 4 _ _ hG (by decide)
  have go : is_generator_letter grp_max_generators '(' = false :=
    is_generator_letter_small _ _ (by decide)
  have gcl : is_generator_letter grp_max_generators ')' = false :=
    is_generator_letter_small _ _ (by decide)
  have gh : is_generator_letter grp_max_generators '^' = false :=
    is_generator_letter_small _ _ (by decide)
  have g2 : is_generator_letter grp_max_generators '2' = false :=
    is_generator_letter_small _ _ (by decide)
  have g3 : is_generator_letter grp_max_generators '3' = false :=
    is_generator_letter_small _ _ (by decide)
  have h0 : 0 < grp_max_word_len := by omega
  have h1 : 1 < grp_max_word_len := by omega
  have h2 : 2 < grp_max_word_len := by omega
  have h3 : 3 < grp_max_word_len := by omega
  have h5 : 5 < grp_max_word_len := by omega
  have h6 : 6 < grp_max_word_len := by omega
  have h7 : 7 < grp_max_word_len := by omega
  have h8 : 8 < grp_max_word_len := by omega
  have h11 : 11 < grp_max_word_len := by omega
  have hl8 : ¬ 8 > grp_max_word_len := by omega
  have hl12 : ¬ 12 > grp_max_word_len := by omega
  have ha1 : ¬ 200 ≤ grp_max_word_len := by unfold MAX_WORD_LEN at hL200; omega
  have ha2 : ¬ 10 ≤ grp_max_generators := by unfold MAX_GENERATORS at hG10; omega
  constructor
  · simp [user_input_word, input_string, MAX_WORD_LEN, MAX_GENERATORS, user_input_word_loop,
      user_input_word_step, parse_word_character, apply_exponent, atoi, string_stack_pop,
      string_stack_push, strncat_copies, is_digit, ga, gb, gc, gd, go, gcl, gh, g3, h0, h1, h2,
      h3, h7, h8, hl8, ha1, ha2, bind, Except.bind, pure, Except.pure]
  · simp [user_input_word, input_string, MAX_WORD_LEN, MAX_GENERATORS, user_input_word_loop,
      user_input_word_step, parse_word_character, apply_exponent, atoi, string_stack_pop,
      string_stack_push, strncat_copies, is_digit, ga, gb, gc, gd, go, gcl, gh, g2, h0, h1, h2,
      h3, h5, h6, h11, hl12, ha1, ha2, bind, Except.bind, pure, Except.pure]

theorem user_input_word_examples_witness :
    4 ≤ 4 ∧ 4 < MAX_GENERATORS ∧ 12 ≤ 12 ∧ 12 < MAX_WORD_LEN ∧
    user_input_word 4 12 "a(bc)^3d".toList
        = Except.ok (WORD_INPUT_RET_CODES.WORD_INPUT_OK, some "abcbcbcd".toList) ∧
      user_input_word 4 12 "a(b(cd)^2)^2".toList
        = Except.ok (WORD_INPUT_RET_CODES.WORD_INPUT_OK, some "abcdcdbcdcd".toList) :=
  ⟨le_refl 4, by decide, le_refl 12, by decide,
    user_input_word_examples 4 12 (le_refl 4) (by decide) (le_refl 12) (by decide)⟩

set_option maxRecDepth 100000 in
/-- C26, on the line a((b)^2)^2: the expansion of the bracket word is abbbb, and
user_input_word, with 2 generators and a maximum word length of 20, returns
WORD_INPUT_OK with the word aabbabb.  After the first open bracket subword still
holds a, which the second open bracket pushes onto the string stack. -/
theorem user_input_word_nested_group :
    nested_group_word.text = "a((b)^2)^2".toList ∧
    nested_group_word.expansion = "abbbb".toList ∧
    user_input_word 2 20 nested_group_word.text
      = Except.ok (WORD_INPUT_RET_CODES.WORD_INPUT_OK, some "aabbabb".toList) ∧
    user_input_word 2 20 nested_group_word.text
      ≠ Except.ok (WORD_INPUT_RET_CODES.WORD_INPUT_OK, some nested_group_word.expansion) := by
  decide

set_option maxRecDepth 100000 in
/-- C29, on the line (ab)^150 with 2 generators and the maximum word length 199:
the expansion has 300 letters, and user_input_word returns no error code: the
loop of strncat runs past the MAX_WORD_LEN characters of the popped word. -/
theorem user_input_word_overruns :
    (BracketWord.group (BracketWord.letter 'a' (BracketWord.letter 'b' BracketWord.empty)) 150
        BracketWord.empty).text = "(ab)^150".toList ∧
    (BracketWord.group (BracketWord.letter 'a' (BracketWord.letter 'b' BracketWord.empty)) 150
        BracketWord.empty).expansion.length = 300 ∧
    user_input_word 2 199 "(ab)^150".toList = Except.error Fault.out_of_bounds := by
  decide

set_option maxRecDepth 100000 in
/-- C30, on the line (a)!^2 with 1 generator and a maximum word length of 10: the
character ! between the close bracket and the exponent is passed over, and
user_input_word returns WORD_INPUT_OK with the word aa. -/
theorem user_input_word_passes_invalid_character :
    is_generator_letter 1 '!' = false ∧ is_digit '!' = false ∧
    user_input_word 1 10 "(a)!^2".toList
      = Except.ok (WORD_INPUT_RET_CODES.WORD_INPUT_OK, some "aa".toList) ∧
    user_input_word 1 10 "(a)!^2".toList
      ≠ Except.ok (WORD_INPUT_RET_CODES.WORD_INPUT_INVALID, none) := by
  decide

theorem last_letter_or_bracket_append (G : Nat) (s : List Char) (c : Char) :
    last_letter_or_bracket G (s ++ [c])
      = if is_letter_or_bracket G c then some c else last_letter_or_bracket G s := by
  simp [last_letter_or_bracket, List.foldl_append]

theorem bracket_depth_append (s : List Char) (c : Char) :
    bracket_depth (s ++ [c])
      = match bracket_depth s with
        | none => none
        | some d =>
          if c = '(' then some (d + 1)
          else if c = ')' then (if d = 0 then none else some (d - 1))
          else some d := by
  simp [bracket_depth, List.foldl_append]

theorem user_input_word_loop_append (G L : Nat) :
    ∀ (a b : List Char) (st : WordParse),
      user_input_word_loop G L st (a ++ b)
        = (user_input_word_loop G L st a >>= fun r =>
            match r with
            | Sum.inl ret_code => pure (Sum.inl ret_code)
            | Sum.inr st1 => user_input_word_loop G L st1 b) := by
  intro a
  induction a with
  | nil => intro b st; simp [user_input_word_loop, bind, Except.bind, pure, Except.pure]
  | cons c rest ih =>
    intro b st
    simp only [List.cons_append, user_input_word_loop]
    cases h : user_input_word_step G L st c with
    | error f => simp [bind, Except.bind]
    | ok r =>
      cases r with
      | inl code => simp [bind, Except.bind, pure, Except.pure]
      | inr st1 =>
        simp only [bind, Except.bind]
        exact ih b st1

theorem parse_invariant_initial (G : Nat) : parse_invariant G [] initial_word_parse := by
  constructor <;> simp [initial_word_parse, bracket_depth, last_letter_or_bracket]

theorem is_letter_or_bracket_open (G : Nat) : is_letter_or_bracket G '(' = true := by
  simp [is_letter_or_bracket]

theorem is_letter_or_bracket_close (G : Nat) : is_letter_or_bracket G ')' = true := by
  simp [is_letter_or_bracket]

theorem is_letter_or_bracket_letter (G : Nat) (c : Char) (h : is_generator_letter G c = true) :
    is_letter_or_bracket G c = true := by
  simp [is_letter_or_bracket, h]

theorem generator_letter_ne_bracket (G : Nat) (c : Char) (h : is_generator_letter G c = true) :
    c ≠ '(' ∧ c ≠ ')' ∧ c ≠ '^' := by
  rw [is_generator_letter_iff] at h
  refine ⟨?_, ?_, ?_⟩ <;> intro e <;> subst e <;> exact absurd h.1 (by decide)

/-- The branch of the loop for a character outside an exponent, from variables
that meet the invariant with no exponent being parsed. -/
theorem parse_word_character_ok (G L : Nat) (s : List Char) (st : WordParse) (c : Char)
    (hdepth : bracket_depth s = some st.nest_depth)
    (hstack : st.top.length = st.nest_depth)
    (hmode : st.parsing_exponent = false) (hhat : st.hat_found = false)
    (hvalid : st.valid_exp = false) :
    parse_result_ok G (s ++ [c]) (parse_word_character G L st c) ∧
      (is_letter_or_bracket G c = false →
        parse_word_character G L st c
          = Except.ok (Sum.inl WORD_INPUT_RET_CODES.WORD_INPUT_INVALID)) := by
  unfold parse_word_character
  by_cases hl : is_generator_letter G c = true
  · obtain ⟨h1, h2, _⟩ := generator_letter_ne_bracket G c hl
    have hs := is_letter_or_bracket_letter G c hl
    rw [if_pos hl]
    refine ⟨?_, fun hn => by rw [hs] at hn; cases hn⟩
    by_cases hb : st.subword_index + 1 < L
    · rw [if_pos hb]
      constructor
      · rw [bracket_depth_append, hdepth]
        simp [h1, h2]
      · simp [hmode, hstack]
      · rw [last_letter_or_bracket_append, if_pos hs]
        simp [hmode, h2]
      · simp [hhat]
      · simp [hvalid]
    · rw [if_neg hb]
      rfl
  · rw [if_neg hl]
    by_cases ho : c = '('
    · subst ho
      rw [if_pos rfl]
      refine ⟨?_, fun hn => by rw [is_letter_or_bracket_open] at hn; cases hn⟩
      unfold string_stack_push
      split_ifs with hb
      · constructor
        · rw [bracket_depth_append, hdepth]
          simp
        · simp [hmode, hstack]
        · rw [last_letter_or_bracket_append, if_pos (is_letter_or_bracket_open G)]
          simp [hmode]
        · simp [hhat]
        · simp [hvalid]
      · rfl
    · rw [if_neg ho]
      by_cases hc : c = ')'
      · subst hc
        rw [if_pos rfl]
        refine ⟨?_, fun hn => by rw [is_letter_or_bracket_close] at hn; cases hn⟩
        split_ifs with hd
        · rfl
        · have hpos : 0 < st.nest_depth := by omega
          constructor
          · rw [bracket_depth_append, hdepth]
            have hne : ¬ st.nest_depth = 0 := by omega
            simp [hne]
          · simp [hstack]
            omega
          · rw [last_letter_or_bracket_append, if_pos (is_letter_or_bracket_close G)]
            simp
          · simp
          · simp [hvalid]
      · rw [if_neg hc]
        exact ⟨rfl, fun _ => rfl⟩

theorem strncat_copies_result (subword : List Char) :
    ∀ (n : Nat) (popped_word : List Char),
      strncat_copies popped_word subword n = Except.error Fault.out_of_bounds ∨
        ∃ w, strncat_copies popped_word subword n = Except.ok w := by
  intro n
  induction n with
  | zero => intro p; exact Or.inr ⟨p, rfl⟩
  | succ k ih =>
    intro p
    rw [strncat_copies]
    split_ifs with h
    · exact ih (p ++ subword)
    · exact Or.inl rfl

theorem apply_exponent_result (L : Nat) (st : WordParse) (h : 0 < st.top.length) :
    apply_exponent L st = Except.error Fault.out_of_bounds ∨
      ∃ r, apply_exponent L st = Except.ok r ∧ r.2.length + 1 = st.top.length := by
  unfold apply_exponent
  by_cases hb : st.exponent_string.length < L
  · simp only [hb, not_true_eq_false, if_false]
    unfold atoi
    dsimp only
    split_ifs with hv
    · cases htop : st.top with
      | nil => rw [htop] at h; simp at h
      | cons w rest =>
        simp only [string_stack_pop, bind, Except.bind, pure, Except.pure]
        rcases strncat_copies_result st.subword
            (List.foldl (fun v c => 10 * v + (c.toNat - '0'.toNat)) 0 st.exponent_string) w with
          he | ⟨w1, hw1⟩
        · left; rw [he]
        · right; rw [hw1]; exact ⟨_, rfl, by simp⟩
    · left; rfl
  · left
    simp [hb, bind, Except.bind, throw, throwThe, MonadExceptOf.throw]

theorem is_digit_not_letter_or_bracket (G : Nat) (c : Char) (h : is_digit c = true) :
    is_letter_or_bracket G c = false ∧ c ≠ '^' := by
  unfold is_digit at h
  rw [decide_eq_true_iff] at h
  have h0 : '0'.toNat = 48 := by decide
  have h9 : '9'.toNat = 57 := by decide
  rw [h0, h9] at h
  have hl : is_generator_letter G c = false := is_generator_letter_small G c (by omega)
  have ho : c ≠ '(' := by intro e; subst e; exact absurd h.1 (by decide)
  have hc : c ≠ ')' := by intro e; subst e; exact absurd h.1 (by decide)
  have hh : c ≠ '^' := by intro e; subst e; exact absurd h.2 (by decide)
  exact ⟨by simp [is_letter_or_bracket, hl, ho, hc], hh⟩

theorem hat_not_letter_or_bracket (G : Nat) : is_letter_or_bracket G '^' = false := by
  simp [is_letter_or_bracket, is_generator_letter_small G '^' (by decide)]

theorem parse_invariant_other (G : Nat) (s : List Char) (st st1 : WordParse) (c : Char)
    (hinv : parse_invariant G s st) (hc : is_letter_or_bracket G c = false)
    (hdepth : st1.nest_depth = st.nest_depth) (htop : st1.top = st.top)
    (hmode : st1.parsing_exponent = st.parsing_exponent)
    (hhat : st1.hat_found = true → st1.parsing_exponent = true)
    (hvalid : st1.valid_exp = true → st1.hat_found = true) :
    parse_invariant G (s ++ [c]) st1 := by
  have hparts : is_generator_letter G c = false ∧ c ≠ '(' ∧ c ≠ ')' := by
    have h0 : (is_generator_letter G c = false ∧ ¬ c = '(') ∧ ¬ c = ')' := by
      simpa [is_letter_or_bracket] using hc
    exact ⟨h0.1.1, h0.1.2, h0.2⟩
  constructor
  · rw [bracket_depth_append, hinv.depth, hdepth]
    simp [hparts.2.1, hparts.2.2]
  · rw [htop, hdepth, hmode]; exact hinv.stack
  · rw [last_letter_or_bracket_append, hc, hmode]
    simpa using hinv.mode
  · exact hhat
  · exact hvalid

/-- The pass of the loop for a letter or bracket that ends a complete exponent. -/
theorem close_exponent_ok (G L : Nat) (s : List Char) (st : WordParse) (c : Char)
    (hinv : parse_invariant G s st) (hmode : st.parsing_exponent = true) :
    parse_result_ok G (s ++ [c])
      (do
        let r ← apply_exponent L st
        if r.1.length < L then
          parse_word_character G L
            { subword := r.1, subword_index := r.1.length, exponent_string := [],
              parsing_exponent := false, hat_found := false, valid_exp := false,
              top := r.2, nest_depth := st.nest_depth } c
        else throw Fault.out_of_bounds) := by
  have hstack := hinv.stack
  rw [hmode, if_pos rfl] at hstack
  rcases apply_exponent_result L st (by omega) with he | ⟨r, hr, hlen⟩
  · rw [he]; rfl
  · rw [hr]
    simp only [bind, Except.bind]
    by_cases hb : r.1.length < L
    · rw [if_pos hb]
      have hr2 : r.2.length = st.nest_depth := by omega
      exact (parse_word_character_ok G L s
        { subword := r.1, subword_index := r.1.length, exponent_string := [],
          parsing_exponent := false, hat_found := false, valid_exp := false,
          top := r.2, nest_depth := st.nest_depth } c hinv.depth hr2 rfl rfl rfl).1
    · rw [if_neg hb]; rfl

theorem user_input_word_step_ok (G L : Nat) (s : List Char) (st : WordParse) (c : Char)
    (hinv : parse_invariant G s st) :
    parse_result_ok G (s ++ [c]) (user_input_word_step G L st c) := by
  unfold user_input_word_step
  by_cases hmode : st.parsing_exponent = true
  · rw [if_pos hmode]
    by_cases hh : c = '^'
    · subst hh
      rw [if_pos rfl]
      exact parse_invariant_other G s st _ _ hinv (hat_not_letter_or_bracket G) rfl rfl rfl
        (fun _ => hmode) (fun _ => rfl)
    · rw [if_neg hh]
      by_cases hd : is_digit c = true
      · rw [if_pos hd]
        by_cases hhat : st.hat_found = true
        · rw [if_neg (not_not.mpr hhat)]
          by_cases hb : st.exponent_string.length < L
          · rw [if_pos hb]
            exact parse_invariant_other G s st _ _ hinv
              (is_digit_not_letter_or_bracket G c hd).1 rfl rfl rfl (fun _ => hmode)
              (fun _ => hhat)
          · rw [if_neg hb]; rfl
        · rw [if_pos hhat]; rfl
      · rw [if_neg hd]
        by_cases hs : is_generator_letter G c = true ∨ c = '(' ∨ c = ')'
        · rw [if_pos hs]
          by_cases hv : st.valid_exp = true
          · rw [if_neg (not_not.mpr hv)]
            exact close_exponent_ok G L s st c hinv hmode
          · rw [if_pos hv]; rfl
        · rw [if_neg hs]
          have hc : is_letter_or_bracket G c = false := by
            rw [not_or, not_or] at hs
            simp [is_letter_or_bracket, hs.1, hs.2.1, hs.2.2]
          exact parse_invariant_other G s st st c hinv hc rfl rfl rfl hinv.hat hinv.valid
  · rw [if_neg hmode]
    have hm : st.parsing_exponent = false := by simpa using hmode
    have hhat : st.hat_found = false := by
      by_contra hn
      exact hmode (hinv.hat (by simpa using hn))
    have hvalid : st.valid_exp = false := by
      by_contra hn
      rw [hinv.valid (by simpa using hn)] at hhat
      cases hhat
    have hstack := hinv.stack
    rw [hm] at hstack
    exact (parse_word_character_ok G L s st c hinv.depth (by simpa using hstack) hm hhat
      hvalid).1

theorem parse_result_ok_bind (G L : Nat) (s b : List Char)
    (r : Except Fault (WORD_INPUT_RET_CODES ⊕ WordParse))
    (hr : parse_result_ok G s r)
    (hnext : ∀ st, parse_invariant G s st →
      parse_result_ok G (s ++ b) (user_input_word_loop G L st b)) :
    parse_result_ok G (s ++ b)
      (r >>= fun x =>
        match x with
        | Sum.inl ret_code => pure (Sum.inl ret_code)
        | Sum.inr st1 => user_input_word_loop G L st1 b) := by
  cases r with
  | error f => exact hr
  | ok x =>
    cases x with
    | inl code => exact hr
    | inr st1 => exact hnext st1 hr

/-- The loop keeps the invariant: from variables that meet it after the string s,
the loop over the string b overruns a buffer, leaves with WORD_INPUT_INVALID, or
ends with variables that meet the invariant after s followed by b. -/
theorem user_input_word_loop_ok (G L : Nat) :
    ∀ (b s : List Char) (st : WordParse), parse_invariant G s st →
      parse_result_ok G (s ++ b) (user_input_word_loop G L st b) := by
  intro b
  induction b with
  | nil =>
    intro s st hinv
    rw [List.append_nil]
    exact hinv
  | cons c rest ih =>
    intro s st hinv
    have hstep := user_input_word_step_ok G L s st c hinv
    rw [user_input_word_loop]
    cases h : user_input_word_step G L st c with
    | error f => rw [h] at hstep; exact hstep
    | ok x =>
      rw [h] at hstep
      cases x with
      | inl code => exact hstep
      | inr st1 =>
        simp only [bind, Except.bind]
        have := ih (s ++ [c]) st1 hstep
        rwa [List.append_assoc, List.singleton_append] at this

theorem input_string_line (typed : List Char) (hline : '\n' ∉ typed) :
    input_string MAX_WORD_LEN typed
      = if typed.length + 2 ≤ MAX_WORD_LEN then
          Except.ok (STRING_INPUT_ERR_CODE.STRING_INPUT_OK, some typed)
        else Except.ok (STRING_INPUT_ERR_CODE.STRING_INPUT_INVALID, none) := by
  unfold input_string MAX_WORD_LEN
  dsimp only
  by_cases h : typed.length + 2 ≤ 200
  · rw [if_pos h]
    have htake : List.take (200 - 1) (typed ++ ['\n']) = typed ++ ['\n'] := by
      apply List.take_of_length_le
      simp; omega
    rw [htake, List.getLast?_append]
    simp [pure, Except.pure]
  · rw [if_neg h]
    have htake : List.take (200 - 1) (typed ++ ['\n']) = List.take 199 typed := by
      rw [List.take_append_of_le_length (by omega)]
    rw [htake]
    have hl199 : (List.take 199 typed).length = 199 := by
      rw [List.length_take]; omega
    have hne : List.take 199 typed ≠ [] := by
      intro e
      rw [e] at hl199
      simp at hl199
    obtain ⟨last, hlast⟩ : ∃ last, (List.take 199 typed).getLast? = some last := by
      cases hl : (List.take 199 typed).getLast? with
      | none => exact absurd (List.getLast?_eq_none_iff.mp hl) hne
      | some x => exact ⟨x, rfl⟩
    rw [hlast]
    have hmem : last ∈ typed :=
      List.mem_of_mem_take (List.mem_of_getLast?_eq_some hlast)
    have hnl : last ≠ '\n' := fun e => hline (e ▸ hmem)
    simp [hnl, pure, Except.pure]

theorem user_input_word_of_loop (G L : Nat) (typed : List Char) (hline : '\n' ∉ typed)
    (hG10 : G < MAX_GENERATORS) (hL200 : L < MAX_WORD_LEN)
    (hfit : typed.length + 2 ≤ MAX_WORD_LEN) (hlen : typed.length ≤ L) (hL : 0 < L) :
    user_input_word G L typed
      = (user_input_word_loop G L initial_word_parse typed >>= fun r =>
          match r with
          | Sum.inl ret_code => pure (ret_code, none)
          | Sum.inr st => user_input_word_finish L st) := by
  unfold user_input_word
  simp only [hG10, hL200, not_true_eq_false, if_false, bind, Except.bind, pure, Except.pure]
  rw [input_string_line typed hline, if_pos hfit]
  simp only [bind, Except.bind]
  rw [if_neg (by omega), if_neg (not_not.mpr hL)]
  rfl

theorem user_input_word_long_line (G L : Nat) (typed : List Char) (hline : '\n' ∉ typed)
    (hG10 : G < MAX_GENERATORS) (hL200 : L < MAX_WORD_LEN)
    (hfit : ¬ typed.length + 2 ≤ MAX_WORD_LEN) :
    user_input_word G L typed
      = Except.ok (WORD_INPUT_RET_CODES.WORD_INPUT_INVALID, none) := by
  unfold user_input_word
  simp only [hG10, hL200, not_true_eq_false, if_false, bind, Except.bind, pure, Except.pure]
  rw [input_string_line typed hline, if_neg hfit]

theorem user_input_word_finish_invalid (L : Nat) (st : WordParse)
    (h : st.nest_depth ≠ 0 ∨ (st.parsing_exponent = true ∧ st.valid_exp = false)) :
    user_input_word_finish L st
      = Except.ok (WORD_INPUT_RET_CODES.WORD_INPUT_INVALID, none) := by
  unfold user_input_word_finish
  by_cases hd : st.nest_depth ≠ 0
  · rw [if_pos hd]; rfl
  · rw [if_neg hd]
    rcases h with h | ⟨h1, h2⟩
    · exact absurd h hd
    · have hc : st.parsing_exponent = true ∧ ¬ st.valid_exp = true := ⟨h1, by simp [h2]⟩
      rw [if_pos hc]; rfl

/-- A line splits into a string after which the invariant holds and a string
that leads to WORD_INPUT_INVALID: user_input_word returns WORD_INPUT_INVALID, or
overruns a buffer. -/
theorem user_input_word_invalid_of_suffix (G L : Nat) (typed pre suf : List Char)
    (hG10 : G < MAX_GENERATORS) (hL200 : L < MAX_WORD_LEN)
    (hline : '\n' ∉ typed) (hlen : typed.length ≤ L) (hsplit : typed = pre ++ suf)
    (hsuf : ∀ st1, parse_invariant G pre st1 → leads_to_invalid G L st1 suf) :
    user_input_word G L typed = Except.ok (WORD_INPUT_RET_CODES.WORD_INPUT_INVALID, none) ∨
      user_input_word G L typed = Except.error Fault.out_of_bounds := by
  by_cases hfit : typed.length + 2 ≤ MAX_WORD_LEN
  · have hL : 0 < L := by
      by_contra hn
      have h0 : typed.length = 0 := by omega
      have hnil : typed = [] := List.length_eq_zero.mp h0
      rw [hnil] at hsplit
      have hp : pre = [] := (List.append_eq_nil.mp hsplit.symm).1
      have hs : suf = [] := (List.append_eq_nil.mp hsplit.symm).2
      subst hp; subst hs
      rcases hsuf initial_word_parse (parse_invariant_initial G) with h | h | ⟨st1, h, hc⟩
      · simp [user_input_word_loop, pure, Except.pure] at h
      · simp [user_input_word_loop, pure, Except.pure] at h
      · simp only [user_input_word_loop, pure, Except.pure, Except.ok.injEq,
          Sum.inr.injEq] at h
        subst h
        simp [initial_word_parse] at hc
    rw [user_input_word_of_loop G L typed hline hG10 hL200 hfit hlen hL, hsplit,
      user_input_word_loop_append]
    have hr := user_input_word_loop_ok G L pre [] initial_word_parse (parse_invariant_initial G)
    rw [List.nil_append] at hr
    cases hloop : user_input_word_loop G L initial_word_parse pre with
    | error f =>
      rw [hloop] at hr
      right
      have hf : f = Fault.out_of_bounds := hr
      rw [hf]; rfl
    | ok x =>
      rw [hloop] at hr
      cases x with
      | inl code =>
        left
        have hc : code = WORD_INPUT_RET_CODES.WORD_INPUT_INVALID := hr
        rw [hc]; rfl
      | inr st1 =>
        simp only [bind, Except.bind]
        rcases hsuf st1 hr with h | h | ⟨st2, h, hc⟩
        · right; rw [h]
        · left; rw [h]; rfl
        · left; rw [h]
          exact user_input_word_finish_invalid L st2 hc
  · left
    exact user_input_word_long_line G L typed hline hG10 hL200 hfit

theorem letter_or_bracket_cases (G : Nat) (c : Char) (h : is_letter_or_bracket G c = true) :
    (is_generator_letter G c = true ∨ c = '(' ∨ c = ')') ∧ c ≠ '^' ∧ is_digit c = false := by
  have h1 : is_generator_letter G c = true ∨ c = '(' ∨ c = ')' := by
    simp only [is_letter_or_bracket, Bool.or_eq_true, decide_eq_true_eq] at h
    rcases h with (h | h) | h
    · exact Or.inl h
    · exact Or.inr (Or.inl h)
    · exact Or.inr (Or.inr h)
  refine ⟨h1, ?_, ?_⟩
  · intro e
    subst e
    rw [hat_not_letter_or_bracket] at h
    cases h
  · by_contra hd
    rw [(is_digit_not_letter_or_bracket G c (by simpa using hd)).1] at h
    cases h

/-- While an exponent is parsed, a character that is no letter, bracket or digit
leaves the variables as they are, but for hat_found, which the character ^ sets. -/
theorem user_input_word_step_filler (G L : Nat) (st : WordParse) (c : Char)
    (hmode : st.parsing_exponent = true) (hs : is_letter_or_bracket G c = false)
    (hd : is_digit c = false) :
    user_input_word_step G L st c
      = Except.ok (Sum.inr (if c = '^' then { st with hat_found := true } else st)) := by
  unfold user_input_word_step
  rw [if_pos hmode]
  by_cases hh : c = '^'
  · rw [if_pos hh, if_pos hh]; rfl
  · rw [if_neg hh, if_neg hh, if_neg (by simp [hd])]
    have hn : ¬ (is_generator_letter G c = true ∨ c = '(' ∨ c = ')') := by
      intro h
      have : is_letter_or_bracket G c = true := by
        rcases h with h | h | h
        · exact is_letter_or_bracket_letter G c h
        · rw [h]; exact is_letter_or_bracket_open G
        · rw [h]; exact is_letter_or_bracket_close G
      rw [hs] at this
      cases this
    rw [if_neg hn]
    rfl

theorem user_input_word_loop_filler (G L : Nat) (rest : List Char) :
    ∀ (mid : List Char) (st : WordParse), st.parsing_exponent = true →
      (∀ c ∈ mid, is_letter_or_bracket G c = false ∧ is_digit c = false) →
      ∃ st1, user_input_word_loop G L st (mid ++ rest) = user_input_word_loop G L st1 rest ∧
        st1.parsing_exponent = true ∧ st1.valid_exp = st.valid_exp ∧
        st1.nest_depth = st.nest_depth ∧ ('^' ∉ mid → st1.hat_found = st.hat_found) := by
  intro mid
  induction mid with
  | nil => intro st hmode _; exact ⟨st, rfl, hmode, rfl, rfl, fun _ => rfl⟩
  | cons c more ih =>
    intro st hmode hall
    obtain ⟨hs, hd⟩ := hall c (List.mem_cons_self _ _)
    have hstep := user_input_word_step_filler G L st c hmode hs hd
    obtain ⟨st1, h1, h2, h3, h4, h5⟩ :=
      ih (if c = '^' then { st with hat_found := true } else st)
        (by split_ifs <;> exact hmode)
        (fun x hx => hall x (List.mem_cons_of_mem _ hx))
    refine ⟨st1, ?_, h2, ?_, ?_, ?_⟩
    · rw [List.cons_append, user_input_word_loop, hstep]
      exact h1
    · rw [h3]; split_ifs <;> rfl
    · rw [h4]; split_ifs <;> rfl
    · intro hn
      have hc : c ≠ '^' := fun e => hn (e ▸ List.mem_cons_self _ _)
      rw [h5 (fun hm => hn (List.mem_cons_of_mem _ hm)), if_neg hc]

/-- The pass of the loop for a close bracket: if the loop goes on, an exponent is
parsed of which neither the character ^ nor a digit has been read. -/
theorem user_input_word_step_close (G L : Nat) (s : List Char) (st : WordParse)
    (hinv : parse_invariant G s st) :
    user_input_word_step G L st ')' = Except.error Fault.out_of_bounds ∨
      user_input_word_step G L st ')'
        = Except.ok (Sum.inl WORD_INPUT_RET_CODES.WORD_INPUT_INVALID) ∨
      ∃ st1, user_input_word_step G L st ')' = Except.ok (Sum.inr st1) ∧
        st1.parsing_exponent = true ∧ st1.hat_found = false ∧ st1.valid_exp = false := by
  have hl : is_generator_letter G ')' = false := is_generator_letter_small G _ (by decide)
  have key : ∀ stx : WordParse, stx.hat_found = false → stx.valid_exp = false →
      parse_word_character G L stx ')'
          = Except.ok (Sum.inl WORD_INPUT_RET_CODES.WORD_INPUT_INVALID) ∨
        ∃ st1, parse_word_character G L stx ')' = Except.ok (Sum.inr st1) ∧
          st1.parsing_exponent = true ∧ st1.hat_found = false ∧ st1.valid_exp = false := by
    intro stx hh hv
    unfold parse_word_character
    rw [hl]
    simp only [Bool.false_eq_true, if_false]
    rw [if_neg (by decide)]
    simp only [if_true]
    split_ifs with hd
    · exact Or.inl rfl
    · exact Or.inr ⟨_, rfl, rfl, hh, hv⟩
  unfold user_input_word_step
  by_cases hmode : st.parsing_exponent = true
  · rw [if_pos hmode, if_neg (by decide), if_neg (by decide)]
    rw [if_pos (Or.inr (Or.inr rfl))]
    by_cases hv : st.valid_exp = true
    · rw [if_neg (not_not.mpr hv)]
      have hstack := hinv.stack
      rw [hmode, if_pos rfl] at hstack
      rcases apply_exponent_result L st (by omega) with he | ⟨r, hr, _⟩
      · left; rw [he]; rfl
      · rw [hr]
        simp only [bind, Except.bind]
        by_cases hb : r.1.length < L
        · rw [if_pos hb]
          exact Or.inr (key _ rfl rfl)
        · rw [if_neg hb]; exact Or.inl rfl
    · rw [if_pos hv]; exact Or.inr (Or.inl rfl)
  · rw [if_neg hmode]
    have hhat : st.hat_found = false := by
      by_contra hn
      exact hmode (hinv.hat (by simpa using hn))
    have hvalid : st.valid_exp = false := by
      by_contra hn
      rw [hinv.valid (by simpa using hn)] at hhat
      cases hhat
    exact Or.inr (key st hhat hvalid)

theorem leads_to_invalid_of_step (G L : Nat) (st : WordParse) (c : Char) (rest : List Char)
    (h : user_input_word_step G L st c
      = Except.ok (Sum.inl WORD_INPUT_RET_CODES.WORD_INPUT_INVALID)) :
    leads_to_invalid G L st (c :: rest) := by
  right; left
  rw [user_input_word_loop, h]
  rfl

theorem leads_to_invalid_mismatched (G L : Nat) (typed : List Char)
    (h : brackets_mismatched typed) (st : WordParse) (hinv : parse_invariant G typed st) :
    leads_to_invalid G L st [] := by
  right; right
  refine ⟨st, rfl, Or.inl ?_⟩
  intro h0
  apply h
  rw [hinv.depth, h0]

theorem leads_to_invalid_outside (G L : Nat) (pre : List Char) (c : Char) (post : List Char)
    (hc : c = '^' ∨ is_digit c = true) (hlast : last_letter_or_bracket G pre ≠ some ')')
    (st : WordParse) (hinv : parse_invariant G pre st) :
    leads_to_invalid G L st (c :: post) := by
  apply leads_to_invalid_of_step
  have hmode : st.parsing_exponent = false := by
    by_contra hn
    exact hlast (hinv.mode.mp (by simpa using hn))
  have hhat : st.hat_found = false := by
    by_contra hn
    rw [hinv.hat (by simpa using hn)] at hmode
    cases hmode
  have hvalid : st.valid_exp = false := by
    by_contra hn
    rw [hinv.valid (by simpa using hn)] at hhat
    cases hhat
  have hs : is_letter_or_bracket G c = false := by
    rcases hc with rfl | hd
    · exact hat_not_letter_or_bracket G
    · exact (is_digit_not_letter_or_bracket G c hd).1
  have hstack := hinv.stack
  rw [hmode] at hstack
  unfold user_input_word_step
  rw [hmode]
  simp only [Bool.false_eq_true, if_false]
  exact (parse_word_character_ok G L pre st c hinv.depth (by simpa using hstack) hmode hhat
    hvalid).2 hs

theorem leads_to_invalid_congr (G L : Nat) (st st1 : WordParse) (s s1 : List Char)
    (h : user_input_word_loop G L st s = user_input_word_loop G L st1 s1)
    (h1 : leads_to_invalid G L st1 s1) : leads_to_invalid G L st s := by
  unfold leads_to_invalid at h1 ⊢
  rw [h]
  exact h1

theorem leads_to_invalid_close (G L : Nat) (s : List Char) (st : WordParse)
    (hinv : parse_invariant G s st) (tail : List Char)
    (htail : ∀ st2 : WordParse, st2.parsing_exponent = true → st2.hat_found = false →
      st2.valid_exp = false → leads_to_invalid G L st2 tail) :
    leads_to_invalid G L st (')' :: tail) := by
  rcases user_input_word_step_close G L s st hinv with h | h | ⟨st2, h, h1, h2, h3⟩
  · left
    rw [user_input_word_loop, h]
    rfl
  · exact leads_to_invalid_of_step G L st _ tail h
  · apply leads_to_invalid_congr G L st st2 _ tail _ (htail st2 h1 h2 h3)
    rw [user_input_word_loop, h]
    rfl

theorem leads_to_invalid_digit (G L : Nat) (mid : List Char) (d : Char) (post : List Char)
    (hd : is_digit d = true)
    (hmid : ∀ c ∈ mid, c ≠ '^' ∧ is_letter_or_bracket G c = false ∧ is_digit c = false)
    (st : WordParse) (hmode : st.parsing_exponent = true) (hhat : st.hat_found = false) :
    leads_to_invalid G L st (mid ++ d :: post) := by
  obtain ⟨st1, h1, h2, _, _, h5⟩ :=
    user_input_word_loop_filler G L (d :: post) mid st hmode
      (fun c hc => ⟨(hmid c hc).2.1, (hmid c hc).2.2⟩)
  have hnohat : '^' ∉ mid := fun hm => (hmid _ hm).1 rfl
  apply leads_to_invalid_congr G L st st1 _ _ h1
  apply leads_to_invalid_of_step
  unfold user_input_word_step
  rw [if_pos h2, if_neg (is_digit_not_letter_or_bracket G d hd).2, if_pos hd,
    h5 hnohat, hhat]
  rfl

theorem leads_to_invalid_hat (G L : Nat) (mid rest : List Char)
    (hmid : ∀ c ∈ mid, is_letter_or_bracket G c = false ∧ is_digit c = false)
    (hrest : rest = [] ∨ ∃ c rest1, rest = c :: rest1 ∧ is_letter_or_bracket G c = true)
    (st : WordParse) (hmode : st.parsing_exponent = true) (hvalid : st.valid_exp = false) :
    leads_to_invalid G L st ('^' :: mid ++ rest) := by
  have hfill : ∀ c ∈ '^' :: mid, is_letter_or_bracket G c = false ∧ is_digit c = false := by
    intro c hc
    rcases List.mem_cons.mp hc with rfl | hc1
    · exact ⟨hat_not_letter_or_bracket G, by decide⟩
    · exact hmid c hc1
  obtain ⟨st1, h1, h2, h3, _, _⟩ :=
    user_input_word_loop_filler G L rest ('^' :: mid) st hmode hfill
  rw [hvalid] at h3
  have happ : '^' :: mid ++ rest = ('^' :: mid) ++ rest := rfl
  rw [happ]
  apply leads_to_invalid_congr G L st st1 _ _ h1
  rcases hrest with rfl | ⟨c, rest1, rfl, hc⟩
  · right; right
    exact ⟨st1, rfl, Or.inr ⟨h2, h3⟩⟩
  · obtain ⟨hs, hne, hnd⟩ := letter_or_bracket_cases G c hc
    apply leads_to_invalid_of_step
    unfold user_input_word_step
    rw [if_pos h2, if_neg hne, if_neg (by simp [hnd]), if_pos hs, h3]
    rfl


/-- A line that fits the input buffer and is longer than the maximum word length
is answered WORD_INPUT_TOO_LONG before a character of it is read. -/
theorem user_input_word_too_long (G L : Nat) (typed : List Char) (hline : '\n' ∉ typed)
    (hG10 : G < MAX_GENERATORS) (hL200 : L < MAX_WORD_LEN)
    (hfit : typed.length + 2 ≤ MAX_WORD_LEN) (hlen : L < typed.length) :
    user_input_word G L typed
      = Except.ok (WORD_INPUT_RET_CODES.WORD_INPUT_TOO_LONG, none) := by
  unfold user_input_word
  simp only [hG10, hL200, not_true_eq_false, if_false, bind, Except.bind, pure, Except.pure]
  rw [input_string_line typed hline, if_pos hfit]
  simp only [bind, Except.bind]
  rw [if_pos (by omega)]

/-- C28: with grp_max_generators below MAX_GENERATORS and grp_max_word_len below
MAX_WORD_LEN, as user_input_word asserts, for a line in which the brackets are
mismatched, or a close bracket is
followed by ^ with no digit before the next letter or bracket or the end of the
line, or a close bracket is followed by a digit with no ^, or a digit or ^ stands
outside an exponent, user_input_word never returns WORD_INPUT_OK. It returns
WORD_INPUT_INVALID when the line is not longer than grp_max_word_len, unless the
groups read before overrun a buffer; a longer line that fits the input buffer is
answered WORD_INPUT_TOO_LONG, and a line that does not fit the input buffer
WORD_INPUT_INVALID. -/
theorem user_input_word_rejects_malformed (grp_max_generators grp_max_word_len : Nat)
    (typed : List Char) (hG10 : grp_max_generators < MAX_GENERATORS)
    (hL200 : grp_max_word_len < MAX_WORD_LEN) (hline : '\n' ∉ typed)
    (hbad : brackets_mismatched typed ∨ hat_without_digit grp_max_generators typed ∨
      digit_without_hat grp_max_generators typed ∨
      exponent_character_outside grp_max_generators typed) :
    (∀ word, user_input_word grp_max_generators grp_max_word_len typed
      ≠ Except.ok (WORD_INPUT_RET_CODES.WORD_INPUT_OK, word)) ∧
    (typed.length ≤ grp_max_word_len →
      user_input_word grp_max_generators grp_max_word_len typed
          = Except.ok (WORD_INPUT_RET_CODES.WORD_INPUT_INVALID, none) ∨
        user_input_word grp_max_generators grp_max_word_len typed
          = Except.error Fault.out_of_bounds) ∧
    (grp_max_word_len < typed.length → typed.length + 2 ≤ MAX_WORD_LEN →
      user_input_word grp_max_generators grp_max_word_len typed
        = Except.ok (WORD_INPUT_RET_CODES.WORD_INPUT_TOO_LONG, none)) ∧
    (¬ typed.length + 2 ≤ MAX_WORD_LEN →
      user_input_word grp_max_generators grp_max_word_len typed
        = Except.ok (WORD_INPUT_RET_CODES.WORD_INPUT_INVALID, none)) := by
  have hmain : typed.length ≤ grp_max_word_len →
      user_input_word grp_max_generators grp_max_word_len typed
          = Except.ok (WORD_INPUT_RET_CODES.WORD_INPUT_INVALID, none) ∨
        user_input_word grp_max_generators grp_max_word_len typed
          = Except.error Fault.out_of_bounds := by
    intro hlen
    rcases hbad with h | ⟨pre, mid, rest, hsplit, hmid, hrest⟩ |
        ⟨pre, mid, d, post, hsplit, hd, hmid⟩ | ⟨pre, c, post, hsplit, hc, hlast⟩
    · exact user_input_word_invalid_of_suffix _ _ typed typed [] hG10 hL200 hline hlen
        (List.append_nil typed).symm
        (fun st hinv => leads_to_invalid_mismatched _ _ typed h st hinv)
    · exact user_input_word_invalid_of_suffix _ _ typed pre (')' :: '^' :: (mid ++ rest)) hG10
        hL200 hline hlen hsplit
        (fun st hinv => leads_to_invalid_close _ _ pre st hinv _
          (fun st2 h1 _ h3 => leads_to_invalid_hat _ _ mid rest hmid hrest st2 h1 h3))
    · exact user_input_word_invalid_of_suffix _ _ typed pre (')' :: (mid ++ d :: post)) hG10
        hL200 hline hlen hsplit
        (fun st hinv => leads_to_invalid_close _ _ pre st hinv _
          (fun st2 h1 h2 _ => leads_to_invalid_digit _ _ mid d post hd hmid st2 h1 h2))
    · exact user_input_word_invalid_of_suffix _ _ typed pre (c :: post) hG10 hL200 hline hlen
        hsplit
        (fun st hinv => leads_to_invalid_outside _ _ pre c post hc hlast st hinv)
  have hlong := user_input_word_long_line grp_max_generators grp_max_word_len typed hline
    hG10 hL200
  have htoo := user_input_word_too_long grp_max_generators grp_max_word_len typed hline
    hG10 hL200
  refine ⟨?_, hmain, fun h1 h2 => htoo h2 h1, hlong⟩
  intro word h
  by_cases hlen : typed.length ≤ grp_max_word_len
  · rcases hmain hlen with h1 | h1
    · rw [h1] at h
      cases h
    · rw [h1] at h
      cases h
  · by_cases hfit : typed.length + 2 ≤ MAX_WORD_LEN
    · rw [htoo hfit (by omega)] at h
      cases h
    · rw [hlong hfit] at h
      cases h

set_option maxRecDepth 100000 in
theorem user_input_word_rejects_malformed_witness :
    3 < MAX_GENERATORS ∧ 10 < MAX_WORD_LEN ∧
    '\n' ∉ "a(b)^c".toList ∧ hat_without_digit 3 "a(b)^c".toList ∧
    (∀ word, user_input_word 3 10 "a(b)^c".toList
      ≠ Except.ok (WORD_INPUT_RET_CODES.WORD_INPUT_OK, word)) ∧
    user_input_word 3 10 "a(b)^c".toList
      = Except.ok (WORD_INPUT_RET_CODES.WORD_INPUT_INVALID, none) := by
  have hbad : hat_without_digit 3 "a(b)^c".toList :=
    ⟨"a(b".toList, [], "c".toList, by decide, by simp, Or.inr ⟨'c', [], by decide, by decide⟩⟩
  have hline : '\n' ∉ "a(b)^c".toList := by decide
  have h := user_input_word_rejects_malformed 3 10 "a(b)^c".toList (by decide) (by decide) hline
    (Or.inr (Or.inl hbad))
  exact ⟨by decide, by decide, hline, hbad, h.1, by decide⟩

set_option maxRecDepth 100000 in
/-- With a maximum word length of 5 the line (ab(ab, in which two brackets are
left open, is answered WORD_INPUT_TOO_LONG and not WORD_INPUT_INVALID: the length
of the line is tested before its characters are read. -/
theorem user_input_word_length_test_first :
    brackets_mismatched "(ab(ab".toList ∧
    user_input_word 2 5 "(ab(ab".toList
      = Except.ok (WORD_INPUT_RET_CODES.WORD_INPUT_TOO_LONG, none) ∧
    user_input_word 2 5 "(ab(ab".toList
      ≠ Except.ok (WORD_INPUT_RET_CODES.WORD_INPUT_INVALID, none) := by
  refine ⟨?_, ?_, ?_⟩
  · unfold brackets_mismatched
    decide
  · decide
  · decide

/-! ## The reflection, the root tables, the allocations and the matrix file -/

theorem cox_action_on_root_coefficients_off_diagonal (act1 act2 : Nat → Nat → ℚ) (N a : Nat)
    (r : ROOT) (h : ∀ i, i < N → i ≠ a → act1 i a = act2 i a) :
    cox_action_on_root_coefficients act1 N a r = cox_action_on_root_coefficients act2 N a r := by
  unfold cox_action_on_root_coefficients
  apply List.foldl_ext
  intro returned ii hii
  have hi : ii < N := List.mem_range.mp hii
  unfold cox_action_on_root_step
  by_cases hia : ii = a
  · simp [hia]
  · simp [hia, h ii hi hia]

/-- C37: the result of cox_action_on_root does not depend on the diagonal of the
table simple_action_results.  For two tables that agree off the diagonal, every
root and every generator a below num_generators, the coefficients computed are
the same and so is the whole result of cox_action_on_root; and
fill_cox_action_matrix leaves the diagonal as it was allocated. -/
theorem cox_action_on_root_ignores_diagonal (matrix_data : MATRIX_DATA)
    (act1 act2 : Nat → Nat → ℚ) (num_generators a : Nat)
    (hagree : ∀ i j, i < num_generators → j < num_generators → i ≠ j → act1 i j = act2 i j)
    (ha : a < num_generators) :
    (∀ r : ROOT, cox_action_on_root_coefficients act1 num_generators a r
        = cox_action_on_root_coefficients act2 num_generators a r) ∧
    (∀ (heap : List ROOT) (root : Nat) (root_table : Option ROOT_TABLE)
        (new_root_exists : Option Bool),
      cox_action_on_root { matrix_data with simple_action_results := some act1 } num_generators a
          heap root root_table new_root_exists
        = cox_action_on_root { matrix_data with simple_action_results := some act2 }
            num_generators a heap root root_table new_root_exists) ∧
    (∀ (scalar_products malloced : Nat → Nat → ℚ) (i : Nat),
      fill_cox_action_matrix scalar_products malloced num_generators i i = malloced i i) := by
  have hc : ∀ r : ROOT, cox_action_on_root_coefficients act1 num_generators a r
      = cox_action_on_root_coefficients act2 num_generators a r := fun r =>
    cox_action_on_root_coefficients_off_diagonal act1 act2 num_generators a r
      (fun i hi hia => hagree i a hi ha hia)
  refine ⟨hc, ?_, ?_⟩
  · intro heap root root_table new_root_exists
    unfold cox_action_on_root
    simp only [hc]
  · intro sp malloced i
    rw [fill_cox_action_matrix_apply]
    simp

theorem cox_action_on_root_ignores_diagonal_witness :
    (∀ i j, i < 2 → j < 2 → i ≠ j → S3_action i j = table_set S3_action 0 0 7 i j) ∧
    (0 : Nat) < 2 ∧
    cox_action_on_root_coefficients S3_action 2 0 S3_highest_root
      = cox_action_on_root_coefficients (table_set S3_action 0 0 7) 2 0 S3_highest_root := by
  have h : ∀ i j, i < 2 → j < 2 → i ≠ j → S3_action i j = table_set S3_action 0 0 7 i j := by
    intro i j hi hj hij
    unfold table_set
    rw [if_neg]
    omega
  exact ⟨h, by decide,
    (cox_action_on_root_ignores_diagonal S3_matrix_data S3_action (table_set S3_action 0 0 7) 2 0
      h (by decide)).1 S3_highest_root⟩

theorem fill_scalar_product_matrix_upper (c : Int → ℚ) (M1 M2 : Nat → Nat → Int)
    (g : Nat → Nat → ℚ) (N : Nat) (h : ∀ i j, i < j → j < N → M1 i j = M2 i j) :
    fill_scalar_product_matrix c M1 g N = fill_scalar_product_matrix c M2 g N := by
  unfold fill_scalar_product_matrix
  apply List.foldl_ext
  intro t row hrow
  apply List.foldl_ext
  intro t1 k hk
  have hrow1 : row < N := List.mem_range.mp hrow
  have hk1 : k < N - (row + 1) := List.mem_range.mp hk
  have hcol : row + 1 + k < N := by omega
  have hsp : cox_scalar_product c M1 row (row + 1 + k)
      = cox_scalar_product c M2 row (row + 1 + k) := by
    unfold cox_scalar_product
    rw [h row (row + 1 + k) (by omega) hcol]
  simp only [hsp]

theorem fill_scalar_product_matrix_symm (c : Int → ℚ) (M : Nat → Nat → Int)
    (g : Nat → Nat → ℚ) (N i j : Nat) (hi : i < N) (hj : j < N) :
    fill_scalar_product_matrix c M g N i j = fill_scalar_product_matrix c M g N j i := by
  rw [fill_scalar_product_matrix_apply c M g N i j, fill_scalar_product_matrix_apply c M g N j i,
    if_pos (And.intro hi hj), if_pos (And.intro hj hi)]
  by_cases hij : i = j
  · subst hij; rfl
  · rw [if_neg hij, if_neg (Ne.symm hij), min_comm, max_comm]

theorem generate_next_root_with_coxeter_matrix (M : Nat → Nat → Int) (md : MATRIX_DATA)
    (N : Nat) : ∀ fuel st root,
    generate_next_root (with_coxeter_matrix M md) N fuel st root
      = generate_next_root md N fuel st root := by
  intro fuel
  induction fuel with
  | zero => intro st root; rfl
  | succ fuel ih =>
    intro st root
    unfold generate_next_root
    have hrec : generate_next_root (with_coxeter_matrix M md) N fuel
        = generate_next_root md N fuel := by
      funext st1 root1
      exact ih st1 root1
    rw [hrec]
    rfl

theorem generate_root_table_body_with_coxeter_matrix (M : Nat → Nat → Int) (N fuel : Nat)
    (run : RootTableRun) (ii : Nat) :
    generate_root_table_body N fuel (run_with_coxeter_matrix M run) ii
      = (generate_root_table_body N fuel run ii).map (run_with_coxeter_matrix M) := by
  unfold generate_root_table_body
  simp only [run_with_coxeter_matrix]
  cases hfind : root_in_list run.store.heap run.store.minimal_root_table
      { init_root N with coefficients := (init_root N).coefficients.set ii 1 } N with
  | some e => rfl
  | none =>
    simp only [if_pos (rfl : INIT_ELEMENT_OK = INSERT_IN_TABLE_OK)]
    have h := generate_next_root_with_coxeter_matrix M
      { run.matrix_data with
        simple_roots := run.matrix_data.simple_roots.set ii (some run.store.heap.length) } N fuel
    simp only [with_coxeter_matrix] at h ⊢
    rw [h]
    cases generate_next_root
      { run.matrix_data with
        simple_roots := run.matrix_data.simple_roots.set ii (some run.store.heap.length) } N fuel
      _ _ with
    | ok st1 => rfl
    | error e => rfl

theorem foldlM_map_commute {α β : Type} (body : α → β → Except Fault α) (f : α → α)
    (h : ∀ x i, body (f x) i = (body x i).map f) :
    ∀ (l : List β) (x : α), l.foldlM body (f x) = (l.foldlM body x).map f := by
  intro l
  induction l with
  | nil => intro x; rfl
  | cons i l ih =>
    intro x
    simp only [List.foldlM_cons]
    rw [h x i]
    cases body x i with
    | ok y => exact ih y
    | error e => rfl

theorem generate_root_table_upper (c : Int → ℚ) (g1 g2 : Nat → Nat → ℚ)
    (M1 M2 : Nat → Nat → Int) (N fuel : Nat) (h : ∀ i j, i < j → j < N → M1 i j = M2 i j) :
    generate_root_table c g1 g2 (initial_matrix_data M2 N) N fuel
      = (generate_root_table c g1 g2 (initial_matrix_data M1 N) N fuel).map
          (run_with_coxeter_matrix M2) := by
  unfold generate_root_table
  simp only [initial_matrix_data]
  rw [← fill_scalar_product_matrix_upper c M1 M2 g1 N h]
  exact foldlM_map_commute (generate_root_table_body N fuel) (run_with_coxeter_matrix M2)
    (fun run ii => generate_root_table_body_with_coxeter_matrix M2 N fuel run ii) (List.range N)
    { matrix_data :=
        { coxeter_matrix := M1, scalar_products := some (fill_scalar_product_matrix c M1 g1 N),
          simple_action_results :=
            some (fill_cox_action_matrix (fill_scalar_product_matrix c M1 g1 N) g2 N),
          simple_roots := List.replicate N none },
      store := { heap := [], root_table := { first := [], length := 0 },
                 minimal_root_table := { first := [], length := 0 } } }

theorem cox_action_on_root_list_walk_with_coxeter_matrix (M : Nat → Nat → Int)
    (md : MATRIX_DATA) (generator N : Nat) : ∀ (l : List Nat) (heap : List ROOT)
      (new : Option ROOT_TABLE) (e : Option Bool),
    cox_action_on_root_list_walk (with_coxeter_matrix M md) generator N heap l new e
      = cox_action_on_root_list_walk md generator N heap l new e := by
  intro l
  induction l with
  | nil => intro heap new e; rfl
  | cons p l ih =>
    intro heap new e
    unfold cox_action_on_root_list_walk
    have hc : cox_action_on_root (with_coxeter_matrix M md) N generator heap p none e
        = cox_action_on_root md N generator heap p none e := rfl
    rw [hc]
    cases cox_action_on_root md N generator heap p none e with
    | error x => rfl
    | ok r =>
      simp only [bind, Except.bind]
      split_ifs
      · exact ih _ _ _
      · exact ih _ _ _

theorem generate_next_automaton_state_with_coxeter_matrix (M : Nat → Nat → Int)
    (md : MATRIX_DATA) (N : Nat) : ∀ fuel am tree_state generator,
    generate_next_automaton_state (with_coxeter_matrix M md) N fuel am tree_state generator
      = generate_next_automaton_state md N fuel am tree_state generator := by
  intro fuel
  induction fuel with
  | zero => intro am tree_state generator; rfl
  | succ fuel ih =>
    intro am tree_state generator
    unfold generate_next_automaton_state
    have hrec : generate_next_automaton_state (with_coxeter_matrix M md) N fuel
        = generate_next_automaton_state md N fuel := by
      funext am1 t1 g1
      exact ih am1 t1 g1
    rw [hrec]
    have hl : ∀ heap table new, cox_action_on_root_list (with_coxeter_matrix M md) heap table new
        generator N = cox_action_on_root_list md heap table new generator N := by
      intro heap table new
      unfold cox_action_on_root_list
      exact cox_action_on_root_list_walk_with_coxeter_matrix M md generator N _ _ _ _
    simp only [hl]
    rfl

theorem generate_state_tree_with_coxeter_matrix (M : Nat → Nat → Int) (md : MATRIX_DATA)
    (N : Nat) (heap : List ROOT) (tree : BINARY_TREE_ELEMENT) (fuel : Nat) :
    generate_state_tree (with_coxeter_matrix M md) N heap tree fuel
      = generate_state_tree md N heap tree fuel := by
  unfold generate_state_tree
  have hrec : generate_next_automaton_state (with_coxeter_matrix M md) N fuel
      = generate_next_automaton_state md N fuel := by
    funext am1 t1 g1
    exact generate_next_automaton_state_with_coxeter_matrix M md N fuel am1 t1 g1
  rw [hrec]

theorem build_automaton_upper (c : Int → ℚ) (M1 M2 : Nat → Nat → Int) (N fuel : Nat)
    (h : ∀ i j, i < j → j < N → M1 i j = M2 i j) :
    build_automaton c M2 N fuel
      = (build_automaton c M1 N fuel).map
          (fun r => (run_with_coxeter_matrix M2 r.1, r.2)) := by
  unfold build_automaton
  rw [generate_root_table_upper c _ _ M1 M2 N fuel h]
  cases generate_root_table c (fun _ _ => 0) (fun _ _ => 0) (initial_matrix_data M1 N) N fuel with
  | error e => rfl
  | ok run =>
    simp only [Except.map, bind, Except.bind]
    have hs := generate_state_tree_with_coxeter_matrix M2 run.matrix_data N run.store.heap
      BINARY_TREE_ELEMENT.NULL fuel
    simp only [run_with_coxeter_matrix] at hs ⊢
    rw [hs]
    cases generate_state_tree run.matrix_data N run.store.heap BINARY_TREE_ELEMENT.NULL fuel with
    | error e => rfl
    | ok am => rfl

/-- C40: for every integer matrix, symmetric or not, the table filled by
fill_scalar_product_matrix is symmetric, and it depends only on the entries
above the diagonal: two matrices that agree there give the same table of scalar
products, the same table simple_action_results, and the same outcome of
generate_root_table and of the whole construction (roots, root tables, simple
roots, states and binary tree), which differ in nothing but the Coxeter matrix
kept in the matrix data. -/
theorem scalar_products_from_upper_triangle (cos_pi_over : Int → ℚ)
    (M1 M2 : Nat → Nat → Int) (malloced_sp malloced_act : Nat → Nat → ℚ)
    (num_generators fuel : Nat)
    (hupper : ∀ i j, i < j → j < num_generators → M1 i j = M2 i j) :
    (∀ i j, i < num_generators → j < num_generators →
      fill_scalar_product_matrix cos_pi_over M1 malloced_sp num_generators i j
        = fill_scalar_product_matrix cos_pi_over M1 malloced_sp num_generators j i) ∧
    fill_scalar_product_matrix cos_pi_over M1 malloced_sp num_generators
      = fill_scalar_product_matrix cos_pi_over M2 malloced_sp num_generators ∧
    fill_cox_action_matrix
        (fill_scalar_product_matrix cos_pi_over M1 malloced_sp num_generators) malloced_act
        num_generators
      = fill_cox_action_matrix
          (fill_scalar_product_matrix cos_pi_over M2 malloced_sp num_generators) malloced_act
          num_generators ∧
    generate_root_table cos_pi_over malloced_sp malloced_act
        (initial_matrix_data M2 num_generators) num_generators fuel
      = (generate_root_table cos_pi_over malloced_sp malloced_act
          (initial_matrix_data M1 num_generators) num_generators fuel).map
          (run_with_coxeter_matrix M2) ∧
    build_automaton cos_pi_over M2 num_generators fuel
      = (build_automaton cos_pi_over M1 num_generators fuel).map
          (fun r => (run_with_coxeter_matrix M2 r.1, r.2)) := by
  have hsp := fill_scalar_product_matrix_upper cos_pi_over M1 M2 malloced_sp num_generators hupper
  refine ⟨?_, hsp, ?_, ?_, ?_⟩
  · intro i j hi hj
    exact fill_scalar_product_matrix_symm cos_pi_over M1 malloced_sp num_generators i j hi hj
  · rw [hsp]
  · exact generate_root_table_upper cos_pi_over malloced_sp malloced_act M1 M2 num_generators
      fuel hupper
  · exact build_automaton_upper cos_pi_over M1 M2 num_generators fuel hupper

set_option maxRecDepth 100000 in
theorem scalar_products_from_upper_triangle_witness :
    (∀ i j, i < j → j < 2 → S3_matrix i j = lopsided_matrix i j) ∧
    lopsided_matrix 1 0 ≠ S3_matrix 1 0 ∧
    build_automaton exact_cos_pi_over lopsided_matrix 2 4
      = (build_automaton exact_cos_pi_over S3_matrix 2 4).map
          (fun r => (run_with_coxeter_matrix lopsided_matrix r.1, r.2)) ∧
    run_summary (build_automaton exact_cos_pi_over lopsided_matrix 2 4) = some S3_summary := by
  have h : ∀ i j, i < j → j < 2 → S3_matrix i j = lopsided_matrix i j := by
    intro i j hij hj
    have hi0 : i = 0 := by omega
    have hj1 : j = 1 := by omega
    subst hi0; subst hj1
    decide
  have hb := (scalar_products_from_upper_triangle exact_cos_pi_over S3_matrix lopsided_matrix
    (fun _ _ => 0) (fun _ _ => 0) 2 4 h).2.2.2.2
  refine ⟨h, by decide, hb, ?_⟩
  decide!

theorem insert_in_table_walk_split (heap : List ROOT) (e N : Nat) :
    ∀ (rest : List Nat) (curr : Nat),
      (insert_in_table_walk heap e N curr rest).1 = INSERT_IN_TABLE_OK →
      ∃ before after, curr :: rest = before ++ after ∧
        (insert_in_table_walk heap e N curr rest).2 = before ++ e :: after := by
  intro rest
  induction rest with
  | nil =>
    intro curr hok
    unfold insert_in_table_walk at hok ⊢
    simp only at hok ⊢
    by_cases h0 : compare_roots (root_at heap curr) (root_at heap e) N = 0
    · rw [if_pos h0] at hok
      have hne : INSERT_IN_TABLE_ROOT_EXISTS ≠ INSERT_IN_TABLE_OK := by decide
      exact absurd hok hne
    · rw [if_neg h0]
      by_cases h1 : compare_roots (root_at heap curr) (root_at heap e) N < 0
      · rw [if_pos h1]
        exact ⟨[curr], [], rfl, rfl⟩
      · rw [if_neg h1]
        exact ⟨[], [curr], rfl, rfl⟩
  | cons next rest1 ih =>
    intro curr hok
    unfold insert_in_table_walk at hok ⊢
    simp only at hok ⊢
    by_cases h1 : compare_roots (root_at heap curr) (root_at heap e) N < 0
    · rw [if_pos h1] at hok ⊢
      obtain ⟨before, after, hsplit, hres⟩ := ih next hok
      refine ⟨curr :: before, after, ?_, ?_⟩
      · rw [hsplit]; rfl
      · simp only [hres]; rfl
    · rw [if_neg h1] at hok ⊢
      by_cases h0 : compare_roots (root_at heap curr) (root_at heap e) N = 0
      · rw [if_pos h0] at hok
        have hne : INSERT_IN_TABLE_ROOT_EXISTS ≠ INSERT_IN_TABLE_OK := by decide
        exact absurd hok hne
      · rw [if_neg h0]
        exact ⟨[], curr :: next :: rest1, rfl, rfl⟩

theorem insert_in_table_split (heap : List ROOT) (e N : Nat) (table : Option ROOT_TABLE)
    (hok : (insert_in_table heap e table N).1 = INSERT_IN_TABLE_OK) :
    ∃ before after, table_first table = before ++ after ∧
      (insert_in_table heap e table N).2.first = before ++ e :: after := by
  unfold insert_in_table at hok ⊢
  cases table with
  | none => exact ⟨[], [], rfl, rfl⟩
  | some t =>
    simp only [table_first] at hok ⊢
    cases hf : t.first with
    | nil =>
      simp only [hf]
      exact ⟨[], [], rfl, rfl⟩
    | cons curr rest =>
      simp only [hf] at hok ⊢
      by_cases hx : (insert_in_table_walk heap e N curr rest).1 = INSERT_IN_TABLE_ROOT_EXISTS
      · rw [if_pos hx] at hok
        simp only at hok
        rw [hx] at hok
        have hne : INSERT_IN_TABLE_ROOT_EXISTS ≠ INSERT_IN_TABLE_OK := by decide
        exact absurd hok hne
      · rw [if_neg hx] at hok ⊢
        exact insert_in_table_walk_split heap e N rest curr hok

/-- C35: insert_in_table preserves the invariant of an ordered root list.  If
every adjacent pair of the list ascends strictly under compare_roots and the
field length counts the list, both hold after the call; the call returns
INSERT_IN_TABLE_OK or INSERT_IN_TABLE_ROOT_EXISTS; on INSERT_IN_TABLE_OK the new
list is the old list with the new root linked in at one place, the old roots in
their old order, and length is one more; on INSERT_IN_TABLE_ROOT_EXISTS the list
and length are unchanged. -/
theorem insert_in_table_preserves_invariant (heap : List ROOT) (element num_generators : Nat)
    (table : Option ROOT_TABLE)
    (hchain : List.Chain' (roots_ascending heap num_generators) (table_first table))
    (hwf : table_length table = (table_first table).length) :
    List.Chain' (roots_ascending heap num_generators)
        (insert_in_table heap element table num_generators).2.first ∧
    (insert_in_table heap element table num_generators).2.length
      = (insert_in_table heap element table num_generators).2.first.length ∧
    ((insert_in_table heap element table num_generators).1 = INSERT_IN_TABLE_OK ∨
      (insert_in_table heap element table num_generators).1 = INSERT_IN_TABLE_ROOT_EXISTS) ∧
    ((insert_in_table heap element table num_generators).1 = INSERT_IN_TABLE_OK →
      (∃ before after, table_first table = before ++ after ∧
        (insert_in_table heap element table num_generators).2.first
          = before ++ element :: after) ∧
      (insert_in_table heap element table num_generators).2.length
        = table_length table + 1) ∧
    ((insert_in_table heap element table num_generators).1 = INSERT_IN_TABLE_ROOT_EXISTS →
      (insert_in_table heap element table num_generators).2.first = table_first table ∧
      (insert_in_table heap element table num_generators).2.length = table_length table) := by
  have hne : INSERT_IN_TABLE_ROOT_EXISTS ≠ INSERT_IN_TABLE_OK := by decide
  have hm := insert_in_table_mem heap element num_generators table hchain hwf
  have hs := insert_in_table_spec heap element num_generators table hchain hwf
  simp only at hs
  refine ⟨hm.1, hm.2.1, ?_, ?_, ?_⟩
  · rcases hs with h | h
    · exact Or.inl h.1
    · exact Or.inr h.1
  · intro hok
    refine ⟨insert_in_table_split heap element num_generators table hok, ?_⟩
    rcases hs with h | h
    · exact h.2.2.2.2
    · rw [h.1] at hok
      exact absurd hok hne
  · intro hex
    rcases hs with h | h
    · rw [h.1] at hex
      exact absurd hex.symm hne
    · exact ⟨h.2.1, h.2.2.1⟩

set_option maxRecDepth 100000 in
theorem insert_in_table_preserves_invariant_witness :
    List.Chain' (roots_ascending crossing_heap 2)
      (table_first (some { first := [0, 1], length := 2 })) ∧
    table_length (some { first := [0, 1], length := 2 })
      = (table_first (some { first := [0, 1], length := 2 })).length ∧
    (insert_in_table crossing_heap 2 (some { first := [0, 1], length := 2 }) 2).1
      = INSERT_IN_TABLE_OK ∧
    (insert_in_table crossing_heap 2 (some { first := [0, 1], length := 2 }) 2).2
      = { first := [2, 0, 1], length := 3 } ∧
    List.Chain' (roots_ascending crossing_heap 2)
      (insert_in_table crossing_heap 2 (some { first := [0, 1], length := 2 }) 2).2.first := by
  have hchain : List.Chain' (roots_ascending crossing_heap 2)
      (table_first (some { first := [0, 1], length := 2 })) := by
    simp only [table_first, List.chain'_cons, List.chain'_singleton, roots_ascending, and_true]
    decide!
  have hwf : table_length (some { first := [0, 1], length := 2 })
      = (table_first (some { first := [0, 1], length := 2 })).length := by decide
  exact ⟨hchain, hwf, by decide!, by decide!,
    (insert_in_table_preserves_invariant crossing_heap 2 2
      (some { first := [0, 1], length := 2 }) hchain hwf).1⟩

theorem action_coefficient_alone (act : Nat → Nat → ℚ) (N a : Nat) (r : ROOT)
    (hsmall : ∀ j, j < N → j ≠ a → ¬ |coefficient r j| > EPSILON_COMP_VAL)
    (hbig : |coefficient r a| > EPSILON_COMP_VAL) :
    action_coefficient act N a r a = -coefficient r a := by
  unfold action_coefficient
  rw [if_pos rfl, if_pos hbig]
  have hmap : (List.range N).map (action_term act a r) = (List.range N).map (fun _ => (0 : ℚ)) := by
    apply List.map_congr_left
    intro j hj
    unfold action_term
    rw [if_neg]
    intro h
    exact hsmall j (List.mem_range.mp hj) h.1 h.2
  rw [hmap]
  simp

theorem insert_in_table_walk_subset (heap : List ROOT) (e N : Nat) :
    ∀ (rest : List Nat) (curr : Nat) (x : Nat),
      x ∈ (insert_in_table_walk heap e N curr rest).2 → x = e ∨ x ∈ curr :: rest := by
  intro rest
  induction rest with
  | nil =>
    intro curr x hx
    unfold insert_in_table_walk at hx
    simp only at hx
    split_ifs at hx <;> simp at hx <;> simp <;> tauto
  | cons next rest1 ih =>
    intro curr x hx
    unfold insert_in_table_walk at hx
    simp only at hx
    split_ifs at hx
    · simp only [List.mem_cons] at hx
      rcases hx with hx | hx
      · right; simp [hx]
      · rcases ih next x hx with h | h
        · left; exact h
        · right; exact List.mem_cons_of_mem _ h
    · right; exact hx
    · simp only [List.mem_cons] at hx
      rcases hx with hx | hx
      · left; exact hx
      · right; simp only [List.mem_cons]; exact hx

theorem insert_in_table_subset (heap : List ROOT) (e N : Nat) (table : Option ROOT_TABLE)
    (x : Nat) (hx : x ∈ (insert_in_table heap e table N).2.first) :
    x = e ∨ x ∈ table_first table := by
  unfold insert_in_table at hx
  cases table with
  | none =>
    simp at hx
    left; exact hx
  | some t =>
    simp only [table_first] at hx ⊢
    cases hf : t.first with
    | nil =>
      simp [hf] at hx
      left; exact hx
    | cons curr rest =>
      simp only [hf] at hx
      split_ifs at hx
      · right; rw [← hf]; exact hx
      · exact insert_in_table_walk_subset heap e N rest curr x hx

theorem foldlM_safe {α β : Type} (body : α → β → Except Fault α) (P : α → Prop) (E : Fault) :
    ∀ (l : List β),
      (∀ x, ∀ i ∈ l, P x → body x i ≠ Except.error E ∧ ∀ y, body x i = Except.ok y → P y) →
      ∀ x, P x → l.foldlM body x ≠ Except.error E ∧ ∀ y, l.foldlM body x = Except.ok y → P y := by
  intro l
  induction l with
  | nil =>
    intro _ x hx
    refine ⟨fun h => (by cases h), ?_⟩
    intro y h
    cases h
    exact hx
  | cons i l ih =>
    intro hbody x hx
    have h1 := hbody x i (List.mem_cons_self i l) hx
    simp only [List.foldlM_cons]
    cases hb : body x i with
    | error e =>
      refine ⟨?_, fun y h => (by cases h)⟩
      intro h
      cases h
      exact h1.1 hb
    | ok y =>
      exact ih (fun x1 i1 hi1 hx1 => hbody x1 i1 (List.mem_cons_of_mem i hi1) hx1) y (h1.2 y hb)

set_option maxRecDepth 100000 in
/-- C39, at two refused allocation requests.  For the group with one generator,
when the request that init_root makes for the root of cox_action_on_root is
refused, the call of generate_next_root made by generate_root_table returns
GENERATE_NEXT_ROOT_MEM_ERR, and generate_root_table (where this is request 12)
returns GENERATE_ROOT_TABLE_OK.  For S_3, when the same request is refused in
the recursive call of generate_next_root on the root (1, 1), that call returns
GENERATE_NEXT_ROOT_MEM_ERR, the calling generate_next_root returns
GENERATE_NEXT_ROOT_OK, and generate_root_table (where this is request 23)
returns GENERATE_ROOT_TABLE_OK. -/
theorem generate_root_table_drops_memory_error :
    generate_next_root_code one_generator_matrix_data 1 4 one_generator_store 0 [false]
      = Except.ok { ret_code := GENERATE_NEXT_ROOT_MEM_ERR, store := one_generator_store,
                    allocations := [] } ∧
    (generate_root_table_code exact_cos_pi_over (fun _ _ => 0) (fun _ _ => 0)
        (initial_matrix_data one_generator_matrix 1) 1 5
        (List.replicate 11 true ++ [false])).map (fun r => (r.ret_code, r.run.store))
      = Except.ok (GENERATE_ROOT_TABLE_OK, one_generator_store) ∧
    generate_next_root_code S3_matrix_data 2 3 S3_store_at_recursion 2 [false]
      = Except.ok { ret_code := GENERATE_NEXT_ROOT_MEM_ERR, store := S3_store_at_recursion,
                    allocations := [] } ∧
    generate_next_root_code S3_matrix_data 2 4
        { heap := [simple_root 2 0], root_table := { first := [0], length := 1 },
          minimal_root_table := { first := [0], length := 1 } } 0
        (List.replicate 9 true ++ [false])
      = Except.ok { ret_code := GENERATE_NEXT_ROOT_OK, store := S3_store_at_recursion,
                    allocations := [] } ∧
    (generate_root_table_code exact_cos_pi_over (fun _ _ => 0) (fun _ _ => 0)
        (initial_matrix_data S3_matrix 2) 2 5
        (List.replicate 22 true ++ [false])).map (fun r => r.ret_code)
      = Except.ok GENERATE_ROOT_TABLE_OK := by
  refine ⟨?_, ?_, ?_, ?_, ?_⟩
  · decide!
  · decide!
  · decide!
  · decide!
  · decide!

set_option maxRecDepth 100000 in
/-- When every allocation request is granted, generate_root_table with its return
code returns GENERATE_ROOT_TABLE_OK and leaves what generate_root_table leaves,
on the matrices of the one-generator group, of S_3 and of S_4. -/
theorem generate_root_table_code_granted :
    (generate_root_table_code exact_cos_pi_over (fun _ _ => 0) (fun _ _ => 0)
        (initial_matrix_data one_generator_matrix 1) 1 5 []).map
        (fun r => (r.ret_code, r.run.store, r.run.matrix_data.simple_roots))
      = (generate_root_table exact_cos_pi_over (fun _ _ => 0) (fun _ _ => 0)
          (initial_matrix_data one_generator_matrix 1) 1 5).map
          (fun run => (GENERATE_ROOT_TABLE_OK, run.store, run.matrix_data.simple_roots)) ∧
    (generate_root_table_code exact_cos_pi_over (fun _ _ => 0) (fun _ _ => 0)
        (initial_matrix_data S3_matrix 2) 2 5 []).map
        (fun r => (r.ret_code, r.run.store, r.run.matrix_data.simple_roots))
      = (generate_root_table exact_cos_pi_over (fun _ _ => 0) (fun _ _ => 0)
          (initial_matrix_data S3_matrix 2) 2 5).map
          (fun run => (GENERATE_ROOT_TABLE_OK, run.store, run.matrix_data.simple_roots)) ∧
    (generate_root_table_code exact_cos_pi_over (fun _ _ => 0) (fun _ _ => 0)
        (initial_matrix_data S4_matrix 3) 3 7 []).map
        (fun r => (r.ret_code, r.run.store, r.run.matrix_data.simple_roots))
      = (generate_root_table exact_cos_pi_over (fun _ _ => 0) (fun _ _ => 0)
          (initial_matrix_data S4_matrix 3) 3 7).map
          (fun run => (GENERATE_ROOT_TABLE_OK, run.store, run.matrix_data.simple_roots)) := by
  refine ⟨?_, ?_, ?_⟩
  · decide!
  · decide!
  · decide!

set_option maxRecDepth 100000 in
/-- C31, on files for a matrix of width 2 and depth 2 with the bounds 10 and 10.
The file with two rows of two entries is loaded with FILE_INPUT_ERR_NONE; a
missing row, an extra row and a row with one entry are answered
FILE_INPUT_ERR_MAT_DATA, and a width of 12 FILE_INPUT_ERR_MAT_DIM; but for the
row 1 3 7, with three entries, no error code is returned: the third entry is
written past the end of the row of the matrix. -/
theorem load_matrix_from_file_long_row :
    load_matrix_from_file (some "1 2 2\n1 3\n3 1\n".toList) 10 10
      = Except.ok (FILE_INPUT_ERR_NONE, [[1, 3], [3, 1]],
          some { version := 1, width := 2, depth := 2 }) ∧
    load_matrix_from_file (some "1 2 2\n1 3\n".toList) 10 10
      = Except.ok (FILE_INPUT_ERR_MAT_DATA, [[1, 3]],
          some { version := 1, width := 2, depth := 2 }) ∧
    load_matrix_from_file (some "1 2 2\n1 3\n3 1\n1 1\n".toList) 10 10
      = Except.ok (FILE_INPUT_ERR_MAT_DATA, [[1, 3], [3, 1]],
          some { version := 1, width := 2, depth := 2 }) ∧
    load_matrix_from_file (some "1 2 2\n1 3\n3\n".toList) 10 10
      = Except.ok (FILE_INPUT_ERR_MAT_DATA, [[1, 3], [3]],
          some { version := 1, width := 2, depth := 2 }) ∧
    load_matrix_from_file (some "1 12 2\n1 3\n3 1\n".toList) 10 10
      = Except.ok (FILE_INPUT_ERR_MAT_DIM, [],
          some { version := 1, width := 12, depth := 2 }) ∧
    load_matrix_from_file (some "1 2 2\n1 3 7\n3 1\n".toList) 10 10
      = Except.error Fault.out_of_bounds := by
  refine ⟨?_, ?_, ?_, ?_, ?_, ?_⟩
  · decide
  · decide
  · decide
  · decide
  · decide
  · decide

theorem simple_root_enters_minimal (act : Nat → Nat → ℚ) (N : Nat) (st : RootStore) (ii : Nat)
    (hinv : store_invariant act N st)
    (hnone : root_in_list st.heap st.minimal_root_table (simple_root N ii) N = none) :
    st.heap.length ∈ (insert_in_table (st.heap ++ [simple_root N ii]) st.heap.length
      (some st.minimal_root_table) N).2.first := by
  have hchain : List.Chain' (roots_ascending (st.heap ++ [simple_root N ii]) N)
      (table_first (some st.minimal_root_table)) := by
    apply chain_transfer st.heap _ N _ _ hinv.minimal_chain
    intro y hy
    rw [root_at_append_lt _ _ _ (hinv.minimal_range y hy)]
  have hm := insert_in_table_mem (st.heap ++ [simple_root N ii]) st.heap.length N
    (some st.minimal_root_table) hchain hinv.minimal_length
  apply hm.2.2.2.2
  intro x hx heq
  have hne := (root_in_list_walk_none st.heap (simple_root N ii) N
    st.minimal_root_table.first).mp hnone x hx
  apply hne
  unfold roots_equal at heq
  rw [root_at_append_lt _ _ _ (hinv.minimal_range x hx), root_at_append_eq] at heq
  exact heq

theorem generate_root_table_body_simple_roots (act : Nat → Nat → ℚ) (N fuel : Nat)
    (run : RootTableRun) (ii : Nat) (run1 : RootTableRun)
    (h : generate_root_table_body N fuel run ii = Except.ok run1) (hii : ii < N)
    (hinv : run_invariant act N run) (hsr : simple_roots_minimal run) :
    simple_roots_minimal run1 ∧
      run1.matrix_data.simple_roots.length = run.matrix_data.simple_roots.length ∧
      (ii < run.matrix_data.simple_roots.length →
        ∃ p, run1.matrix_data.simple_roots.getD ii none = some p) ∧
      (∀ a, a ≠ ii → run1.matrix_data.simple_roots.getD a none
        = run.matrix_data.simple_roots.getD a none) := by
  obtain ⟨hact, hst, _, _⟩ := hinv
  rcases generate_root_table_body_inv N fuel run ii run1 h with
    ⟨x, hx, hrun1⟩ | ⟨hnone, st1, hgen, hrun1⟩
  · subst hrun1
    have hxm : x ∈ run.store.minimal_root_table.first :=
      (root_in_list_walk_some _ _ _ _ _ hx).1
    refine ⟨?_, ?_, ?_, ?_⟩
    · intro a p hp
      change (run.matrix_data.simple_roots.set ii (some x)).getD a none = some p at hp
      rw [getD_set_slot] at hp
      split_ifs at hp with hc
      · cases hp; exact hxm
      · exact hsr a p hp
    · exact List.length_set _ _ _
    · intro hlt
      refine ⟨x, ?_⟩
      change (run.matrix_data.simple_roots.set ii (some x)).getD ii none = some x
      rw [getD_set_slot, if_pos ⟨rfl, hlt⟩]
    · intro a ha
      change (run.matrix_data.simple_roots.set ii (some x)).getD a none = _
      rw [getD_set_slot, if_neg (fun e => ha e.1)]
  · subst hrun1
    obtain ⟨s1, s2, s3, _, s5⟩ := store_invariant_simple_root act N run.store ii hst hii
    have hL : run.store.heap.length < (run.store.heap ++ [simple_root N ii]).length := by
      simp
    obtain ⟨⟨p1, p2, p3, p4, p5, p6, p7⟩, pc⟩ := generate_next_root_post
      { run.matrix_data with
        simple_roots := run.matrix_data.simple_roots.set ii (some run.store.heap.length) }
      N act hact fuel _ _ _ hgen s1 hL
      (fun a => memo_slot_simple_root run.store.heap N ii a)
    have hnew := simple_root_enters_minimal act N run.store ii hst hnone
    refine ⟨?_, ?_, ?_, ?_⟩
    · intro a p hp
      change (run.matrix_data.simple_roots.set ii (some run.store.heap.length)).getD a none
        = some p at hp
      change p ∈ st1.minimal_root_table.first
      rw [getD_set_slot] at hp
      split_ifs at hp with hc
      · cases hp
        exact p4 _ hnew
      · exact p4 _ (s5 p (hsr a p hp))
    · exact List.length_set _ _ _
    · intro hlt
      refine ⟨run.store.heap.length, ?_⟩
      change (run.matrix_data.simple_roots.set ii (some run.store.heap.length)).getD ii none = _
      rw [getD_set_slot, if_pos ⟨rfl, hlt⟩]
    · intro a ha
      change (run.matrix_data.simple_roots.set ii (some run.store.heap.length)).getD a none = _
      rw [getD_set_slot, if_neg (fun e => ha e.1)]

theorem generate_root_table_loop_simple_roots (act : Nat → Nat → ℚ) (N fuel : Nat) :
    ∀ (l : List Nat) (run0 run : RootTableRun),
      l.foldlM (generate_root_table_body N fuel) run0 = Except.ok run →
      l.Nodup → (∀ a ∈ l, a < N) → run_invariant act N run0 → simple_roots_minimal run0 →
      simple_roots_minimal run ∧
        run.matrix_data.simple_roots.length = run0.matrix_data.simple_roots.length ∧
        (∀ a ∈ l, a < run0.matrix_data.simple_roots.length →
          ∃ p, run.matrix_data.simple_roots.getD a none = some p) ∧
        (∀ a, a ∉ l → run.matrix_data.simple_roots.getD a none
          = run0.matrix_data.simple_roots.getD a none) := by
  intro l
  induction l with
  | nil =>
    intro run0 run h _ _ _ hsr
    simp only [List.foldlM, pure, Except.pure, Except.ok.injEq] at h
    subst h
    exact ⟨hsr, rfl, fun a ha => absurd ha (List.not_mem_nil a), fun _ _ => rfl⟩
  | cons ii rest ih =>
    intro run0 run h hnd hlt hinv hsr
    rw [List.foldlM_cons] at h
    simp only [bind, Except.bind] at h
    split at h
    · cases h
    · rename_i mid hmid
      have hii := hlt ii (List.mem_cons_self _ _)
      have h1 := generate_root_table_body_invariant act N fuel run0 ii mid hmid hii hinv
      obtain ⟨b1, b2, b3, b4⟩ :=
        generate_root_table_body_simple_roots act N fuel run0 ii mid hmid hii hinv hsr
      have hnd1 := List.nodup_cons.mp hnd
      obtain ⟨k1, k2, k3, k4⟩ := ih mid run h hnd1.2
        (fun a ha => hlt a (List.mem_cons_of_mem _ ha)) h1 b1
      refine ⟨k1, k2.trans b2, ?_, ?_⟩
      · intro a ha halt
        rcases List.mem_cons.mp ha with e1 | e1
        · subst e1
          obtain ⟨p, hp⟩ := b3 halt
          exact ⟨p, by rw [k4 a hnd1.1]; exact hp⟩
        · exact k3 a e1 (by rw [b2]; exact halt)
      · intro a ha
        have ha1 : a ≠ ii := fun e1 => ha (e1 ▸ List.mem_cons_self _ _)
        have ha2 : a ∉ rest := fun e1 => ha (List.mem_cons_of_mem _ e1)
        rw [k4 a ha2, b4 a ha1]

/-- After generate_root_table on the initial matrix data, every cell of
simple_roots holds a root of the table of minimal roots. -/
theorem generate_root_table_simple_roots (cos_pi_over : Int → ℚ) (msp mact : Nat → Nat → ℚ)
    (M : Nat → Nat → Int) (N fuel : Nat) (run : RootTableRun)
    (h : generate_root_table cos_pi_over msp mact (initial_matrix_data M N) N fuel
      = Except.ok run) :
    ∀ a, a < N → ∃ p, run.matrix_data.simple_roots.getD a none = some p ∧
      p ∈ run.store.minimal_root_table.first := by
  unfold generate_root_table at h
  dsimp only at h
  obtain ⟨k1, k2, k3, _⟩ := generate_root_table_loop_simple_roots _ N fuel (List.range N) _ run h
    (List.nodup_range N) (fun a ha => List.mem_range.mp ha)
    ⟨rfl, store_invariant_empty _ N, fun x hx => absurd hx (List.not_mem_nil x),
      fun p hp _ => absurd hp (Nat.not_lt_zero _)⟩
    (by
      intro a p hp
      simp only [initial_matrix_data] at hp
      rw [List.getD_eq_getElem?_getD] at hp
      by_cases ha : a < N
      · simp [ha] at hp
      · simp [ha] at hp)
  intro a ha
  obtain ⟨p, hp⟩ := k3 a (List.mem_range.mpr ha) (by simp [initial_matrix_data]; exact ha)
  exact ⟨p, hp, k1 a p hp⟩

theorem cox_action_on_root_list_walk_ready (md : MATRIX_DATA) (g N : Nat) (heap : List ROOT)
    (hg : g < N) (hready : heap_ready heap N) :
    ∀ (l : List Nat) (new : Option ROOT_TABLE) (e : Option Bool),
      (∀ x ∈ l, memo_ready heap N x) → (∀ x ∈ table_first new, memo_ready heap N x) →
      ∃ r, cox_action_on_root_list_walk md g N heap l new e = Except.ok (heap, r) ∧
        ∀ x ∈ table_first r, memo_ready heap N x := by
  intro l
  induction l with
  | nil =>
    intro new e _ hnew
    exact ⟨new, rfl, hnew⟩
  | cons p rest ih =>
    intro new e hl hnew
    obtain ⟨hp, hpc⟩ := hl p (List.mem_cons_self _ _)
    obtain ⟨q, hq⟩ := hpc g hg
    have hq1 : q < heap.length := hready.1 p g q hq
    unfold cox_action_on_root_list_walk
    rw [cox_action_on_root_memo md N g heap p q none e hq]
    simp only [bind, Except.bind]
    have hrest : ∀ x ∈ rest, memo_ready heap N x := fun x hx => hl x (List.mem_cons_of_mem _ hx)
    by_cases hflag : (root_at heap q).positive_minimal = true
    · rw [if_pos hflag]
      apply ih _ _ hrest
      intro x hx
      rcases insert_in_table_subset heap q N new x hx with h | h
      · rw [h]; exact ⟨hq1, hready.2 q hq1 hflag⟩
      · exact hnew x h
    · rw [if_neg hflag]
      exact ih _ _ hrest hnew

theorem add_state_to_binary_tree_total (heap : List ROOT) (states : List AUTOMATON_STATE)
    (new : Nat) (ns : AUTOMATON_STATE) (tn : ROOT_TABLE) (N : Nat)
    (hns : ns.root_table = some tn) :
    ∀ (tree : BINARY_TREE_ELEMENT),
      (∀ s, s ∈ binary_tree_states tree → ∃ t, (state_at states s).root_table = some t) →
      ∃ r, add_state_to_binary_tree heap states new ns N tree = Except.ok r := by
  intro tree
  induction tree with
  | NULL => intro _; exact ⟨_, rfl⟩
  | node state left right ihl ihr =>
    intro htab
    obtain ⟨t, ht⟩ := htab state (by simp [binary_tree_states])
    have hl : ∀ s, s ∈ binary_tree_states left → ∃ t, (state_at states s).root_table = some t :=
      fun s hs => htab s (by simp [binary_tree_states]; exact Or.inl hs)
    have hr : ∀ s, s ∈ binary_tree_states right → ∃ t, (state_at states s).root_table = some t :=
      fun s hs => htab s (by simp [binary_tree_states]; exact Or.inr (Or.inr hs))
    obtain ⟨rl, hrl⟩ := ihl hl
    obtain ⟨rr, hrr⟩ := ihr hr
    unfold add_state_to_binary_tree
    have hc : ∃ c, compare_states heap ns (state_at states state) N = Except.ok c := by
      unfold compare_states
      rw [hns, ht]
      simp only
      split_ifs <;> exact ⟨_, rfl⟩
    obtain ⟨c, hc⟩ := hc
    rw [hc]
    simp only [bind, Except.bind]
    split_ifs
    · rw [hrl]; exact ⟨_, rfl⟩
    · rw [hrr]; exact ⟨_, rfl⟩
    · exact ⟨_, rfl⟩
    · exact ⟨_, rfl⟩

theorem states_ready_set_next_state (heap : List ROOT) (N : Nat) (am : Automaton) (u g : Nat)
    (t : Option Nat) (tree : BINARY_TREE_ELEMENT) (hs : states_ready heap N am)
    (htree : ∀ s, s ∈ binary_tree_states tree → s < am.states.length) :
    states_ready heap N
      { heap := heap, states := set_next_state am.states u g t, binary_tree := tree } := by
  constructor
  · rfl
  · intro v hv
    change v < (set_next_state am.states u g t).length at hv
    rw [set_next_state_length] at hv
    change ∃ t1, (state_at (set_next_state am.states u g t) v).root_table = some t1 ∧ _
    rw [state_at_root_table_set_next_state]
    exact hs.tables v hv
  · intro s hs1
    change s < (set_next_state am.states u g t).length
    rw [set_next_state_length]
    exact htree s hs1

theorem generate_next_automaton_state_ready (md : MATRIX_DATA) (N : Nat) (heap : List ROOT)
    (hready : heap_ready heap N)
    (hsr : ∀ g, g < N → ∃ sr, md.simple_roots.getD g none = some sr ∧ memo_ready heap N sr) :
    ∀ (fuel : Nat) (am : Automaton) (u g : Nat), states_ready heap N am →
      u < am.states.length → g < N →
      (∀ E, E ≠ Fault.out_of_fuel →
        generate_next_automaton_state md N fuel am u g ≠ Except.error E) ∧
      ∀ am1, generate_next_automaton_state md N fuel am u g = Except.ok am1 →
        states_ready heap N am1 ∧ am.states.length ≤ am1.states.length := by
  intro fuel
  induction fuel with
  | zero =>
    intro am u g _ _ _
    refine ⟨?_, fun am1 h => (by cases h)⟩
    intro E hE h
    cases h
    exact hE rfl
  | succ fuel ih =>
    intro am u g hs hu hg
    obtain ⟨sr, hsr1, hsr2⟩ := hsr g hg
    obtain ⟨table, htable, hgood⟩ := hs.tables u hu
    have hheap : am.heap = heap := hs.heap_eq
    unfold generate_next_automaton_state
    simp only [hsr1, htable]
    cases hfind : root_in_list am.heap table (root_at am.heap sr) N with
    | some e =>
      simp only
      refine ⟨fun E _ h => (by cases h), ?_⟩
      intro am1 h
      cases h
      refine ⟨?_, ?_⟩
      · have := states_ready_set_next_state heap N am u g none am.binary_tree hs hs.catalog
        rw [← hheap] at this ⊢
        exact this
      · show am.states.length ≤ (set_next_state am.states u g none).length
        rw [set_next_state_length]
    | none =>
      simp only
      obtain ⟨r, hwalk, hr⟩ := cox_action_on_root_list_walk_ready md g N heap hg hready
        table.first none none hgood (fun x hx => (by cases hx))
      have hlist : cox_action_on_root_list md am.heap table none g N = Except.ok (heap, r) := by
        unfold cox_action_on_root_list
        rw [hheap]
        exact hwalk
      rw [hlist]
      simp only [bind, Except.bind]
      have hins : ∀ x ∈ (insert_in_table heap sr r N).2.first, memo_ready heap N x := by
        intro x hx
        rcases insert_in_table_subset heap sr N r x hx with h | h
        · rw [h]; exact hsr2
        · exact hr x h
      obtain ⟨added, hadd⟩ := add_state_to_binary_tree_total heap am.states am.states.length
        (successor_state N (insert_in_table heap sr r N).2) (insert_in_table heap sr r N).2 N rfl
        am.binary_tree
        (fun s hs1 => (by
          obtain ⟨t, ht, _⟩ := hs.tables s (hs.catalog s hs1)
          exact ⟨t, ht⟩))
      rw [hadd]
      simp only
      have hok := add_state_to_binary_tree_ok heap am.states am.states.length
        (successor_state N (insert_in_table heap sr r N).2) N am.binary_tree added hadd
      by_cases hk : added.ret_code = ADD_STATE_TO_BINARY_TREE_OK
      · rw [if_pos hk]
        have hperm : (binary_tree_states added.tree).Perm
            (am.states.length :: binary_tree_states am.binary_tree) := by
          rcases hok with ⟨_, hp⟩ | ⟨hx, _⟩
          · exact hp
          · rw [hk] at hx
            exact absurd hx (by decide)
        have hstart : states_ready heap N
            { heap := heap
              states := set_next_state
                (am.states ++ [successor_state N (insert_in_table heap sr r N).2]) u g
                (some am.states.length)
              binary_tree := added.tree } := by
          constructor
          · rfl
          · intro v hv
            change v < (set_next_state _ u g _).length at hv
            rw [set_next_state_length, List.length_append, List.length_singleton] at hv
            change ∃ t1, (state_at (set_next_state _ u g _) v).root_table = some t1 ∧ _
            rw [state_at_root_table_set_next_state]
            by_cases hvl : v < am.states.length
            · rw [state_at_append_lt _ _ _ hvl]
              exact hs.tables v hvl
            · have hve : v = am.states.length := by omega
              rw [hve, state_at_append_eq]
              exact ⟨_, rfl, hins⟩
          · intro s hs1
            change s < (set_next_state _ u g _).length
            rw [set_next_state_length, List.length_append, List.length_singleton]
            rcases List.mem_cons.mp (hperm.subset hs1) with h | h
            · omega
            · have := hs.catalog s h
              omega
        have hlen0 : am.states.length + 1
            = (set_next_state
                (am.states ++ [successor_state N (insert_in_table heap sr r N).2]) u g
                (some am.states.length)).length := by
          rw [set_next_state_length, List.length_append, List.length_singleton]
        have hfold := fun E (hE : E ≠ Fault.out_of_fuel) => foldlM_safe
          (fun am2 ii => generate_next_automaton_state md N fuel am2 am.states.length ii)
          (fun am2 => states_ready heap N am2 ∧ am.states.length + 1 ≤ am2.states.length)
          E (List.range N)
          (by
            intro x i hi hx
            have hb := ih x am.states.length i hx.1 (by omega) (List.mem_range.mp hi)
            refine ⟨hb.1 E hE, ?_⟩
            intro y hy
            have := hb.2 y hy
            exact ⟨this.1, by omega⟩)
          { heap := heap
            states := set_next_state
              (am.states ++ [successor_state N (insert_in_table heap sr r N).2]) u g
              (some am.states.length)
            binary_tree := added.tree } ⟨hstart, by rw [← hlen0]⟩
        refine ⟨fun E hE => (hfold E hE).1, ?_⟩
        intro am1 h
        have := (hfold Fault.null_dereference (by decide)).2 am1 h
        exact ⟨this.1, by omega⟩
      · rw [if_neg hk]
        by_cases hx : added.ret_code = ADD_STATE_TO_BINARY_TREE_EXISTS
        · rw [if_pos hx]
          refine ⟨fun E _ h => (by cases h), ?_⟩
          intro am1 h
          cases h
          have htree : added.tree = am.binary_tree := by
            rcases hok with ⟨hk1, _⟩ | ⟨_, ht, _⟩
            · exact absurd hk1 hk
            · exact ht
          refine ⟨?_, ?_⟩
          · rw [htree]
            exact states_ready_set_next_state heap N am u g added.existing am.binary_tree hs
              hs.catalog
          · show am.states.length ≤ (set_next_state am.states u g added.existing).length
            rw [set_next_state_length]
        · rw [if_neg hx]
          refine ⟨fun E _ h => (by cases h), ?_⟩
          intro am1 h
          cases h
          rcases hok with ⟨hk1, _⟩ | ⟨hx1, _⟩
          · exact absurd hk1 hk
          · exact absurd hx1 hx

theorem generate_state_tree_ready (md : MATRIX_DATA) (N : Nat) (heap : List ROOT)
    (hready : heap_ready heap N)
    (hsr : ∀ g, g < N → ∃ sr, md.simple_roots.getD g none = some sr ∧ memo_ready heap N sr)
    (fuel : Nat) :
    (∀ E, E ≠ Fault.out_of_fuel →
        generate_state_tree md N heap BINARY_TREE_ELEMENT.NULL fuel ≠ Except.error E) ∧
      ∀ am, generate_state_tree md N heap BINARY_TREE_ELEMENT.NULL fuel = Except.ok am →
        states_ready heap N am := by
  unfold generate_state_tree
  have hstart : states_ready heap N
      { heap := heap
        states := [{ create_state N with root_table := some { first := [], length := 0 } }]
        binary_tree := BINARY_TREE_ELEMENT.NULL } := by
    constructor
    · rfl
    · intro v hv
      have hv0 : v = 0 := by
        simp only [List.length_singleton] at hv
        omega
      subst hv0
      exact ⟨{ first := [], length := 0 }, rfl, fun x hx => (by cases hx)⟩
    · intro s hs
      cases hs
  have hfold := fun E (hE : E ≠ Fault.out_of_fuel) => foldlM_safe
    (fun am ii => generate_next_automaton_state md N fuel am 0 ii)
    (fun am => states_ready heap N am ∧ 0 < am.states.length)
    E (List.range N)
    (by
      intro x i hi hx
      have hb := generate_next_automaton_state_ready md N heap hready hsr fuel x 0 i hx.1 hx.2
        (List.mem_range.mp hi)
      refine ⟨hb.1 E hE, ?_⟩
      intro y hy
      have := hb.2 y hy
      exact ⟨this.1, by omega⟩)
    { heap := heap
      states := [{ create_state N with root_table := some { first := [], length := 0 } }]
      binary_tree := BINARY_TREE_ELEMENT.NULL } ⟨hstart, by simp⟩
  refine ⟨fun E hE => (hfold E hE).1, ?_⟩
  intro am h
  exact ((hfold Fault.null_dereference (by decide)).2 am h).1

theorem run_invariant_heap_ready (act : Nat → Nat → ℚ) (N : Nat) (run : RootTableRun)
    (hinv : run_invariant act N run) : heap_ready run.store.heap N := by
  obtain ⟨_, hst, _, hflag⟩ := hinv
  exact ⟨fun p a q hq => hst.table_range q (hst.memo_agree p a q hq).1, hflag⟩

/-- C33: after generate_root_table has returned, every root of the table of
minimal roots, every root whose flag positive_minimal is set and every simple
root has next_roots[a] set for every generator a; cox_action_on_root returns a
memo slot that is set without reading the root table; and, for every fuel,
generate_state_tree on the outcome either returns with the heap unchanged or
runs out of fuel: it never reaches the lookup in the NULL root table that
cox_action_on_root_list passes on. -/
theorem state_tree_reads_memo_slots (cos_pi_over : Int → ℚ)
    (malloced_sp malloced_act : Nat → Nat → ℚ) (coxeter_matrix : Nat → Nat → Int)
    (num_generators fuel : Nat) (run : RootTableRun)
    (hrun : generate_root_table cos_pi_over malloced_sp malloced_act
      (initial_matrix_data coxeter_matrix num_generators) num_generators fuel = Except.ok run) :
    (∀ x ∈ run.store.minimal_root_table.first, ∀ a, a < num_generators →
      ∃ q, memo_slot run.store.heap x a = some q) ∧
    (∀ p, p < run.store.heap.length → (root_at run.store.heap p).positive_minimal = true →
      ∀ a, a < num_generators → ∃ q, memo_slot run.store.heap p a = some q) ∧
    (∀ g, g < num_generators →
      ∃ sr, run.matrix_data.simple_roots.getD g none = some sr ∧
        sr ∈ run.store.minimal_root_table.first ∧
        ∀ a, a < num_generators → ∃ q, memo_slot run.store.heap sr a = some q) ∧
    (∀ (p a q : Nat) (table : Option ROOT_TABLE) (e : Option Bool),
      memo_slot run.store.heap p a = some q →
      cox_action_on_root run.matrix_data num_generators a run.store.heap p table e
        = Except.ok { heap := run.store.heap, returned_root := q, new_root_exists := e }) ∧
    (∀ fuel1,
      generate_state_tree run.matrix_data num_generators run.store.heap
          BINARY_TREE_ELEMENT.NULL fuel1 = Except.error Fault.out_of_fuel ∨
        ∃ am, generate_state_tree run.matrix_data num_generators run.store.heap
            BINARY_TREE_ELEMENT.NULL fuel1 = Except.ok am ∧ am.heap = run.store.heap) := by
  have hinv := generate_root_table_filled cos_pi_over malloced_sp malloced_act coxeter_matrix
    num_generators fuel run hrun
  have hsimple := generate_root_table_simple_roots cos_pi_over malloced_sp malloced_act
    coxeter_matrix num_generators fuel run hrun
  have hready := run_invariant_heap_ready _ num_generators run hinv
  obtain ⟨_, hst, hmin, hflag⟩ := hinv
  have hsr : ∀ g, g < num_generators →
      ∃ sr, run.matrix_data.simple_roots.getD g none = some sr ∧
        memo_ready run.store.heap num_generators sr := by
    intro g hg
    obtain ⟨p, hp, hpm⟩ := hsimple g hg
    exact ⟨p, hp, hst.minimal_range p hpm, hmin p hpm⟩
  refine ⟨hmin, hflag, ?_, ?_, ?_⟩
  · intro g hg
    obtain ⟨p, hp, hpm⟩ := hsimple g hg
    exact ⟨p, hp, hpm, hmin p hpm⟩
  · intro p a q table e hq
    exact cox_action_on_root_memo run.matrix_data num_generators a run.store.heap p q table e hq
  · intro fuel1
    have hg := generate_state_tree_ready run.matrix_data num_generators run.store.heap hready
      hsr fuel1
    cases hres : generate_state_tree run.matrix_data num_generators run.store.heap
        BINARY_TREE_ELEMENT.NULL fuel1 with
    | error E =>
      left
      by_cases hE : E = Fault.out_of_fuel
      · rw [hE]
      · exact absurd hres (hg.1 E hE)
    | ok am =>
      right
      exact ⟨am, rfl, (hg.2 am hres).heap_eq⟩

set_option maxRecDepth 100000 in
theorem state_tree_reads_memo_slots_witness :
    ∃ run, generate_root_table exact_cos_pi_over (fun _ _ => 0) (fun _ _ => 0)
        (initial_matrix_data S3_matrix 2) 2 4 = Except.ok run ∧
      (∀ g, g < 2 →
        ∃ sr, run.matrix_data.simple_roots.getD g none = some sr ∧
          sr ∈ run.store.minimal_root_table.first ∧
          ∀ a, a < 2 → ∃ q, memo_slot run.store.heap sr a = some q) ∧
      (generate_state_tree run.matrix_data 2 run.store.heap BINARY_TREE_ELEMENT.NULL 4
          = Except.error Fault.out_of_fuel ∨
        ∃ am, generate_state_tree run.matrix_data 2 run.store.heap BINARY_TREE_ELEMENT.NULL 4
            = Except.ok am ∧ am.heap = run.store.heap) := by
  obtain ⟨run, hrun, _⟩ := S3_root_table_run
  have h := state_tree_reads_memo_slots exact_cos_pi_over (fun _ _ => 0) (fun _ _ => 0)
    S3_matrix 2 4 run hrun
  exact ⟨run, hrun, h.2.2.1, h.2.2.2.2 4⟩

theorem flags_kept_refl (heap : List ROOT) : flags_kept heap heap := fun _ _ => rfl

theorem flags_kept_trans (h1 h2 h3 : List ROOT) (hlen : h1.length ≤ h2.length)
    (a : flags_kept h1 h2) (b : flags_kept h2 h3) : flags_kept h1 h3 := by
  intro p hp
  rw [b p (by omega), a p hp]

theorem cox_scalar_product_root_congr (sp : Nat → Nat → ℚ) (a N : Nat) (r r1 : ROOT)
    (h : r.coefficients = r1.coefficients) :
    cox_scalar_product_root sp a r N = cox_scalar_product_root sp a r1 N := by
  unfold cox_scalar_product_root
  rw [h]

theorem first_produced_keep (sp act : Nat → Nat → ℚ) (N : Nat) (heap heap1 : List ROOT) (p : Nat)
    (h : first_produced sp act N heap p) (hp : p < heap.length)
    (hext : heap_extends heap heap1) (hfl : flags_kept heap heap1) :
    first_produced sp act N heap1 p := by
  have hcp := (hext.2 p hp).1
  rcases h with ⟨ii, hii, hco, hflag⟩ | ⟨parent, a, hpar, ha, hpf, hmemo, hco, hiff⟩
  · left
    exact ⟨ii, hii, by rw [hcp, hco], by rw [hfl p hp, hflag]⟩
  · right
    refine ⟨parent, a, by have := hext.1; omega, ha, by rw [hfl parent hpar, hpf],
      (hext.2 parent hpar).2 a p hmemo, ?_, ?_⟩
    · rw [hcp, hco]
      rw [computed_root_congr act N a _ _ (hext.2 parent hpar).1]
    · rw [hfl p hp, root_positive_congr _ _ N hcp,
        cox_scalar_product_root_congr sp a N _ _ hcp]
      exact hiff

theorem tables_consistent_keep (sp act : Nat → Nat → ℚ) (N : Nat) (st : RootStore)
    (heap1 : List ROOT) (h : tables_consistent sp act N st)
    (hext : heap_extends st.heap heap1) (hfl : flags_kept st.heap heap1)
    (hrange : ∀ x ∈ st.minimal_root_table.first, x < st.heap.length)
    (hlen : heap1.length = st.heap.length) :
    tables_consistent sp act N { st with heap := heap1 } := by
  constructor
  · exact h.minimal_registry
  · intro x hx
    show (root_at heap1 x).positive_minimal = true
    rw [hfl x (hrange x hx)]
    exact h.minimal_flag x hx
  · intro p hp hf
    change p < heap1.length at hp
    change (root_at heap1 p).positive_minimal = true at hf
    rw [hlen] at hp
    rw [hfl p hp] at hf
    exact h.flag_minimal p hp hf
  · intro p hp
    change p < heap1.length at hp
    rw [hlen] at hp
    exact h.heap_registry p hp
  · intro p hp
    change p < heap1.length at hp
    rw [hlen] at hp
    exact first_produced_keep sp act N st.heap heap1 p (h.origin p hp) hp hext hfl

/-- One pass of the loop of generate_next_root keeps tables_consistent and the
flags of the roots of the heap, when the recursive call does. -/
theorem generate_next_root_body_consistent (md : MATRIX_DATA) (N root : Nat)
    (recurse : RootStore → Nat → Except Fault RootStore) (sp act : Nat → Nat → ℚ)
    (hact : md.simple_action_results = some act) (hsp : md.scalar_products = some sp)
    (hrec : ∀ S p S1, recurse S p = Except.ok S1 → store_invariant act N S →
      p < S.heap.length → (∀ a, memo_slot S.heap p a = none) →
      tables_consistent sp act N S → (root_at S.heap p).positive_minimal = true →
      tables_consistent sp act N S1 ∧ flags_kept S.heap S1.heap ∧
        heap_extends S.heap S1.heap)
    (st : RootStore) (e : Option Bool) (ii : Nat) (r : RootStore × Option Bool)
    (h : generate_next_root_body md N root recurse (st, e) ii = Except.ok r)
    (hinv : store_invariant act N st) (hroot : root < st.heap.length) (hii : ii < N)
    (hmemo : memo_slot st.heap root ii = none)
    (hcons : tables_consistent sp act N st)
    (hrf : (root_at st.heap root).positive_minimal = true) :
    tables_consistent sp act N r.1 ∧ flags_kept st.heap r.1.heap := by
  rcases generate_next_root_body_inv md N root recurse st e ii r act hact hmemo h with
    ⟨x, hx, hr⟩ | ⟨hnone, H, sp1, positive, hH, hsp1, hpos, hcase⟩
  · subst hr
    obtain ⟨_, h2, _, _⟩ := store_invariant_found act N st root ii x hinv hroot hmemo hx
    have hfl : flags_kept st.heap (memo_write st.heap root ii x) :=
      fun p _ => memo_write_flag st.heap root ii x p
    exact ⟨tables_consistent_keep sp act N st _ hcons h2 hfl hinv.minimal_range
      (memo_write_length _ _ _ _), hfl⟩
  · rw [hsp] at hsp1
    simp only [Option.some.injEq] at hsp1
    subst hsp1
    obtain ⟨c, hc⟩ : ∃ c, c = computed_root act N ii (root_at st.heap root) := ⟨_, rfl⟩
    rw [← hc] at hH hnone
    have hfacts := fun flag => new_root_heap_facts st.heap c root ii flag hroot
    have hatHL : root_at H st.heap.length = c := by rw [hH]; exact (hfacts true).2.2.1
    rw [hatHL] at hpos hcase
    have hmin_transfer : ∀ flag, List.Chain'
        (roots_ascending (flag_write H st.heap.length flag) N) st.minimal_root_table.first := by
      intro flag
      apply chain_transfer st.heap _ N _ _ hinv.minimal_chain
      intro y hy
      rw [hH]
      exact ((hfacts flag).2.2.2.2.2.1 y (hinv.minimal_range y hy)).1
    have hkept : ∀ flag, flags_kept st.heap (flag_write H st.heap.length flag) := by
      intro flag p hp
      rw [hH]
      exact ((hfacts flag).2.2.2.2.2.1 p hp).2.1
    have hlenF : ∀ flag, (flag_write H st.heap.length flag).length = st.heap.length + 1 := by
      intro flag
      rw [hH]; exact (hfacts flag).1
    have hatF : ∀ flag, root_at (flag_write H st.heap.length flag) st.heap.length
        = { c with positive_minimal := flag } := by
      intro flag
      rw [hH]; exact (hfacts flag).2.1
    have hnoneq : ∀ x ∈ st.root_table.first, compare_roots (root_at st.heap x) c N ≠ 0 :=
      (root_in_list_walk_none st.heap c N st.root_table.first).mp hnone
    -- the way the new root has come into the heap
    have horigin : ∀ flag, flag = (positive && decide (cox_scalar_product_root sp ii c N
          < 1 - EPSILON_COMP_VAL)) →
        heap_extends st.heap (flag_write H st.heap.length flag) →
        memo_slot (flag_write H st.heap.length flag) root ii = some st.heap.length →
        first_produced sp act N (flag_write H st.heap.length flag) st.heap.length := by
      intro flag hflag hext hslot
      right
      refine ⟨root, ii, by rw [hlenF]; omega, hii, by rw [hkept flag root hroot, hrf], hslot,
        ?_, ?_⟩
      · rw [hatF flag]
        show c.coefficients = _
        rw [hc]
        rw [computed_root_congr act N ii _ _ (hext.2 root hroot).1]
      · rw [hatF flag]
        rw [root_positive_congr { c with positive_minimal := flag } c N rfl,
          cox_scalar_product_root_congr sp ii N { c with positive_minimal := flag } c rfl, hpos]
        show flag = true ↔ _
        rw [hflag]
        simp
    rcases hcase with ⟨hflag, st1, hrun, hr⟩ | ⟨hflag, hr⟩
    · subst hr
      have hposT : positive = true := and_eq_true_left _ _ hflag
      obtain ⟨hm_chain, hm_len, hm_sub, hm_sup, hm_in⟩ :=
        insert_in_table_mem (flag_write H st.heap.length true) st.heap.length N
          (some st.minimal_root_table) (hmin_transfer true) hinv.minimal_length
      have hnew := store_invariant_new act N st root ii true
        (insert_in_table (flag_write H st.heap.length true) st.heap.length
          (some st.minimal_root_table) N).2 hinv hroot hii hmemo (by rw [← hc]; exact hnone)
        (by intro _; rw [← hc, hpos, hposT])
        (by rw [← hc, ← hH]; exact hm_chain) hm_len hm_sub (fun _ => rfl)
      rw [← hc, ← hH] at hnew
      obtain ⟨n1, n2, n3, n4, n5, n6⟩ := hnew
      have hLreg := (n1.memo_agree root ii st.heap.length n4).1
      have hLmin : st.heap.length ∈ (insert_in_table (flag_write H st.heap.length true)
          st.heap.length (some st.minimal_root_table) N).2.first := by
        apply hm_in
        intro x hx heq
        change x ∈ st.minimal_root_table.first at hx
        unfold roots_equal at heq
        rw [hatF true] at heq
        have hx1 := hinv.minimal_range x hx
        have hcg := compare_roots_congr (root_at (flag_write H st.heap.length true) x)
          (root_at st.heap x) { c with positive_minimal := true } c N
          (by rw [hH]; exact ((hfacts true).2.2.2.2.2.1 x hx1).1) rfl
        rw [hcg] at heq
        exact hnoneq x (hcons.minimal_registry x hx) heq
      have hS : tables_consistent sp act N
          { heap := flag_write H st.heap.length true
            root_table := (insert_in_table H st.heap.length (some st.root_table) N).2
            minimal_root_table :=
              (insert_in_table (flag_write H st.heap.length true) st.heap.length
                (some st.minimal_root_table) N).2 } := by
        constructor
        · intro x hx
          rcases hm_sub x hx with e1 | e1
          · rw [e1]; exact hLreg
          · exact n3 x (hcons.minimal_registry x e1)
        · intro x hx
          show (root_at (flag_write H st.heap.length true) x).positive_minimal = true
          rcases hm_sub x hx with e1 | e1
          · rw [e1, hatF true]
          · rw [hkept true x (hinv.minimal_range x e1)]
            exact hcons.minimal_flag x e1
        · intro p hp hf
          change p < (flag_write H st.heap.length true).length at hp
          change (root_at (flag_write H st.heap.length true) p).positive_minimal = true at hf
          rw [hlenF] at hp
          by_cases hpL : p = st.heap.length
          · rw [hpL]; exact hLmin
          · have hp1 : p < st.heap.length := by omega
            rw [hkept true p hp1] at hf
            exact hm_sup p (hcons.flag_minimal p hp1 hf)
        · intro p hp
          change p < (flag_write H st.heap.length true).length at hp
          rw [hlenF] at hp
          by_cases hpL : p = st.heap.length
          · rw [hpL]; exact hLreg
          · exact n3 p (hcons.heap_registry p (by omega))
        · intro p hp
          change p < (flag_write H st.heap.length true).length at hp
          show first_produced sp act N (flag_write H st.heap.length true) p
          rw [hlenF] at hp
          by_cases hpL : p = st.heap.length
          · rw [hpL]
            exact horigin true hflag.symm n2 n4
          · have hp1 : p < st.heap.length := by omega
            exact first_produced_keep sp act N st.heap _ p (hcons.origin p hp1) hp1 n2
              (hkept true)
      obtain ⟨q1, q2, _⟩ := hrec _ _ _ hrun n1
        (by show st.heap.length < (flag_write H st.heap.length true).length; rw [hlenF]; omega)
        n6 hS (by
          show (root_at (flag_write H st.heap.length true) st.heap.length).positive_minimal = true
          rw [hatF true])
      exact ⟨q1, flags_kept_trans _ _ _ (by rw [hlenF]; omega) (hkept true) q2⟩
    · subst hr
      have hnew := store_invariant_new act N st root ii false st.minimal_root_table hinv hroot
        hii hmemo (by rw [← hc]; exact hnone) (by intro hf; cases hf)
        (by rw [← hc, ← hH]; exact hmin_transfer false) hinv.minimal_length
        (fun y hy => Or.inr hy)
        (fun hL => absurd (hinv.minimal_range _ hL) (by omega))
      rw [← hc, ← hH] at hnew
      obtain ⟨n1, n2, n3, n4, n5, _⟩ := hnew
      have hLreg := (n1.memo_agree root ii st.heap.length n4).1
      refine ⟨?_, hkept false⟩
      constructor
      · intro x hx
        exact n3 x (hcons.minimal_registry x hx)
      · intro x hx
        show (root_at (flag_write H st.heap.length false) x).positive_minimal = true
        rw [hkept false x (hinv.minimal_range x hx)]
        exact hcons.minimal_flag x hx
      · intro p hp hf
        change p < (flag_write H st.heap.length false).length at hp
        change (root_at (flag_write H st.heap.length false) p).positive_minimal = true at hf
        show p ∈ st.minimal_root_table.first
        rw [hlenF] at hp
        by_cases hpL : p = st.heap.length
        · rw [hpL, hatF false] at hf
          cases hf
        · have hp1 : p < st.heap.length := by omega
          rw [hkept false p hp1] at hf
          exact hcons.flag_minimal p hp1 hf
      · intro p hp
        change p < (flag_write H st.heap.length false).length at hp
        rw [hlenF] at hp
        by_cases hpL : p = st.heap.length
        · rw [hpL]; exact hLreg
        · exact n3 p (hcons.heap_registry p (by omega))
      · intro p hp
        change p < (flag_write H st.heap.length false).length at hp
        show first_produced sp act N (flag_write H st.heap.length false) p
        rw [hlenF] at hp
        by_cases hpL : p = st.heap.length
        · rw [hpL]
          exact horigin false hflag.symm n2 n4
        · have hp1 : p < st.heap.length := by omega
          exact first_produced_keep sp act N st.heap _ p (hcons.origin p hp1) hp1 n2
            (hkept false)

theorem generate_next_root_loop_consistent (md : MATRIX_DATA) (N root : Nat)
    (recurse : RootStore → Nat → Except Fault RootStore) (sp act : Nat → Nat → ℚ)
    (hact : md.simple_action_results = some act) (hsp : md.scalar_products = some sp)
    (hrec : ∀ S p S1, recurse S p = Except.ok S1 → store_invariant act N S →
      p < S.heap.length → (∀ a, memo_slot S.heap p a = none) →
      next_root_post act N S p S1 ∧ memo_complete S1.heap N p)
    (hrec2 : ∀ S p S1, recurse S p = Except.ok S1 → store_invariant act N S →
      p < S.heap.length → (∀ a, memo_slot S.heap p a = none) →
      tables_consistent sp act N S → (root_at S.heap p).positive_minimal = true →
      tables_consistent sp act N S1 ∧ flags_kept S.heap S1.heap ∧
        heap_extends S.heap S1.heap) :
    ∀ (l : List Nat) (st : RootStore) (e : Option Bool) (r : RootStore × Option Bool),
      l.foldlM (generate_next_root_body md N root recurse) (st, e) = Except.ok r →
      l.Nodup → (∀ a ∈ l, a < N) → store_invariant act N st → root < st.heap.length →
      (∀ a ∈ l, memo_slot st.heap root a = none) →
      tables_consistent sp act N st → (root_at st.heap root).positive_minimal = true →
      tables_consistent sp act N r.1 ∧ flags_kept st.heap r.1.heap := by
  intro l
  induction l with
  | nil =>
    intro st e r h _ _ _ _ _ hcons _
    simp only [List.foldlM, pure, Except.pure, Except.ok.injEq] at h
    subst h
    exact ⟨hcons, flags_kept_refl _⟩
  | cons ii rest ih =>
    intro st e r h hnd hlt hinv hroot hfresh hcons hrf
    rw [List.foldlM_cons] at h
    simp only [bind, Except.bind] at h
    split at h
    · cases h
    · rename_i mid hmid
      obtain ⟨m1, _, m3⟩ := generate_next_root_body_post md N root recurse act hact hrec
        st e ii mid hmid hinv hroot (hlt ii (List.mem_cons_self _ _))
        (hfresh ii (List.mem_cons_self _ _))
      obtain ⟨c1, c2⟩ := generate_next_root_body_consistent md N root recurse sp act hact hsp
        hrec2 st e ii mid hmid hinv hroot (hlt ii (List.mem_cons_self _ _))
        (hfresh ii (List.mem_cons_self _ _)) hcons hrf
      have hnd1 := List.nodup_cons.mp hnd
      have hroot1 : root < mid.1.heap.length := lt_of_lt_of_le hroot m1.2.1.1
      obtain ⟨k1, k2⟩ := ih mid.1 mid.2 r h hnd1.2
        (fun a ha => hlt a (List.mem_cons_of_mem _ ha)) m1.1 hroot1
        (by
          intro a ha
          have hne : a ≠ ii := fun e1 => hnd1.1 (e1 ▸ ha)
          rw [m3 a hne]
          exact hfresh a (List.mem_cons_of_mem _ ha))
        c1 (by rw [c2 root hroot, hrf])
      exact ⟨k1, flags_kept_trans _ _ _ m1.2.1.1 c2 k2⟩

/-- The function generate_next_root, on a flagged root of the heap whose memo
slots are all empty, keeps tables_consistent and the flags of the roots. -/
theorem generate_next_root_consistent (md : MATRIX_DATA) (N : Nat) (sp act : Nat → Nat → ℚ)
    (hact : md.simple_action_results = some act) (hsp : md.scalar_products = some sp) :
    ∀ (fuel : Nat) (st : RootStore) (root : Nat) (st1 : RootStore),
      generate_next_root md N fuel st root = Except.ok st1 →
      store_invariant act N st → root < st.heap.length →
      (∀ a, memo_slot st.heap root a = none) →
      tables_consistent sp act N st → (root_at st.heap root).positive_minimal = true →
      tables_consistent sp act N st1 ∧ flags_kept st.heap st1.heap ∧
        heap_extends st.heap st1.heap := by
  intro fuel
  induction fuel with
  | zero =>
    intro st root st1 h
    simp [generate_next_root] at h
  | succ n ih =>
    intro st root st1 h hinv hroot hfresh hcons hrf
    have hpost := generate_next_root_post md N act hact (n + 1) st root st1 h hinv hroot hfresh
    rw [generate_next_root] at h
    simp only [bind, Except.bind] at h
    split at h
    · cases h
    · rename_i r hr
      simp only [pure, Except.pure, Except.ok.injEq] at h
      subst h
      obtain ⟨k1, k2⟩ := generate_next_root_loop_consistent md N root
        (generate_next_root md N n) sp act hact hsp (generate_next_root_post md N act hact n) ih
        (List.range N) st none r hr (List.nodup_range N) (fun a ha => List.mem_range.mp ha)
        hinv hroot (fun a _ => hfresh a) hcons hrf
      exact ⟨k1, k2, hpost.1.2.1⟩

theorem root_positive_agree (a b : ROOT) (N : Nat)
    (h : ∀ i, i < N → coefficient a i = coefficient b i) :
    root_positive a N = root_positive b N := by
  have hscan : ∀ fuel ii, root_positive_scan a N fuel ii = root_positive_scan b N fuel ii := by
    intro fuel
    induction fuel with
    | zero => intro ii; rfl
    | succ n ih =>
      intro ii
      rw [root_positive_scan, root_positive_scan, ih]
      by_cases hii : ii < N
      · have := h ii hii
        unfold coefficient at this
        rw [this]
      · rw [if_neg (fun e => hii e.1), if_neg (fun e => hii e.1)]
  unfold root_positive
  simp only
  rw [hscan]
  by_cases hlt : root_positive_scan b N N 0 < N
  · have := h _ hlt
    unfold coefficient at this
    rw [if_pos hlt, if_pos hlt, this]
  · rw [if_neg hlt, if_neg hlt]

theorem root_positive_first_negative (r : ROOT) (N k : Nat) (hk : k < N)
    (hzero : ∀ j, j < k → coefficient r j = 0) (hneg : coefficient r k = -1) :
    root_positive r N = Except.ok false := by
  have hscan : root_positive_scan r N N 0 = k := by
    apply root_positive_scan_first r N k hk
    · intro j hj
      rw [hzero j hj, abs_zero]
      exact eps_pos
    · rw [hneg, abs_neg, abs_one]
      exact not_lt.mpr (le_of_lt eps_lt_one)
    · omega
    · omega
  unfold root_positive
  dsimp only
  rw [hscan, if_pos hk]
  have h1 : r.coefficients.getD k 0 = -1 := hneg
  rw [h1, if_pos (by have := eps_pos; linarith)]
  rfl

theorem cox_scalar_product_root_simple (sp : Nat → Nat → ℚ) (a N ii : Nat) (r : ROOT)
    (hii : ii < N) (h : ∀ i, i < N → coefficient r i = if i = ii then 1 else 0) :
    cox_scalar_product_root sp a r N = sp ii a := by
  rw [cox_scalar_product_root_sum]
  rw [Finset.sum_eq_single ii]
  · rw [h ii hii, if_pos rfl, one_mul]
  · intro b hb hne
    rw [h b (Finset.mem_range.mp hb), if_neg hne, zero_mul]
  · intro hni
    exact absurd (Finset.mem_range.mpr hii) hni

/-- With integer coefficients and scalar products of distinct simple roots below
1 - EPSILON_COMP_VAL, a simple root that is not found in the table of minimal
roots compares EQUAL to no root of the root table. -/
theorem simple_root_not_in_root_table (sp act : Nat → Nat → ℚ) (N : Nat) (st : RootStore)
    (ii : Nat) (hinv : store_invariant act N st) (hcons : tables_consistent sp act N st)
    (hai : action_integral act N)
    (hdom : ∀ i a, i < N → a < N → i ≠ a → sp i a < 1 - EPSILON_COMP_VAL)
    (hii : ii < N)
    (hnone : root_in_list st.heap st.minimal_root_table (simple_root N ii) N = none) :
    ∀ x ∈ st.root_table.first,
      compare_roots (root_at st.heap x) (simple_root N ii) N ≠ 0 := by
  intro x hx heq
  have hxr := hinv.table_range x hx
  have hint := hinv.integral hai
  have e1 := integral_equal_of_compare _ _ N (hint x hxr) (simple_root_integral N ii hii) heq
  have hmin : ∀ y ∈ st.minimal_root_table.first,
      compare_roots (root_at st.heap y) (simple_root N ii) N ≠ 0 :=
    (root_in_list_walk_none st.heap (simple_root N ii) N st.minimal_root_table.first).mp hnone
  have hxf : (root_at st.heap x).positive_minimal ≠ true := by
    intro hf
    exact hmin x (hcons.flag_minimal x hxr hf) heq
  have e2 : ∀ i, i < N → coefficient (root_at st.heap x) i = if i = ii then 1 else 0 := by
    intro i hi
    rw [e1 i hi, coefficient_simple_root N ii i hii]
  rcases hcons.origin x hxr with ⟨_, _, _, hf⟩ | ⟨parent, a, hpar, ha, hpf, _, hco, hiff⟩
  · exact hxf hf
  · have hposx : root_positive (root_at st.heap x) N = Except.ok true := by
      rw [root_positive_agree _ (simple_root N ii) N e1]
      exact root_positive_simple_root N ii hii
    have hdomx := cox_scalar_product_root_simple sp a N ii (root_at st.heap x) hii e2
    by_cases hne : ii = a
    · subst hne
      -- the root x is the reflection of its parent in the simple root ii
      have hpp := hinv.flag_positive parent hpar hpf
      have hc1 : ∀ i, i < N →
          coefficient (computed_root act N ii (root_at st.heap parent)) i
            = coefficient (simple_root N ii) i := by
        intro i hi
        rw [← e1 i hi]
        unfold coefficient
        rw [hco]
      have hpc : ∀ i, i < N → coefficient (root_at st.heap parent) i
          = action_coefficient act N ii (simple_root N ii) i := by
        intro i hi
        rw [← computed_root_twice act N ii (root_at st.heap parent) hai (hint parent hpar) hii i hi,
          computed_root_agree act N ii _ (simple_root N ii) hii hc1 i hi,
          coefficient_computed_root act N ii (simple_root N ii) hii i hi]
      have hsmall : ∀ j, j < N → j ≠ ii →
          ¬ |coefficient (simple_root N ii) j| > EPSILON_COMP_VAL := by
        intro j _ hj
        rw [coefficient_simple_root N ii j hii, if_neg hj, abs_zero]
        exact not_lt.mpr (le_of_lt eps_pos)
      have hbig : |coefficient (simple_root N ii) ii| > EPSILON_COMP_VAL := by
        rw [coefficient_simple_root N ii ii hii, if_pos rfl]
        exact abs_one_gt_eps
      have hneg := root_positive_first_negative (root_at st.heap parent) N ii hii
        (by
          intro j hj
          rw [hpc j (by omega)]
          unfold action_coefficient
          rw [if_neg (by omega), if_neg (hsmall j (by omega) (by omega))])
        (by
          rw [hpc ii hii, action_coefficient_alone act N ii (simple_root N ii) hsmall hbig,
            coefficient_simple_root N ii ii hii, if_pos rfl])
      rw [hneg] at hpp
      cases hpp
    · apply hxf
      rw [hiff]
      refine ⟨hposx, ?_⟩
      rw [hdomx]
      exact hdom ii a hii ha hne

/-- A pass of the loop of generate_root_table keeps tables_consistent, with
integer coefficients and scalar products of distinct simple roots below
1 - EPSILON_COMP_VAL. -/
theorem generate_root_table_body_consistent (sp act : Nat → Nat → ℚ) (N fuel : Nat)
    (run : RootTableRun) (ii : Nat) (run1 : RootTableRun)
    (h : generate_root_table_body N fuel run ii = Except.ok run1) (hii : ii < N)
    (hinv : run_invariant act N run) (hsp : run.matrix_data.scalar_products = some sp)
    (hai : action_integral act N)
    (hdom : ∀ i a, i < N → a < N → i ≠ a → sp i a < 1 - EPSILON_COMP_VAL)
    (hcons : tables_consistent sp act N run.store) :
    tables_consistent sp act N run1.store := by
  obtain ⟨hact, hst, _, _⟩ := hinv
  rcases generate_root_table_body_inv N fuel run ii run1 h with
    ⟨x, _, hrun1⟩ | ⟨hnone, st1, hgen, hrun1⟩
  · subst hrun1
    exact hcons
  · subst hrun1
    obtain ⟨s1, s2, s3, s4, s5⟩ := store_invariant_simple_root act N run.store ii hst hii
    have hlen : (run.store.heap ++ [simple_root N ii]).length = run.store.heap.length + 1 := by
      simp
    have hL : run.store.heap.length < (run.store.heap ++ [simple_root N ii]).length := by
      rw [hlen]; omega
    have hat : ∀ p, p < run.store.heap.length →
        root_at (run.store.heap ++ [simple_root N ii]) p = root_at run.store.heap p :=
      fun p hp => root_at_append_lt _ _ _ hp
    have hatL : root_at (run.store.heap ++ [simple_root N ii]) run.store.heap.length
        = simple_root N ii := root_at_append_eq _ _
    have hkept : flags_kept run.store.heap (run.store.heap ++ [simple_root N ii]) := by
      intro p hp
      rw [hat p hp]
    have hG := simple_root_not_in_root_table sp act N run.store ii hst hcons hai hdom hii hnone
    obtain ⟨_, _, _, _, r5⟩ := insert_in_table_mem (run.store.heap ++ [simple_root N ii])
      run.store.heap.length N (some run.store.root_table)
      (chain_transfer run.store.heap _ N _
        (fun y hy => by rw [hat y (hst.table_range y hy)]) hst.table_chain)
      hst.table_length
    have hLreg : run.store.heap.length ∈
        (insert_in_table (run.store.heap ++ [simple_root N ii]) run.store.heap.length
          (some run.store.root_table) N).2.first := by
      apply r5
      intro x hx heq
      change x ∈ run.store.root_table.first at hx
      unfold roots_equal at heq
      rw [hatL, hat x (hst.table_range x hx)] at heq
      exact hG x hx heq
    have hLmin := simple_root_enters_minimal act N run.store ii hst hnone
    have hS : tables_consistent sp act N
        { heap := run.store.heap ++ [simple_root N ii]
          root_table :=
            (insert_in_table (run.store.heap ++ [simple_root N ii]) run.store.heap.length
              (some run.store.root_table) N).2
          minimal_root_table :=
            (insert_in_table (run.store.heap ++ [simple_root N ii]) run.store.heap.length
              (some run.store.minimal_root_table) N).2 } := by
      constructor
      · intro x hx
        rcases s3 x hx with e1 | e1
        · rw [e1]; exact hLreg
        · exact s4 x (hcons.minimal_registry x e1)
      · intro x hx
        show (root_at (run.store.heap ++ [simple_root N ii]) x).positive_minimal = true
        rcases s3 x hx with e1 | e1
        · rw [e1, hatL]; rfl
        · rw [hat x (hst.minimal_range x e1)]
          exact hcons.minimal_flag x e1
      · intro p hp hf
        change p < (run.store.heap ++ [simple_root N ii]).length at hp
        change (root_at (run.store.heap ++ [simple_root N ii]) p).positive_minimal = true at hf
        rw [hlen] at hp
        by_cases hpL : p = run.store.heap.length
        · rw [hpL]; exact hLmin
        · have hp1 : p < run.store.heap.length := by omega
          rw [hat p hp1] at hf
          exact s5 p (hcons.flag_minimal p hp1 hf)
      · intro p hp
        change p < (run.store.heap ++ [simple_root N ii]).length at hp
        rw [hlen] at hp
        by_cases hpL : p = run.store.heap.length
        · rw [hpL]; exact hLreg
        · exact s4 p (hcons.heap_registry p (by omega))
      · intro p hp
        change p < (run.store.heap ++ [simple_root N ii]).length at hp
        show first_produced sp act N (run.store.heap ++ [simple_root N ii]) p
        rw [hlen] at hp
        by_cases hpL : p = run.store.heap.length
        · rw [hpL]
          left
          exact ⟨ii, hii, by rw [hatL], by rw [hatL]; rfl⟩
        · have hp1 : p < run.store.heap.length := by omega
          exact first_produced_keep sp act N run.store.heap _ p (hcons.origin p hp1) hp1 s2 hkept
    exact (generate_next_root_consistent
      { run.matrix_data with
        simple_roots := run.matrix_data.simple_roots.set ii (some run.store.heap.length) }
      N sp act hact hsp fuel _ _ _ hgen s1 hL
      (fun a => memo_slot_simple_root run.store.heap N ii a) hS
      (by
        show (root_at (run.store.heap ++ [simple_root N ii])
          run.store.heap.length).positive_minimal = true
        rw [hatL]; rfl)).1

theorem generate_root_table_loop_consistent (sp act : Nat → Nat → ℚ) (N fuel : Nat)
    (hai : action_integral act N)
    (hdom : ∀ i a, i < N → a < N → i ≠ a → sp i a < 1 - EPSILON_COMP_VAL) :
    ∀ (l : List Nat) (run0 run : RootTableRun),
      l.foldlM (generate_root_table_body N fuel) run0 = Except.ok run →
      (∀ a ∈ l, a < N) → run_invariant act N run0 →
      run0.matrix_data.scalar_products = some sp →
      tables_consistent sp act N run0.store → tables_consistent sp act N run.store := by
  intro l
  induction l with
  | nil =>
    intro run0 run h _ _ _ hcons
    simp only [List.foldlM, pure, Except.pure, Except.ok.injEq] at h
    subst h
    exact hcons
  | cons ii rest ih =>
    intro run0 run h hlt hinv hsp hcons
    rw [List.foldlM_cons] at h
    simp only [bind, Except.bind] at h
    split at h
    · cases h
    · rename_i mid hmid
      have hii := hlt ii (List.mem_cons_self _ _)
      have h1 := generate_root_table_body_invariant act N fuel run0 ii mid hmid hii hinv
      have h2 := (generate_root_table_loop_invariant act N fuel [ii] run0 mid
        (by
          rw [List.foldlM_cons]
          simp only [bind, Except.bind, hmid, List.foldlM, pure, Except.pure])
        (fun a ha => by rw [List.mem_singleton.mp ha]; exact hii) hinv).2.1
      have h3 := generate_root_table_body_consistent sp act N fuel run0 ii mid hmid hii hinv hsp
        hai hdom hcons
      exact ih mid run h (fun a ha => hlt a (List.mem_cons_of_mem _ ha)) h1 (h2.trans hsp) h3

theorem scalar_products_off_diagonal (cos_pi_over : Int → ℚ) (M : Nat → Nat → Int)
    (g : Nat → Nat → ℚ) (N : Nat) (hdom : scalar_products_dominated cos_pi_over M N) :
    ∀ i a, i < N → a < N → i ≠ a →
      fill_scalar_product_matrix cos_pi_over M g N i a < 1 - EPSILON_COMP_VAL := by
  intro i a hi ha hne
  rw [fill_scalar_product_matrix_apply cos_pi_over M g N i a, if_pos (And.intro hi ha),
    if_neg hne]
  unfold cox_scalar_product
  have hmm : min i a < max i a := by
    rcases Nat.lt_or_gt_of_ne hne with h | h
    · rw [min_eq_left (le_of_lt h), max_eq_right (le_of_lt h)]; exact h
    · rw [min_eq_right (le_of_lt h), max_eq_left (le_of_lt h)]; exact h
  have hmax : max i a < N := max_lt hi ha
  rw [if_neg (by omega)]
  by_cases hz : M (min i a) (max i a) = 0
  · rw [if_pos hz]
    have := eps_lt_one
    linarith
  · rw [if_neg hz]
    exact hdom _ _ hmm hmax hz

theorem tables_consistent_empty (sp act : Nat → Nat → ℚ) (N : Nat) :
    tables_consistent sp act N
      { heap := [], root_table := { first := [], length := 0 },
        minimal_root_table := { first := [], length := 0 } } := by
  constructor
  · intro x hx; cases hx
  · intro x hx; cases hx
  · intro p hp; exact absurd hp (Nat.not_lt_zero _)
  · intro p hp; exact absurd hp (Nat.not_lt_zero _)
  · intro p hp; exact absurd hp (Nat.not_lt_zero _)

/-- After generate_root_table the tables are consistent, with integer
coefficients and scalar products of distinct simple roots below
1 - EPSILON_COMP_VAL. -/
theorem generate_root_table_consistent (cos_pi_over : Int → ℚ) (msp mact : Nat → Nat → ℚ)
    (M : Nat → Nat → Int) (N fuel : Nat) (run : RootTableRun)
    (hcos : cosines_integral cos_pi_over M N)
    (hdom : scalar_products_dominated cos_pi_over M N)
    (h : generate_root_table cos_pi_over msp mact (initial_matrix_data M N) N fuel
      = Except.ok run) :
    tables_consistent (fill_scalar_product_matrix cos_pi_over M msp N)
      (fill_cox_action_matrix (fill_scalar_product_matrix cos_pi_over M msp N) mact N) N
      run.store := by
  unfold generate_root_table at h
  dsimp only at h
  exact generate_root_table_loop_consistent _ _ N fuel
    (action_integral_of_cosines cos_pi_over M msp mact N hcos)
    (scalar_products_off_diagonal cos_pi_over M msp N hdom) (List.range N) _ run h
    (fun a ha => List.mem_range.mp ha)
    ⟨rfl, store_invariant_empty _ N, fun x hx => absurd hx (List.not_mem_nil x),
      fun p hp _ => absurd hp (Nat.not_lt_zero _)⟩
    rfl (tables_consistent_empty _ _ N)

theorem S3_scalar_products_dominated :
    scalar_products_dominated exact_cos_pi_over S3_matrix 2 := by
  intro i j hij hj _
  obtain ⟨rfl, rfl⟩ : i = 0 ∧ j = 1 := by omega
  decide!

/-- In arithmetic without rounding, after generate_root_table has returned, for a
Coxeter matrix at whose
entries twice the cosine is an integer and the scalar product of two distinct
simple roots is below 1 - EPSILON_COMP_VAL: every root of the table of minimal
roots is in the root table; a root of the root table is in the table of minimal
roots exactly when its flag positive_minimal is set; and every root of the heap
is in the root table and is either a simple root created with the flag set, or
the root first produced by cox_action_on_root for a flagged parent and a
generator a, its flag set exactly when root_positive holds of it and its scalar
product with the simple root a is below 1 - EPSILON_COMP_VAL. -/
theorem minimal_table_is_flagged_root_table (cos_pi_over : Int → ℚ)
    (malloced_sp malloced_act : Nat → Nat → ℚ) (coxeter_matrix : Nat → Nat → Int)
    (num_generators fuel : Nat) (run : RootTableRun)
    (hcos : cosines_integral cos_pi_over coxeter_matrix num_generators)
    (hdom : scalar_products_dominated cos_pi_over coxeter_matrix num_generators)
    (hrun : generate_root_table cos_pi_over malloced_sp malloced_act
      (initial_matrix_data coxeter_matrix num_generators) num_generators fuel = Except.ok run) :
    (∀ x ∈ run.store.minimal_root_table.first, x ∈ run.store.root_table.first) ∧
    (∀ x ∈ run.store.root_table.first,
      (x ∈ run.store.minimal_root_table.first ↔
        (root_at run.store.heap x).positive_minimal = true)) ∧
    (∀ p, p < run.store.heap.length →
      p ∈ run.store.root_table.first ∧
      first_produced
        (fill_scalar_product_matrix cos_pi_over coxeter_matrix malloced_sp num_generators)
        (fill_cox_action_matrix
          (fill_scalar_product_matrix cos_pi_over coxeter_matrix malloced_sp num_generators)
          malloced_act num_generators)
        num_generators run.store.heap p) := by
  have hcons := generate_root_table_consistent cos_pi_over malloced_sp malloced_act
    coxeter_matrix num_generators fuel run hcos hdom hrun
  have hinv := generate_root_table_filled cos_pi_over malloced_sp malloced_act coxeter_matrix
    num_generators fuel run hrun
  refine ⟨hcons.minimal_registry, ?_, fun p hp => ⟨hcons.heap_registry p hp, hcons.origin p hp⟩⟩
  intro x hx
  exact ⟨hcons.minimal_flag x, hcons.flag_minimal x (hinv.2.1.table_range x hx)⟩

theorem minimal_table_is_flagged_root_table_witness :
    cosines_integral exact_cos_pi_over S3_matrix 2 ∧
    scalar_products_dominated exact_cos_pi_over S3_matrix 2 ∧
    ∃ run, generate_root_table exact_cos_pi_over (fun _ _ => 0) (fun _ _ => 0)
        (initial_matrix_data S3_matrix 2) 2 4 = Except.ok run ∧
      (∀ x ∈ run.store.minimal_root_table.first, x ∈ run.store.root_table.first) ∧
      (∀ x ∈ run.store.root_table.first,
        (x ∈ run.store.minimal_root_table.first ↔
          (root_at run.store.heap x).positive_minimal = true)) := by
  obtain ⟨run, hrun, _⟩ := S3_root_table_run
  have h := minimal_table_is_flagged_root_table exact_cos_pi_over (fun _ _ => 0) (fun _ _ => 0)
    S3_matrix 2 4 run S3_cosines_integral S3_scalar_products_dominated hrun
  exact ⟨S3_cosines_integral, S3_scalar_products_dominated, run, hrun, h.1, h.2.1⟩

theorem binary_tree_size_eq_length (tree : BINARY_TREE_ELEMENT) :
    binary_tree_size tree = (binary_tree_states tree).length := by
  induction tree with
  | NULL => rfl
  | node state left right ihl ihr =>
    simp only [binary_tree_size, binary_tree_states, List.length_append, List.length_cons,
      ihl, ihr]
    omega

theorem roots_ascending_irrefl (heap : List ROOT) (N x : Nat) :
    ¬ roots_ascending heap N x x := by
  unfold roots_ascending
  rw [compare_roots_eq_zero_of_equal _ _ N (fun _ _ => rfl)]
  decide

/-- An ascending list of roots of an ascending list m is a sublist of m. -/
theorem ascending_sublist (heap : List ROOT) (N : Nat) (hsep : roots_separated heap N)
    (l m : List Nat) (hl : List.Chain' (roots_ascending heap N) l)
    (hm : List.Pairwise (roots_ascending heap N) m) (hsub : ∀ x ∈ l, x ∈ m) :
    l.Sublist m := by
  haveI : IsAntisymm Nat (roots_ascending heap N) :=
    ⟨fun a b h1 h2 =>
      absurd (roots_ascending_trans heap N hsep a b a h1 h2) (roots_ascending_irrefl heap N a)⟩
  have hlp := roots_ascending_pairwise heap N hsep l hl
  have hnd : l.Nodup := by
    unfold List.Nodup
    refine List.Pairwise.imp ?_ hlp
    intro a b hab heq
    subst heq
    exact roots_ascending_irrefl heap N a hab
  exact List.sublist_of_subperm_of_sorted (List.subperm_of_subset hnd hsub) hlp hm

/-- The binary tree holds at most 2 ^ n states, n the number of the roots of the
table of minimal roots. -/
theorem states_within_count (md : MATRIX_DATA) (N : Nat) (heap : List ROOT) (m : List Nat)
    (am : Automaton) (hsep : roots_separated heap N)
    (hm : List.Pairwise (roots_ascending heap N) m) (h : states_within md N heap m am) :
    (binary_tree_states am.binary_tree).length ≤ 2 ^ m.length := by
  have hmem : ∀ s ∈ binary_tree_states am.binary_tree,
      table_first (state_at am.states s).root_table ∈ m.sublists := by
    intro s hs
    obtain ⟨t, ht, hchain, hsub⟩ := h.lists s (h.base.catalog s hs)
    rw [ht]
    exact List.mem_sublists.mpr (ascending_sublist heap N hsep t.first m hchain hm hsub)
  have hnd : ((binary_tree_states am.binary_tree).map
      (fun s => table_first (state_at am.states s).root_table)).Nodup := by
    unfold List.Nodup
    rw [List.pairwise_map]
    have hu : List.Pairwise
        (fun x y => ¬ states_equal heap N (state_at am.states x) (state_at am.states y) ∧
          ¬ states_equal heap N (state_at am.states y) (state_at am.states x))
        (binary_tree_states am.binary_tree) := h.unique
    refine List.Pairwise.imp_of_mem ?_ hu
    intro x y hx hy hxy heq
    obtain ⟨tx, htx, hwx⟩ := h.base.tables x (h.base.catalog x hx)
    obtain ⟨ty, hty, hwy⟩ := h.base.tables y (h.base.catalog y hy)
    rw [htx, hty] at heq
    change tx.first = ty.first at heq
    apply hxy.1
    unfold states_equal compare_states
    rw [htx, hty]
    have hlen : tx.length = ty.length := by rw [hwx, hwy, heq]
    have hwalk : compare_states_walk heap N COMPARE_ROOTS_EQUAL tx.first ty.first = 0 := by
      rw [heq]
      apply compare_states_walk_zero_of_forall2
      exact List.forall₂_same.mpr
        (fun x _ => compare_roots_eq_zero_of_equal _ _ N (fun _ _ => rfl))
    simp only [hlen, gt_iff_lt, lt_self_iff_false, if_false, hwalk]
    rfl
  have hsubset : ((binary_tree_states am.binary_tree).map
      (fun s => table_first (state_at am.states s).root_table)) ⊆ m.sublists := by
    intro l hl
    obtain ⟨s, hs, rfl⟩ := List.mem_map.mp hl
    exact hmem s hs
  have := (List.subperm_of_subset hnd hsubset).length_le
  rw [List.length_map, List.length_sublists] at this
  exact this

theorem states_within_link (md : MATRIX_DATA) (N : Nat) (heap : List ROOT) (m : List Nat)
    (am : Automaton) (u g : Nat) (t : Option Nat) (heap1 : List ROOT)
    (h : states_within md N heap m am)
    (hbase : states_invariant md N heap
      { heap := heap1, states := set_next_state am.states u g t,
        binary_tree := am.binary_tree }) :
    states_within md N heap m
      { heap := heap1, states := set_next_state am.states u g t,
        binary_tree := am.binary_tree } := by
  have hcat := catalog_step_same_tree N heap am.states am.binary_tree u g t ⟨h.bst, h.unique⟩
  constructor
  · exact hbase
  · exact hcat.1
  · exact hcat.2
  · intro v hv
    change v < (set_next_state am.states u g t).length at hv
    rw [set_next_state_length] at hv
    change ∃ t1, (state_at (set_next_state am.states u g t) v).root_table = some t1 ∧ _
    rw [state_at_root_table_set_next_state]
    exact h.lists v hv
  · intro v hv0 hv
    change v < (set_next_state am.states u g t).length at hv
    rw [set_next_state_length] at hv
    change ∃ t1 g1 sr, (state_at (set_next_state am.states u g t) v).root_table = some t1 ∧ _
    rw [state_at_root_table_set_next_state]
    exact h.simple v hv0 hv
  · show (binary_tree_states am.binary_tree).length + 1
      = (set_next_state am.states u g t).length
    rw [set_next_state_length]
    exact h.count

theorem states_within_reject (md : MATRIX_DATA) (N : Nat) (heap : List ROOT) (m : List Nat)
    (am : Automaton) (u g sr : Nat) (table : ROOT_TABLE) (e : Nat)
    (hP : states_within md N heap m am) (hu : u < am.states.length) (hg : g < N)
    (hsr : md.simple_roots.getD g none = some sr)
    (htable : (state_at am.states u).root_table = some table)
    (he : root_in_list am.heap table (root_at am.heap sr) N = some e)
    (am1 : Automaton)
    (hEq : am1 = { am with states := set_next_state am.states u g none }) :
    states_within md N heap m am1 := by
  obtain ⟨k1, _, _⟩ := states_step_reject md N heap am u g sr table e hP.base hu hg hsr htable he
    am1 hEq
  subst hEq
  exact states_within_link md N heap m am u g none am.heap hP k1

theorem states_within_exists (md : MATRIX_DATA) (N : Nat) (heap : List ROOT) (m : List Nat)
    (am : Automaton) (u g sr : Nat) (table : ROOT_TABLE)
    (acted : List ROOT × Option ROOT_TABLE) (added : AddResult)
    (hP : states_within md N heap m am) (hu : u < am.states.length) (hg : g < N)
    (hsr : md.simple_roots.getD g none = some sr)
    (htable : (state_at am.states u).root_table = some table)
    (he : root_in_list am.heap table (root_at am.heap sr) N = none)
    (hacted : cox_action_on_root_list md am.heap table none g N = Except.ok acted)
    (hadded : add_state_to_binary_tree acted.1 am.states am.states.length
      (successor_state N (insert_in_table acted.1 sr acted.2 N).2) N am.binary_tree
        = Except.ok added)
    (hk : added.ret_code = ADD_STATE_TO_BINARY_TREE_EXISTS)
    (am1 : Automaton)
    (hEq : am1 = { heap := acted.1
                   states := set_next_state am.states u g added.existing
                   binary_tree := added.tree }) :
    states_within md N heap m am1 := by
  obtain ⟨k1, _, _⟩ := states_step_exists md N heap am u g sr table acted added hP.base hu hg hsr
    htable he hacted hadded hk am1 hEq
  subst hEq
  have htr : added.tree = am.binary_tree := by
    rcases add_state_to_binary_tree_ok _ _ _ _ _ _ _ hadded with ⟨hk2, _⟩ | ⟨_, htr, _⟩
    · rw [hk] at hk2; exact absurd hk2 (by decide)
    · exact htr
  rw [htr] at k1 ⊢
  exact states_within_link md N heap m am u g added.existing acted.1 hP k1

theorem states_within_new (md : MATRIX_DATA) (N : Nat) (heap : List ROOT) (m : List Nat)
    (hctx : heap_tables md N heap m)
    (am : Automaton) (u g sr : Nat) (table : ROOT_TABLE)
    (acted : List ROOT × Option ROOT_TABLE) (added : AddResult)
    (hP : states_within md N heap m am) (hu : u < am.states.length) (hg : g < N)
    (hsr : md.simple_roots.getD g none = some sr)
    (htable : (state_at am.states u).root_table = some table)
    (he : root_in_list am.heap table (root_at am.heap sr) N = none)
    (hacted : cox_action_on_root_list md am.heap table none g N = Except.ok acted)
    (hadded : add_state_to_binary_tree acted.1 am.states am.states.length
      (successor_state N (insert_in_table acted.1 sr acted.2 N).2) N am.binary_tree
        = Except.ok added)
    (hk : added.ret_code = ADD_STATE_TO_BINARY_TREE_OK)
    (am1 : Automaton)
    (hEq : am1 = { heap := acted.1
                   states := set_next_state
                     (am.states ++ [successor_state N (insert_in_table acted.1 sr acted.2 N).2])
                     u g (some am.states.length)
                   binary_tree := added.tree }) :
    states_within md N heap m am1 := by
  obtain ⟨k1, _, _⟩ := states_step_new md N heap am u g sr table acted added hP.base hu hg hsr
    htable he hacted hadded hk am1 hEq
  have hcong := roots_congruent_of_separated heap N hctx.separated
  have hheap : am.heap = heap := hP.base.heap_eq
  obtain ⟨h1, hwf, images, _, hsdf⟩ :=
    successor_root_list_spec md N g sr am.heap table acted hacted
  rw [hheap] at h1 hwf hsdf
  rw [h1] at hadded hEq
  subst hEq
  have hsrm : sr ∈ m := by
    obtain ⟨sr1, e1, e2⟩ := hctx.simple g hg
    rw [hsr] at e1
    cases e1
    exact e2
  have hlt : ∀ s, s ∈ binary_tree_states am.binary_tree → s < am.states.length :=
    hP.base.catalog
  have hag : ∀ s, s ∈ binary_tree_states am.binary_tree →
      (state_at (set_next_state
        (am.states ++ [successor_state N (insert_in_table heap sr acted.2 N).2])
        u g (some am.states.length)) s).root_table = (state_at am.states s).root_table := by
    intro s hs
    rw [state_at_root_table_set_next_state, state_at_append_lt _ _ _ (hlt s hs)]
  have hnew : (state_at (set_next_state
        (am.states ++ [successor_state N (insert_in_table heap sr acted.2 N).2])
        u g (some am.states.length)) am.states.length).root_table
      = (successor_state N (insert_in_table heap sr acted.2 N).2).root_table := by
    rw [state_at_root_table_set_next_state, state_at_append_eq]
  obtain ⟨i1, i2⟩ := add_state_to_binary_tree_bst heap N hcong am.states am.states.length
    (successor_state N (insert_in_table heap sr acted.2 N).2)
    (insert_in_table heap sr acted.2 N).2 rfl hwf _ hnew am.binary_tree added hadded hk
    (fun s hs => ⟨hag s hs, hP.base.tables s (hlt s hs)⟩) hP.bst
  have hperm : (binary_tree_states added.tree).Perm
      (am.states.length :: binary_tree_states am.binary_tree) := by
    rcases add_state_to_binary_tree_ok _ _ _ _ _ _ _ hadded with ⟨_, hp⟩ | ⟨hk2, _⟩
    · exact hp
    · rw [hk] at hk2; exact absurd hk2 (by decide)
  have hlistm : ∀ x ∈ (insert_in_table heap sr acted.2 N).2.first, x ∈ m := by
    intro x hx
    have := hsdf.2.1 x hx
    rcases List.mem_append.mp this with e1 | e1
    · have e2 := (List.mem_filter.mp e1).2
      exact hctx.flagged x (by simpa using e2)
    · rw [List.mem_singleton.mp e1]; exact hsrm
  have hsrin : sr ∈ (insert_in_table heap sr acted.2 N).2.first := by
    obtain ⟨x, hx, hxeq⟩ := hsdf.2.2 sr (List.mem_append_right _ (List.mem_singleton_self sr))
    have hxs := root_table_unique heap N m hctx.ascending x sr (hlistm x hx) hsrm hxeq
    exact hxs ▸ hx
  have hlen1 : (set_next_state
      (am.states ++ [successor_state N (insert_in_table heap sr acted.2 N).2])
      u g (some am.states.length)).length = am.states.length + 1 := by
    rw [set_next_state_length, List.length_append, List.length_singleton]
  constructor
  · exact k1
  · exact i1
  · show catalog_unique heap N _ added.tree
    unfold catalog_unique
    rw [List.Perm.pairwise_iff (fun {x y} hxy => ⟨hxy.2, hxy.1⟩) hperm, List.pairwise_cons]
    constructor
    · intro s hs
      obtain ⟨j1, j2⟩ := i2 s hs
      unfold states_equal at j1 j2 ⊢
      rw [compare_states_congr heap N _ _ _ _ hnew (hag s hs),
        compare_states_congr heap N _ _ _ _ (hag s hs) hnew]
      exact ⟨j1, j2⟩
    · exact catalog_unique_congr heap N (state_at am.states) _ am.binary_tree hag hP.unique
  · intro v hv
    change v < (set_next_state _ u g _).length at hv
    rw [hlen1] at hv
    change ∃ t1, (state_at (set_next_state _ u g _) v).root_table = some t1 ∧ _
    rw [state_at_root_table_set_next_state]
    by_cases hvl : v < am.states.length
    · rw [state_at_append_lt _ _ _ hvl]
      exact hP.lists v hvl
    · have hve : v = am.states.length := by omega
      rw [hve, state_at_append_eq]
      exact ⟨_, rfl, hsdf.1, hlistm⟩
  · intro v hv0 hv
    change v < (set_next_state _ u g _).length at hv
    rw [hlen1] at hv
    change ∃ t1 g1 sr1, (state_at (set_next_state _ u g _) v).root_table = some t1 ∧ _
    rw [state_at_root_table_set_next_state]
    by_cases hvl : v < am.states.length
    · rw [state_at_append_lt _ _ _ hvl]
      exact hP.simple v hv0 hvl
    · have hve : v = am.states.length := by omega
      rw [hve, state_at_append_eq]
      exact ⟨_, g, sr, rfl, hg, hsr, hsrin⟩
  · show (binary_tree_states added.tree).length + 1 = (set_next_state _ u g _).length
    rw [hlen1, hperm.length_eq, List.length_cons, hP.count]

theorem heap_tables_ready (md : MATRIX_DATA) (N : Nat) (heap : List ROOT) (m : List Nat)
    (hctx : heap_tables md N heap m) :
    heap_ready heap N ∧
      ∀ g, g < N → ∃ sr, md.simple_roots.getD g none = some sr ∧ memo_ready heap N sr := by
  refine ⟨⟨hctx.slots, fun p _ hf => (hctx.ready p (hctx.flagged p hf)).2⟩, ?_⟩
  intro g hg
  obtain ⟨sr, h1, h2⟩ := hctx.simple g hg
  exact ⟨sr, h1, hctx.ready sr h2⟩

theorem states_within_ready (md : MATRIX_DATA) (N : Nat) (heap : List ROOT) (m : List Nat)
    (hctx : heap_tables md N heap m) (am : Automaton) (h : states_within md N heap m am) :
    states_ready heap N am := by
  constructor
  · exact h.base.heap_eq
  · intro v hv
    obtain ⟨t, ht, _, hsub⟩ := h.lists v hv
    exact ⟨t, ht, fun x hx => hctx.ready x (hsub x hx)⟩
  · exact h.base.catalog

theorem states_within_bound (md : MATRIX_DATA) (N : Nat) (heap : List ROOT) (m : List Nat)
    (hctx : heap_tables md N heap m) (am : Automaton) (h : states_within md N heap m am) :
    am.states.length ≤ 2 ^ m.length + 1 := by
  have := states_within_count md N heap m am hctx.separated hctx.ascending h
  have := h.count
  omega

/-- A call of generate_next_automaton_state that returns keeps states_within. -/
theorem generate_next_automaton_state_within (md : MATRIX_DATA) (N : Nat) (heap : List ROOT)
    (m : List Nat) (hctx : heap_tables md N heap m) :
    ∀ (fuel : Nat) (am : Automaton) (u g : Nat) (am1 : Automaton),
      generate_next_automaton_state md N fuel am u g = Except.ok am1 →
      states_within md N heap m am → u < am.states.length → g < N →
      states_within md N heap m am1 ∧ am.states.length ≤ am1.states.length := by
  intro fuel am u g am1 h hP hu hg
  have := generate_next_automaton_state_induction md N (states_within md N heap m)
    (fun _ _ _ => True)
    (fun am u g sr table e hP hu hg hsr htable he am1 hEq =>
      ⟨states_within_reject md N heap m am u g sr table e hP hu hg hsr htable he am1 hEq,
        trivial, fun _ _ _ => trivial⟩)
    (fun am u g sr table acted added hP hu hg hsr htable he hacted hadded hk am1 hEq =>
      ⟨states_within_new md N heap m hctx am u g sr table acted added hP hu hg hsr htable he
        hacted hadded hk am1 hEq, trivial, fun _ _ _ => trivial⟩)
    (fun am u g sr table acted added hP hu hg hsr htable he hacted hadded hk am1 hEq =>
      ⟨states_within_exists md N heap m am u g sr table acted added hP hu hg hsr htable he
        hacted hadded hk am1 hEq, trivial, fun _ _ _ => trivial⟩)
    fuel am u g am1 h hP hu hg
  exact ⟨this.1, this.2.1⟩

/-- With more fuel than there are lists of roots of the table of minimal roots
left to enter the binary tree, generate_next_automaton_state does not run out of
fuel. -/
theorem generate_next_automaton_state_enough_fuel (md : MATRIX_DATA) (N : Nat)
    (heap : List ROOT) (m : List Nat) (hctx : heap_tables md N heap m) :
    ∀ (fuel : Nat) (am : Automaton) (u g : Nat), states_within md N heap m am →
      u < am.states.length → g < N → 2 ^ m.length + 1 < fuel + am.states.length →
      generate_next_automaton_state md N fuel am u g ≠ Except.error Fault.out_of_fuel := by
  obtain ⟨hready, hsrr⟩ := heap_tables_ready md N heap m hctx
  intro fuel
  induction fuel with
  | zero =>
    intro am u g hP _ _ hm
    have := states_within_bound md N heap m hctx am hP
    omega
  | succ fuel ih =>
    intro am u g hP hu hg hm
    have hs := states_within_ready md N heap m hctx am hP
    obtain ⟨sr, hsr1, hsr2⟩ := hsrr g hg
    obtain ⟨table, htable, hgood⟩ := hs.tables u hu
    have hheap : am.heap = heap := hs.heap_eq
    unfold generate_next_automaton_state
    simp only [hsr1, htable]
    cases hfind : root_in_list am.heap table (root_at am.heap sr) N with
    | some e =>
      simp only
      intro h
      cases h
    | none =>
      simp only
      obtain ⟨r, hwalk, hr⟩ := cox_action_on_root_list_walk_ready md g N heap hg hready
        table.first none none hgood (fun x hx => (by cases hx))
      have hlist : cox_action_on_root_list md am.heap table none g N = Except.ok (heap, r) := by
        unfold cox_action_on_root_list
        rw [hheap]
        exact hwalk
      rw [hlist]
      simp only [bind, Except.bind]
      obtain ⟨added, hadd⟩ := add_state_to_binary_tree_total heap am.states am.states.length
        (successor_state N (insert_in_table heap sr r N).2) (insert_in_table heap sr r N).2 N rfl
        am.binary_tree
        (fun s hs1 => (by
          obtain ⟨t, ht, _⟩ := hs.tables s (hs.catalog s hs1)
          exact ⟨t, ht⟩))
      rw [hadd]
      simp only
      by_cases hk : added.ret_code = ADD_STATE_TO_BINARY_TREE_OK
      · rw [if_pos hk]
        have hstart := states_within_new md N heap m hctx am u g sr table (heap, r) added hP hu hg
          hsr1 htable hfind hlist hadd hk _ rfl
        have hlen0 : (set_next_state
              (am.states ++ [successor_state N (insert_in_table heap sr r N).2]) u g
              (some am.states.length)).length = am.states.length + 1 := by
          rw [set_next_state_length, List.length_append, List.length_singleton]
        exact (foldlM_safe
          (fun am2 ii => generate_next_automaton_state md N fuel am2 am.states.length ii)
          (fun am2 => states_within md N heap m am2 ∧ am.states.length + 1 ≤ am2.states.length)
          Fault.out_of_fuel (List.range N)
          (by
            intro x i hi hx
            refine ⟨ih x am.states.length i hx.1 (by omega) (List.mem_range.mp hi) (by omega), ?_⟩
            intro y hy
            have := generate_next_automaton_state_within md N heap m hctx fuel x
              am.states.length i y hy hx.1 (by omega) (List.mem_range.mp hi)
            exact ⟨this.1, by omega⟩)
          _ ⟨hstart, by
            show am.states.length + 1 ≤ (set_next_state _ u g _).length
            rw [hlen0]⟩).1
      · rw [if_neg hk]
        split_ifs
        · intro h; cases h
        · intro h; cases h

theorem states_within_initial (md : MATRIX_DATA) (N : Nat) (heap : List ROOT) (m : List Nat) :
    states_within md N heap m
      { heap := heap
        states := [{ create_state N with root_table := some { first := [], length := 0 } }]
        binary_tree := BINARY_TREE_ELEMENT.NULL } := by
  constructor
  · constructor
    · rfl
    · intro v hv
      simp only [List.length_singleton, Nat.lt_one_iff] at hv
      subst hv
      exact ⟨{ first := [], length := 0 }, rfl, rfl⟩
    · intro v hv
      simp only [List.length_singleton, Nat.lt_one_iff] at hv
      subst hv
      simp [state_at, create_state]
    · intro v a w hv hnext
      simp only [List.length_singleton, Nat.lt_one_iff] at hv
      subst hv
      simp [state_at, create_state, List.getD_eq_getElem?_getD, List.getElem?_replicate] at hnext
      split_ifs at hnext <;> simp at hnext
    · intro s hs
      simp [binary_tree_states] at hs
  · trivial
  · simp [catalog_unique, binary_tree_states]
  · intro v hv
    simp only [List.length_singleton, Nat.lt_one_iff] at hv
    subst hv
    exact ⟨{ first := [], length := 0 }, rfl, List.chain'_nil, fun x hx => (by cases hx)⟩
  · intro v hv0 hv
    simp only [List.length_singleton] at hv
    omega
  · rfl

/-- The function generate_state_tree over the outcome of the enumeration: a run
that returns leaves states_within, and with a fuel above 2 ^ n, n the number of
roots of the table of minimal roots, the run returns. -/
theorem generate_state_tree_within (md : MATRIX_DATA) (N : Nat) (heap : List ROOT)
    (m : List Nat) (hctx : heap_tables md N heap m) (fuel : Nat) :
    (∀ am, generate_state_tree md N heap BINARY_TREE_ELEMENT.NULL fuel = Except.ok am →
      states_within md N heap m am) ∧
    (2 ^ m.length + 1 ≤ fuel →
      ∃ am, generate_state_tree md N heap BINARY_TREE_ELEMENT.NULL fuel = Except.ok am) := by
  obtain ⟨hready, hsrr⟩ := heap_tables_ready md N heap m hctx
  have hsafe := generate_state_tree_ready md N heap hready hsrr fuel
  have hfold := fun (hf : 2 ^ m.length + 1 ≤ fuel) => foldlM_safe
    (fun am ii => generate_next_automaton_state md N fuel am 0 ii)
    (fun am => states_within md N heap m am ∧ 0 < am.states.length)
    Fault.out_of_fuel (List.range N)
    (by
      intro x i hi hx
      refine ⟨generate_next_automaton_state_enough_fuel md N heap m hctx fuel x 0 i hx.1 hx.2
        (List.mem_range.mp hi) (by omega), ?_⟩
      intro y hy
      have := generate_next_automaton_state_within md N heap m hctx fuel x 0 i y hy hx.1 hx.2
        (List.mem_range.mp hi)
      exact ⟨this.1, by omega⟩)
    { heap := heap
      states := [{ create_state N with root_table := some { first := [], length := 0 } }]
      binary_tree := BINARY_TREE_ELEMENT.NULL }
    ⟨states_within_initial md N heap m, by simp⟩
  have hpart := foldlM_safe
    (fun am ii => generate_next_automaton_state md N fuel am 0 ii)
    (fun am => states_within md N heap m am ∧ 0 < am.states.length)
    Fault.null_dereference (List.range N)
    (by
      intro x i hi hx
      refine ⟨(generate_next_automaton_state_ready md N heap hready hsrr fuel x 0 i
        (states_within_ready md N heap m hctx x hx.1) hx.2 (List.mem_range.mp hi)).1
          Fault.null_dereference (by decide), ?_⟩
      intro y hy
      have := generate_next_automaton_state_within md N heap m hctx fuel x 0 i y hy hx.1 hx.2
        (List.mem_range.mp hi)
      exact ⟨this.1, by omega⟩)
    { heap := heap
      states := [{ create_state N with root_table := some { first := [], length := 0 } }]
      binary_tree := BINARY_TREE_ELEMENT.NULL }
    ⟨states_within_initial md N heap m, by simp⟩
  refine ⟨fun am h => (hpart.2 am h).1, ?_⟩
  intro hf
  cases hres : generate_state_tree md N heap BINARY_TREE_ELEMENT.NULL fuel with
  | ok am => exact ⟨am, rfl⟩
  | error E =>
    by_cases hE : E = Fault.out_of_fuel
    · rw [hE] at hres
      exact absurd hres (hfold hf).1
    · exact absurd hres (hsafe.1 E hE)

theorem root_at_flag_lt (heap : List ROOT) (p : Nat)
    (h : (root_at heap p).positive_minimal = true) : p < heap.length := by
  by_contra hge
  unfold root_at at h
  rw [List.getD_eq_default _ _ (by omega)] at h
  cases h

/-- The outcome of generate_root_table meets heap_tables, with integer
coefficients and scalar products of distinct simple roots below
1 - EPSILON_COMP_VAL. -/
theorem heap_tables_of_run (cos_pi_over : Int → ℚ) (msp mact : Nat → Nat → ℚ)
    (M : Nat → Nat → Int) (N fuel : Nat) (run : RootTableRun)
    (hcos : cosines_integral cos_pi_over M N)
    (hdom : scalar_products_dominated cos_pi_over M N)
    (h : generate_root_table cos_pi_over msp mact (initial_matrix_data M N) N fuel
      = Except.ok run) :
    heap_tables run.matrix_data N run.store.heap run.store.minimal_root_table.first := by
  have hcons := generate_root_table_consistent cos_pi_over msp mact M N fuel run hcos hdom h
  have hinv := generate_root_table_filled cos_pi_over msp mact M N fuel run h
  have hsep := generate_root_table_separated cos_pi_over msp mact M N fuel run hcos h
  have hsimple := generate_root_table_simple_roots cos_pi_over msp mact M N fuel run h
  obtain ⟨_, hst, hmin, _⟩ := hinv
  constructor
  · exact hsep
  · exact roots_ascending_pairwise _ N hsep _ hst.minimal_chain
  · intro p hf
    exact hcons.flag_minimal p (root_at_flag_lt _ p hf) hf
  · intro x hx
    exact ⟨hst.minimal_range x hx, hmin x hx⟩
  · exact hsimple
  · intro p a q hq
    exact hst.table_range q (hst.memo_agree p a q hq).1

theorem successor_tables_nonempty (md : MATRIX_DATA) (N : Nat) (heap : List ROOT)
    (tu : ROOT_TABLE) (a : Nat) (tv : ROOT_TABLE)
    (h : successor_tables md N heap tu a tv) : tv.first ≠ [] := by
  obtain ⟨sr, images, l, _, _, hsdf, _, hf⟩ := h
  obtain ⟨x, hx, _⟩ := hsdf.2.2 sr (List.mem_append_right _ (List.mem_singleton_self sr))
  intro hnil
  rw [hnil] at hf
  rw [List.forall₂_nil_right_iff.mp hf] at hx
  cases hx

/-- In arithmetic without rounding, over the outcome of generate_root_table, for a
Coxeter matrix at whose
entries twice the cosine is an integer and the scalar product of two distinct
simple roots is below 1 - EPSILON_COMP_VAL, and with n the length of the table
of minimal roots: generate_state_tree returns for every fuel above 2 ^ n; and
when it returns, every root of the root list of every state is a root of the
table of minimal roots whose flag positive_minimal is set, the initial state has
the empty root list, the root list of every other state holds a simple root, no
transition leads to the initial state, and the binary tree holds at most 2 ^ n
states. -/
theorem generate_state_tree_terminates (cos_pi_over : Int → ℚ)
    (malloced_sp malloced_act : Nat → Nat → ℚ) (coxeter_matrix : Nat → Nat → Int)
    (num_generators fuel : Nat) (run : RootTableRun)
    (hcos : cosines_integral cos_pi_over coxeter_matrix num_generators)
    (hdom : scalar_products_dominated cos_pi_over coxeter_matrix num_generators)
    (hrun : generate_root_table cos_pi_over malloced_sp malloced_act
      (initial_matrix_data coxeter_matrix num_generators) num_generators fuel = Except.ok run) :
    (∀ fuel1, 2 ^ run.store.minimal_root_table.length + 1 ≤ fuel1 →
      ∃ am, generate_state_tree run.matrix_data num_generators run.store.heap
        BINARY_TREE_ELEMENT.NULL fuel1 = Except.ok am) ∧
    (∀ fuel1 am,
      generate_state_tree run.matrix_data num_generators run.store.heap
        BINARY_TREE_ELEMENT.NULL fuel1 = Except.ok am →
      (∀ v, v < am.states.length →
        ∃ t, (state_at am.states v).root_table = some t ∧
          ∀ x ∈ t.first, x ∈ run.store.minimal_root_table.first ∧
            (root_at run.store.heap x).positive_minimal = true) ∧
      (state_at am.states 0).root_table = some { first := [], length := 0 } ∧
      (∀ v, 0 < v → v < am.states.length →
        ∃ t g sr, (state_at am.states v).root_table = some t ∧ g < num_generators ∧
          run.matrix_data.simple_roots.getD g none = some sr ∧ sr ∈ t.first) ∧
      (∀ v a w, v < am.states.length →
        (state_at am.states v).next_states.getD a none = some w → w ≠ 0) ∧
      binary_tree_size am.binary_tree ≤ 2 ^ run.store.minimal_root_table.length) := by
  have hctx := heap_tables_of_run cos_pi_over malloced_sp malloced_act coxeter_matrix
    num_generators fuel run hcos hdom hrun
  have hcons := generate_root_table_consistent cos_pi_over malloced_sp malloced_act
    coxeter_matrix num_generators fuel run hcos hdom hrun
  have hinv := generate_root_table_filled cos_pi_over malloced_sp malloced_act coxeter_matrix
    num_generators fuel run hrun
  have hlen : run.store.minimal_root_table.length = run.store.minimal_root_table.first.length :=
    hinv.2.1.minimal_length
  rw [hlen]
  refine ⟨fun fuel1 hf =>
    (generate_state_tree_within run.matrix_data num_generators run.store.heap
      run.store.minimal_root_table.first hctx fuel1).2 hf, ?_⟩
  intro fuel1 am ham
  have hw := (generate_state_tree_within run.matrix_data num_generators run.store.heap
    run.store.minimal_root_table.first hctx fuel1).1 am ham
  have h0 := generate_state_tree_initial_state run.matrix_data num_generators run.store.heap
    fuel1 am ham
  refine ⟨?_, h0, hw.simple, ?_, ?_⟩
  · intro v hv
    obtain ⟨t, ht, _, hsub⟩ := hw.lists v hv
    exact ⟨t, ht, fun x hx => ⟨hsub x hx, hcons.minimal_flag x (hsub x hx)⟩⟩
  · intro v a w hv hnext hw0
    obtain ⟨_, tu, tv, _, htv, hsucc⟩ := hw.base.edges v a w hv hnext
    rw [hw0, h0] at htv
    cases htv
    exact successor_tables_nonempty _ _ _ _ _ _ hsucc rfl
  · rw [binary_tree_size_eq_length]
    exact states_within_count run.matrix_data num_generators run.store.heap
      run.store.minimal_root_table.first am hctx.separated hctx.ascending hw

theorem generate_state_tree_terminates_witness :
    cosines_integral exact_cos_pi_over S3_matrix 2 ∧
    scalar_products_dominated exact_cos_pi_over S3_matrix 2 ∧
    ∃ run, generate_root_table exact_cos_pi_over (fun _ _ => 0) (fun _ _ => 0)
        (initial_matrix_data S3_matrix 2) 2 4 = Except.ok run ∧
      (∀ fuel1, 2 ^ run.store.minimal_root_table.length + 1 ≤ fuel1 →
        ∃ am, generate_state_tree run.matrix_data 2 run.store.heap
          BINARY_TREE_ELEMENT.NULL fuel1 = Except.ok am) ∧
      (∀ fuel1 am,
        generate_state_tree run.matrix_data 2 run.store.heap
          BINARY_TREE_ELEMENT.NULL fuel1 = Except.ok am →
        binary_tree_size am.binary_tree ≤ 2 ^ run.store.minimal_root_table.length) := by
  obtain ⟨run, hrun, _⟩ := S3_root_table_run
  have h := generate_state_tree_terminates exact_cos_pi_over (fun _ _ => 0) (fun _ _ => 0)
    S3_matrix 2 4 run S3_cosines_integral S3_scalar_products_dominated hrun
  exact ⟨S3_cosines_integral, S3_scalar_products_dominated, run, hrun, h.1,
    fun fuel1 am ham => (h.2 fuel1 am ham).2.2.2.2⟩

/-! ## Fuel in the rounded arithmetic -/

theorem generate_next_root_body_fl_mono (fl : ℚ → ℚ) (md : MATRIX_DATA) (N root : Nat)
    (rec1 rec2 : RootStore → Nat → Except Fault RootStore)
    (h : ∀ st p r, rec1 st p = .ok r → rec2 st p = .ok r)
    (acc : RootStore × Option Bool) (ii : Nat) (r : RootStore × Option Bool)
    (hr : generate_next_root_body_fl fl md N root rec1 acc ii = .ok r) :
    generate_next_root_body_fl fl md N root rec2 acc ii = .ok r := by
  unfold generate_next_root_body_fl at hr ⊢
  dsimp only at hr ⊢
  cases hact : cox_action_on_root_fl fl md N ii acc.1.heap root (some acc.1.root_table) acc.2 with
  | error e => rw [hact] at hr; cases hr
  | ok res =>
    rw [hact] at hr
    simp only [Except.bind, bind] at hr ⊢
    split at hr
    · cases hr
    · rename_i h1; simpa [h1] using hr
    · rename_i h1
      simp only [h1]
      cases hins : insert_in_table_fl fl res.heap res.returned_root (some acc.1.root_table) N with
      | error e => rw [hins] at hr; cases hr
      | ok ins =>
        rw [hins] at hr
        dsimp only at hr ⊢
        split at hr
        · cases hr
        · rename_i sp hsp
          cases hdom : cox_scalar_product_root_fl fl sp ii
              (root_at res.heap res.returned_root) N with
          | error e => rw [hdom] at hr; cases hr
          | ok dom =>
            rw [hdom] at hr
            dsimp only at hr ⊢
            cases hpos : root_positive_fl fl (root_at res.heap res.returned_root) N with
            | error e => rw [hpos] at hr; cases hr
            | ok positive =>
              rw [hpos] at hr
              dsimp only at hr ⊢
              split at hr
              · rename_i hflag
                rw [if_pos hflag]
                split at hr
                · cases hr
                · rename_i x insm hinsm
                  split at hr
                  · cases hr
                  · rename_i y st1 hrec
                    rw [h _ _ _ hrec]
                    simpa [h1] using hr
              · rename_i hflag
                rw [if_neg hflag]
                simpa [h1] using hr

theorem generate_next_root_fl_mono (fl : ℚ → ℚ) (md : MATRIX_DATA) (N : Nat) :
    ∀ (fuel : Nat) (st : RootStore) (root : Nat) (r : RootStore),
      generate_next_root_fl fl md N fuel st root = .ok r →
      generate_next_root_fl fl md N (fuel + 1) st root = .ok r := by
  intro fuel
  induction fuel with
  | zero => intro st root r hr; simp [generate_next_root_fl] at hr
  | succ n ih =>
    intro st root r hr
    rw [generate_next_root_fl] at hr ⊢
    simp only [bind, Except.bind] at hr ⊢
    split at hr
    · cases hr
    · rename_i x v hfold
      rw [foldlM_ok_mono _ _ (generate_next_root_body_fl_mono fl md N root _ _ ih) _ _ _ hfold]
      exact hr

theorem generate_root_table_body_fl_mono (fl : ℚ → ℚ) (N fuel : Nat) (run : RootTableRun)
    (ii : Nat) (r : RootTableRun)
    (hr : generate_root_table_body_fl fl N fuel run ii = .ok r) :
    generate_root_table_body_fl fl N (fuel + 1) run ii = .ok r := by
  unfold generate_root_table_body_fl at hr ⊢
  simp only [bind, Except.bind] at hr ⊢
  split at hr
  · cases hr
  · rename_i x found hfound
    split at hr
    · split at hr
      · cases hr
      · rename_i y ins hins
        split at hr
        · rename_i hret
          rw [if_pos hret]
          split at hr
          · cases hr
          · rename_i z insm hinsm
            split at hr
            · cases hr
            · rename_i w st1 hrec
              rw [generate_next_root_fl_mono _ _ _ _ _ _ _ hrec]
              exact hr
        · rename_i hret
          rw [if_neg hret]
          exact hr
    · exact hr

theorem generate_root_table_fl_mono (fl : ℚ → ℚ) (c : Int → ℚ) (g1 g2 : Nat → Nat → ℚ)
    (md : MATRIX_DATA) (N fuel : Nat) (r : RootTableRun)
    (hr : generate_root_table_fl fl c g1 g2 md N fuel = .ok r) :
    generate_root_table_fl fl c g1 g2 md N (fuel + 1) = .ok r := by
  unfold generate_root_table_fl at hr ⊢
  exact foldlM_ok_mono _ _ (generate_root_table_body_fl_mono fl N fuel) _ _ _ hr

theorem generate_next_automaton_state_fl_mono (fl : ℚ → ℚ) (md : MATRIX_DATA) (N : Nat) :
    ∀ (fuel : Nat) (am : Automaton) (u g : Nat) (r : Automaton),
      generate_next_automaton_state_fl fl md N fuel am u g = .ok r →
      generate_next_automaton_state_fl fl md N (fuel + 1) am u g = .ok r := by
  intro fuel
  induction fuel with
  | zero => intro am u g r hr; simp [generate_next_automaton_state_fl] at hr
  | succ n ih =>
    intro am u g r hr
    rw [generate_next_automaton_state_fl] at hr ⊢
    split at hr
    · cases hr
    · rename_i hN
      rw [if_neg hN]
      split at hr
      · cases hr
      · rename_i hg
        rw [if_neg hg]
        split at hr
        · cases hr
        · rename_i sr hsr
          split at hr
          · cases hr
          · rename_i table htable
            simp only [bind, Except.bind] at hr ⊢
            split at hr
            · cases hr
            · rename_i x found hfound
              split at hr
              · exact hr
              · split at hr
                · cases hr
                · rename_i y acted hacted
                  split at hr
                  · cases hr
                  · rename_i z ins hins
                    split at hr
                    · cases hr
                    · rename_i w added hadded
                      split at hr
                      · rename_i hok
                        rw [if_pos hok]
                        exact foldlM_ok_mono _ _ (fun b a r1 h1 => ih b _ a r1 h1) _ _ _ hr
                      · rename_i hok
                        rw [if_neg hok]
                        exact hr

theorem generate_state_tree_fl_mono (fl : ℚ → ℚ) (md : MATRIX_DATA) (N : Nat) (heap : List ROOT)
    (tree : BINARY_TREE_ELEMENT) (fuel : Nat) (r : Automaton)
    (hr : generate_state_tree_fl fl md N heap tree fuel = .ok r) :
    generate_state_tree_fl fl md N heap tree (fuel + 1) = .ok r := by
  unfold generate_state_tree_fl at hr ⊢
  exact foldlM_ok_mono _ _
    (fun b a r1 h1 => generate_next_automaton_state_fl_mono fl md N fuel b 0 a r1 h1) _ _ _ hr

theorem build_automaton_fl_mono (fl : ℚ → ℚ) (c : Int → ℚ) (M : Nat → Nat → Int) (N fuel : Nat)
    (r : RootTableRun × Automaton) (hr : build_automaton_fl fl c M N fuel = .ok r) :
    build_automaton_fl fl c M N (fuel + 1) = .ok r := by
  unfold build_automaton_fl at hr ⊢
  simp only [bind, Except.bind] at hr ⊢
  split at hr
  · cases hr
  · rename_i x run hrun
    rw [generate_root_table_fl_mono _ _ _ _ _ _ _ _ hrun]
    dsimp only at hr ⊢
    split at hr
    · cases hr
    · rename_i y am ham
      rw [generate_state_tree_fl_mono _ _ _ _ _ _ _ ham]
      exact hr

theorem build_automaton_fl_mono_le (fl : ℚ → ℚ) (c : Int → ℚ) (M : Nat → Nat → Int)
    (N fuel : Nat) (r : RootTableRun × Automaton)
    (hr : build_automaton_fl fl c M N fuel = .ok r) :
    ∀ fuel1, fuel ≤ fuel1 → build_automaton_fl fl c M N fuel1 = .ok r := by
  intro fuel1 hle
  induction hle with
  | refl => exact hr
  | step _ ih => exact build_automaton_fl_mono fl c M N _ r ih

theorem build_automaton_fl_congr (fl : ℚ → ℚ) (c1 c2 : Int → ℚ) (M : Nat → Nat → Int)
    (N fuel : Nat) (h : ∀ i j, i < j → j < N → M i j ≠ 0 → c1 (M i j) = c2 (M i j)) :
    build_automaton_fl fl c1 M N fuel = build_automaton_fl fl c2 M N fuel := by
  have hg : generate_root_table_fl fl c1 (fun _ _ => 0) (fun _ _ => 0)
        (initial_matrix_data M N) N fuel
      = generate_root_table_fl fl c2 (fun _ _ => 0) (fun _ _ => 0)
        (initial_matrix_data M N) N fuel := by
    unfold generate_root_table_fl
    rw [fill_scalar_product_matrix_congr c1 c2 (initial_matrix_data M N).coxeter_matrix _ N h]
  unfold build_automaton_fl
  rw [hg]

/-! ## The scenarios in the arithmetic of the doubles -/

set_option maxRecDepth 100000 in
theorem S3_double_run :
    run_summary (build_automaton_fl binary64 double_cos_pi_over S3_matrix 2 4)
      = some S3_double_summary := by
  decide!

set_option maxRecDepth 100000 in
theorem S4_double_run :
    run_summary (build_automaton_fl binary64 double_cos_pi_over S4_matrix 3 7)
      = some S4_double_summary := by
  decide!

theorem build_automaton_fl_ok_inv (fl : ℚ → ℚ) (c : Int → ℚ) (M : Nat → Nat → Int)
    (N fuel : Nat) (run : RootTableRun) (am : Automaton)
    (h : build_automaton_fl fl c M N fuel = Except.ok (run, am)) :
    generate_root_table_fl fl c (fun _ _ => 0) (fun _ _ => 0) (initial_matrix_data M N) N fuel
        = Except.ok run ∧
      generate_state_tree_fl fl run.matrix_data N run.store.heap BINARY_TREE_ELEMENT.NULL fuel
        = Except.ok am := by
  unfold build_automaton_fl at h
  simp only [bind, Except.bind] at h
  split at h
  · cases h
  · rename_i x run1 hrun
    split at h
    · cases h
    · rename_i y am1 ham
      simp only [pure, Except.pure, Except.ok.injEq, Prod.mk.injEq] at h
      obtain ⟨h1, h2⟩ := h
      subst h1
      subst h2
      exact ⟨hrun, ham⟩

theorem S3_double_build (c : Int → ℚ) (h3 : c 3 = 4503599627370497 / 9007199254740992)
    (fuel : Nat) (hfuel : 4 ≤ fuel) :
    ∃ run am, build_automaton_fl binary64 c S3_matrix 2 fuel = Except.ok (run, am) ∧
      run.store = S3_double_store ∧ run.matrix_data.simple_roots = [some 0, some 3] ∧
      am.heap = S3_double_heap ∧ am.states = S3_states ∧ am.binary_tree = S3_tree := by
  have hc : build_automaton_fl binary64 c S3_matrix 2 4
      = build_automaton_fl binary64 double_cos_pi_over S3_matrix 2 4 := by
    apply build_automaton_fl_congr
    intro i j hi hj _
    obtain ⟨rfl, rfl⟩ : i = 0 ∧ j = 1 := by omega
    have hM : S3_matrix 0 1 = 3 := by decide
    rw [hM, h3]; simp [double_cos_pi_over]
  obtain ⟨run, am, hb, h1, h2, h3, h4, h5⟩ := run_summary_some _ _ S3_double_run
  refine ⟨run, am, ?_, h1, h2, h3, h4, h5⟩
  apply build_automaton_fl_mono_le _ _ _ _ 4 _ _ fuel hfuel
  rw [hc]; exact hb

theorem S4_double_build (c : Int → ℚ)
    (h2 : c 2 = 4967757600021511 / 81129638414606681695789005144064)
    (h3 : c 3 = 4503599627370497 / 9007199254740992) (fuel : Nat) (hfuel : 7 ≤ fuel) :
    ∃ run am, build_automaton_fl binary64 c S4_matrix 3 fuel = Except.ok (run, am) ∧
      run.store = S4_double_store ∧ run.matrix_data.simple_roots = [some 0, some 3, some 7] ∧
      am.heap = S4_double_heap ∧ am.states = S4_states ∧ am.binary_tree = S4_tree := by
  have hc : build_automaton_fl binary64 c S4_matrix 3 7
      = build_automaton_fl binary64 double_cos_pi_over S4_matrix 3 7 := by
    apply build_automaton_fl_congr
    intro i j hi hj _
    have hcases : (i = 0 ∧ j = 1) ∨ (i = 0 ∧ j = 2) ∨ (i = 1 ∧ j = 2) := by omega
    rcases hcases with ⟨rfl, rfl⟩ | ⟨rfl, rfl⟩ | ⟨rfl, rfl⟩
    · have hM : S4_matrix 0 1 = 3 := by decide
      rw [hM, h3]; simp [double_cos_pi_over]
    · have hM : S4_matrix 0 2 = 2 := by decide
      rw [hM, h2]; simp [double_cos_pi_over]
    · have hM : S4_matrix 1 2 = 3 := by decide
      rw [hM, h3]; simp [double_cos_pi_over]
  obtain ⟨run, am, hb, h1, h2, h3, h4, h5⟩ := run_summary_some _ _ S4_double_run
  refine ⟨run, am, ?_, h1, h2, h3, h4, h5⟩
  apply build_automaton_fl_mono_le _ _ _ _ 7 _ _ fuel hfuel
  rw [hc]; exact hb

/-- C4: for the Coxeter matrix of S_3, in the arithmetic of the doubles and with
the double 0.5000000000000001 that cos(M_PI / 3) returns, the enumeration of the
roots followed by generate_state_tree returns for every fuel from 4 on, and the
automaton has exactly 6 states: the initial state, whose root list is empty, and
the 5 distinct states held by the binary tree. -/
theorem S3_automaton_has_six_states (cos_pi_over : Int → ℚ)
    (h3 : cos_pi_over 3 = 4503599627370497 / 9007199254740992)
    (fuel : Nat) (hfuel : 4 ≤ fuel) :
    ∃ run am, build_automaton_fl binary64 cos_pi_over S3_matrix 2 fuel = Except.ok (run, am) ∧
      am.states.length = 6 ∧
      (state_at am.states 0).root_table = some { first := [], length := 0 } ∧
      binary_tree_size am.binary_tree = 5 ∧
      (binary_tree_states am.binary_tree).Nodup ∧
      (∀ s ∈ binary_tree_states am.binary_tree, 1 ≤ s ∧ s < am.states.length) := by
  obtain ⟨run, am, hb, _, _, _, hstates, htree⟩ := S3_double_build cos_pi_over h3 fuel hfuel
  refine ⟨run, am, hb, ?_⟩
  rw [hstates, htree]
  decide

theorem S3_automaton_has_six_states_witness :
    double_cos_pi_over 3 = 4503599627370497 / 9007199254740992 ∧ 4 ≤ 4 ∧
    ∃ run am, build_automaton_fl binary64 double_cos_pi_over S3_matrix 2 4
        = Except.ok (run, am) ∧
      am.states.length = 6 ∧
      (state_at am.states 0).root_table = some { first := [], length := 0 } ∧
      binary_tree_size am.binary_tree = 5 ∧
      (binary_tree_states am.binary_tree).Nodup ∧
      (∀ s ∈ binary_tree_states am.binary_tree, 1 ≤ s ∧ s < am.states.length) :=
  ⟨by decide!, le_refl 4,
    S3_automaton_has_six_states double_cos_pi_over (by decide!) 4 (le_refl 4)⟩

/-- C5: in the automaton built for the S_3 matrix in the arithmetic of the
doubles, with the double that cos(M_PI / 3) returns, the walk from the initial
state along aba meets no reject transition, and along abab the first reject
transition is met at the 4th symbol. -/
theorem S3_words_aba_abab (cos_pi_over : Int → ℚ)
    (h3 : cos_pi_over 3 = 4503599627370497 / 9007199254740992)
    (fuel : Nat) (hfuel : 4 ≤ fuel) :
    ∃ run am, build_automaton_fl binary64 cos_pi_over S3_matrix 2 fuel = Except.ok (run, am) ∧
      first_reject am.states 0 [0, 1, 0] 0 = none ∧
      first_reject am.states 0 [0, 1, 0, 1] 0 = some 4 := by
  obtain ⟨run, am, hb, _, _, _, hstates, _⟩ := S3_double_build cos_pi_over h3 fuel hfuel
  refine ⟨run, am, hb, ?_⟩
  rw [hstates]
  decide

theorem S3_words_aba_abab_witness :
    double_cos_pi_over 3 = 4503599627370497 / 9007199254740992 ∧ 4 ≤ 4 ∧
    ∃ run am, build_automaton_fl binary64 double_cos_pi_over S3_matrix 2 4
        = Except.ok (run, am) ∧
      first_reject am.states 0 [0, 1, 0] 0 = none ∧
      first_reject am.states 0 [0, 1, 0, 1] 0 = some 4 :=
  ⟨by decide!, le_refl 4, S3_words_aba_abab double_cos_pi_over (by decide!) 4 (le_refl 4)⟩

/-- C9: for the Coxeter matrix of S_4, in the arithmetic of the doubles and with
the doubles 6.123233995736766e-17 and 0.5000000000000001 that cos(M_PI / 2) and
cos(M_PI / 3) return, the enumeration of the roots followed by
generate_state_tree returns for every fuel from 7 on, and the automaton has
exactly 24 states: the initial state, whose root list is empty, and the 23
distinct states held by the binary tree. -/
theorem S4_automaton_has_24_states (cos_pi_over : Int → ℚ)
    (h2 : cos_pi_over 2 = 4967757600021511 / 81129638414606681695789005144064)
    (h3 : cos_pi_over 3 = 4503599627370497 / 9007199254740992)
    (fuel : Nat) (hfuel : 7 ≤ fuel) :
    ∃ run am, build_automaton_fl binary64 cos_pi_over S4_matrix 3 fuel = Except.ok (run, am) ∧
      am.states.length = 24 ∧
      (state_at am.states 0).root_table = some { first := [], length := 0 } ∧
      binary_tree_size am.binary_tree = 23 ∧
      (binary_tree_states am.binary_tree).Nodup ∧
      (∀ s ∈ binary_tree_states am.binary_tree, 1 ≤ s ∧ s < am.states.length) := by
  obtain ⟨run, am, hb, _, _, _, hstates, htree⟩ :=
    S4_double_build cos_pi_over h2 h3 fuel hfuel
  refine ⟨run, am, hb, ?_⟩
  rw [hstates, htree]
  decide

theorem S4_automaton_has_24_states_witness :
    double_cos_pi_over 2 = 4967757600021511 / 81129638414606681695789005144064 ∧
    double_cos_pi_over 3 = 4503599627370497 / 9007199254740992 ∧ 7 ≤ 7 ∧
    ∃ run am, build_automaton_fl binary64 double_cos_pi_over S4_matrix 3 7
        = Except.ok (run, am) ∧
      am.states.length = 24 ∧
      (state_at am.states 0).root_table = some { first := [], length := 0 } ∧
      binary_tree_size am.binary_tree = 23 ∧
      (binary_tree_states am.binary_tree).Nodup ∧
      (∀ s ∈ binary_tree_states am.binary_tree, 1 ≤ s ∧ s < am.states.length) :=
  ⟨by decide!, by decide!, le_refl 7,
    S4_automaton_has_24_states double_cos_pi_over (by decide!) (by decide!) 7 (le_refl 7)⟩

/-- C10: in the automaton built for the S_4 matrix in the arithmetic of the
doubles, with the doubles that cos(M_PI / 2) and cos(M_PI / 3) return, walking
from the initial state, the word abcba meets no reject transition, the word aa
first meets one at symbol 2, and the word acac first meets one at symbol 3. -/
theorem S4_words (cos_pi_over : Int → ℚ)
    (h2 : cos_pi_over 2 = 4967757600021511 / 81129638414606681695789005144064)
    (h3 : cos_pi_over 3 = 4503599627370497 / 9007199254740992)
    (fuel : Nat) (hfuel : 7 ≤ fuel) :
    ∃ run am, build_automaton_fl binary64 cos_pi_over S4_matrix 3 fuel = Except.ok (run, am) ∧
      first_reject am.states 0 [0, 1, 2, 1, 0] 0 = none ∧
      first_reject am.states 0 [0, 0] 0 = some 2 ∧
      first_reject am.states 0 [0, 2, 0, 2] 0 = some 3 := by
  obtain ⟨run, am, hb, _, _, _, hstates, _⟩ := S4_double_build cos_pi_over h2 h3 fuel hfuel
  refine ⟨run, am, hb, ?_⟩
  rw [hstates]
  decide

theorem S4_words_witness :
    double_cos_pi_over 2 = 4967757600021511 / 81129638414606681695789005144064 ∧
    double_cos_pi_over 3 = 4503599627370497 / 9007199254740992 ∧ 7 ≤ 7 ∧
    ∃ run am, build_automaton_fl binary64 double_cos_pi_over S4_matrix 3 7
        = Except.ok (run, am) ∧
      first_reject am.states 0 [0, 1, 2, 1, 0] 0 = none ∧
      first_reject am.states 0 [0, 0] 0 = some 2 ∧
      first_reject am.states 0 [0, 2, 0, 2] 0 = some 3 :=
  ⟨by decide!, by decide!, le_refl 7,
    S4_words double_cos_pi_over (by decide!) (by decide!) 7 (le_refl 7)⟩

set_option maxRecDepth 100000 in
/-- C6, as the code has it: for the Coxeter matrix of S_3, in the arithmetic of
the doubles and with the double that cos(M_PI / 3) returns, generate_root_table
returns for every fuel from 4 on, and the table of minimal roots has exactly 3
entries, three different roots, which compare COMPARE_ROOTS_EQUAL to (0,1), (1,0)
and (1,1) in list order; their coefficients are (4.440892098500626e-16,
1.0000000000000002), (1, 0) and (1, 1.0000000000000002).  The two simple roots
are roots of this table: simple_roots[0] is (1, 0), and simple_roots[1] is the
root that compares COMPARE_ROOTS_EQUAL to (0, 1). -/
theorem S3_minimal_root_table (cos_pi_over : Int → ℚ)
    (h3 : cos_pi_over 3 = 4503599627370497 / 9007199254740992)
    (fuel : Nat) (hfuel : 4 ≤ fuel) :
    ∃ run, generate_root_table_fl binary64 cos_pi_over (fun _ _ => 0) (fun _ _ => 0)
        (initial_matrix_data S3_matrix 2) 2 fuel = Except.ok run ∧
      run.store.minimal_root_table.length = 3 ∧
      run.store.minimal_root_table.first.length = 3 ∧
      run.store.minimal_root_table.first.Nodup ∧
      List.Forall₂
        (fun p e => compare_roots_fl binary64 (root_at run.store.heap p)
          (root_of_coefficients e) 2 = Except.ok COMPARE_ROOTS_EQUAL)
        run.store.minimal_root_table.first [[0, 1], [1, 0], [1, 1]] ∧
      table_coefficients run.store.heap run.store.minimal_root_table
        = [[1 / 2251799813685248, 4503599627370497 / 4503599627370496], [1, 0],
            [1, 4503599627370497 / 4503599627370496]] ∧
      (∃ e0 e1, run.matrix_data.simple_roots = [some e0, some e1] ∧
        e0 ∈ run.store.minimal_root_table.first ∧ e1 ∈ run.store.minimal_root_table.first ∧
        (root_at run.store.heap e0).coefficients = [1, 0] ∧
        compare_roots_fl binary64 (root_at run.store.heap e1) (root_of_coefficients [0, 1]) 2
          = Except.ok COMPARE_ROOTS_EQUAL) := by
  obtain ⟨run, am, hb, hstore, hsimple, _, _, _⟩ := S3_double_build cos_pi_over h3 fuel hfuel
  refine ⟨run, (build_automaton_fl_ok_inv _ _ _ _ _ _ _ hb).1, ?_⟩
  rw [hstore, hsimple]
  refine ⟨by decide, by decide, by decide, ?_, by decide!, 0, 3, rfl, by decide, by decide,
    by decide!, by decide!⟩
  exact List.Forall₂.cons (by decide!)
    (List.Forall₂.cons (by decide!) (List.Forall₂.cons (by decide!) List.Forall₂.nil))

theorem S3_minimal_root_table_witness :
    double_cos_pi_over 3 = 4503599627370497 / 9007199254740992 ∧ 4 ≤ 4 ∧
    ∃ run, generate_root_table_fl binary64 double_cos_pi_over (fun _ _ => 0) (fun _ _ => 0)
        (initial_matrix_data S3_matrix 2) 2 4 = Except.ok run ∧
      run.store.minimal_root_table.length = 3 ∧
      run.store.minimal_root_table.first.length = 3 ∧
      run.store.minimal_root_table.first.Nodup ∧
      List.Forall₂
        (fun p e => compare_roots_fl binary64 (root_at run.store.heap p)
          (root_of_coefficients e) 2 = Except.ok COMPARE_ROOTS_EQUAL)
        run.store.minimal_root_table.first [[0, 1], [1, 0], [1, 1]] ∧
      table_coefficients run.store.heap run.store.minimal_root_table
        = [[1 / 2251799813685248, 4503599627370497 / 4503599627370496], [1, 0],
            [1, 4503599627370497 / 4503599627370496]] ∧
      (∃ e0 e1, run.matrix_data.simple_roots = [some e0, some e1] ∧
        e0 ∈ run.store.minimal_root_table.first ∧ e1 ∈ run.store.minimal_root_table.first ∧
        (root_at run.store.heap e0).coefficients = [1, 0] ∧
        compare_roots_fl binary64 (root_at run.store.heap e1) (root_of_coefficients [0, 1]) 2
          = Except.ok COMPARE_ROOTS_EQUAL) :=
  ⟨by decide!, le_refl 4, S3_minimal_root_table double_cos_pi_over (by decide!) 4 (le_refl 4)⟩

set_option maxRecDepth 100000 in
/-- C6 as stated fails: for the Coxeter matrix of S_3 the table of minimal roots
that generate_root_table returns, in the arithmetic of the doubles, holds no root
with the coefficients (0, 1) and none with the coefficients (1, 1): the product
of the doubles 1.0000000000000002 and 1.0000000000000002, less 1, is the double
4.440892098500626e-16. -/
theorem S3_minimal_roots_are_rounded :
    ∃ run, generate_root_table_fl binary64 double_cos_pi_over (fun _ _ => 0) (fun _ _ => 0)
        (initial_matrix_data S3_matrix 2) 2 4 = Except.ok run ∧
      table_coefficients run.store.heap run.store.minimal_root_table
        ≠ [[0, 1], [1, 0], [1, 1]] ∧
      [0, 1] ∉ table_coefficients run.store.heap run.store.minimal_root_table ∧
      [1, 1] ∉ table_coefficients run.store.heap run.store.minimal_root_table := by
  obtain ⟨run, am, hb, hstore, _⟩ :=
    S3_double_build double_cos_pi_over (by decide!) 4 (le_refl 4)
  refine ⟨run, (build_automaton_fl_ok_inv _ _ _ _ _ _ _ hb).1, ?_⟩
  rw [hstore]
  exact ⟨by decide!, by decide!, by decide!⟩

set_option maxRecDepth 100000 in
/-- C11, as the code has it: for the Coxeter matrix of S_4 (three generators,
m[0][1] = 3, m[1][2] = 3, m[0][2] = 2), in the arithmetic of the doubles and with
the doubles that cos(M_PI / 2) and cos(M_PI / 3) return, generate_root_table
returns for every fuel from 7 on, and the table of minimal roots has exactly 6
entries, six different roots, which compare COMPARE_ROOTS_EQUAL to (0,0,1),
(0,1,0), (0,1,1), (1,0,0), (1,1,0) and (1,1,1) in list order; these six vectors
are the positive roots of A_3. -/
theorem S4_minimal_root_table (cos_pi_over : Int → ℚ)
    (h2 : cos_pi_over 2 = 4967757600021511 / 81129638414606681695789005144064)
    (h3 : cos_pi_over 3 = 4503599627370497 / 9007199254740992)
    (fuel : Nat) (hfuel : 7 ≤ fuel) :
    S4_matrix 0 1 = 3 ∧ S4_matrix 1 2 = 3 ∧ S4_matrix 0 2 = 2 ∧
    ∃ run, generate_root_table_fl binary64 cos_pi_over (fun _ _ => 0) (fun _ _ => 0)
        (initial_matrix_data S4_matrix 3) 3 fuel = Except.ok run ∧
      run.store.minimal_root_table.length = 6 ∧
      run.store.minimal_root_table.first.length = 6 ∧
      run.store.minimal_root_table.first.Nodup ∧
      List.Forall₂
        (fun p e => compare_roots_fl binary64 (root_at run.store.heap p)
          (root_of_coefficients e) 3 = Except.ok COMPARE_ROOTS_EQUAL)
        run.store.minimal_root_table.first
        [[0, 0, 1], [0, 1, 0], [0, 1, 1], [1, 0, 0], [1, 1, 0], [1, 1, 1]] ∧
      List.Perm [[0, 0, 1], [0, 1, 0], [0, 1, 1], [1, 0, 0], [1, 1, 0], [1, 1, 1]]
        (positive_roots_of_A 3) := by
  obtain ⟨run, am, hb, hstore, _⟩ := S4_double_build cos_pi_over h2 h3 fuel hfuel
  refine ⟨by decide, by decide, by decide, run,
    (build_automaton_fl_ok_inv _ _ _ _ _ _ _ hb).1, ?_⟩
  rw [hstore]
  refine ⟨by decide, by decide, by decide, ?_, by decide!⟩
  exact List.Forall₂.cons (by decide!) (List.Forall₂.cons (by decide!)
    (List.Forall₂.cons (by decide!) (List.Forall₂.cons (by decide!)
      (List.Forall₂.cons (by decide!) (List.Forall₂.cons (by decide!) List.Forall₂.nil)))))

theorem S4_minimal_root_table_witness :
    double_cos_pi_over 2 = 4967757600021511 / 81129638414606681695789005144064 ∧
    double_cos_pi_over 3 = 4503599627370497 / 9007199254740992 ∧ 7 ≤ 7 ∧
    S4_matrix 0 1 = 3 ∧ S4_matrix 1 2 = 3 ∧ S4_matrix 0 2 = 2 ∧
    ∃ run, generate_root_table_fl binary64 double_cos_pi_over (fun _ _ => 0) (fun _ _ => 0)
        (initial_matrix_data S4_matrix 3) 3 7 = Except.ok run ∧
      run.store.minimal_root_table.length = 6 ∧
      run.store.minimal_root_table.first.length = 6 ∧
      run.store.minimal_root_table.first.Nodup ∧
      List.Forall₂
        (fun p e => compare_roots_fl binary64 (root_at run.store.heap p)
          (root_of_coefficients e) 3 = Except.ok COMPARE_ROOTS_EQUAL)
        run.store.minimal_root_table.first
        [[0, 0, 1], [0, 1, 0], [0, 1, 1], [1, 0, 0], [1, 1, 0], [1, 1, 1]] ∧
      List.Perm [[0, 0, 1], [0, 1, 0], [0, 1, 1], [1, 0, 0], [1, 1, 0], [1, 1, 1]]
        (positive_roots_of_A 3) :=
  ⟨by decide!, by decide!, le_refl 7,
    S4_minimal_root_table double_cos_pi_over (by decide!) (by decide!) 7 (le_refl 7)⟩

set_option maxRecDepth 100000 in
/-- C11 as stated fails: for the Coxeter matrix of S_4 the table of minimal
roots that generate_root_table returns, in the arithmetic of the doubles, holds
the coefficient vectors listed here, among them (1.0000000000000007,
1.0000000000000002, 1.0000000000000004); only (1, 0, 0) is among the positive
roots of A_3. -/
theorem S4_minimal_roots_are_rounded :
    ∃ run, generate_root_table_fl binary64 double_cos_pi_over (fun _ _ => 0) (fun _ _ => 0)
        (initial_matrix_data S4_matrix 3) 3 7 = Except.ok run ∧
      table_coefficients run.store.heap run.store.minimal_root_table
        = [[0, 1 / 2251799813685248, 2251799813685249 / 2251799813685248],
            [1 / 2251799813685248, 4503599627370497 / 4503599627370496, 0],
            [0, 4503599627370497 / 4503599627370496, 2251799813685249 / 2251799813685248],
            [1, 0, 0],
            [1, 4503599627370497 / 4503599627370496, 0],
            [4503599627370499 / 4503599627370496, 4503599627370497 / 4503599627370496,
              2251799813685249 / 2251799813685248]] ∧
      ¬ List.Perm (table_coefficients run.store.heap run.store.minimal_root_table)
        (positive_roots_of_A 3) ∧
      (∀ c ∈ table_coefficients run.store.heap run.store.minimal_root_table,
        c ∈ positive_roots_of_A 3 → c = [1, 0, 0]) := by
  obtain ⟨run, am, hb, hstore, _⟩ :=
    S4_double_build double_cos_pi_over (by decide!) (by decide!) 7 (le_refl 7)
  refine ⟨run, (build_automaton_fl_ok_inv _ _ _ _ _ _ _ hb).1, ?_⟩
  rw [hstore]
  exact ⟨by decide!, by decide!, by decide!⟩

/-! ## compare_roots in the arithmetic of the doubles -/

theorem binary64_zero : binary64 0 = 0 := by
  unfold binary64
  rw [if_pos rfl]

theorem binary64_neg (x : ℚ) : binary64 (-x) = -binary64 x := by
  unfold binary64
  by_cases h0 : x = 0
  · subst h0; simp
  · have h1 : ¬ -x = 0 := fun e => h0 (neg_eq_zero.mp e)
    rw [if_neg h0, if_neg h1, abs_neg]
    dsimp only
    rcases lt_or_gt_of_ne h0 with hlt | hgt
    · have h2 : ¬ -x < 0 := by linarith
      rw [if_pos hlt, if_neg h2, neg_neg]
    · have h2 : -x < 0 := by linarith
      have h3 : ¬ x < 0 := by linarith
      rw [if_pos h2, if_neg h3]

theorem binary64_eps_pos : 0 < binary64 EPSILON_COMP_VAL := by decide!

theorem fl_zero_of_neg (fl : ℚ → ℚ) (hneg : ∀ x, fl (-x) = -fl x) : fl 0 = 0 := by
  have h := hneg 0
  rw [neg_zero] at h
  linarith

theorem fl_abs_sub_comm (fl : ℚ → ℚ) (hneg : ∀ x, fl (-x) = -fl x) (x y : ℚ) :
    |fl (x - y)| = |fl (y - x)| := by
  have h : y - x = -(x - y) := by ring
  rw [h, hneg, abs_neg]

theorem compare_roots_scan_fl_le (fl : ℚ → ℚ) (a b : ROOT) (N : Nat) :
    ∀ fuel ii, ii ≤ N → compare_roots_scan_fl fl a b N fuel ii ≤ N := by
  intro fuel
  induction fuel with
  | zero => intro ii h; simpa [compare_roots_scan_fl] using h
  | succ n ih =>
    intro ii h
    rw [compare_roots_scan_fl]
    split_ifs with hc
    · exact ih (ii + 1) (by omega)
    · exact h

theorem compare_roots_scan_fl_all (fl : ℚ → ℚ) (a b : ROOT) (N : Nat) :
    ∀ fuel ii, compare_roots_scan_fl fl a b N fuel ii = N →
      ∀ i, ii ≤ i → i < N →
        |fl (a.coefficients.getD i 0 - b.coefficients.getD i 0)| < fl EPSILON_COMP_VAL := by
  intro fuel
  induction fuel with
  | zero =>
    intro ii h i h1 h2
    simp only [compare_roots_scan_fl] at h
    omega
  | succ n ih =>
    intro ii h i h1 h2
    rw [compare_roots_scan_fl] at h
    split_ifs at h with hc
    · by_cases hi : i = ii
      · subst hi; exact hc.2
      · exact ih (ii + 1) h i (by omega) h2
    · omega

theorem compare_roots_scan_fl_of_close (fl : ℚ → ℚ) (a b : ROOT) (N : Nat)
    (h : ∀ i, i < N →
      |fl (a.coefficients.getD i 0 - b.coefficients.getD i 0)| < fl EPSILON_COMP_VAL) :
    ∀ fuel ii, ii + fuel = N → compare_roots_scan_fl fl a b N fuel ii = N := by
  intro fuel
  induction fuel with
  | zero => intro ii hii; simpa [compare_roots_scan_fl] using hii
  | succ n ih =>
    intro ii hii
    have hlt : ii < N := by omega
    rw [compare_roots_scan_fl, if_pos ⟨hlt, h ii hlt⟩]
    exact ih (ii + 1) (by omega)

theorem compare_roots_scan_fl_first (fl : ℚ → ℚ) (a b : ROOT) (N k : Nat) (hk : k < N)
    (hclose : ∀ j, j < k →
      |fl (a.coefficients.getD j 0 - b.coefficients.getD j 0)| < fl EPSILON_COMP_VAL)
    (hfar : ¬ |fl (a.coefficients.getD k 0 - b.coefficients.getD k 0)|
      < fl EPSILON_COMP_VAL) :
    ∀ fuel i, i ≤ k → k < i + fuel → compare_roots_scan_fl fl a b N fuel i = k := by
  intro fuel
  induction fuel with
  | zero => intro i h1 h2; omega
  | succ n ih =>
    intro i h1 h2
    rw [compare_roots_scan_fl]
    by_cases hik : i = k
    · subst hik
      rw [if_neg (fun e => hfar e.2)]
    · have hlt : i < k := by omega
      have hc : i < N ∧
          |fl (a.coefficients.getD i 0 - b.coefficients.getD i 0)| < fl EPSILON_COMP_VAL :=
        ⟨by omega, hclose i hlt⟩
      rw [if_pos hc]
      exact ih (i + 1) (by omega) (by omega)

theorem compare_roots_fl_of_pos (fl : ℚ → ℚ) (a b : ROOT) (N : Nat) (hN : 0 < N) :
    compare_roots_fl fl a b N
      = Except.ok (if compare_roots_scan_fl fl a b N N 0 = N then COMPARE_ROOTS_EQUAL
          else if a.coefficients.getD (compare_roots_scan_fl fl a b N N 0) 0
              > b.coefficients.getD (compare_roots_scan_fl fl a b N N 0) 0
            then COMPARE_ROOTS_GREATER
          else COMPARE_ROOTS_SMALLER) := by
  unfold compare_roots_fl
  rw [if_neg (not_not.mpr hN)]
  dsimp only
  split_ifs <;> rfl

theorem compare_roots_fl_zero (fl : ℚ → ℚ) (a b : ROOT) :
    compare_roots_fl fl a b 0 = Except.error Fault.assertion_failed := by
  unfold compare_roots_fl
  rw [if_pos (by omega)]
  rfl

theorem compare_roots_fl_equal_iff (fl : ℚ → ℚ) (a b : ROOT) (N : Nat) (hN : 0 < N) :
    compare_roots_fl fl a b N = Except.ok COMPARE_ROOTS_EQUAL ↔
      ∀ i, i < N →
        |fl (a.coefficients.getD i 0 - b.coefficients.getD i 0)| < fl EPSILON_COMP_VAL := by
  rw [compare_roots_fl_of_pos fl a b N hN]
  constructor
  · intro h i hi
    have hscan : compare_roots_scan_fl fl a b N N 0 = N := by
      by_contra hne
      rw [if_neg hne] at h
      simp only [Except.ok.injEq, COMPARE_ROOTS_EQUAL, COMPARE_ROOTS_GREATER,
        COMPARE_ROOTS_SMALLER] at h
      split_ifs at h
      omega
    exact compare_roots_scan_fl_all fl a b N N 0 hscan i (by omega) hi
  · intro h
    rw [if_pos (compare_roots_scan_fl_of_close fl a b N h N 0 (by omega))]

theorem compare_roots_fl_at_first (fl : ℚ → ℚ) (a b : ROOT) (N k : Nat) (hk : k < N)
    (hclose : ∀ j, j < k →
      |fl (a.coefficients.getD j 0 - b.coefficients.getD j 0)| < fl EPSILON_COMP_VAL)
    (hfar : ¬ |fl (a.coefficients.getD k 0 - b.coefficients.getD k 0)|
      < fl EPSILON_COMP_VAL) :
    compare_roots_fl fl a b N
      = Except.ok (if a.coefficients.getD k 0 > b.coefficients.getD k 0
          then COMPARE_ROOTS_GREATER else COMPARE_ROOTS_SMALLER) := by
  have hscan := compare_roots_scan_fl_first fl a b N k hk hclose hfar N 0 (by omega) (by omega)
  rw [compare_roots_fl_of_pos fl a b N (by omega), hscan, if_neg (by omega)]

theorem compare_roots_fl_first_far (fl : ℚ → ℚ) (a b : ROOT) (N : Nat)
    (h : ¬ ∀ i, i < N →
      |fl (a.coefficients.getD i 0 - b.coefficients.getD i 0)| < fl EPSILON_COMP_VAL) :
    ∃ k, k < N ∧
      (∀ j, j < k →
        |fl (a.coefficients.getD j 0 - b.coefficients.getD j 0)| < fl EPSILON_COMP_VAL) ∧
      ¬ |fl (a.coefficients.getD k 0 - b.coefficients.getD k 0)| < fl EPSILON_COMP_VAL := by
  classical
  have hex : ∃ k, k < N ∧
      ¬ |fl (a.coefficients.getD k 0 - b.coefficients.getD k 0)| < fl EPSILON_COMP_VAL := by
    by_contra hno
    apply h
    intro i hi
    by_contra hfar
    exact hno ⟨i, hi, hfar⟩
  refine ⟨Nat.find hex, (Nat.find_spec hex).1, ?_, (Nat.find_spec hex).2⟩
  intro j hj
  by_contra hfar
  exact Nat.find_min hex hj ⟨lt_trans hj (Nat.find_spec hex).1, hfar⟩

theorem compare_roots_fl_neg (fl : ℚ → ℚ) (hneg : ∀ x, fl (-x) = -fl x)
    (heps : 0 < fl EPSILON_COMP_VAL) (a b : ROOT) (N : Nat) (hN : 0 < N) :
    ∃ c, compare_roots_fl fl a b N = Except.ok c ∧
      compare_roots_fl fl b a N = Except.ok (-c) := by
  by_cases hall : ∀ i, i < N →
      |fl (a.coefficients.getD i 0 - b.coefficients.getD i 0)| < fl EPSILON_COMP_VAL
  · refine ⟨COMPARE_ROOTS_EQUAL, (compare_roots_fl_equal_iff fl a b N hN).mpr hall, ?_⟩
    have hall1 : ∀ i, i < N →
        |fl (b.coefficients.getD i 0 - a.coefficients.getD i 0)| < fl EPSILON_COMP_VAL :=
      fun i hi => by rw [fl_abs_sub_comm fl hneg]; exact hall i hi
    rw [(compare_roots_fl_equal_iff fl b a N hN).mpr hall1]
    rfl
  · obtain ⟨k, hk, hclose, hfar⟩ := compare_roots_fl_first_far fl a b N hall
    have hclose1 : ∀ j, j < k →
        |fl (b.coefficients.getD j 0 - a.coefficients.getD j 0)| < fl EPSILON_COMP_VAL :=
      fun j hj => by rw [fl_abs_sub_comm fl hneg]; exact hclose j hj
    have hfar1 : ¬ |fl (b.coefficients.getD k 0 - a.coefficients.getD k 0)|
        < fl EPSILON_COMP_VAL := by
      rw [fl_abs_sub_comm fl hneg]; exact hfar
    have hne : a.coefficients.getD k 0 ≠ b.coefficients.getD k 0 := by
      intro e
      apply hfar
      rw [e, sub_self, fl_zero_of_neg fl hneg, abs_zero]
      exact heps
    rw [compare_roots_fl_at_first fl a b N k hk hclose hfar,
      compare_roots_fl_at_first fl b a N k hk hclose1 hfar1]
    simp only [COMPARE_ROOTS_GREATER, COMPARE_ROOTS_SMALLER]
    rcases lt_or_gt_of_ne hne with hlt | hgt
    · rw [if_neg (not_lt.mpr (le_of_lt hlt)), if_pos hlt]
      exact ⟨-1, rfl, by norm_num⟩
    · rw [if_pos hgt, if_neg (not_lt.mpr (le_of_lt hgt))]
      exact ⟨1, rfl, rfl⟩

/-- C22, as the code has it: for at least one generator, compare_roots returns
COMPARE_ROOTS_EQUAL exactly when, at every index below num_generators, the
difference a_i - b_i rounded to a double is below the double 0.00001 in
magnitude; otherwise, with k the first index at which the rounded difference
is not, the two coefficients differ, and it returns COMPARE_ROOTS_GREATER when
a_k > b_k and COMPARE_ROOTS_SMALLER when a_k < b_k; and compare_roots(a, b) is
the negative of compare_roots(b, a). -/
theorem compare_roots_lexicographic (a b : ROOT) (num_generators : Nat)
    (hN : 0 < num_generators) :
    (compare_roots_fl binary64 a b num_generators = Except.ok COMPARE_ROOTS_EQUAL ↔
      ∀ i, i < num_generators →
        |binary64 (a.coefficients.getD i 0 - b.coefficients.getD i 0)|
          < binary64 EPSILON_COMP_VAL) ∧
    (∀ k, k < num_generators →
      (∀ j, j < k →
        |binary64 (a.coefficients.getD j 0 - b.coefficients.getD j 0)|
          < binary64 EPSILON_COMP_VAL) →
      ¬ |binary64 (a.coefficients.getD k 0 - b.coefficients.getD k 0)|
          < binary64 EPSILON_COMP_VAL →
      (a.coefficients.getD k 0 > b.coefficients.getD k 0 ∨
        a.coefficients.getD k 0 < b.coefficients.getD k 0) ∧
      (a.coefficients.getD k 0 > b.coefficients.getD k 0 →
        compare_roots_fl binary64 a b num_generators = Except.ok COMPARE_ROOTS_GREATER) ∧
      (a.coefficients.getD k 0 < b.coefficients.getD k 0 →
        compare_roots_fl binary64 a b num_generators = Except.ok COMPARE_ROOTS_SMALLER)) ∧
    (∃ c, compare_roots_fl binary64 a b num_generators = Except.ok c ∧
      compare_roots_fl binary64 b a num_generators = Except.ok (-c)) := by
  refine ⟨compare_roots_fl_equal_iff binary64 a b _ hN, ?_,
    compare_roots_fl_neg binary64 binary64_neg binary64_eps_pos a b _ hN⟩
  intro k hk hclose hfar
  have hcmp := compare_roots_fl_at_first binary64 a b num_generators k hk hclose hfar
  have hne : a.coefficients.getD k 0 ≠ b.coefficients.getD k 0 := by
    intro e
    apply hfar
    rw [e, sub_self, binary64_zero, abs_zero]
    exact binary64_eps_pos
  refine ⟨(lt_or_gt_of_ne hne).symm, fun hgt => ?_, fun hlt => ?_⟩
  · rw [hcmp, if_pos hgt]
  · rw [hcmp, if_neg (not_lt.mpr (le_of_lt hlt))]

theorem compare_roots_lexicographic_witness :
    0 < 2 ∧
    (compare_roots_fl binary64 (root_of_coefficients [1, 0]) (root_of_coefficients [1, 1]) 2
        = Except.ok COMPARE_ROOTS_EQUAL ↔
      ∀ i, i < 2 →
        |binary64 ((root_of_coefficients [1, 0]).coefficients.getD i 0
            - (root_of_coefficients [1, 1]).coefficients.getD i 0)|
          < binary64 EPSILON_COMP_VAL) ∧
    (∀ k, k < 2 →
      (∀ j, j < k →
        |binary64 ((root_of_coefficients [1, 0]).coefficients.getD j 0
            - (root_of_coefficients [1, 1]).coefficients.getD j 0)|
          < binary64 EPSILON_COMP_VAL) →
      ¬ |binary64 ((root_of_coefficients [1, 0]).coefficients.getD k 0
            - (root_of_coefficients [1, 1]).coefficients.getD k 0)|
          < binary64 EPSILON_COMP_VAL →
      ((root_of_coefficients [1, 0]).coefficients.getD k 0
          > (root_of_coefficients [1, 1]).coefficients.getD k 0 ∨
        (root_of_coefficients [1, 0]).coefficients.getD k 0
          < (root_of_coefficients [1, 1]).coefficients.getD k 0) ∧
      ((root_of_coefficients [1, 0]).coefficients.getD k 0
          > (root_of_coefficients [1, 1]).coefficients.getD k 0 →
        compare_roots_fl binary64 (root_of_coefficients [1, 0]) (root_of_coefficients [1, 1]) 2
          = Except.ok COMPARE_ROOTS_GREATER) ∧
      ((root_of_coefficients [1, 0]).coefficients.getD k 0
          < (root_of_coefficients [1, 1]).coefficients.getD k 0 →
        compare_roots_fl binary64 (root_of_coefficients [1, 0]) (root_of_coefficients [1, 1]) 2
          = Except.ok COMPARE_ROOTS_SMALLER)) ∧
    (∃ c, compare_roots_fl binary64 (root_of_coefficients [1, 0])
        (root_of_coefficients [1, 1]) 2 = Except.ok c ∧
      compare_roots_fl binary64 (root_of_coefficients [1, 1])
        (root_of_coefficients [1, 0]) 2 = Except.ok (-c)) :=
  ⟨by decide,
    compare_roots_lexicographic (root_of_coefficients [1, 0]) (root_of_coefficients [1, 1]) 2
      (by decide)⟩

set_option maxRecDepth 100000 in
/-- C22 as stated fails: for the doubles a = 0.00001 and b = 8.3e-22 the
difference a - b is below 0.00001, both as the number 1 / 100000 and as the
double, but the subtraction of the doubles rounds to a, which is not below the
double 0.00001, and compare_roots returns COMPARE_ROOTS_GREATER, not
COMPARE_ROOTS_EQUAL.  With num_generators = 0 the assert of compare_roots
fails. -/
theorem compare_roots_rounds_difference :
    binary64 (1 / 100000) = 5902958103587057 / 590295810358705651712 ∧
    binary64 (8826073892011841 / 10633823966279326983230456482242756608)
      = 8826073892011841 / 10633823966279326983230456482242756608 ∧
    |(5902958103587057 / 590295810358705651712 : ℚ)
        - 8826073892011841 / 10633823966279326983230456482242756608| < EPSILON_COMP_VAL ∧
    |(5902958103587057 / 590295810358705651712 : ℚ)
        - 8826073892011841 / 10633823966279326983230456482242756608|
      < binary64 EPSILON_COMP_VAL ∧
    binary64 (5902958103587057 / 590295810358705651712
        - 8826073892011841 / 10633823966279326983230456482242756608)
      = 5902958103587057 / 590295810358705651712 ∧
    compare_roots_fl binary64
        (root_of_coefficients [5902958103587057 / 590295810358705651712])
        (root_of_coefficients [8826073892011841 / 10633823966279326983230456482242756608]) 1
      = Except.ok COMPARE_ROOTS_GREATER ∧
    compare_roots_fl binary64
        (root_of_coefficients [5902958103587057 / 590295810358705651712])
        (root_of_coefficients [8826073892011841 / 10633823966279326983230456482242756608]) 0
      = Except.error Fault.assertion_failed := by
  decide!

/-! ## The reflection in the arithmetic of the doubles -/

theorem cox_scalar_product_root_fl_exact (fl : ℚ → ℚ) (hfl : ∀ x, fl x = x)
    (sp : Nat → Nat → ℚ) (a : Nat) (r : ROOT) (N : Nat) (ha : a < N) :
    cox_scalar_product_root_fl fl sp a r N = Except.ok (cox_scalar_product_root sp a r N) := by
  have h : fl = id := funext hfl
  subst h
  unfold cox_scalar_product_root_fl
  rw [if_neg (not_not.mpr (by omega)), if_neg (not_not.mpr ha)]
  rfl

end CoxeterAutomaton
